import Mathlib

/-! # The minidecaf code generator (`src/codegen.cpp`)

A shallow embedding of the tree-walking code generator and a verification of
its lowering rules.

Conventions of the embedding.

* `printf` appends one line to standard output.  The output stream is the field
  `out` of the generator state, a list of `Instr`; `Instr.text` gives the exact
  line each constructor stands for.
* The process-wide variables `hot_func`, `last_node`, `label_seq`, `brk_seq`,
  `cont_seq` are the remaining fields of `GenState`, threaded through every
  call.
* A failed `assert` and a dereference of a null pointer end the pass; they are
  the two values of `Abort`, returned in `Except`.  Assertions are taken to be
  compiled in.
* `int` is embedded as `Int`.  The offset arithmetic of `var_offset`, `load`
  and `store` is carried out as the compiled program does it, in 32-bit two's
  complement, wrapping modulo `2 ^ 32` (`wrapInt`).  For the counters
  `label_seq` and `nargs` the embedding describes the runs in which they stay
  inside the `int` range.
* The trace lines of `debug` are printed only when the debug switch is on, and
  `debug` hands a `va_list` to `printf`, which is undefined for every format
  that has a conversion.  The embedding is of the generator with the switch
  off: `debug` prints nothing.
-/

namespace Minidecaf

/-! ## Data model -/

/-- Modelled from the spec: `codegen.h` is not under `src/`.  The node kinds are
the enumerators that `codegen.cpp` names in its `case` labels; `ND_OTHER tag`
stands for any further enumerator of the header, which no `case` label names. -/
inductive NodeKind where
  | ND_RETURN | ND_DECL | ND_UNUSED_EXPR | ND_IF | ND_BLOCK | ND_FOR
  | ND_WHILEDO | ND_DOWHILE | ND_BREAK | ND_CONTINUE
  | ND_NUM | ND_NOT | ND_BITNOT | ND_NEG | ND_VAR | ND_ASSIGN | ND_TERNARY
  | ND_FUNC_CALL
  | ND_ADD | ND_SUB | ND_MUL | ND_DIV | ND_MOD | ND_LT | ND_LTE | ND_EQ
  | ND_NEQ | ND_LOGAND | ND_LOGOR
  | ND_OTHER (tag : Nat)
  deriving DecidableEq, Repr

open NodeKind

mutual
/-- Modelled from the spec: the node structure of `codegen.h`, with the fields
that `codegen.cpp` reads.  `NDPtr` is a pointer to a node: `null`, or a node
with its kind and its fields (`then_` is the field `then`). -/
inductive NDPtr where
  | null
  | mk (kind : NodeKind) (lexpr rexpr cond then_ els init inc : NDPtr)
      (body : NDList) (var : VarPtr) (val : Int) (func_call : FuncCallPtr)
/-- A `std::list<NDPtr>`: the entries of a block body or of an argument list. -/
inductive NDList where
  | nil
  | cons (head : NDPtr) (tail : NDList)
/-- Modelled from the spec: a pointer to a variable, with the fields `is_arg`,
`offset` and `init` that `codegen.cpp` reads. -/
inductive VarPtr where
  | null
  | mk (is_arg : Bool) (offset : Int) (init : NDPtr)
/-- Modelled from the spec: a pointer to a call descriptor, with the callee
`name` and the argument list `args`. -/
inductive FuncCallPtr where
  | null
  | mk (name : String) (args : NDList)
end

/-- Modelled from the spec: a function of the program, with the fields `name`,
`stack_size` and `stmts` (a block node) that `gen_text` reads. -/
structure Function where
  name : String
  stack_size : Int
  stmts : NDPtr

/-- A pointer to a function; `none` is the null pointer. -/
abbrev FNPtr := Option Function

/-- The entries of a node list, in list order. -/
def NDList.toList : NDList → List NDPtr
  | .nil => []
  | .cons h t => h :: t.toList

/-- The list of nodes as a `std::list<NDPtr>`. -/
def NDList.ofList : List NDPtr → NDList
  | [] => .nil
  | h :: t => .cons h (NDList.ofList t)

/-- Number of entries of a node list. -/
def NDList.length : NDList → Nat
  | .nil => 0
  | .cons _ t => t.length + 1

/-- The test `!node`. -/
def NDPtr.isNull : NDPtr → Bool
  | .null => true
  | .mk .. => false

/-- The kind of the node pointed to, `none` for the null pointer. -/
def NDPtr.kind? : NDPtr → Option NodeKind
  | .null => none
  | .mk k .. => some k

/-- The field `lexpr` of the node pointed to (`null` for the null pointer). -/
def NDPtr.lexpr : NDPtr → NDPtr
  | .null => .null
  | .mk _ lexpr _ _ _ _ _ _ _ _ _ _ => lexpr

/-- The field `rexpr` of the node pointed to. -/
def NDPtr.rexpr : NDPtr → NDPtr
  | .null => .null
  | .mk _ _ rexpr _ _ _ _ _ _ _ _ _ => rexpr

/-- The field `cond` of the node pointed to. -/
def NDPtr.cond : NDPtr → NDPtr
  | .null => .null
  | .mk _ _ _ cond _ _ _ _ _ _ _ _ => cond

/-- The field `then` of the node pointed to. -/
def NDPtr.then_ : NDPtr → NDPtr
  | .null => .null
  | .mk _ _ _ _ then_ _ _ _ _ _ _ _ => then_

/-- The field `els` of the node pointed to. -/
def NDPtr.els : NDPtr → NDPtr
  | .null => .null
  | .mk _ _ _ _ _ els _ _ _ _ _ _ => els

/-- The field `init` of the node pointed to. -/
def NDPtr.init : NDPtr → NDPtr
  | .null => .null
  | .mk _ _ _ _ _ _ init _ _ _ _ _ => init

/-- The field `inc` of the node pointed to. -/
def NDPtr.inc : NDPtr → NDPtr
  | .null => .null
  | .mk _ _ _ _ _ _ _ inc _ _ _ _ => inc

/-- The field `body` of the node pointed to. -/
def NDPtr.body : NDPtr → NDList
  | .null => .nil
  | .mk _ _ _ _ _ _ _ _ body _ _ _ => body

/-- The field `var` of the node pointed to. -/
def NDPtr.var : NDPtr → VarPtr
  | .null => .null
  | .mk _ _ _ _ _ _ _ _ _ var _ _ => var

/-- The field `val` of the node pointed to. -/
def NDPtr.val : NDPtr → Int
  | .null => 0
  | .mk _ _ _ _ _ _ _ _ _ _ val _ => val

/-- The field `func_call` of the node pointed to. -/
def NDPtr.func_call : NDPtr → FuncCallPtr
  | .null => .null
  | .mk _ _ _ _ _ _ _ _ _ _ _ func_call => func_call

/-- The test `!var`. -/
def VarPtr.isNull : VarPtr → Bool
  | .null => true
  | .mk .. => false

/-- Modelled from the spec: the machine word width `POINTER_WIDTH` of
`codegen.h`, four bytes. -/
def POINTER_WIDTH : Int := 4

def FUNC_EXIT : String := "function_exit"
def ELSE : String := "else"
def THEN : String := "then"
def EXIT : String := "exit"
def BEGIN : String := "begin"
def CONTINUE : String := "continue"

/-! ## Output lines -/

/-- One line of the output, one constructor per `printf` format of
`codegen.cpp`. -/
inductive Instr where
  /-- Line `  addi sp, sp, -%d` -/
  | addi_sp_neg (n : Int)
  /-- Line `  addi sp, sp, %d` -/
  | addi_sp (n : Int)
  /-- Line `  sw %s, 0(sp)` -/
  | sw_sp (reg : String)
  /-- Line `  lw %s, 0(sp)` -/
  | lw_sp (reg : String)
  /-- Line `  sw %s, %d(fp)` -/
  | sw_fp (reg : String) (off : Int)
  /-- Line `  lw %s, %d(fp)` -/
  | lw_fp (reg : String) (off : Int)
  /-- Line `.L.%s.%d:` -/
  | label (type : String) (seq : Int)
  /-- Line `  j .L.%s.%d` -/
  | j (type : String) (seq : Int)
  /-- Line `  beqz %s, .L.%s.%d` -/
  | beqz (reg : String) (type : String) (seq : Int)
  /-- Line `  bnez %s, .L.%s.%d` -/
  | bnez (reg : String) (type : String) (seq : Int)
  /-- Line `  <op> <rd>, <rs1>, <rs2>`, a fixed line such as `  add t0, t0, t1` -/
  | rrr (op rd rs1 rs2 : String)
  /-- Line `  <op> <rd>, <rs>`, a fixed line such as `  seqz t0, t0` -/
  | rr (op rd rs : String)
  /-- Line `  li <reg>, %d` -/
  | li (reg : String) (imm : Int)
  /-- Line `  j .L.%s.%s` -/
  | j_fn (type name : String)
  /-- Line `.L.%s.%s:` -/
  | label_fn (type name : String)
  /-- Line `  call %s` -/
  | call (name : String)
  /-- Line `  .text` -/
  | text_section
  /-- Line `  .global %s` -/
  | global (name : String)
  /-- Line `%s:` -/
  | fn_entry (name : String)
  /-- Line `  sw ra, %d-4(sp)` -/
  | sw_ra (n : Int)
  /-- Line `  sw fp, %d-8(sp)` -/
  | sw_old_fp (n : Int)
  /-- Line `  addi fp, sp, %d` -/
  | addi_fp_sp (n : Int)
  /-- Line `  lw fp, %d-8(sp)` -/
  | lw_old_fp (n : Int)
  /-- Line `  lw ra, %d-4(sp)` -/
  | lw_ra (n : Int)
  /-- Line `  ret` -/
  | ret
  deriving DecidableEq, Repr

/-- The text of an output line, without its newline. -/
def Instr.text : Instr → String
  | .addi_sp_neg n => s!"  addi sp, sp, -{n}"
  | .addi_sp n => s!"  addi sp, sp, {n}"
  | .sw_sp reg => s!"  sw {reg}, 0(sp)"
  | .lw_sp reg => s!"  lw {reg}, 0(sp)"
  | .sw_fp reg off => s!"  sw {reg}, {off}(fp)"
  | .lw_fp reg off => s!"  lw {reg}, {off}(fp)"
  | .label type seq => s!".L.{type}.{seq}:"
  | .j type seq => s!"  j .L.{type}.{seq}"
  | .beqz reg type seq => s!"  beqz {reg}, .L.{type}.{seq}"
  | .bnez reg type seq => s!"  bnez {reg}, .L.{type}.{seq}"
  | .rrr op rd rs1 rs2 => s!"  {op} {rd}, {rs1}, {rs2}"
  | .rr op rd rs => s!"  {op} {rd}, {rs}"
  | .li reg imm => s!"  li {reg}, {imm}"
  | .j_fn type name => s!"  j .L.{type}.{name}"
  | .label_fn type name => s!".L.{type}.{name}:"
  | .call name => s!"  call {name}"
  | .text_section => "  .text"
  | .global name => s!"  .global {name}"
  | .fn_entry name => s!"{name}:"
  | .sw_ra n => s!"  sw ra, {n}-4(sp)"
  | .sw_old_fp n => s!"  sw fp, {n}-8(sp)"
  | .addi_fp_sp n => s!"  addi fp, sp, {n}"
  | .lw_old_fp n => s!"  lw fp, {n}-8(sp)"
  | .lw_ra n => s!"  lw ra, {n}-4(sp)"
  | .ret => "  ret"

/-! ## Generator state -/

/-- The two ways the pass ends early. -/
inductive Abort where
  | assert_failed
  | null_deref
  deriving DecidableEq, Repr

/-- The process-wide variables of `codegen.cpp` and the output printed so far. -/
structure GenState where
  hot_func : FNPtr
  last_node : NDPtr
  label_seq : Int
  brk_seq : Int
  cont_seq : Int
  out : List Instr

/-- The state at program start: statics are zero-initialised, nothing is
printed. -/
def GenState.initial : GenState :=
  { hot_func := none, last_node := .null, label_seq := 0, brk_seq := 0, cont_seq := 0, out := [] }

/-- The increment of `seq = label_seq++`. -/
def next_label_seq (s : GenState) : GenState :=
  { s with label_seq := s.label_seq + 1 }

/-- The assignments `brk_seq = b; cont_seq = c`. -/
def set_targets (b c : Int) (s : GenState) : GenState :=
  { s with brk_seq := b, cont_seq := c }

/-- The assignment `last_node = node`. -/
def set_last_node (node : NDPtr) (s : GenState) : GenState :=
  { s with last_node := node }

/-- The assignment `hot_func = f`. -/
def set_hot_func (f : FNPtr) (s : GenState) : GenState :=
  { s with hot_func := f }

/-- One `printf`: the line is appended to the output. -/
def emit (i : Instr) (s : GenState) : GenState :=
  { s with out := s.out ++ [i] }

/-- Several `printf` in a row. -/
def emits (is : List Instr) (s : GenState) : GenState :=
  { s with out := s.out ++ is }

/-! ## The generator -/

/-- The two lines of `push(reg)`. -/
def pushCode (reg : String) : List Instr :=
  [.addi_sp_neg POINTER_WIDTH, .sw_sp reg]

/-- The two lines of `pop(reg)`. -/
def popCode (reg : String) : List Instr :=
  [.lw_sp reg, .addi_sp POINTER_WIDTH]

def push (reg : String) (s : GenState) : GenState :=
  emit (.sw_sp reg) (emit (.addi_sp_neg POINTER_WIDTH) s)

def pop (reg : String) (s : GenState) : GenState :=
  emit (.addi_sp POINTER_WIDTH) (emit (.lw_sp reg) s)

/-- The value that `int` arithmetic gives where the mathematical value is `n`:
`n` taken modulo `2 ^ 32` into the range of a 32-bit two's complement `int`,
from `-2 ^ 31` to `2 ^ 31 - 1`.  Inside that range it is `n`. -/
def wrapInt (n : Int) : Int :=
  (n + 2 ^ 31) % 2 ^ 32 - 2 ^ 31

/-- The function `var_offset`; the sum `offset + 3` and its negation are `int`
operations. -/
def var_offset : VarPtr → Except Abort Int
  | .null => .error .null_deref
  | .mk is_arg offset _ => .ok (if is_arg then offset else wrapInt (-(wrapInt (offset + 3))))

/-- The function `store`; the product `offset * POINTER_WIDTH` is an `int`
operation. -/
def store (reg : String) (offset : Int) (s : GenState) : GenState :=
  emit (.sw_fp reg (wrapInt (offset * POINTER_WIDTH))) s

/-- The function `load`; the product `offset * POINTER_WIDTH` is an `int`
operation. -/
def load (reg : String) (offset : Int) (s : GenState) : GenState :=
  emit (.lw_fp reg (wrapInt (offset * POINTER_WIDTH))) s

/-- The displacement that `load_var` and `store_var` print for a variable
with the flag `is_arg` and the stored offset `offset`: the result of
`var_offset` times `POINTER_WIDTH`, as `load` and `store` compute it. -/
def varDisp (is_arg : Bool) (offset : Int) : Int :=
  wrapInt ((if is_arg then offset else wrapInt (-(wrapInt (offset + 3)))) * POINTER_WIDTH)

def store_var (reg : String) (var : VarPtr) (s : GenState) : Except Abort GenState :=
  match var_offset var with
  | .error e => .error e
  | .ok off => .ok (store reg off s)

def load_var (reg : String) (var : VarPtr) (s : GenState) : Except Abort GenState :=
  match var_offset var with
  | .error e => .error e
  | .ok off => .ok (load reg off s)

def label (type : String) (seq : Int) (s : GenState) : GenState :=
  emit (.label type seq) s

def jmp (type : String) (seq : Int) (s : GenState) : GenState :=
  emit (.j type seq) s

def beqz (reg : String) (type : String) (seq : Int) (s : GenState) : GenState :=
  emit (.beqz reg type seq) s

def bnez (reg : String) (type : String) (seq : Int) (s : GenState) : GenState :=
  emit (.bnez reg type seq) s

/-- `check_lvalue(node)` reads `node->kind`. -/
def check_lvalue : NDPtr → Except Abort Bool
  | .null => .error .null_deref
  | .mk kind .. => .ok (decide (kind = ND_VAR))

/-- The field read `node->var` through a pointer that may be null. -/
def deref_var : NDPtr → Except Abort VarPtr
  | .null => .error .null_deref
  | .mk _ _ _ _ _ _ _ _ _ var _ _ => .ok var

/-- The lines printed by the `switch` of `gen_binary`; `none` in the `default`
case, where `assert(false)` fails. -/
def binaryOp : NodeKind → Option (List Instr)
  | ND_ADD => some [.rrr "add" "t0" "t0" "t1"]
  | ND_SUB => some [.rrr "sub" "t0" "t0" "t1"]
  | ND_MUL => some [.rrr "mul" "t0" "t0" "t1"]
  | ND_DIV => some [.rrr "div" "t0" "t0" "t1"]
  | ND_MOD => some [.rrr "rem" "t0" "t0" "t1"]
  | ND_LT => some [.rrr "slt" "t0" "t0" "t1"]
  | ND_LTE => some [.rrr "sgt" "t0" "t0" "t1", .rr "seqz" "t0" "t0"]
  | ND_EQ => some [.rrr "sub" "t0" "t0" "t1", .rr "seqz" "t0" "t0"]
  | ND_NEQ => some [.rrr "sub" "t0" "t0" "t1", .rr "snez" "t0" "t0"]
  | ND_LOGAND => some [.rr "snez" "t0" "t0", .rr "snez" "t1" "t1", .rrr "and" "t0" "t0" "t1"]
  | ND_LOGOR => some [.rrr "or" "t0" "t0" "t1", .rr "snez" "t0" "t0"]
  | _ => none

/-- The part of `gen_binary` after the two recursive calls: the two pops, the
`switch` on the kind, and the push. -/
def gen_binary_tail (kind : NodeKind) (s : GenState) : Except Abort GenState :=
  let s := pop "t1" s
  let s := pop "t0" s
  match binaryOp kind with
  | none => .error .assert_failed
  | some ops => .ok (push "t0" (emits ops s))

mutual
/-- The function `gen`.  Its `default` case is the body of `gen_binary`, which
calls back into `gen` on the two operands. -/
def gen : NDPtr → GenState → Except Abort GenState
  | .null, s => .ok s
  | .mk kind lexpr rexpr cond then_ els init inc body var val func_call, s => do
    let s ← (match kind with
      | ND_RETURN => do
          let s ← gen lexpr s
          let s := pop "a0" s
          match s.hot_func with
          | none => .error .null_deref
          | some f => pure (emit (.j_fn FUNC_EXIT f.name) s)
      | ND_DECL =>
          match var with
          | .null => .error .assert_failed
          | .mk is_arg offset vinit =>
            if vinit.isNull then pure s
            else do
              let s ← gen vinit s
              let s := pop "t0" s
              store_var "t0" (.mk is_arg offset vinit) s
      | ND_UNUSED_EXPR =>
          if lexpr.isNull then pure s
          else do
            let s ← gen lexpr s
            pure (pop "t0" s)
      | ND_IF => do
          let seq := s.label_seq
          let s := next_label_seq s
          let s ← gen cond s
          let s := pop "t0" s
          if els.isNull then do
            let s := beqz "t0" EXIT seq s
            let s ← gen then_ s
            pure (label EXIT seq s)
          else do
            let s := beqz "t0" ELSE seq s
            let s ← gen then_ s
            let s := jmp EXIT seq s
            let s := label ELSE seq s
            let s ← gen els s
            pure (label EXIT seq s)
      | ND_BLOCK => gen_body body s
      | ND_FOR => do
          let seq := s.label_seq
          let s := next_label_seq s
          let brk := s.brk_seq
          let cont := s.cont_seq
          let s := set_targets seq seq s
          let s ← gen init s
          let s := label BEGIN seq s
          let s ← (if cond.isNull then pure s
            else do
              let s ← gen cond s
              let s := pop "t0" s
              pure (beqz "t0" EXIT seq s))
          let s ← gen then_ s
          let s := label CONTINUE seq s
          let s ← (if inc.isNull then pure s else gen inc s)
          let s := jmp BEGIN seq s
          let s := label EXIT seq s
          pure (set_targets brk cont s)
      | ND_WHILEDO => do
          let seq := s.label_seq
          let s := next_label_seq s
          let brk := s.brk_seq
          let cont := s.cont_seq
          let s := set_targets seq seq s
          let s := label CONTINUE seq s
          let s ← gen cond s
          let s := pop "t0" s
          let s := beqz "t0" EXIT seq s
          let s ← gen then_ s
          let s := jmp CONTINUE seq s
          let s := label EXIT seq s
          pure (set_targets brk cont s)
      | ND_DOWHILE => do
          let seq := s.label_seq
          let s := next_label_seq s
          let brk := s.brk_seq
          let cont := s.cont_seq
          let s := set_targets seq seq s
          let s := label CONTINUE seq s
          let s ← gen then_ s
          let s ← gen cond s
          let s := pop "t0" s
          let s := bnez "t0" CONTINUE seq s
          pure (set_targets brk cont s)
      | ND_BREAK => pure (jmp EXIT s.brk_seq s)
      | ND_CONTINUE => pure (jmp CONTINUE s.cont_seq s)
      | ND_NUM => do
          let s := emit (.li "t0" val) s
          pure (push "t0" s)
      | ND_NOT => do
          let s ← gen lexpr s
          let s := pop "t0" s
          let s := emit (.rr "seqz" "t0" "t0") s
          pure (push "t0" s)
      | ND_BITNOT => do
          let s ← gen lexpr s
          let s := pop "t0" s
          let s := emit (.rr "not" "t0" "t0") s
          pure (push "t0" s)
      | ND_NEG => do
          let s ← gen lexpr s
          let s := pop "t0" s
          let s := emit (.rr "neg" "t0" "t0") s
          pure (push "t0" s)
      | ND_VAR =>
          if var.isNull then .error .assert_failed
          else do
            let s ← load_var "t0" var s
            pure (push "t0" s)
      | ND_ASSIGN => do
          let ok ← check_lvalue lexpr
          if !ok then .error .assert_failed
          else do
            let s ← gen rexpr s
            let s := pop "t0" s
            let v ← deref_var lexpr
            let s ← store_var "t0" v s
            pure (push "t0" s)
      | ND_TERNARY => do
          let seq := s.label_seq
          let s := next_label_seq s
          let s ← gen cond s
          let s := pop "t0" s
          let s := beqz "t0" ELSE seq s
          let s ← gen then_ s
          let s := jmp EXIT seq s
          let s := label ELSE seq s
          let s ← gen els s
          pure (label EXIT seq s)
      | ND_FUNC_CALL =>
          match func_call with
          | .null => .error .assert_failed
          | .mk name args => do
            let s ← gen_args args s
            let nargs : Int := args.length
            let s := emit (.call name) s
            let s := (if nargs > 0 then emit (.addi_sp (nargs * POINTER_WIDTH)) s else s)
            pure (push "a0" s)
      | _ => do
          let s ← gen lexpr s
          let s ← gen rexpr s
          gen_binary_tail kind s)
    pure (set_last_node (.mk kind lexpr rexpr cond then_ els init inc body var val func_call) s)
/-- The loop `for (n = body.begin(); n != body.end(); ++n) gen(*n)` of the
block case and of `gen_text`. -/
def gen_body : NDList → GenState → Except Abort GenState
  | .nil, s => .ok s
  | .cons n rest, s => do
      let s ← gen n s
      gen_body rest s
/-- The loop `for (a = args.rbegin(); a != args.rend(); ++a) gen(*a)` of the
call case: the list is walked from its last entry to its first. -/
def gen_args : NDList → GenState → Except Abort GenState
  | .nil, s => .ok s
  | .cons a rest, s => do
      let s ← gen_args rest s
      gen a s
end

/-- The function `gen_binary`. -/
def gen_binary : NDPtr → GenState → Except Abort GenState
  | .null, _ => .error .null_deref
  | .mk kind lexpr rexpr _ _ _ _ _ _ _ _ _, s => do
      let s ← gen lexpr s
      let s ← gen rexpr s
      gen_binary_tail kind s

/-- The test `!strncmp(name, "main", 4)`: the first four characters of the name
are `main`. -/
def isMainName (name : String) : Bool :=
  decide (name.toList.take 4 = ['m', 'a', 'i', 'n'])

/-- The prologue lines of a function. -/
def prologue (name : String) (stack_size : Int) : List Instr :=
  [.global name, .fn_entry name, .addi_sp_neg stack_size, .sw_ra stack_size,
   .sw_old_fp stack_size, .addi_fp_sp stack_size]

/-- The epilogue lines of a function. -/
def epilogue (name : String) (stack_size : Int) : List Instr :=
  [.label_fn FUNC_EXIT name, .lw_old_fp stack_size, .lw_ra stack_size,
   .addi_sp stack_size, .ret]

/-- The test `!last_node || last_node->kind != ND_RETURN`. -/
def missingReturn (last_node : NDPtr) : Bool :=
  match last_node with
  | .null => true
  | .mk kind .. => decide (kind ≠ ND_RETURN)

/-- One iteration of the loop of `gen_text`: the code of one function. -/
def gen_fn (f : FNPtr) (s : GenState) : Except Abort GenState :=
  match f with
  | none => .error .null_deref
  | some fn => do
      let s := set_hot_func (some fn) s
      let s := set_last_node .null s
      let s := emits (prologue fn.name fn.stack_size) s
      let s ← (match fn.stmts with
        | .null => .error .null_deref
        | .mk _ _ _ _ _ _ _ _ body _ _ _ => gen_body body s)
      let s := (if isMainName fn.name && missingReturn s.last_node
        then emit (.li "a0" 0) s else s)
      pure (emits (epilogue fn.name fn.stack_size) s)

/-- The loop of `gen_text` over the functions of the program. -/
def gen_fns : List FNPtr → GenState → Except Abort GenState
  | [], s => .ok s
  | f :: rest, s => do
      let s ← gen_fn f s
      gen_fns rest s

/-- The function `gen_text`. -/
def gen_text (func : List FNPtr) (s : GenState) : Except Abort GenState :=
  gen_fns func (emit .text_section s)

/-! ## Big-step description of a successful lowering

`Lowers item x c y` describes one successful call: started with the global
variables `x` it prints the lines `c` and leaves the global variables `y`.
It is a proof device; `gen_lowers` shows that every successful call of `gen`
is described by it. -/

/-- The global variables of the generator, without the output. -/
structure Ctx where
  hot_func : FNPtr
  last_node : NDPtr
  label_seq : Int
  brk_seq : Int
  cont_seq : Int

/-- The global variables of a generator state. -/
def GenState.ctx (s : GenState) : Ctx :=
  { hot_func := s.hot_func, last_node := s.last_node, label_seq := s.label_seq,
    brk_seq := s.brk_seq, cont_seq := s.cont_seq }

/-- The statement `seq = label_seq++`. -/
def Ctx.bump (x : Ctx) : Ctx :=
  { x with label_seq := x.label_seq + 1 }

/-- Entry of a loop: `seq = label_seq++; brk_seq = cont_seq = seq`. -/
def Ctx.enter (x : Ctx) : Ctx :=
  { x with label_seq := x.label_seq + 1, brk_seq := x.label_seq, cont_seq := x.label_seq }

/-- Exit of a loop: `brk_seq = brk; cont_seq = cont`, the values saved in `x`. -/
def Ctx.leave (x y : Ctx) : Ctx :=
  { y with brk_seq := x.brk_seq, cont_seq := x.cont_seq }

/-- The statement `last_node = node`. -/
def Ctx.setLast (p : NDPtr) (y : Ctx) : Ctx :=
  { y with last_node := p }

/-- What a call lowers: a node (`gen`), the entries of a body in order
(`gen_body`), or the entries of an argument list in reverse (`gen_args`). -/
inductive Item where
  | node (p : NDPtr)
  | body (l : NDList)
  | args (l : NDList)

/-- The instruction printed between the pop and the push of a unary node. -/
def unaryOp : NodeKind → Option Instr
  | ND_NOT => some (.rr "seqz" "t0" "t0")
  | ND_BITNOT => some (.rr "not" "t0" "t0")
  | ND_NEG => some (.rr "neg" "t0" "t0")
  | _ => none

/-- The stack adjustment after a call with `n` arguments. -/
def callCleanup (n : Nat) : List Instr :=
  if (n : Int) > 0 then [.addi_sp ((n : Int) * POINTER_WIDTH)] else []

/-- The test of a `for` loop: nothing when the condition is absent. -/
def forTest (cond : NDPtr) (cc : List Instr) (seq : Int) : List Instr :=
  if cond.isNull then [] else cc ++ popCode "t0" ++ [.beqz "t0" EXIT seq]

inductive Lowers : Item → Ctx → List Instr → Ctx → Prop where
  | null (x : Ctx) : Lowers (.node .null) x [] x
  | ret {p : NDPtr} {x x1 : Ctx} {c : List Instr} {f : Function} :
      p.kind? = some ND_RETURN → Lowers (.node p.lexpr) x c x1 → x1.hot_func = some f →
      Lowers (.node p) x (c ++ popCode "a0" ++ [.j_fn FUNC_EXIT f.name]) (x1.setLast p)
  | decl_none {p : NDPtr} {x : Ctx} {a : Bool} {o : Int} {vinit : NDPtr} :
      p.kind? = some ND_DECL → p.var = .mk a o vinit → vinit.isNull = true →
      Lowers (.node p) x [] (x.setLast p)
  | decl_init {p : NDPtr} {x x1 : Ctx} {c : List Instr} {a : Bool} {o : Int} {vinit : NDPtr} :
      p.kind? = some ND_DECL → p.var = .mk a o vinit → vinit.isNull = false →
      Lowers (.node vinit) x c x1 →
      Lowers (.node p) x
        (c ++ popCode "t0" ++ [.sw_fp "t0" (varDisp a o)])
        (x1.setLast p)
  | unused_none {p : NDPtr} {x : Ctx} :
      p.kind? = some ND_UNUSED_EXPR → p.lexpr.isNull = true →
      Lowers (.node p) x [] (x.setLast p)
  | unused_some {p : NDPtr} {x x1 : Ctx} {c : List Instr} :
      p.kind? = some ND_UNUSED_EXPR → p.lexpr.isNull = false → Lowers (.node p.lexpr) x c x1 →
      Lowers (.node p) x (c ++ popCode "t0") (x1.setLast p)
  | if_then {p : NDPtr} {x x1 x2 : Ctx} {cc ct : List Instr} :
      p.kind? = some ND_IF → p.els.isNull = true →
      Lowers (.node p.cond) x.bump cc x1 → Lowers (.node p.then_) x1 ct x2 →
      Lowers (.node p) x
        (cc ++ popCode "t0" ++ [.beqz "t0" EXIT x.label_seq] ++ ct ++ [.label EXIT x.label_seq])
        (x2.setLast p)
  | if_else {p : NDPtr} {x x1 x2 x3 : Ctx} {cc ct ce : List Instr} :
      p.kind? = some ND_IF → p.els.isNull = false →
      Lowers (.node p.cond) x.bump cc x1 → Lowers (.node p.then_) x1 ct x2 →
      Lowers (.node p.els) x2 ce x3 →
      Lowers (.node p) x
        (cc ++ popCode "t0" ++ [.beqz "t0" ELSE x.label_seq] ++ ct
          ++ [.j EXIT x.label_seq, .label ELSE x.label_seq] ++ ce ++ [.label EXIT x.label_seq])
        (x3.setLast p)
  | block {p : NDPtr} {x x1 : Ctx} {c : List Instr} :
      p.kind? = some ND_BLOCK → Lowers (.body p.body) x c x1 →
      Lowers (.node p) x c (x1.setLast p)
  | for_ {p : NDPtr} {x x1 x2 x3 x4 : Ctx} {ci cc ct cn : List Instr} :
      p.kind? = some ND_FOR →
      Lowers (.node p.init) x.enter ci x1 → Lowers (.node p.cond) x1 cc x2 →
      Lowers (.node p.then_) x2 ct x3 → Lowers (.node p.inc) x3 cn x4 →
      Lowers (.node p) x
        (ci ++ [.label BEGIN x.label_seq] ++ forTest p.cond cc x.label_seq ++ ct
          ++ [.label CONTINUE x.label_seq] ++ cn
          ++ [.j BEGIN x.label_seq, .label EXIT x.label_seq])
        ((x.leave x4).setLast p)
  | while_ {p : NDPtr} {x x1 x2 : Ctx} {cc ct : List Instr} :
      p.kind? = some ND_WHILEDO →
      Lowers (.node p.cond) x.enter cc x1 → Lowers (.node p.then_) x1 ct x2 →
      Lowers (.node p) x
        ([.label CONTINUE x.label_seq] ++ cc ++ popCode "t0" ++ [.beqz "t0" EXIT x.label_seq]
          ++ ct ++ [.j CONTINUE x.label_seq, .label EXIT x.label_seq])
        ((x.leave x2).setLast p)
  | dowhile {p : NDPtr} {x x1 x2 : Ctx} {cc ct : List Instr} :
      p.kind? = some ND_DOWHILE →
      Lowers (.node p.then_) x.enter ct x1 → Lowers (.node p.cond) x1 cc x2 →
      Lowers (.node p) x
        ([.label CONTINUE x.label_seq] ++ ct ++ cc ++ popCode "t0"
          ++ [.bnez "t0" CONTINUE x.label_seq])
        ((x.leave x2).setLast p)
  | brk {p : NDPtr} {x : Ctx} :
      p.kind? = some ND_BREAK → Lowers (.node p) x [.j EXIT x.brk_seq] (x.setLast p)
  | cont {p : NDPtr} {x : Ctx} :
      p.kind? = some ND_CONTINUE → Lowers (.node p) x [.j CONTINUE x.cont_seq] (x.setLast p)
  | num {p : NDPtr} {x : Ctx} :
      p.kind? = some ND_NUM →
      Lowers (.node p) x ([.li "t0" p.val] ++ pushCode "t0") (x.setLast p)
  | unary {p : NDPtr} {k : NodeKind} {x x1 : Ctx} {c : List Instr} {op : Instr} :
      p.kind? = some k → unaryOp k = some op → Lowers (.node p.lexpr) x c x1 →
      Lowers (.node p) x (c ++ popCode "t0" ++ [op] ++ pushCode "t0") (x1.setLast p)
  | var {p : NDPtr} {x : Ctx} {a : Bool} {o : Int} {vinit : NDPtr} :
      p.kind? = some ND_VAR → p.var = .mk a o vinit →
      Lowers (.node p) x
        ([.lw_fp "t0" (varDisp a o)] ++ pushCode "t0")
        (x.setLast p)
  | assign {p : NDPtr} {x x1 : Ctx} {c : List Instr} {a : Bool} {o : Int} {vinit : NDPtr} :
      p.kind? = some ND_ASSIGN → p.lexpr.kind? = some ND_VAR → p.lexpr.var = .mk a o vinit →
      Lowers (.node p.rexpr) x c x1 →
      Lowers (.node p) x
        (c ++ popCode "t0" ++ [.sw_fp "t0" (varDisp a o)]
          ++ pushCode "t0")
        (x1.setLast p)
  | ternary {p : NDPtr} {x x1 x2 x3 : Ctx} {cc ct ce : List Instr} :
      p.kind? = some ND_TERNARY →
      Lowers (.node p.cond) x.bump cc x1 → Lowers (.node p.then_) x1 ct x2 →
      Lowers (.node p.els) x2 ce x3 →
      Lowers (.node p) x
        (cc ++ popCode "t0" ++ [.beqz "t0" ELSE x.label_seq] ++ ct
          ++ [.j EXIT x.label_seq, .label ELSE x.label_seq] ++ ce ++ [.label EXIT x.label_seq])
        (x3.setLast p)
  | call {p : NDPtr} {x x1 : Ctx} {c : List Instr} {name : String} {args : NDList} :
      p.kind? = some ND_FUNC_CALL → p.func_call = .mk name args →
      Lowers (.args args) x c x1 →
      Lowers (.node p) x (c ++ [.call name] ++ callCleanup args.length ++ pushCode "a0")
        (x1.setLast p)
  | binary {p : NDPtr} {k : NodeKind} {x x1 x2 : Ctx} {cl cr ops : List Instr} :
      p.kind? = some k → binaryOp k = some ops →
      Lowers (.node p.lexpr) x cl x1 → Lowers (.node p.rexpr) x1 cr x2 →
      Lowers (.node p) x (cl ++ cr ++ popCode "t1" ++ popCode "t0" ++ ops ++ pushCode "t0")
        (x2.setLast p)
  | body_nil (x : Ctx) : Lowers (.body .nil) x [] x
  | body_cons {n : NDPtr} {rest : NDList} {x x1 x2 : Ctx} {c1 c2 : List Instr} :
      Lowers (.node n) x c1 x1 → Lowers (.body rest) x1 c2 x2 →
      Lowers (.body (.cons n rest)) x (c1 ++ c2) x2
  | args_nil (x : Ctx) : Lowers (.args .nil) x [] x
  | args_cons {a : NDPtr} {rest : NDList} {x x1 x2 : Ctx} {c1 c2 : List Instr} :
      Lowers (.args rest) x c1 x1 → Lowers (.node a) x1 c2 x2 →
      Lowers (.args (.cons a rest)) x (c1 ++ c2) x2

/-- The call that took `s` to `s'` printed some lines `c` and is described by
`Lowers`. -/
def Sound (item : Item) (s s' : GenState) : Prop :=
  ∃ c, s'.out = s.out ++ c ∧ Lowers item s.ctx c s'.ctx

/-- The state with global variables `x` and output `o`. -/
def Ctx.withOut (x : Ctx) (o : List Instr) : GenState :=
  { hot_func := x.hot_func, last_node := x.last_node, label_seq := x.label_seq,
    brk_seq := x.brk_seq, cont_seq := x.cont_seq, out := o }

/-- The call that lowers an item. -/
def run : Item → GenState → Except Abort GenState
  | .node p => gen p
  | .body l => gen_body l
  | .args l => gen_args l

/-- The lines printed by `gen(p)` when called with the global variables `x`,
and the global variables it leaves. -/
def lower (p : NDPtr) (x : Ctx) : Except Abort (List Instr × Ctx) :=
  match gen p (x.withOut []) with
  | .error e => .error e
  | .ok s => .ok (s.out, s.ctx)

/-! ## Labels of the output -/

/-- The numbered label that a line defines, for a line `.L.<type>.<seq>:`. -/
def Instr.defines : Instr → Option (String × Int)
  | .label t n => some (t, n)
  | _ => none

/-- The numbered label that a line jumps or branches to. -/
def Instr.refers : Instr → Option (String × Int)
  | .j t n => some (t, n)
  | .beqz _ t n => some (t, n)
  | .bnez _ t n => some (t, n)
  | _ => none

/-- The numbered labels defined in a piece of code, in order. -/
def labelDefs (c : List Instr) : List (String × Int) :=
  c.filterMap Instr.defines

/-- The numbered labels referred to in a piece of code, in order. -/
def labelRefs (c : List Instr) : List (String × Int) :=
  c.filterMap Instr.refers

/-- Every numbered label defined in `c` has its number in `[a, b)`. -/
def DefsIn (c : List Instr) (a b : Int) : Prop :=
  ∀ t n, (t, n) ∈ labelDefs c → a ≤ n ∧ n < b

/-- Every numbered label referred to in `c` has its number in `[a, b)`, or is
the exit label of number `brk`, or the continue label of number `cont`. -/
def RefsIn (c : List Instr) (a b brk cont : Int) : Prop :=
  ∀ t n, (t, n) ∈ labelRefs c →
    (a ≤ n ∧ n < b) ∨ (t = EXIT ∧ n = brk) ∨ (t = CONTINUE ∧ n = cont)

/-! ## Properties of single lines and example programs -/

/-- The line is a label, a jump, a branch, a call or a return. -/
def Instr.isControl : Instr → Bool
  | .label .. | .j .. | .beqz .. | .bnez .. | .j_fn .. | .label_fn .. | .call ..
  | .fn_entry .. | .ret => true
  | _ => false

/-- The nodes of a list are lowered one after the other, each from the global
variables the one before left; the result is the code of each node, in order,
and the global variables at the end. -/
def lowerAll : List NDPtr → Ctx → Except Abort (List (List Instr) × Ctx)
  | [], x => .ok ([], x)
  | p :: ps, x =>
    match lower p x with
    | .error e => .error e
    | .ok (c, x1) =>
      match lowerAll ps x1 with
      | .error e => .error e
      | .ok (cs, y) => .ok (c :: cs, y)

/-- A node of kind `k` with every field null or zero. -/
def NDPtr.leaf (k : NodeKind) : NDPtr :=
  .mk k .null .null .null .null .null .null .null .nil .null 0 .null

/-- The literal `v`. -/
def NDPtr.num (v : Int) : NDPtr :=
  .mk ND_NUM .null .null .null .null .null .null .null .nil .null v .null

/-- The expression statement `e;`. -/
def NDPtr.exprStmt (e : NDPtr) : NDPtr :=
  .mk ND_UNUSED_EXPR e .null .null .null .null .null .null .nil .null 0 .null

/-- The node `l op r` of kind `k`. -/
def NDPtr.binop (k : NodeKind) (l r : NDPtr) : NDPtr :=
  .mk k l r .null .null .null .null .null .nil .null 0 .null

/-- The call `name(args)`. -/
def NDPtr.callOf (name : String) (args : List NDPtr) : NDPtr :=
  .mk ND_FUNC_CALL .null .null .null .null .null .null .null .nil .null 0
    (.mk name (NDList.ofList args))

/-- Global variables in the middle of a run: the next label number is 5. -/
def exCtx : Ctx :=
  { hot_func := none, last_node := .null, label_seq := 5, brk_seq := 2, cont_seq := 3 }

/-- The loop `for (; 1; 7) continue;`. -/
def exFor : NDPtr :=
  .mk ND_FOR .null .null (.num 1) (.leaf ND_CONTINUE) .null .null (.exprStmt (.num 7)) .nil
    .null 0 .null

/-- The expression `f() && g()`. -/
def exLogAnd : NDPtr :=
  .binop ND_LOGAND (.callOf "f" []) (.callOf "g" [])

/-- The expression `1 ? 2 : 3`. -/
def exTernary : NDPtr :=
  .mk ND_TERNARY .null .null (.num 1) (.num 2) (.num 3) .null .null .nil .null 0 .null

/-- The statement of C10 for one ternary node: of the codes `ct` and `ce` that
`gen` prints for its two branches, exactly one occurs in the code `c` of the
node. -/
def LowersExactlyOneBranch (p : NDPtr) (x : Ctx) : Prop :=
  ∀ c y cc ct ce x1 x2 x3, lower p x = .ok (c, y) → lower p.cond x.bump = .ok (cc, x1) →
    lower p.then_ x1 = .ok (ct, x2) → lower p.els x2 = .ok (ce, x3) →
    (ct <:+: c ∧ ¬ ce <:+: c) ∨ (¬ ct <:+: c ∧ ce <:+: c)

/-- The call `h(f(), 4)`. -/
def exCall : NDPtr :=
  .callOf "h" [.callOf "f" [], .num 4]

/-! ## Execution paths through a piece of code -/

/-- The change of the operand-stack depth, in words, made by one line: a push
moves `sp` down by one word, a pop and the adjustment after a call move it
up. -/
def Instr.effect : Instr → Int
  | .addi_sp_neg n => n / POINTER_WIDTH
  | .addi_sp n => -(n / POINTER_WIDTH)
  | _ => 0

/-- Execution can continue with the next line: false for the unconditional
jumps and for `ret`. -/
def Instr.fallsThrough : Instr → Bool
  | .j .. | .j_fn .. | .ret => false
  | _ => true

/-- One step of execution inside `code`, on pairs of a line index and an
operand-stack depth.  A line that falls through goes on to the next line and
changes the depth by its effect (a call counts as 0, it returns to the next
line).  A jump or a taken branch goes to a line of `code` that defines its
label and keeps the depth; when `code` does not define the label there is no
step inside `code`. -/
inductive Step (code : List Instr) : Nat × Int → Nat × Int → Prop where
  | next {pc : Nat} {d : Int} {i : Instr} :
      code[pc]? = some i → i.fallsThrough = true → Step code (pc, d) (pc + 1, d + i.effect)
  | jump {pc pc' : Nat} {d : Int} {i : Instr} {t : String} {n : Int} :
      code[pc]? = some i → i.refers = some (t, n) → code[pc']? = some (.label t n) →
      Step code (pc, d) (pc', d)
  | jump_fn {pc pc' : Nat} {d : Int} {t m : String} :
      code[pc]? = some (.j_fn t m) → code[pc']? = some (.label_fn t m) → Step code (pc, d) (pc', d)

/-- An execution path inside `c`: any number of steps. -/
def Path (c : List Instr) : Nat × Int → Nat × Int → Prop :=
  Relation.ReflTransGen (Step c)

/-- The statement `if (1) 2; else 3;`. -/
def exIf : NDPtr :=
  .mk ND_IF .null .null (.num 1) (.exprStmt (.num 2)) (.exprStmt (.num 3)) .null .null .nil
    .null 0 .null

/-- The lines printed for `exIf` when the next label number is 5. -/
def exIfCode : List Instr :=
  [.li "t0" 1, .addi_sp_neg 4, .sw_sp "t0", .lw_sp "t0", .addi_sp 4, .beqz "t0" "else" 5,
    .li "t0" 2, .addi_sp_neg 4, .sw_sp "t0", .lw_sp "t0", .addi_sp 4, .j "exit" 5,
    .label "else" 5,
    .li "t0" 3, .addi_sp_neg 4, .sw_sp "t0", .lw_sp "t0", .addi_sp 4, .label "exit" 5]

/-- The body is empty or its last statement is not a return node. -/
def lastNotReturn (l : List NDPtr) : Bool :=
  match l.getLast? with
  | none => true
  | some n => decide (n.kind? ≠ some ND_RETURN)

/-- The global variables with which the body of `fn` is lowered: `hot_func`
is `fn` and `last_node` is null. -/
def Ctx.startFn (fn : Function) (x : Ctx) : Ctx :=
  { x with hot_func := some fn, last_node := .null }

/-- The function `int main() { 7; }`, without a return. -/
def exMainNoRet : Function :=
  { name := "main", stack_size := 16,
    stmts := .mk ND_BLOCK .null .null .null .null .null .null .null
      (.cons (.exprStmt (.num 7)) .nil) .null 0 .null }

/-- The lines printed for `exMainNoRet`. -/
def exMainOut : List Instr :=
  [.global "main", .fn_entry "main", .addi_sp_neg 16, .sw_ra 16, .sw_old_fp 16, .addi_fp_sp 16,
    .li "t0" 7, .addi_sp_neg 4, .sw_sp "t0", .lw_sp "t0", .addi_sp 4,
    .li "a0" 0,
    .label_fn "function_exit" "main", .lw_old_fp 16, .lw_ra 16, .addi_sp 16, .ret]

/-! ## Counting the constructs that take a label number -/

mutual
/-- The number of label-allocating constructs (`if`, `for`, `while`,
`do`-`while`, ternary) among the nodes that `gen` visits below and at `p`. -/
def NDPtr.constructs : NDPtr → Nat
  | .null => 0
  | .mk kind lexpr rexpr cond then_ els init inc body var _ func_call =>
    match kind with
    | ND_RETURN | ND_UNUSED_EXPR | ND_NOT | ND_BITNOT | ND_NEG => lexpr.constructs
    | ND_DECL =>
      match var with
      | .null => 0
      | .mk _ _ vinit => vinit.constructs
    | ND_IF | ND_TERNARY => 1 + cond.constructs + then_.constructs + els.constructs
    | ND_BLOCK => body.constructs
    | ND_FOR => 1 + init.constructs + cond.constructs + then_.constructs + inc.constructs
    | ND_WHILEDO | ND_DOWHILE => 1 + cond.constructs + then_.constructs
    | ND_BREAK | ND_CONTINUE | ND_NUM | ND_VAR => 0
    | ND_ASSIGN => rexpr.constructs
    | ND_FUNC_CALL =>
      match func_call with
      | .null => 0
      | .mk _ args => args.constructs
    | _ => lexpr.constructs + rexpr.constructs
/-- The number of label-allocating constructs in the entries of a list. -/
def NDList.constructs : NDList → Nat
  | .nil => 0
  | .cons head tail => head.constructs + tail.constructs
end

/-- The number of label-allocating constructs of an item. -/
def Item.constructs : Item → Nat
  | .node p => p.constructs
  | .body l => l.constructs
  | .args l => l.constructs

/-- The number of label-allocating constructs in the bodies of the functions
of a program. -/
def constructsOf : List FNPtr → Nat
  | [] => 0
  | none :: rest => constructsOf rest
  | some fn :: rest => fn.stmts.body.constructs + constructsOf rest

/-- Every number in `[a, b)` is the number of a label defined in `c`. -/
def Covers (c : List Instr) (a b : Int) : Prop :=
  ∀ n, a ≤ n → n < b → ∃ t, (t, n) ∈ labelDefs c

/-- What holds of the labels between two states of one run: the lines `c`
printed in between define no numbered label twice, the numbers of the labels
they define are exactly those from the old value of `label_seq` up to the new
one, and `label_seq` advanced by `k`. -/
def LabelsFresh (s s' : GenState) (c : List Instr) (k : Nat) : Prop :=
  s'.out = s.out ++ c ∧ (labelDefs c).Nodup ∧
    (∀ n, (∃ t, (t, n) ∈ labelDefs c) ↔ s.label_seq ≤ n ∧ n < s'.label_seq) ∧
    s'.label_seq = s.label_seq + k

/-- The function `int f() { if (1) 2; else 3; }`. -/
def exFnIf (name : String) : Function :=
  { name := name, stack_size := 16,
    stmts := .mk ND_BLOCK .null .null .null .null .null .null .null (.cons exIf .nil) .null 0
      .null }

/-- The lines printed for `exIf` when the next label number is `n`. -/
def exIfCodeAt (n : Int) : List Instr :=
  [.li "t0" 1, .addi_sp_neg 4, .sw_sp "t0", .lw_sp "t0", .addi_sp 4, .beqz "t0" "else" n,
    .li "t0" 2, .addi_sp_neg 4, .sw_sp "t0", .lw_sp "t0", .addi_sp 4, .j "exit" n,
    .label "else" n,
    .li "t0" 3, .addi_sp_neg 4, .sw_sp "t0", .lw_sp "t0", .addi_sp 4, .label "exit" n]

/-- The state after `gen_text` on the two functions `f` and `g`, both with the
body `exIf`. -/
def exTwoFnsState : GenState :=
  { hot_func := some (exFnIf "g"), last_node := exIf, label_seq := 2, brk_seq := 0,
    cont_seq := 0,
    out := [.text_section] ++ prologue "f" 16 ++ exIfCodeAt 0 ++ epilogue "f" 16
      ++ prologue "g" 16 ++ exIfCodeAt 1 ++ epilogue "g" 16 }

/-! ## The calls that `gen` makes on the children of a node -/

/-- The kinds that have a `case` label of their own in the `switch` of `gen`;
every other kind goes to the `default` case, that is to `gen_binary`. -/
def caseKinds : List NodeKind :=
  [ND_RETURN, ND_DECL, ND_UNUSED_EXPR, ND_IF, ND_BLOCK, ND_FOR, ND_WHILEDO, ND_DOWHILE,
    ND_BREAK, ND_CONTINUE, ND_NUM, ND_NOT, ND_BITNOT, ND_NEG, ND_VAR, ND_ASSIGN, ND_TERNARY,
    ND_FUNC_CALL]

/-- `Child p x q z`: the call `gen(p)`, started with the global variables `x`,
calls `gen(q)` on a child `q` of `p`, and the global variables are `z` when
that call starts.  The children before `q` were lowered by then, so `z` is what
the last of them left (`lower`, `lowerAll`). -/
inductive Child : NDPtr → Ctx → NDPtr → Ctx → Prop where
  | ret {p : NDPtr} {x : Ctx} : p.kind? = some ND_RETURN → Child p x p.lexpr x
  | decl {p : NDPtr} {x : Ctx} {a : Bool} {o : Int} {vinit : NDPtr} :
      p.kind? = some ND_DECL → p.var = .mk a o vinit → vinit.isNull = false → Child p x vinit x
  | unused {p : NDPtr} {x : Ctx} :
      p.kind? = some ND_UNUSED_EXPR → p.lexpr.isNull = false → Child p x p.lexpr x
  | if_cond {p : NDPtr} {x : Ctx} : p.kind? = some ND_IF → Child p x p.cond x.bump
  | if_then {p : NDPtr} {x x1 : Ctx} {cc : List Instr} :
      p.kind? = some ND_IF → lower p.cond x.bump = .ok (cc, x1) → Child p x p.then_ x1
  | if_els {p : NDPtr} {x x1 x2 : Ctx} {cc ct : List Instr} :
      p.kind? = some ND_IF → p.els.isNull = false → lower p.cond x.bump = .ok (cc, x1) →
      lower p.then_ x1 = .ok (ct, x2) → Child p x p.els x2
  | block {p : NDPtr} {x x1 : Ctx} {u v : List NDPtr} {q : NDPtr}
      {cs : List (List Instr)} :
      p.kind? = some ND_BLOCK → p.body.toList = u ++ q :: v →
      lowerAll u x = .ok (cs, x1) → Child p x q x1
  | for_init {p : NDPtr} {x : Ctx} : p.kind? = some ND_FOR → Child p x p.init x.enter
  | for_cond {p : NDPtr} {x x1 : Ctx} {ci : List Instr} :
      p.kind? = some ND_FOR → p.cond.isNull = false → lower p.init x.enter = .ok (ci, x1) →
      Child p x p.cond x1
  | for_then {p : NDPtr} {x x1 x2 : Ctx} {ci cc : List Instr} :
      p.kind? = some ND_FOR → lower p.init x.enter = .ok (ci, x1) →
      lower p.cond x1 = .ok (cc, x2) → Child p x p.then_ x2
  | for_inc {p : NDPtr} {x x1 x2 x3 : Ctx} {ci cc ct : List Instr} :
      p.kind? = some ND_FOR → p.inc.isNull = false → lower p.init x.enter = .ok (ci, x1) →
      lower p.cond x1 = .ok (cc, x2) → lower p.then_ x2 = .ok (ct, x3) → Child p x p.inc x3
  | while_cond {p : NDPtr} {x : Ctx} : p.kind? = some ND_WHILEDO → Child p x p.cond x.enter
  | while_then {p : NDPtr} {x x1 : Ctx} {cc : List Instr} :
      p.kind? = some ND_WHILEDO → lower p.cond x.enter = .ok (cc, x1) → Child p x p.then_ x1
  | dowhile_then {p : NDPtr} {x : Ctx} : p.kind? = some ND_DOWHILE → Child p x p.then_ x.enter
  | dowhile_cond {p : NDPtr} {x x1 : Ctx} {ct : List Instr} :
      p.kind? = some ND_DOWHILE → lower p.then_ x.enter = .ok (ct, x1) → Child p x p.cond x1
  | unary {p : NDPtr} {k : NodeKind} {op : Instr} {x : Ctx} :
      p.kind? = some k → unaryOp k = some op → Child p x p.lexpr x
  | assign {p : NDPtr} {x : Ctx} :
      p.kind? = some ND_ASSIGN → p.lexpr.kind? = some ND_VAR → Child p x p.rexpr x
  | ternary_cond {p : NDPtr} {x : Ctx} : p.kind? = some ND_TERNARY → Child p x p.cond x.bump
  | ternary_then {p : NDPtr} {x x1 : Ctx} {cc : List Instr} :
      p.kind? = some ND_TERNARY → lower p.cond x.bump = .ok (cc, x1) → Child p x p.then_ x1
  | ternary_els {p : NDPtr} {x x1 x2 : Ctx} {cc ct : List Instr} :
      p.kind? = some ND_TERNARY → lower p.cond x.bump = .ok (cc, x1) →
      lower p.then_ x1 = .ok (ct, x2) → Child p x p.els x2
  | arg {p : NDPtr} {x x1 : Ctx} {name : String} {args : NDList} {u v : List NDPtr}
      {q : NDPtr} {cs : List (List Instr)} :
      p.kind? = some ND_FUNC_CALL → p.func_call = .mk name args →
      args.toList = u ++ q :: v → lowerAll v.reverse x = .ok (cs, x1) → Child p x q x1
  | bin_left {p : NDPtr} {k : NodeKind} {x : Ctx} :
      p.kind? = some k → k ∉ caseKinds →
      Child p x p.lexpr x
  | bin_right {p : NDPtr} {k : NodeKind} {x x1 : Ctx} {cl : List Instr} :
      p.kind? = some k → k ∉ caseKinds →
      lower p.lexpr x = .ok (cl, x1) → Child p x p.rexpr x1

/-- The node is a `for`, `while` or `do`-`while` loop. -/
def NDPtr.isLoop (p : NDPtr) : Bool :=
  decide (p.kind? = some ND_FOR ∨ p.kind? = some ND_WHILEDO ∨ p.kind? = some ND_DOWHILE)

/-- `Within p x q z`: while `gen` lowers `p`, started with the global
variables `x`, it reaches a call of `gen` on `q` with the global variables
`z`, through calls on children of `p`, on their children and so on, where
none of the nodes between `p` and `q` is a loop: `q` is nested in `p` and not
in a loop deeper than `p`. -/
inductive Within : NDPtr → Ctx → NDPtr → Ctx → Prop where
  | child {p q : NDPtr} {x z : Ctx} : Child p x q z → Within p x q z
  | deeper {p q r : NDPtr} {x z w : Ctx} :
      Within p x q z → q.isLoop = false → Child q z r w → Within p x r w

/-- The statement `if (2) break;`. -/
def exIfBreak : NDPtr :=
  .mk ND_IF .null .null (.num 2) (.leaf ND_BREAK) .null .null .null .nil .null 0 .null

/-- The loop `for (;;) ;`. -/
def exForEmpty : NDPtr :=
  .leaf ND_FOR

/-- The block `{ for (;;) ; if (2) break; }`. -/
def exLoopBody : NDPtr :=
  .mk ND_BLOCK .null .null .null .null .null .null .null
    (.cons exForEmpty (.cons exIfBreak .nil)) .null 0 .null

/-- The loop `while (1) { for (;;) ; if (2) break; }`. -/
def exWhile : NDPtr :=
  .mk ND_WHILEDO .null .null (.num 1) exLoopBody .null .null .null .nil .null 0 .null

/-- The global variables when the body of `exWhile` starts, after its
condition. -/
def exCtxBody : Ctx :=
  { hot_func := none, last_node := .num 1, label_seq := 6, brk_seq := 5, cont_seq := 5 }

/-- The global variables after the `for` loop in the body of `exWhile`. -/
def exCtxAfterFor : Ctx :=
  { hot_func := none, last_node := exForEmpty, label_seq := 7, brk_seq := 5, cont_seq := 5 }

/-- The global variables when the `break` in `exWhile` is lowered. -/
def exCtxBreak : Ctx :=
  { hot_func := none, last_node := .num 2, label_seq := 8, brk_seq := 5, cont_seq := 5 }

/-! ## A depth check for code with labels

`Typed D code a b` checks a piece of code against an assignment `D` of an
operand-stack depth to every numbered label: going through the lines in order
it tracks the depth `a` before each line (`none` after an unconditional jump,
where no execution arrives by falling through), and at every label, jump and
branch it compares the depth with the one `D` gives to the label. -/

/-- An assignment of a depth to every numbered label. -/
abbrev DepthMap := String → Int → Int

/-- The depth `a` before a line is `none` or the given depth. -/
def Fits (a : Option Int) (d : Int) : Prop :=
  a = none ∨ a = some d

/-- The check of one line. -/
def lineOk (D : DepthMap) : Instr → Option Int → Prop
  | .label t n, a => Fits a (D t n)
  | .j t n, a => Fits a (D t n)
  | .beqz _ t n, a => Fits a (D t n)
  | .bnez _ t n, a => Fits a (D t n)
  | _, _ => True

/-- The depth after one line. -/
def linePost (D : DepthMap) : Instr → Option Int → Option Int
  | .label t n, _ => some (D t n)
  | .j _ _, _ => none
  | .j_fn _ _, _ => none
  | .ret, _ => none
  | i, a => a.map (fun d => d + i.effect)

/-- The check of a piece of code, from the depth `a` before it to the depth
`b` after it. -/
def Typed (D : DepthMap) : List Instr → Option Int → Option Int → Prop
  | [], a, b => a = b
  | i :: rest, a, b => lineOk D i a ∧ Typed D rest (linePost D i a) b

/-- Depths pinned to labels: the label `.L.<t>.<n>` has the depth `k`. -/
abbrev Pins := List (String × Int × Int)

/-- Every pinned label has a number below `a`. -/
def PinsBelow (pins : Pins) (a : Int) : Prop :=
  ∀ t n k, (t, n, k) ∈ pins → n < a

/-- The depth map gives every pinned label its pinned depth. -/
def Sat (D : DepthMap) (pins : Pins) : Prop :=
  ∀ t n k, (t, n, k) ∈ pins → D t n = k

/-- The two depth maps agree on every label with a number outside `[a, b)`. -/
def AgreeOut (D D' : DepthMap) (a b : Int) : Prop :=
  ∀ t n, n < a ∨ b ≤ n → D t n = D' t n

/-- Every numbered label defined or referred to in `c`, other than the
continue labels, has a number below `b`. -/
def Below (c : List Instr) (b : Int) : Prop :=
  ∀ t n, (t, n) ∈ labelDefs c ∨ (t, n) ∈ labelRefs c → t = CONTINUE ∨ n < b

/-- The code passes the depth check from the depth `d` to the depth `e`,
also when it is entered as dead code. -/
def Ty (D : DepthMap) (c : List Instr) (d e : Int) : Prop :=
  ∀ a, Fits a d → ∃ b, Fits b e ∧ Typed D c a b

/-- The code `c`, whose own labels have numbers in `[a, b)`, takes the depth
`d` to the depth `e`: every depth map with the pinned depths that gives every
continue label the depth `v` can be changed on `[a, b)`, keeping the continue
labels, so that `c` passes the depth check. -/
def Judg (pins : Pins) (v : Int) (c : List Instr) (a b : Int) (d e : Int) : Prop :=
  a ≤ b ∧ Below c b ∧
    ∀ D0, Sat D0 pins → (∀ n, D0 CONTINUE n = v) →
      ∃ D, AgreeOut D D0 a b ∧ (∀ n, D CONTINUE n = v) ∧ Ty D c d e

/-- The line is no label, jump, branch or return: it passes every depth check
and changes the depth by its effect. -/
def Instr.isPlain : Instr → Bool
  | .label .. | .j .. | .beqz .. | .bnez .. | .j_fn .. | .ret => false
  | _ => true

/-! ## Well-formed expressions and statements -/

mutual
/-- A well-formed expression: an integer literal, a variable reference, a
unary not/bitnot/neg, an assignment whose left operand is a variable
reference, a ternary, a call, or a binary node of a kind that `gen_binary`
handles, with every operand and argument present and well-formed. -/
def NDPtr.isExpr : NDPtr → Bool
  | .null => false
  | .mk kind lexpr rexpr cond then_ els _ _ _ _ _ func_call =>
    match kind with
    | ND_NUM | ND_VAR => true
    | ND_NOT | ND_BITNOT | ND_NEG => lexpr.isExpr
    | ND_ASSIGN => decide (lexpr.kind? = some ND_VAR) && rexpr.isExpr
    | ND_TERNARY => cond.isExpr && then_.isExpr && els.isExpr
    | ND_FUNC_CALL =>
      match func_call with
      | .null => false
      | .mk _ args => args.allExpr
    | ND_ADD | ND_SUB | ND_MUL | ND_DIV | ND_MOD | ND_LT | ND_LTE | ND_EQ | ND_NEQ
    | ND_LOGAND | ND_LOGOR => lexpr.isExpr && rexpr.isExpr
    | _ => false
/-- Every entry of the list is a well-formed expression. -/
def NDList.allExpr : NDList → Bool
  | .nil => true
  | .cons head tail => head.isExpr && tail.allExpr
end

mutual
/-- A well-formed statement: a return with an expression, a declaration (with
or without initialiser), an expression statement (with or without
expression), an `if`, a block, a `for` whose init and increment are absent or
statements and whose condition is absent or an expression, a `while`, a
`do`-`while`, a `break` or a `continue`.  A branch or a loop body may be
absent; the condition of `if`, `while` and `do`-`while` is an expression. -/
def NDPtr.isStmt : NDPtr → Bool
  | .null => false
  | .mk kind lexpr _ cond then_ els init inc body var _ _ =>
    match kind with
    | ND_RETURN => lexpr.isExpr
    | ND_DECL =>
      match var with
      | .null => false
      | .mk _ _ vinit => vinit.isNull || vinit.isExpr
    | ND_UNUSED_EXPR => lexpr.isNull || lexpr.isExpr
    | ND_IF => cond.isExpr && (then_.isNull || then_.isStmt) && (els.isNull || els.isStmt)
    | ND_BLOCK => body.allStmt
    | ND_FOR =>
      (init.isNull || init.isStmt) && (cond.isNull || cond.isExpr)
        && (then_.isNull || then_.isStmt) && (inc.isNull || inc.isStmt)
    | ND_WHILEDO | ND_DOWHILE => cond.isExpr && (then_.isNull || then_.isStmt)
    | ND_BREAK | ND_CONTINUE => true
    | _ => false
/-- Every entry of the list is absent or a well-formed statement. -/
def NDList.allStmt : NDList → Bool
  | .nil => true
  | .cons head tail => (head.isNull || head.isStmt) && tail.allStmt
end

mutual
/-- The statement has a `break` that lies in none of its own loops: a jump of
the statement whose target is the loop around the statement. -/
def NDPtr.freeBreak : NDPtr → Bool
  | .null => false
  | .mk kind _ _ _ then_ els _ _ body _ _ _ =>
    match kind with
    | ND_BREAK => true
    | ND_IF => then_.freeBreak || els.freeBreak
    | ND_BLOCK => body.anyFreeBreak
    | _ => false
/-- Some entry of the list has a free `break`. -/
def NDList.anyFreeBreak : NDList → Bool
  | .nil => false
  | .cons head tail => head.freeBreak || tail.anyFreeBreak
end

/-- The invariant of the depth check along an execution: before the line at
index `pc` the tracked depth is the real depth `d`, or the line is a label to
which `D` gives the depth `d`. -/
def AtLine (D : DepthMap) (code : List Instr) (d0 : Int) (b : Option Int) (q : Nat × Int) :
    Prop :=
  ∃ c1 c2 a, code = c1 ++ c2 ∧ c1.length = q.1 ∧ Typed D c1 (some d0) a ∧ Typed D c2 a b ∧
    (a = some q.2 ∨ ∃ t n r, c2 = .label t n :: r ∧ D t n = q.2)

/-- Code of an expression list or expression: from every depth `d`, with any
pinned labels below its own and any depth `v` of the continue labels, it takes
the depth to `d + n`. -/
def ExprOk (x : Ctx) (c : List Instr) (y : Ctx) (n : Int) : Prop :=
  ∀ pins v d, PinsBelow pins x.label_seq → Judg pins v c x.label_seq y.label_seq d (d + n)

/-- Code of a statement or statement list: it keeps every depth `d`, which is
also the depth of the continue labels, provided that the exit label of the
active break target is pinned to `d` when the statement has a free `break`
(`fb`). -/
def StmtOk (fb : Bool) (x : Ctx) (c : List Instr) (y : Ctx) : Prop :=
  ∀ pins d, PinsBelow pins x.label_seq → (fb = true → (EXIT, x.brk_seq, d) ∈ pins) →
    Judg pins d c x.label_seq y.label_seq d d

/-- The depth property of a lowering, by the kind of item that was lowered. -/
def DepthOk : Item → Ctx → List Instr → Ctx → Prop
  | .node p, x, c, y =>
    (p.isExpr = true → ExprOk x c y 1) ∧ (p.isStmt = true → StmtOk p.freeBreak x c y)
  | .body l, x, c, y => l.allStmt = true → StmtOk l.anyFreeBreak x c y
  | .args l, x, c, y => l.allExpr = true → ExprOk x c y l.length

/-! ## Fixtures for the depth claims -/

/-- The lines printed for `exTernary` when the next label number is 5. -/
def exTernaryCode : List Instr :=
  [.li "t0" 1, .addi_sp_neg 4, .sw_sp "t0", .lw_sp "t0", .addi_sp 4, .beqz "t0" "else" 5,
    .li "t0" 2, .addi_sp_neg 4, .sw_sp "t0", .j "exit" 5, .label "else" 5, .li "t0" 3,
    .addi_sp_neg 4, .sw_sp "t0", .label "exit" 5]

/-- The statement of C2 for one statement node and one state of the global
variables: along every execution path from the first line of the code of the
statement to its end, the depth of the operand stack at the end is the depth at
the start. -/
def StmtDepthZero (p : NDPtr) (x : Ctx) : Prop :=
  ∀ c y, lower p x = .ok (c, y) → ∀ d0 d, Path c (0, d0) (c.length, d) → d = d0

/-- The block `{ break; 1 ? 2 : 3; }`: its `break` lies in no loop. -/
def exBreakTernary : NDPtr :=
  .mk ND_BLOCK .null .null .null .null .null .null .null
    (.cons (.leaf ND_BREAK) (.cons (.exprStmt exTernary) .nil)) .null 0 .null

/-- The lines printed for `exBreakTernary` at program start, where `label_seq`
and `brk_seq` are both 0: the `break` jumps to the exit label of the
ternary. -/
def exBreakTernaryCode : List Instr :=
  [.j "exit" 0, .li "t0" 1, .addi_sp_neg 4, .sw_sp "t0", .lw_sp "t0", .addi_sp 4,
    .beqz "t0" "else" 0, .li "t0" 2, .addi_sp_neg 4, .sw_sp "t0", .j "exit" 0,
    .label "else" 0, .li "t0" 3, .addi_sp_neg 4, .sw_sp "t0", .label "exit" 0,
    .lw_sp "t0", .addi_sp 4]

/-- The block `{ if (2) break; 1 ? 2 : 3; }`, a body for the loop of
`exCtxBody`. -/
def exBreakInLoop : NDPtr :=
  .mk ND_BLOCK .null .null .null .null .null .null .null
    (.cons exIfBreak (.cons (.exprStmt exTernary) .nil)) .null 0 .null

/-- The lines printed for `exBreakInLoop` inside the loop number 5, when the
next label number is 6. -/
def exBreakInLoopCode : List Instr :=
  [.li "t0" 2, .addi_sp_neg 4, .sw_sp "t0", .lw_sp "t0", .addi_sp 4, .beqz "t0" "exit" 6,
    .j "exit" 5, .label "exit" 6, .li "t0" 1, .addi_sp_neg 4, .sw_sp "t0", .lw_sp "t0",
    .addi_sp 4, .beqz "t0" "else" 7, .li "t0" 2, .addi_sp_neg 4, .sw_sp "t0", .j "exit" 7,
    .label "else" 7, .li "t0" 3, .addi_sp_neg 4, .sw_sp "t0", .label "exit" 7, .lw_sp "t0",
    .addi_sp 4]

/-! ## Register operations on 32-bit words

The lines that `gen_binary` prints for the comparison and logical operators
work on the registers `t0` and `t1`.  `codegen.cpp` only prints their names;
what they compute is the RV32 instruction set: registers hold 32-bit words,
here natural numbers below `2 ^ 32`. -/

/-- The signed value of a 32-bit word (two's complement). -/
def toSigned (w : Nat) : Int :=
  if w < 2 ^ 31 then (w : Int) else (w : Int) - 2 ^ 32

/-- The value that `<op> rd, rs1, rs2` writes to `rd`, for the operations
`sub` (wrapping modulo `2 ^ 32`), `sgt` (signed greater-than, 1 or 0), `and`
and `or` (bitwise); `none` for an operation that is not described here. -/
def aluRRR (op : String) (a b : Nat) : Option Nat :=
  if op = "sub" then some ((a + (2 ^ 32 - b % 2 ^ 32)) % 2 ^ 32)
  else if op = "sgt" then some (if toSigned a > toSigned b then 1 else 0)
  else if op = "and" then some (a &&& b)
  else if op = "or" then some (a ||| b)
  else none

/-- The value that `<op> rd, rs` writes to `rd`, for the operations `seqz`
(1 when the source is zero, else 0) and `snez` (1 when it is not zero, else
0); `none` for an operation that is not described here. -/
def aluRR (op : String) (a : Nat) : Option Nat :=
  if op = "seqz" then some (if a = 0 then 1 else 0)
  else if op = "snez" then some (if a = 0 then 0 else 1)
  else none

/-- The registers, by name. -/
abbrev Regs := String → Nat

/-- The registers after `rd` was written. -/
def Regs.write (r : Regs) (rd : String) (v : Nat) : Regs :=
  fun x => if x = rd then v else r x

/-- The registers after a register operation line; `none` for every other
line. -/
def Instr.alu : Instr → Regs → Option Regs
  | .rrr op rd rs1 rs2, r => (aluRRR op (r rs1) (r rs2)).map (r.write rd)
  | .rr op rd rs, r => (aluRR op (r rs)).map (r.write rd)
  | _, _ => none

/-- The registers after a sequence of register operation lines. -/
def runAlu : List Instr → Regs → Option Regs
  | [], r => some r
  | i :: rest, r =>
    match i.alu r with
    | none => none
    | some r' => runAlu rest r'

/-- The value 0 or 1 of a C comparison. -/
def boolWord (b : Bool) : Nat := if b then 1 else 0

/-- Registers with `t0 = 5`, `t1 = 2 ^ 32 - 1` (the word of -1), zero
elsewhere. -/
def exRegs : Regs :=
  fun x => if x = "t0" then 5 else if x = "t1" then 4294967295 else 0

/-! ## Stack and frame moves

The effect on the stack pointer, the frame pointer, the return address, the
other registers and the memory of the lines that move data between registers
and the stack frame.  Addresses are integers and a memory cell holds one word
at a byte address that is a multiple of the word width apart from the others:
the model describes the runs in which the stack stays inside the address
space. -/

/-- The machine: `sp`, `fp`, `ra`, the other registers by name, and the
memory, one word per byte address. -/
structure Machine where
  sp : Int
  fp : Int
  ra : Int
  reg : String → Int
  mem : Int → Int

/-- The memory after the word at address `a` was written. -/
def Machine.store (m : Machine) (a v : Int) : Machine :=
  { m with mem := fun x => if x = a then v else m.mem x }

/-- The machine after the register `r` was written. -/
def Machine.setReg (m : Machine) (r : String) (v : Int) : Machine :=
  { m with reg := fun x => if x = r then v else m.reg x }

/-- The machine after a line that moves data between registers and the stack
frame, or that only marks a place (a label or a directive); `none` for every
other line.  `sw ra, S-4(sp)` writes the word at `sp + S - 4`, and so on. -/
def Instr.exec : Instr → Machine → Option Machine
  | .addi_sp_neg n, m => some { m with sp := m.sp - n }
  | .addi_sp n, m => some { m with sp := m.sp + n }
  | .sw_sp r, m => some (m.store m.sp (m.reg r))
  | .lw_sp r, m => some (m.setReg r (m.mem m.sp))
  | .sw_fp r off, m => some (m.store (m.fp + off) (m.reg r))
  | .lw_fp r off, m => some (m.setReg r (m.mem (m.fp + off)))
  | .li r v, m => some (m.setReg r v)
  | .sw_ra n, m => some (m.store (m.sp + n - 4) m.ra)
  | .sw_old_fp n, m => some (m.store (m.sp + n - 8) m.fp)
  | .addi_fp_sp n, m => some { m with fp := m.sp + n }
  | .lw_old_fp n, m => some { m with fp := m.mem (m.sp + n - 8) }
  | .lw_ra n, m => some { m with ra := m.mem (m.sp + n - 4) }
  | .label _ _, m | .label_fn _ _, m | .global _, m | .fn_entry _, m | .text_section, m =>
    some m
  | _, _ => none

/-- The machine after a sequence of such lines. -/
def execAll : List Instr → Machine → Option Machine
  | [], m => some m
  | i :: rest, m =>
    match i.exec m with
    | none => none
    | some m' => execAll rest m'

/-- The epilogue without its last line `ret`, which only transfers control. -/
def epilogueMoves (name : String) (stack_size : Int) : List Instr :=
  (epilogue name stack_size).dropLast

/-- The byte address of the word that the line `lw`/`sw <reg>, <d>(fp)` of
`load`/`store` accesses for the word offset `k` that `var_offset` returns:
the displacement `d` is `k * POINTER_WIDTH` as an `int`. -/
def slotAddr (fp k : Int) : Int :=
  fp + wrapInt (k * POINTER_WIDTH)

/-- The code of an argument nets exactly one push of the value `v`: the stack
pointer goes down by one word, the word on top of the stack is `v`, and the
words at and above the old stack pointer are unchanged (the frame pointer
too). -/
def NetsPush (v : Int) (m m' : Machine) : Prop :=
  m'.sp = m.sp - POINTER_WIDTH ∧ m'.mem m'.sp = v ∧ (∀ a, m.sp ≤ a → m'.mem a = m.mem a)

/-- The argument codes of a call, run in the order in which `gen` prints them
(from the last argument to the first), each netting one push of its value;
`vs` are the values of the arguments from left to right. -/
inductive ArgsPushed : List Int → Machine → Machine → Prop where
  | nil (m : Machine) : ArgsPushed [] m m
  | cons {v : Int} {vs : List Int} {m m1 m2 : Machine} :
      ArgsPushed vs m m1 → NetsPush v m1 m2 → ArgsPushed (v :: vs) m m2

/-- A machine with `sp = 1000`, `fp = 2000`, `ra = 77`, every register and
memory word zero. -/
def exMachine : Machine :=
  { sp := 1000, fp := 2000, ra := 77, reg := fun _ => 0, mem := fun _ => 0 }

/-- The machine `m` after a push of the value `v`. -/
def Machine.pushed (m : Machine) (v : Int) : Machine :=
  { m with sp := m.sp - POINTER_WIDTH,
           mem := fun x => if x = m.sp - POINTER_WIDTH then v else m.mem x }

/-- The statement of C19 for one stored offset: the slot of the local, a word
that starts at `slotAddr fp k`, ends at or below `fp - 12`, the start of the
third word under the frame pointer. -/
def LocalBelowThreeWords (offset : Int) : Prop :=
  ∀ vinit k fp, var_offset (.mk false offset vinit) = .ok k →
    slotAddr fp k + POINTER_WIDTH ≤ fp - 12

/-- A later state of the function entered from `exMachine` with frame size 16:
the stack pointer is 984 again, the save words at 996 and 992 hold 77 and
2000, every other word and register has changed. -/
def exMachineLater : Machine :=
  { sp := 984, fp := 5, ra := 3, reg := fun _ => 1,
    mem := fun a => if a = 996 then 77 else if a = 992 then 2000 else 9 }

/-! ## Nodes that make `gen` abort (C13) -/

mutual
/-- The traversal of `gen` over the node reaches a node at which it aborts: an
assignment whose left operand is not a variable-reference node, a node whose
kind no lowering rule handles (`ND_OTHER`, which ends in the `default` case of
`gen_binary`), or a declaration, a variable reference or a call whose variable
or call descriptor is missing; the variable reference on the left of an
assignment counts, its descriptor is read by the assignment.  The traversal
follows the calls of `gen`: the operand of a return, of an expression
statement and of a unary node, the initialiser of a declaration, the parts of
`if`, loops and ternaries, the entries of a block, the right operand of an
assignment, the arguments of a call, both operands elsewhere. -/
def NDPtr.faulty : NDPtr → Bool
  | .null => false
  | .mk kind lexpr rexpr cond then_ els init inc body var _ func_call =>
    match kind with
    | ND_RETURN | ND_UNUSED_EXPR | ND_NOT | ND_BITNOT | ND_NEG => lexpr.faulty
    | ND_DECL =>
      match var with
      | .null => true
      | .mk _ _ vinit => vinit.faulty
    | ND_IF | ND_TERNARY => cond.faulty || then_.faulty || els.faulty
    | ND_BLOCK => body.anyFaulty
    | ND_FOR => init.faulty || cond.faulty || then_.faulty || inc.faulty
    | ND_WHILEDO | ND_DOWHILE => cond.faulty || then_.faulty
    | ND_BREAK | ND_CONTINUE | ND_NUM => false
    | ND_VAR => var.isNull
    | ND_ASSIGN =>
      decide (lexpr.kind? ≠ some ND_VAR) || lexpr.var.isNull || rexpr.faulty
    | ND_FUNC_CALL =>
      match func_call with
      | .null => true
      | .mk _ args => args.anyFaulty
    | ND_ADD | ND_SUB | ND_MUL | ND_DIV | ND_MOD | ND_LT | ND_LTE | ND_EQ | ND_NEQ
    | ND_LOGAND | ND_LOGOR => lexpr.faulty || rexpr.faulty
    | ND_OTHER _ => true
/-- The traversal reaches such a node in some entry of the list. -/
def NDList.anyFaulty : NDList → Bool
  | .nil => false
  | .cons head tail => head.faulty || tail.anyFaulty
end

/-- The traversal of what a call lowers reaches a node at which `gen`
aborts. -/
def Item.faulty : Item → Bool
  | .node p => p.faulty
  | .body l => l.anyFaulty
  | .args l => l.anyFaulty

/-- The assignment `7 = 1`, whose left operand is a literal. -/
def exBadAssign : NDPtr :=
  .mk ND_ASSIGN (.num 7) (.num 1) .null .null .null .null .null .nil .null 0 .null

/-- The statement `if (1) { 7 = 1; }`. -/
def exIfBadAssign : NDPtr :=
  .mk ND_IF .null .null (.num 1) (.exprStmt exBadAssign) .null .null .null .nil .null 0 .null

/-! ## Calls inside calls -/

/-- No numbered label defined in `c` has its number in `[a, b)`. -/
def OutOf (c : List Instr) (a b : Int) : Prop :=
  ∀ t n, (t, n) ∈ labelDefs c → n < a ∨ b ≤ n

/-- The call of `gen` on `q` with the global variables `z` is part of the call
that printed `c` from `x` to `y`: it completes, its code `cq` is a piece of
`c`, the current function is the same, its label numbers lie inside those of
the outer call, and the rest of `c` defines no label with a number of `cq`. -/
def SubOf (x : Ctx) (c : List Instr) (y : Ctx) (q : NDPtr) (z : Ctx) : Prop :=
  ∃ pre cq post yq, c = pre ++ cq ++ post ∧ Lowers (.node q) z cq yq ∧
    z.hot_func = x.hot_func ∧ x.label_seq ≤ z.label_seq ∧ yq.label_seq ≤ y.label_seq ∧
    OutOf pre z.label_seq yq.label_seq ∧ OutOf post z.label_seq yq.label_seq

/-- `Reach p x q z`: the call `gen(p)`, started with the global variables `x`,
reaches a call of `gen` on `q` with the global variables `z`: `q` is `p`
itself or is nested in `p` at any depth, inside loops or not. -/
inductive Reach : NDPtr → Ctx → NDPtr → Ctx → Prop where
  | here (p : NDPtr) (x : Ctx) : Reach p x p x
  | deeper {p q r : NDPtr} {x z w : Ctx} : Reach p x q z → Child q z r w → Reach p x r w

/-- `CalledOn fs s0 fn q z`: in the run of `gen_text` on the functions `fs`
from the state `s0`, while the function `fn` is lowered, `gen` is called on
the node `q` with the global variables `z`.  The function is an entry of
`fs`, the functions before it were lowered, the statements before a
statement `n` of its body were lowered, and the call on `n` reaches `q`. -/
def CalledOn (fs : List FNPtr) (s0 : GenState) (fn : Function) (q : NDPtr) (z : Ctx) : Prop :=
  ∃ fs1 fs2 s1 u n v cs x, fs = fs1 ++ some fn :: fs2 ∧ gen_text fs1 s0 = .ok s1 ∧
    fn.stmts.body.toList = u ++ n :: v ∧ lowerAll u (s1.ctx.startFn fn) = .ok (cs, x) ∧
    Reach n x q z

/-- The block of lines that `gen_text` prints for the function `fn` when the
code of its body statements is `body`: the prologue, the body code, `li a0, 0`
or nothing, and the epilogue. -/
def FnBlock (fn : Function) (body blk : List Instr) : Prop :=
  ∃ tail, (tail = [] ∨ tail = [.li "a0" 0]) ∧
    blk = prologue fn.name fn.stack_size ++ body ++ tail ++ epilogue fn.name fn.stack_size

/-- The loop `do break; while (1);`. -/
def exDoBreak : NDPtr :=
  .mk ND_DOWHILE .null .null (.num 1) (.leaf ND_BREAK) .null .null .null .nil .null 0 .null

/-- The function `int f() { 1 ? 2 : 3; do break; while (1); }`. -/
def exFnDo : Function :=
  { name := "f", stack_size := 16,
    stmts := .mk ND_BLOCK .null .null .null .null .null .null .null
      (.cons (.exprStmt exTernary) (.cons exDoBreak .nil)) .null 0 .null }

/-- The statement `return 2;`. -/
def exRet : NDPtr :=
  .mk ND_RETURN (.num 2) .null .null .null .null .null .null .nil .null 0 .null

/-- The statement `if (1) return 2;`. -/
def exIfRet : NDPtr :=
  .mk ND_IF .null .null (.num 1) exRet .null .null .null .nil .null 0 .null

/-- The function `int g() { 7; if (1) return 2; }`. -/
def exFnRet : Function :=
  { name := "g", stack_size := 16,
    stmts := .mk ND_BLOCK .null .null .null .null .null .null .null
      (.cons (.exprStmt (.num 7)) (.cons exIfRet .nil)) .null 0 .null }

/-- The output of `gen_text` on the functions `exFnDo` and `exFnRet`. -/
def exProgOut : List Instr :=
  [.text_section, .global "f", .fn_entry "f", .addi_sp_neg 16, .sw_ra 16, .sw_old_fp 16,
    .addi_fp_sp 16, .li "t0" 1, .addi_sp_neg 4, .sw_sp "t0", .lw_sp "t0", .addi_sp 4,
    .beqz "t0" "else" 0, .li "t0" 2, .addi_sp_neg 4, .sw_sp "t0", .j "exit" 0,
    .label "else" 0, .li "t0" 3, .addi_sp_neg 4, .sw_sp "t0", .label "exit" 0, .lw_sp "t0",
    .addi_sp 4, .label "continue" 1, .j "exit" 1, .li "t0" 1, .addi_sp_neg 4, .sw_sp "t0",
    .lw_sp "t0", .addi_sp 4, .bnez "t0" "continue" 1, .label_fn "function_exit" "f",
    .lw_old_fp 16, .lw_ra 16, .addi_sp 16, .ret, .global "g", .fn_entry "g", .addi_sp_neg 16,
    .sw_ra 16, .sw_old_fp 16, .addi_fp_sp 16, .li "t0" 7, .addi_sp_neg 4, .sw_sp "t0",
    .lw_sp "t0", .addi_sp 4, .li "t0" 1, .addi_sp_neg 4, .sw_sp "t0", .lw_sp "t0", .addi_sp 4,
    .beqz "t0" "exit" 2, .li "t0" 2, .addi_sp_neg 4, .sw_sp "t0", .lw_sp "a0", .addi_sp 4,
    .j_fn "function_exit" "g", .label "exit" 2, .label_fn "function_exit" "g", .lw_old_fp 16,
    .lw_ra 16, .addi_sp 16, .ret]

/-- The state after `gen_text` on the functions `exFnDo` and `exFnRet`. -/
def exProgState : GenState :=
  { hot_func := some exFnRet, last_node := exIfRet, label_seq := 3, brk_seq := 0,
    cont_seq := 0, out := exProgOut }

/-- The global variables when the `do`-`while` of `exFnDo` starts. -/
def exCtxDo : Ctx :=
  { hot_func := some exFnDo, last_node := .exprStmt exTernary, label_seq := 1, brk_seq := 0,
    cont_seq := 0 }

/-- The global variables when the `return` of `exFnRet` starts. -/
def exCtxRet : Ctx :=
  { hot_func := some exFnRet, last_node := .num 1, label_seq := 3, brk_seq := 0, cont_seq := 0 }

/-- The state after `gen_text` on the function `exFnDo` alone. -/
def exProgMid : GenState :=
  { hot_func := some exFnDo, last_node := exDoBreak, label_seq := 2, brk_seq := 0,
    cont_seq := 0, out := exProgOut.take 37 }

/-- The global variables when the `if` of `exFnRet` starts. -/
def exCtxIfRet : Ctx :=
  { hot_func := some exFnRet, last_node := .exprStmt (.num 7), label_seq := 2, brk_seq := 0,
    cont_seq := 0 }

/-! ## Where breaks and continues stand -/

mutual
/-- `p.jumpsOk b k`: in the traversal of `gen` over `p`, every `break` has a
`for` or `while` loop as its innermost enclosing loop and every `continue`
lies in some loop, where `b` tells whether the innermost loop around `p` is
a `for` or `while` loop and `k` whether `p` lies in a loop at all.  The parts
of a `for` or `while` loop are checked with `b` and `k` true, those of a
`do`-`while` loop with `b` false and `k` true; every other node hands `b` and
`k` on to the nodes that `gen` lowers for it. -/
def NDPtr.jumpsOk : NDPtr → Bool → Bool → Bool
  | .null, _, _ => true
  | .mk kind lexpr rexpr cond then_ els init inc body var _ func_call, b, k =>
    match kind with
    | ND_RETURN | ND_UNUSED_EXPR | ND_NOT | ND_BITNOT | ND_NEG => lexpr.jumpsOk b k
    | ND_DECL =>
      match var with
      | .null => true
      | .mk _ _ vinit => vinit.jumpsOk b k
    | ND_IF | ND_TERNARY => cond.jumpsOk b k && then_.jumpsOk b k && els.jumpsOk b k
    | ND_BLOCK => body.allJumpsOk b k
    | ND_FOR =>
      init.jumpsOk true true && cond.jumpsOk true true && then_.jumpsOk true true
        && inc.jumpsOk true true
    | ND_WHILEDO => cond.jumpsOk true true && then_.jumpsOk true true
    | ND_DOWHILE => then_.jumpsOk false true && cond.jumpsOk false true
    | ND_BREAK => b
    | ND_CONTINUE => k
    | ND_NUM | ND_VAR => true
    | ND_ASSIGN => rexpr.jumpsOk b k
    | ND_FUNC_CALL =>
      match func_call with
      | .null => true
      | .mk _ args => args.allJumpsOk b k
    | ND_ADD | ND_SUB | ND_MUL | ND_DIV | ND_MOD | ND_LT | ND_LTE | ND_EQ | ND_NEQ
    | ND_LOGAND | ND_LOGOR => lexpr.jumpsOk b k && rexpr.jumpsOk b k
    | ND_OTHER _ => true
/-- Every entry of the list passes `jumpsOk`. -/
def NDList.allJumpsOk : NDList → Bool → Bool → Bool
  | .nil, _, _ => true
  | .cons head tail, b, k => head.jumpsOk b k && tail.allJumpsOk b k
end

/-- The check `jumpsOk` on what a call lowers. -/
def Item.jumpsOk : Item → Bool → Bool → Bool
  | .node p, b, k => p.jumpsOk b k
  | .body l, b, k => l.allJumpsOk b k
  | .args l, b, k => l.allJumpsOk b k

/-- Every numbered label that a jump or branch of `c` refers to is defined by
a line of `c`, or is the exit label numbered `brk` and `b` holds, or is the
continue label numbered `cont` and `k` holds. -/
def RefsMet (c : List Instr) (b k : Bool) (brk cont : Int) : Prop :=
  ∀ t n, (t, n) ∈ labelRefs c →
    (t, n) ∈ labelDefs c ∨ (b = true ∧ t = EXIT ∧ n = brk) ∨ (k = true ∧ t = CONTINUE ∧ n = cont)

/-- What holds of the block of the function `fn` when its breaks and
continues stand in loops: every numbered label that a jump or branch of the
block refers to is defined in the block, every jump to a function label
goes to the exit label of `fn`, and the only function label defined in the
block is the exit label of `fn`, on one line. -/
def BlockOk (fn : Function) (blk : List Instr) : Prop :=
  (∀ t n, (t, n) ∈ labelRefs blk → (t, n) ∈ labelDefs blk) ∧
    (∀ t m, Instr.j_fn t m ∈ blk → t = FUNC_EXIT ∧ m = fn.name) ∧
    (∀ t m, Instr.label_fn t m ∈ blk → t = FUNC_EXIT ∧ m = fn.name) ∧
    blk.count (.label_fn FUNC_EXIT fn.name) = 1

/-- The loop `do continue; while (1);`. -/
def exDoContinue : NDPtr :=
  .mk ND_DOWHILE .null .null (.num 1) (.leaf ND_CONTINUE) .null .null .null .nil .null 0 .null

/-- The function `int f() { while (1) { for (;;) ; if (2) break; } do continue;
while (1); }`. -/
def exFnLoops : Function :=
  { name := "f", stack_size := 16,
    stmts := .mk ND_BLOCK .null .null .null .null .null .null .null
      (.cons exWhile (.cons exDoContinue .nil)) .null 0 .null }

/-- The output of `gen_text` on the functions `exFnLoops` and `exFnRet`. -/
def exLoopsOut : List Instr :=
  [.text_section, .global "f", .fn_entry "f", .addi_sp_neg 16, .sw_ra 16, .sw_old_fp 16,
    .addi_fp_sp 16, .label "continue" 0, .li "t0" 1, .addi_sp_neg 4, .sw_sp "t0", .lw_sp "t0",
    .addi_sp 4, .beqz "t0" "exit" 0, .label "begin" 1, .label "continue" 1, .j "begin" 1,
    .label "exit" 1, .li "t0" 2, .addi_sp_neg 4, .sw_sp "t0", .lw_sp "t0", .addi_sp 4,
    .beqz "t0" "exit" 2, .j "exit" 0, .label "exit" 2, .j "continue" 0, .label "exit" 0,
    .label "continue" 3, .j "continue" 3, .li "t0" 1, .addi_sp_neg 4, .sw_sp "t0",
    .lw_sp "t0", .addi_sp 4, .bnez "t0" "continue" 3, .label_fn "function_exit" "f",
    .lw_old_fp 16, .lw_ra 16, .addi_sp 16, .ret, .global "g", .fn_entry "g", .addi_sp_neg 16,
    .sw_ra 16, .sw_old_fp 16, .addi_fp_sp 16, .li "t0" 7, .addi_sp_neg 4, .sw_sp "t0",
    .lw_sp "t0", .addi_sp 4, .li "t0" 1, .addi_sp_neg 4, .sw_sp "t0", .lw_sp "t0", .addi_sp 4,
    .beqz "t0" "exit" 4, .li "t0" 2, .addi_sp_neg 4, .sw_sp "t0", .lw_sp "a0", .addi_sp 4,
    .j_fn "function_exit" "g", .label "exit" 4, .label_fn "function_exit" "g", .lw_old_fp 16,
    .lw_ra 16, .addi_sp 16, .ret]

/-- The state after `gen_text` on the functions `exFnLoops` and `exFnRet`. -/
def exLoopsState : GenState :=
  { hot_func := some exFnRet, last_node := exIfRet, label_seq := 5, brk_seq := 0,
    cont_seq := 0, out := exLoopsOut }

/-- The lines that `gen` prints for `exWhile` from `exCtx`, when the next
label number is 5 and the targets left by earlier code are 2 and 3. -/
def exWhileCode : List Instr :=
  [.label "continue" 5, .li "t0" 1, .addi_sp_neg 4, .sw_sp "t0", .lw_sp "t0", .addi_sp 4,
    .beqz "t0" "exit" 5, .label "begin" 6, .label "continue" 6, .j "begin" 6, .label "exit" 6,
    .li "t0" 2, .addi_sp_neg 4, .sw_sp "t0", .lw_sp "t0", .addi_sp 4, .beqz "t0" "exit" 7,
    .j "exit" 5, .label "exit" 7, .j "continue" 5, .label "exit" 5]

/-- The global variables after `exWhile` was lowered from `exCtx`. -/
def exCtxAfterWhile : Ctx :=
  { hot_func := none, last_node := exWhile, label_seq := 8, brk_seq := 2, cont_seq := 3 }

/-- `RunsPush run cs vs m0 m`: the pieces of code `cs` run one after the
other, in list order, from the machine `m0` to the machine `m`, and each
piece nets exactly one push; `vs` are the values pushed, in the order of the
pieces.  `run c a b` says that the piece `c`, entered at its first line in the
machine `a`, is left at its end in the machine `b`; for pieces made of the
lines that `Instr.exec` describes it is `execAll c a = some b`. -/
inductive RunsPush (run : List Instr → Machine → Machine → Prop) :
    List (List Instr) → List Int → Machine → Machine → Prop where
  | nil (m : Machine) : RunsPush run [] [] m m
  | cons {c : List Instr} {cs : List (List Instr)} {v : Int} {vs : List Int}
      {m m1 m2 : Machine} :
      run c m m1 → NetsPush v m m1 → RunsPush run cs vs m1 m2 →
      RunsPush run (c :: cs) (v :: vs) m m2

/-- The call `f(10, 20)`. -/
def exCallTwo : NDPtr :=
  .callOf "f" [.num 10, .num 20]

/-- The lines that `gen` prints for `exCallTwo`. -/
def exCallTwoCode : List Instr :=
  [.li "t0" 20, .addi_sp_neg 4, .sw_sp "t0", .li "t0" 10, .addi_sp_neg 4, .sw_sp "t0",
    .call "f", .addi_sp 8, .addi_sp_neg 4, .sw_sp "a0"]

/-- The machine `exMachine` after the code of the literal 20. -/
def exMachineArg1 : Machine :=
  (exMachine.setReg "t0" 20).pushed 20

/-- The machine `exMachineArg1` after the code of the literal 10. -/
def exMachineArgs : Machine :=
  (exMachineArg1.setReg "t0" 10).pushed 10

/-! # Theorems -/

/-! ## Basic facts -/

theorem bind_ok_iff {ε α β : Type} (x : Except ε α) (f : α → Except ε β) (b : β) :
    (x >>= f) = .ok b ↔ ∃ a, x = .ok a ∧ f a = .ok b := by
  cases x <;> simp [bind, Except.bind]

theorem pure_ok_iff {ε α : Type} (a b : α) : (pure a : Except ε α) = .ok b ↔ a = b := by
  simp [pure, Except.pure]

/-! ### The state functions: effect on the global variables and on the output -/

@[simp] theorem emit_ctx (i : Instr) (s : GenState) : (emit i s).ctx = s.ctx := rfl
@[simp] theorem emit_out (i : Instr) (s : GenState) : (emit i s).out = s.out ++ [i] := rfl
@[simp] theorem emits_ctx (c : List Instr) (s : GenState) : (emits c s).ctx = s.ctx := rfl
@[simp] theorem emits_out (c : List Instr) (s : GenState) : (emits c s).out = s.out ++ c := rfl
@[simp] theorem push_ctx (r : String) (s : GenState) : (push r s).ctx = s.ctx := rfl
@[simp] theorem push_out (r : String) (s : GenState) : (push r s).out = s.out ++ pushCode r := by
  simp [push, pushCode]
@[simp] theorem pop_ctx (r : String) (s : GenState) : (pop r s).ctx = s.ctx := rfl
@[simp] theorem pop_out (r : String) (s : GenState) : (pop r s).out = s.out ++ popCode r := by
  simp [pop, popCode]
@[simp] theorem label_ctx (t : String) (n : Int) (s : GenState) : (label t n s).ctx = s.ctx := rfl
@[simp] theorem label_out (t : String) (n : Int) (s : GenState) :
    (label t n s).out = s.out ++ [.label t n] := rfl
@[simp] theorem jmp_ctx (t : String) (n : Int) (s : GenState) : (jmp t n s).ctx = s.ctx := rfl
@[simp] theorem jmp_out (t : String) (n : Int) (s : GenState) :
    (jmp t n s).out = s.out ++ [.j t n] := rfl
@[simp] theorem beqz_ctx (r t : String) (n : Int) (s : GenState) :
    (beqz r t n s).ctx = s.ctx := rfl
@[simp] theorem beqz_out (r t : String) (n : Int) (s : GenState) :
    (beqz r t n s).out = s.out ++ [.beqz r t n] := rfl
@[simp] theorem bnez_ctx (r t : String) (n : Int) (s : GenState) :
    (bnez r t n s).ctx = s.ctx := rfl
@[simp] theorem bnez_out (r t : String) (n : Int) (s : GenState) :
    (bnez r t n s).out = s.out ++ [.bnez r t n] := rfl
@[simp] theorem next_label_seq_ctx (s : GenState) : (next_label_seq s).ctx = s.ctx.bump := rfl
@[simp] theorem next_label_seq_out (s : GenState) : (next_label_seq s).out = s.out := rfl
@[simp] theorem set_targets_out (b c : Int) (s : GenState) : (set_targets b c s).out = s.out := rfl
@[simp] theorem set_last_node_ctx (p : NDPtr) (s : GenState) :
    (set_last_node p s).ctx = s.ctx.setLast p := rfl
@[simp] theorem set_last_node_out (p : NDPtr) (s : GenState) :
    (set_last_node p s).out = s.out := rfl
@[simp] theorem set_hot_func_out (f : FNPtr) (s : GenState) : (set_hot_func f s).out = s.out := rfl
theorem enter_ctx (s : GenState) :
    (set_targets s.label_seq s.label_seq (next_label_seq s)).ctx = s.ctx.enter := rfl
theorem leave_ctx (s t : GenState) :
    (set_targets s.brk_seq s.cont_seq t).ctx = s.ctx.leave t.ctx := rfl
@[simp] theorem ctx_hot_func (s : GenState) : s.ctx.hot_func = s.hot_func := rfl
@[simp] theorem ctx_last_node (s : GenState) : s.ctx.last_node = s.last_node := rfl
@[simp] theorem ctx_label_seq (s : GenState) : s.ctx.label_seq = s.label_seq := rfl
@[simp] theorem ctx_brk_seq (s : GenState) : s.ctx.brk_seq = s.brk_seq := rfl
@[simp] theorem ctx_cont_seq (s : GenState) : s.ctx.cont_seq = s.cont_seq := rfl

/-! ### Every successful call is described by `Lowers` -/

theorem Sound.intro {item : Item} {s s' : GenState} {c : List Instr} {y : Ctx}
    (hc : s'.out = s.out ++ c) (hy : s'.ctx = y) (L : Lowers item s.ctx c y) :
    Sound item s s' :=
  ⟨c, hc, hy ▸ L⟩

theorem store_var_ok {r : String} {v : VarPtr} {s s' : GenState} (h : store_var r v s = .ok s') :
    ∃ a o vinit, v = .mk a o vinit ∧
      s' = emit (.sw_fp r (varDisp a o)) s := by
  cases v with
  | null => simp [store_var, var_offset] at h
  | mk a o vinit =>
    refine ⟨a, o, vinit, rfl, ?_⟩
    simp only [store_var, var_offset, store] at h
    cases a <;> simpa [varDisp] using h.symm

theorem load_var_ok {r : String} {v : VarPtr} {s s' : GenState} (h : load_var r v s = .ok s') :
    ∃ a o vinit, v = .mk a o vinit ∧
      s' = emit (.lw_fp r (varDisp a o)) s := by
  cases v with
  | null => simp [load_var, var_offset] at h
  | mk a o vinit =>
    refine ⟨a, o, vinit, rfl, ?_⟩
    simp only [load_var, var_offset, load] at h
    cases a <;> simpa [varDisp] using h.symm

theorem gen_binary_tail_ok {k : NodeKind} {s s' : GenState} (h : gen_binary_tail k s = .ok s') :
    ∃ ops, binaryOp k = some ops ∧
      s' = push "t0" (emits ops (pop "t0" (pop "t1" s))) := by
  unfold gen_binary_tail at h
  simp only at h
  split at h
  · simp at h
  · rename_i ops hops
    exact ⟨ops, hops, by simpa using h.symm⟩

theorem sound_binary {k : NodeKind} {l r c t e i inc : NDPtr} {body : NDList} {var : VarPtr}
    {val : Int} {fc : FuncCallPtr} {s s' : GenState}
    (ihl : ∀ s s', gen l s = .ok s' → Sound (.node l) s s')
    (ihr : ∀ s s', gen r s = .ok s' → Sound (.node r) s s')
    (h : ∃ a, (∃ a1, gen l s = .ok a1 ∧ ∃ a2, gen r a1 = .ok a2 ∧ gen_binary_tail k a2 = .ok a) ∧
      set_last_node (.mk k l r c t e i inc body var val fc) a = s') :
    Sound (.node (.mk k l r c t e i inc body var val fc)) s s' := by
  obtain ⟨a, ⟨a1, h1, a2, h2, h3⟩, rfl⟩ := h
  obtain ⟨c1, ho1, L1⟩ := ihl _ _ h1
  obtain ⟨c2, ho2, L2⟩ := ihr _ _ h2
  obtain ⟨ops, hops, rfl⟩ := gen_binary_tail_ok h3
  have L := Lowers.binary (p := .mk k l r c t e i inc body var val fc) (k := k) rfl hops L1 L2
  exact Sound.intro (by simp [ho1, ho2]) (by simp) L

theorem sound_unary {k : NodeKind} {op : Instr} {l r c t e i inc : NDPtr} {body : NDList}
    {var : VarPtr} {val : Int} {fc : FuncCallPtr} {s s' : GenState} (hop : unaryOp k = some op)
    (ihl : ∀ s s', gen l s = .ok s' → Sound (.node l) s s')
    (h : ∃ a, (∃ a1, gen l s = .ok a1 ∧ push "t0" (emit op (pop "t0" a1)) = a) ∧
      set_last_node (.mk k l r c t e i inc body var val fc) a = s') :
    Sound (.node (.mk k l r c t e i inc body var val fc)) s s' := by
  obtain ⟨a, ⟨a1, h1, rfl⟩, rfl⟩ := h
  obtain ⟨c1, ho1, L1⟩ := ihl _ _ h1
  have L := Lowers.unary (p := .mk k l r c t e i inc body var val fc) (k := k) rfl hop L1
  exact Sound.intro (by simp [ho1]) (by simp) L

mutual
theorem gen_lowers : ∀ (p : NDPtr) (s s' : GenState), gen p s = .ok s' → Sound (.node p) s s'
  | .null, s, s', h => by
    simp only [gen, Except.ok.injEq] at h
    subst h
    exact ⟨[], by simp, .null _⟩
  | .mk kind l r c t e i inc body var val fc, s, s', h => by
    have ihl := gen_lowers l
    have ihr := gen_lowers r
    have ihc := gen_lowers c
    have iht := gen_lowers t
    have ihe := gen_lowers e
    have ihi := gen_lowers i
    have ihn := gen_lowers inc
    have ihb := gen_body_lowers body
    cases kind
    case ND_RETURN =>
      simp only [gen, bind_ok_iff, pure_ok_iff] at h
      obtain ⟨a, ⟨a1, h1, h2⟩, rfl⟩ := h
      obtain ⟨c1, ho1, L1⟩ := ihl _ _ h1
      split at h2
      · simp at h2
      · rename_i f hf
        simp only [pure_ok_iff] at h2
        subst h2
        have L := Lowers.ret (p := .mk ND_RETURN l r c t e i inc body var val fc) rfl L1
          (f := f) (by simpa using hf)
        exact Sound.intro (by simp [ho1]) (by simp) L
    case ND_DECL =>
      cases var with
      | null => simp [gen, bind_ok_iff] at h
      | mk a o vinit =>
        have ihv := gen_lowers vinit
        simp only [gen, bind_ok_iff, pure_ok_iff] at h
        obtain ⟨a0, h0, rfl⟩ := h
        by_cases hv : vinit.isNull = true
        · simp only [hv, if_true, pure_ok_iff] at h0
          subst h0
          have L := Lowers.decl_none (x := s.ctx)
            (p := .mk ND_DECL l r c t e i inc body (.mk a o vinit) val fc) rfl rfl hv
          exact Sound.intro (by simp) (by simp) L
        · simp only [hv, Bool.false_eq_true, if_false, bind_ok_iff] at h0
          obtain ⟨a1, h1, h2⟩ := h0
          obtain ⟨c1, ho1, L1⟩ := ihv _ _ h1
          obtain ⟨a', o', v', hv', rfl⟩ := store_var_ok h2
          cases hv'
          have L := Lowers.decl_init
            (p := .mk ND_DECL l r c t e i inc body (.mk a o vinit) val fc) rfl rfl
            (by simpa using hv) L1
          exact Sound.intro (by simp [ho1]) (by simp) L
    case ND_UNUSED_EXPR =>
      simp only [gen, bind_ok_iff, pure_ok_iff] at h
      obtain ⟨a0, h0, rfl⟩ := h
      by_cases hv : l.isNull = true
      · simp only [hv, if_true, pure_ok_iff] at h0
        subst h0
        have L := Lowers.unused_none (x := s.ctx)
          (p := .mk ND_UNUSED_EXPR l r c t e i inc body var val fc) rfl hv
        exact Sound.intro (by simp) (by simp) L
      · simp only [hv, Bool.false_eq_true, if_false, bind_ok_iff, pure_ok_iff] at h0
        obtain ⟨a1, h1, rfl⟩ := h0
        obtain ⟨c1, ho1, L1⟩ := ihl _ _ h1
        have L := Lowers.unused_some
          (p := .mk ND_UNUSED_EXPR l r c t e i inc body var val fc) rfl (by simpa using hv) L1
        exact Sound.intro (by simp [ho1]) (by simp) L
    case ND_IF =>
      simp only [gen, bind_ok_iff, pure_ok_iff] at h
      obtain ⟨a0, ⟨a1, h1, h0⟩, rfl⟩ := h
      obtain ⟨c1, ho1, L1⟩ := ihc _ _ h1
      rw [next_label_seq_ctx] at L1
      by_cases hv : e.isNull = true
      · simp only [hv, if_true, bind_ok_iff, pure_ok_iff] at h0
        obtain ⟨a2, h2, rfl⟩ := h0
        obtain ⟨c2, ho2, L2⟩ := iht _ _ h2
        simp only [beqz_ctx, pop_ctx] at L2
        have L := Lowers.if_then
          (p := .mk ND_IF l r c t e i inc body var val fc) rfl hv L1 L2
        exact Sound.intro (by simp [ho1, ho2]) (by simp) L
      · simp only [hv, Bool.false_eq_true, if_false, bind_ok_iff, pure_ok_iff] at h0
        obtain ⟨a2, h2, a3, h3, rfl⟩ := h0
        obtain ⟨c2, ho2, L2⟩ := iht _ _ h2
        obtain ⟨c3, ho3, L3⟩ := ihe _ _ h3
        simp only [beqz_ctx, pop_ctx, label_ctx, jmp_ctx] at L2 L3
        have L := Lowers.if_else
          (p := .mk ND_IF l r c t e i inc body var val fc) rfl (by simpa using hv) L1 L2 L3
        exact Sound.intro (by simp [ho1, ho2, ho3]) (by simp) L
    case ND_BLOCK =>
      simp only [gen, bind_ok_iff, pure_ok_iff] at h
      obtain ⟨a0, h0, rfl⟩ := h
      obtain ⟨c1, ho1, L1⟩ := ihb _ _ h0
      have L := Lowers.block (p := .mk ND_BLOCK l r c t e i inc body var val fc) rfl L1
      exact Sound.intro (by simp [ho1]) (by simp) L
    case ND_FOR =>
      simp only [gen, bind_ok_iff, pure_ok_iff] at h
      obtain ⟨a0, ⟨a1, h1, a2, h2, a3, h3, a4, h4, rfl⟩, rfl⟩ := h
      obtain ⟨c1, ho1, L1⟩ := ihi _ _ h1
      obtain ⟨c3, ho3, L3⟩ := iht _ _ h3
      rw [enter_ctx] at L1
      have hc : ∃ c2, a2.out = a1.out ++ [.label BEGIN s.label_seq] ++ forTest c c2 s.label_seq ∧
          Lowers (.node c) a1.ctx c2 a2.ctx := by
        by_cases hv : c.isNull = true
        · simp only [hv, if_true, pure_ok_iff] at h2
          subst h2
          cases c with
          | null => exact ⟨[], by simp [forTest, NDPtr.isNull], .null _⟩
          | mk => simp [NDPtr.isNull] at hv
        · simp only [hv, Bool.false_eq_true, if_false, bind_ok_iff, pure_ok_iff] at h2
          obtain ⟨b, hb, rfl⟩ := h2
          obtain ⟨c2, ho2, L2⟩ := ihc _ _ hb
          exact ⟨c2, by simp [forTest, hv, ho2], by simpa using L2⟩
      obtain ⟨c2, ho2, L2⟩ := hc
      have hn : ∃ c4, a4.out = a3.out ++ [.label CONTINUE s.label_seq] ++ c4 ∧
          Lowers (.node inc) a3.ctx c4 a4.ctx := by
        by_cases hv : inc.isNull = true
        · simp only [hv, if_true, pure_ok_iff] at h4
          subst h4
          cases inc with
          | null => exact ⟨[], by simp, .null _⟩
          | mk => simp [NDPtr.isNull] at hv
        · simp only [hv, Bool.false_eq_true, if_false] at h4
          obtain ⟨c4, ho4, L4⟩ := ihn _ _ h4
          exact ⟨c4, by simp [ho4], by simpa using L4⟩
      obtain ⟨c4, ho4, L4⟩ := hn
      have L := Lowers.for_ (p := .mk ND_FOR l r c t e i inc body var val fc) rfl L1 L2 L3 L4
      refine Sound.intro ?_ ?_ L
      · simp [ho1, ho2, ho3, ho4, NDPtr.cond]
      · rw [set_last_node_ctx]
        rfl
    case ND_WHILEDO =>
      simp only [gen, bind_ok_iff, pure_ok_iff] at h
      obtain ⟨a0, ⟨a1, h1, a2, h2, rfl⟩, rfl⟩ := h
      obtain ⟨c1, ho1, L1⟩ := ihc _ _ h1
      obtain ⟨c2, ho2, L2⟩ := iht _ _ h2
      simp only [label_ctx, beqz_ctx, pop_ctx] at L1 L2
      rw [enter_ctx] at L1
      have L := Lowers.while_ (p := .mk ND_WHILEDO l r c t e i inc body var val fc) rfl L1 L2
      refine Sound.intro ?_ ?_ L
      · simp [ho1, ho2]
      · rw [set_last_node_ctx]
        rfl
    case ND_DOWHILE =>
      simp only [gen, bind_ok_iff, pure_ok_iff] at h
      obtain ⟨a0, ⟨a1, h1, a2, h2, rfl⟩, rfl⟩ := h
      obtain ⟨c1, ho1, L1⟩ := iht _ _ h1
      obtain ⟨c2, ho2, L2⟩ := ihc _ _ h2
      simp only [label_ctx] at L1
      rw [enter_ctx] at L1
      have L := Lowers.dowhile (p := .mk ND_DOWHILE l r c t e i inc body var val fc) rfl L1 L2
      refine Sound.intro ?_ ?_ L
      · simp [ho1, ho2]
      · rw [set_last_node_ctx]
        rfl
    case ND_BREAK =>
      simp only [gen, bind_ok_iff, pure_ok_iff] at h
      obtain ⟨a0, rfl, rfl⟩ := h
      have L := Lowers.brk (x := s.ctx) (p := .mk ND_BREAK l r c t e i inc body var val fc) rfl
      exact Sound.intro (by simp) (by simp) L
    case ND_CONTINUE =>
      simp only [gen, bind_ok_iff, pure_ok_iff] at h
      obtain ⟨a0, rfl, rfl⟩ := h
      have L := Lowers.cont (x := s.ctx) (p := .mk ND_CONTINUE l r c t e i inc body var val fc) rfl
      exact Sound.intro (by simp) (by simp) L
    case ND_NUM =>
      simp only [gen, bind_ok_iff, pure_ok_iff] at h
      obtain ⟨a0, rfl, rfl⟩ := h
      have L := Lowers.num (x := s.ctx) (p := .mk ND_NUM l r c t e i inc body var val fc) rfl
      exact Sound.intro (by simp [NDPtr.val]) (by simp) L
    case ND_NOT =>
      simp only [gen, bind_ok_iff, pure_ok_iff] at h
      exact sound_unary rfl ihl h
    case ND_BITNOT =>
      simp only [gen, bind_ok_iff, pure_ok_iff] at h
      exact sound_unary rfl ihl h
    case ND_NEG =>
      simp only [gen, bind_ok_iff, pure_ok_iff] at h
      exact sound_unary rfl ihl h
    case ND_VAR =>
      simp only [gen, bind_ok_iff, pure_ok_iff] at h
      obtain ⟨a0, h0, rfl⟩ := h
      split at h0
      · simp at h0
      · simp only [bind_ok_iff, pure_ok_iff] at h0
        obtain ⟨a1, h1, rfl⟩ := h0
        obtain ⟨a, o, vinit, rfl, rfl⟩ := load_var_ok h1
        have L := Lowers.var (x := s.ctx)
          (p := .mk ND_VAR l r c t e i inc body (.mk a o vinit) val fc) rfl rfl
        exact Sound.intro (by simp) (by simp) L
    case ND_ASSIGN =>
      simp only [gen, bind_ok_iff, pure_ok_iff] at h
      obtain ⟨a0, ⟨ok, hok, h0⟩, rfl⟩ := h
      cases l with
      | null => simp [check_lvalue] at hok
      | mk lk l1 l2 l3 l4 l5 l6 l7 l8 lv l10 l11 =>
        simp only [check_lvalue, Except.ok.injEq] at hok
        subst hok
        by_cases hk : lk = ND_VAR
        · subst hk
          simp only [decide_True, Bool.not_true, Bool.false_eq_true, if_false, bind_ok_iff,
            pure_ok_iff, deref_var, Except.ok.injEq] at h0
          obtain ⟨a1, h1, v, rfl, a2, h2, rfl⟩ := h0
          obtain ⟨c1, ho1, L1⟩ := ihr _ _ h1
          obtain ⟨a, o, vinit, rfl, rfl⟩ := store_var_ok h2
          have L := Lowers.assign
            (p := .mk ND_ASSIGN (.mk ND_VAR l1 l2 l3 l4 l5 l6 l7 l8 (.mk a o vinit) l10 l11)
              r c t e i inc body var val fc) rfl rfl rfl L1
          exact Sound.intro (by simp [ho1]) (by simp) L
        · simp [hk] at h0
    case ND_TERNARY =>
      simp only [gen, bind_ok_iff, pure_ok_iff] at h
      obtain ⟨a0, ⟨a1, h1, a2, h2, a3, h3, rfl⟩, rfl⟩ := h
      obtain ⟨c1, ho1, L1⟩ := ihc _ _ h1
      obtain ⟨c2, ho2, L2⟩ := iht _ _ h2
      obtain ⟨c3, ho3, L3⟩ := ihe _ _ h3
      rw [next_label_seq_ctx] at L1
      simp only [beqz_ctx, pop_ctx, label_ctx, jmp_ctx] at L2 L3
      have L := Lowers.ternary
        (p := .mk ND_TERNARY l r c t e i inc body var val fc) rfl L1 L2 L3
      exact Sound.intro (by simp [ho1, ho2, ho3]) (by simp) L
    case ND_FUNC_CALL =>
      cases fc with
      | null => simp [gen, bind_ok_iff] at h
      | mk name args =>
        have iha := gen_args_lowers args
        simp only [gen, bind_ok_iff, pure_ok_iff] at h
        obtain ⟨a0, ⟨a1, h1, rfl⟩, rfl⟩ := h
        obtain ⟨c1, ho1, L1⟩ := iha _ _ h1
        have L := Lowers.call
          (p := .mk ND_FUNC_CALL l r c t e i inc body var val (.mk name args)) rfl rfl L1
        refine Sound.intro ?_ ?_ L
        · by_cases hn : (args.length : Int) > 0 <;> simp [ho1, callCleanup, hn]
        · by_cases hn : (args.length : Int) > 0 <;> simp [hn]
    all_goals
      simp only [gen, bind_ok_iff, pure_ok_iff] at h
      exact sound_binary ihl ihr h
theorem gen_body_lowers : ∀ (l : NDList) (s s' : GenState),
    gen_body l s = .ok s' → Sound (.body l) s s'
  | .nil, s, s', h => by
    simp only [gen_body, Except.ok.injEq] at h
    subst h
    exact ⟨[], by simp, .body_nil _⟩
  | .cons n rest, s, s', h => by
    simp only [gen_body, bind_ok_iff] at h
    obtain ⟨a, h1, h2⟩ := h
    obtain ⟨c1, ho1, L1⟩ := gen_lowers n _ _ h1
    obtain ⟨c2, ho2, L2⟩ := gen_body_lowers rest _ _ h2
    exact ⟨c1 ++ c2, by simp [ho1, ho2], .body_cons L1 L2⟩
theorem gen_args_lowers : ∀ (l : NDList) (s s' : GenState),
    gen_args l s = .ok s' → Sound (.args l) s s'
  | .nil, s, s', h => by
    simp only [gen_args, Except.ok.injEq] at h
    subst h
    exact ⟨[], by simp, .args_nil _⟩
  | .cons n rest, s, s', h => by
    simp only [gen_args, bind_ok_iff] at h
    obtain ⟨a, h1, h2⟩ := h
    obtain ⟨c1, ho1, L1⟩ := gen_args_lowers rest _ _ h1
    obtain ⟨c2, ho2, L2⟩ := gen_lowers n _ _ h2
    exact ⟨c1 ++ c2, by simp [ho1, ho2], .args_cons L1 L2⟩
end

@[simp] theorem withOut_ctx (x : Ctx) (o : List Instr) : (x.withOut o).ctx = x := rfl
@[simp] theorem withOut_out (x : Ctx) (o : List Instr) : (x.withOut o).out = o := rfl
theorem withOut_eta (s : GenState) : s.ctx.withOut s.out = s := rfl
@[simp] theorem withOut_label_seq (x : Ctx) (o : List Instr) :
    (x.withOut o).label_seq = x.label_seq := rfl
@[simp] theorem withOut_brk_seq (x : Ctx) (o : List Instr) :
    (x.withOut o).brk_seq = x.brk_seq := rfl
@[simp] theorem withOut_cont_seq (x : Ctx) (o : List Instr) :
    (x.withOut o).cont_seq = x.cont_seq := rfl
@[simp] theorem withOut_hot_func (x : Ctx) (o : List Instr) :
    (x.withOut o).hot_func = x.hot_func := rfl
@[simp] theorem emit_withOut (i : Instr) (x : Ctx) (o : List Instr) :
    emit i (x.withOut o) = x.withOut (o ++ [i]) := rfl
@[simp] theorem emits_withOut (c : List Instr) (x : Ctx) (o : List Instr) :
    emits c (x.withOut o) = x.withOut (o ++ c) := rfl
@[simp] theorem push_withOut (r : String) (x : Ctx) (o : List Instr) :
    push r (x.withOut o) = x.withOut (o ++ pushCode r) := by
  simp [push, pushCode]
@[simp] theorem pop_withOut (r : String) (x : Ctx) (o : List Instr) :
    pop r (x.withOut o) = x.withOut (o ++ popCode r) := by
  simp [pop, popCode]
@[simp] theorem label_withOut (t : String) (n : Int) (x : Ctx) (o : List Instr) :
    label t n (x.withOut o) = x.withOut (o ++ [.label t n]) := rfl
@[simp] theorem jmp_withOut (t : String) (n : Int) (x : Ctx) (o : List Instr) :
    jmp t n (x.withOut o) = x.withOut (o ++ [.j t n]) := rfl
@[simp] theorem beqz_withOut (r t : String) (n : Int) (x : Ctx) (o : List Instr) :
    beqz r t n (x.withOut o) = x.withOut (o ++ [.beqz r t n]) := rfl
@[simp] theorem bnez_withOut (r t : String) (n : Int) (x : Ctx) (o : List Instr) :
    bnez r t n (x.withOut o) = x.withOut (o ++ [.bnez r t n]) := rfl
@[simp] theorem next_label_seq_withOut (x : Ctx) (o : List Instr) :
    next_label_seq (x.withOut o) = x.bump.withOut o := rfl
@[simp] theorem set_last_node_withOut (p : NDPtr) (x : Ctx) (o : List Instr) :
    set_last_node p (x.withOut o) = (x.setLast p).withOut o := rfl
theorem enter_withOut (x : Ctx) (o : List Instr) :
    set_targets x.label_seq x.label_seq (x.bump.withOut o) = x.enter.withOut o := rfl
theorem leave_withOut (x y : Ctx) (o : List Instr) :
    set_targets x.brk_seq x.cont_seq (y.withOut o) = (x.leave y).withOut o := rfl

@[simp] theorem bump_leave (x y : Ctx) : x.bump.leave y = x.leave y := rfl
@[simp] theorem bump_label_seq (x : Ctx) : x.bump.label_seq = x.label_seq + 1 := rfl
@[simp] theorem bump_brk_seq (x : Ctx) : x.bump.brk_seq = x.brk_seq := rfl
@[simp] theorem bump_cont_seq (x : Ctx) : x.bump.cont_seq = x.cont_seq := rfl

theorem withOut_inj {x y : Ctx} {o o' : List Instr} (h : x.withOut o = y.withOut o') :
    x = y ∧ o = o' := by
  have h1 := congrArg GenState.ctx h
  have h2 := congrArg GenState.out h
  exact ⟨h1, h2⟩

@[simp] theorem mk_lexpr (k l r c t e i n b v a f) : (NDPtr.mk k l r c t e i n b v a f).lexpr = l := rfl
@[simp] theorem mk_rexpr (k l r c t e i n b v a f) : (NDPtr.mk k l r c t e i n b v a f).rexpr = r := rfl
@[simp] theorem mk_cond (k l r c t e i n b v a f) : (NDPtr.mk k l r c t e i n b v a f).cond = c := rfl
@[simp] theorem mk_then (k l r c t e i n b v a f) : (NDPtr.mk k l r c t e i n b v a f).then_ = t := rfl
@[simp] theorem mk_els (k l r c t e i n b v a f) : (NDPtr.mk k l r c t e i n b v a f).els = e := rfl
@[simp] theorem mk_init (k l r c t e i n b v a f) : (NDPtr.mk k l r c t e i n b v a f).init = i := rfl
@[simp] theorem mk_inc (k l r c t e i n b v a f) : (NDPtr.mk k l r c t e i n b v a f).inc = n := rfl
@[simp] theorem mk_body (k l r c t e i n b v a f) : (NDPtr.mk k l r c t e i n b v a f).body = b := rfl
@[simp] theorem mk_var (k l r c t e i n b v a f) : (NDPtr.mk k l r c t e i n b v a f).var = v := rfl
@[simp] theorem mk_val (k l r c t e i n b v a f) : (NDPtr.mk k l r c t e i n b v a f).val = a := rfl
@[simp] theorem mk_func_call (k l r c t e i n b v a f) :
    (NDPtr.mk k l r c t e i n b v a f).func_call = f := rfl
@[simp] theorem mk_kind (k l r c t e i n b v a f) :
    (NDPtr.mk k l r c t e i n b v a f).kind? = some k := rfl
@[simp] theorem mk_isNull (k l r c t e i n b v a f) :
    (NDPtr.mk k l r c t e i n b v a f).isNull = false := rfl
@[simp] theorem null_isNull : NDPtr.null.isNull = true := rfl

theorem isNull_iff {p : NDPtr} : p.isNull = true ↔ p = .null := by
  cases p <;> simp

theorem gen_null_inv {x y : Ctx} {c : List Instr}
    (h : ∀ o, gen .null (x.withOut o) = .ok (y.withOut (o ++ c))) : y = x ∧ c = [] := by
  have h0 := h []
  simp only [gen, Except.ok.injEq, List.nil_append] at h0
  obtain ⟨h1, h2⟩ := withOut_inj h0
  exact ⟨h1.symm, h2.symm⟩

theorem node_eta {p : NDPtr} {k : NodeKind} (h : p.kind? = some k) :
    p = .mk k p.lexpr p.rexpr p.cond p.then_ p.els p.init p.inc p.body p.var p.val p.func_call := by
  cases p with
  | null => simp [NDPtr.kind?] at h
  | mk k' l r c t e i inc body var val fc =>
    simp only [NDPtr.kind?, Option.some.injEq] at h
    subst h
    rfl

theorem lowers_run {item : Item} {x y : Ctx} {c : List Instr} (L : Lowers item x c y) :
    ∀ o, run item (x.withOut o) = .ok (y.withOut (o ++ c)) := by
  induction L with
  | null x => intro o; simp [run, gen]
  | ret hk L1 hf ih =>
    intro o
    rw [node_eta hk]
    simp only [run] at ih ⊢
    simp [gen, ih, hf, bind, Except.bind, pure, Except.pure]
  | decl_none hk hv hn =>
    intro o
    rw [node_eta hk, hv]
    simp [run, gen, hn, bind, Except.bind, pure, Except.pure]
  | decl_init hk hv hn L1 ih =>
    intro o
    rw [node_eta hk, hv]
    simp only [run] at ih ⊢
    simp [gen, ih, hn, bind, Except.bind, pure, Except.pure, store_var, var_offset, store,
      varDisp]
  | unused_none hk hn =>
    intro o
    rw [node_eta hk]
    simp [run, gen, hn, bind, Except.bind, pure, Except.pure]
  | unused_some hk hn L1 ih =>
    intro o
    rw [node_eta hk]
    simp only [run] at ih ⊢
    simp [gen, ih, hn, bind, Except.bind, pure, Except.pure]
  | if_then hk hn L1 L2 ih1 ih2 =>
    intro o
    rw [node_eta hk]
    simp only [run] at ih1 ih2 ⊢
    simp [gen, ih1, ih2, hn, bind, Except.bind, pure, Except.pure]
  | if_else hk hn L1 L2 L3 ih1 ih2 ih3 =>
    intro o
    rw [node_eta hk]
    simp only [run] at ih1 ih2 ih3 ⊢
    simp [gen, ih1, ih2, ih3, hn, bind, Except.bind, pure, Except.pure]
  | block hk L1 ih =>
    intro o
    rw [node_eta hk]
    simp only [run] at ih ⊢
    simp [gen, ih, bind, Except.bind, pure, Except.pure]
  | for_ hk L1 L2 L3 L4 ih1 ih2 ih3 ih4 =>
    rename_i p x x1 x2 x3 x4 ci cc ct cn
    intro o
    rw [node_eta hk]
    simp only [run] at ih1 ih2 ih3 ih4 ⊢
    by_cases hc : p.cond.isNull = true <;> by_cases hi : p.inc.isNull = true
    · rw [isNull_iff.mp hc] at ih2
      rw [isNull_iff.mp hi] at ih4
      obtain ⟨rfl, rfl⟩ := gen_null_inv ih2
      obtain ⟨rfl, rfl⟩ := gen_null_inv ih4
      simp [gen, enter_withOut, leave_withOut, ih1, ih3, hc, hi, forTest, bind,
        Except.bind, pure, Except.pure]
    · rw [isNull_iff.mp hc] at ih2
      obtain ⟨rfl, rfl⟩ := gen_null_inv ih2
      simp [gen, enter_withOut, leave_withOut, ih1, ih3, ih4, hc, hi, forTest, bind,
        Except.bind, pure, Except.pure]
    · rw [isNull_iff.mp hi] at ih4
      obtain ⟨rfl, rfl⟩ := gen_null_inv ih4
      simp [gen, enter_withOut, leave_withOut, ih1, ih2, ih3, hc, hi, forTest, bind,
        Except.bind, pure, Except.pure]
    · simp [gen, enter_withOut, leave_withOut, ih1, ih2, ih3, ih4, hc, hi, forTest, bind,
        Except.bind, pure, Except.pure]
  | while_ hk L1 L2 ih1 ih2 =>
    intro o
    rw [node_eta hk]
    simp only [run] at ih1 ih2 ⊢
    simp [gen, enter_withOut, leave_withOut, ih1, ih2, bind, Except.bind, pure, Except.pure]
  | dowhile hk L1 L2 ih1 ih2 =>
    intro o
    rw [node_eta hk]
    simp only [run] at ih1 ih2 ⊢
    simp [gen, enter_withOut, leave_withOut, ih1, ih2, bind, Except.bind, pure, Except.pure]
  | brk hk =>
    intro o
    rw [node_eta hk]
    simp [run, gen, bind, Except.bind, pure, Except.pure]
  | cont hk =>
    intro o
    rw [node_eta hk]
    simp [run, gen, bind, Except.bind, pure, Except.pure]
  | num hk =>
    intro o
    rw [node_eta hk]
    simp [run, gen, bind, Except.bind, pure, Except.pure, NDPtr.val]
  | unary hk hop L1 ih =>
    rename_i p k x x1 c op
    intro o
    rw [node_eta hk]
    simp only [run] at ih ⊢
    cases k <;> simp [unaryOp] at hop <;> subst hop <;>
      simp [gen, ih, bind, Except.bind, pure, Except.pure]
  | var hk hv =>
    intro o
    rw [node_eta hk, hv]
    simp [run, gen, bind, Except.bind, pure, Except.pure, load_var, var_offset, load,
      VarPtr.isNull, varDisp]
  | assign hk hlk hv L1 ih =>
    rename_i p x x1 c a o' vinit
    intro o
    have hl := node_eta hlk
    rw [hv] at hl
    rw [node_eta hk]
    simp only [run] at ih ⊢
    rw [hl]
    simp [gen, ih, bind, Except.bind, pure, Except.pure, check_lvalue, deref_var, store_var,
      var_offset, store, varDisp]
  | ternary hk L1 L2 L3 ih1 ih2 ih3 =>
    intro o
    rw [node_eta hk]
    simp only [run] at ih1 ih2 ih3 ⊢
    simp [gen, ih1, ih2, ih3, bind, Except.bind, pure, Except.pure]
  | call hk hf L1 ih =>
    rename_i p x x1 c name args
    intro o
    rw [node_eta hk, hf]
    simp only [run] at ih ⊢
    by_cases hn : (args.length : Int) > 0 <;>
      simp [gen, ih, bind, Except.bind, pure, Except.pure, callCleanup, hn]
  | binary hk hop L1 L2 ih1 ih2 =>
    rename_i p k x x1 x2 cl cr ops
    intro o
    rw [node_eta hk]
    simp only [run] at ih1 ih2 ⊢
    cases k <;> simp [binaryOp] at hop <;> subst hop <;>
      simp [gen, ih1, ih2, bind, Except.bind, pure, Except.pure, gen_binary_tail, binaryOp]
  | body_nil x => intro o; simp [run, gen_body]
  | body_cons L1 L2 ih1 ih2 =>
    intro o
    simp only [run] at ih1 ih2 ⊢
    simp [gen_body, ih1, ih2, bind, Except.bind]
  | args_nil x => intro o; simp [run, gen_args]
  | args_cons L1 L2 ih1 ih2 =>
    intro o
    simp only [run] at ih1 ih2 ⊢
    simp [gen_args, ih1, ih2, bind, Except.bind]

theorem gen_ok_iff {p : NDPtr} {s s' : GenState} :
    gen p s = .ok s' ↔ ∃ c, s'.out = s.out ++ c ∧ Lowers (.node p) s.ctx c s'.ctx := by
  constructor
  · exact gen_lowers p s s'
  · rintro ⟨c, hc, L⟩
    have h := lowers_run L s.out
    rw [withOut_eta, ← hc, withOut_eta] at h
    exact h

theorem gen_body_ok_iff {l : NDList} {s s' : GenState} :
    gen_body l s = .ok s' ↔ ∃ c, s'.out = s.out ++ c ∧ Lowers (.body l) s.ctx c s'.ctx := by
  constructor
  · exact gen_body_lowers l s s'
  · rintro ⟨c, hc, L⟩
    have h := lowers_run L s.out
    rw [withOut_eta, ← hc, withOut_eta] at h
    exact h

theorem lower_ok_iff {p : NDPtr} {x y : Ctx} {c : List Instr} :
    lower p x = .ok (c, y) ↔ Lowers (.node p) x c y := by
  unfold lower
  constructor
  · intro h
    split at h
    · simp at h
    · rename_i s hs
      simp only [Except.ok.injEq, Prod.mk.injEq] at h
      obtain ⟨c', hc, L⟩ := gen_lowers _ _ _ hs
      simp only [withOut_out, List.nil_append, withOut_ctx] at hc L
      rw [← h.1, ← h.2, hc]
      exact L
  · intro L
    have h := lowers_run L []
    simp only [run, List.nil_append] at h
    rw [h]
    rfl

/-- The output of `gen` from any state is the earlier output followed by the
lines that `lower` gives for the global variables of that state. -/
theorem gen_ok_iff_lower {p : NDPtr} {s s' : GenState} :
    gen p s = .ok s' ↔ ∃ c, lower p s.ctx = .ok (c, s'.ctx) ∧ s'.out = s.out ++ c := by
  rw [gen_ok_iff]
  constructor
  · rintro ⟨c, hc, L⟩
    exact ⟨c, lower_ok_iff.mpr L, hc⟩
  · rintro ⟨c, hl, hc⟩
    exact ⟨c, hc, lower_ok_iff.mp hl⟩

theorem Lowers.frame {item : Item} {x y : Ctx} {c : List Instr} (L : Lowers item x c y) :
    x.label_seq ≤ y.label_seq ∧ y.brk_seq = x.brk_seq ∧ y.cont_seq = x.cont_seq ∧
      y.hot_func = x.hot_func := by
  induction L with
  | null | body_nil | args_nil => simp
  | decl_none | unused_none | brk | cont | num | var => simp [Ctx.setLast]
  | ret _ _ _ ih | decl_init _ _ _ _ ih | unused_some _ _ _ ih | block _ _ ih
  | unary _ _ _ ih | assign _ _ _ _ ih | call _ _ _ ih =>
    simpa [Ctx.setLast] using ih
  | if_then _ _ _ _ ih1 ih2 | while_ _ _ _ ih1 ih2 | dowhile _ _ _ ih1 ih2
  | binary _ _ _ _ ih1 ih2 | body_cons _ _ ih1 ih2 | args_cons _ _ ih1 ih2 =>
    simp only [Ctx.setLast, Ctx.bump, Ctx.enter, Ctx.leave] at ih1 ih2 ⊢
    refine ⟨by omega, ?_, ?_, ?_⟩ <;> simp [ih1, ih2]
  | if_else _ _ _ _ _ ih1 ih2 ih3 | ternary _ _ _ _ ih1 ih2 ih3 =>
    simp only [Ctx.setLast, Ctx.bump, Ctx.enter, Ctx.leave] at ih1 ih2 ih3 ⊢
    refine ⟨by omega, ?_, ?_, ?_⟩ <;> simp [ih1, ih2, ih3]
  | for_ _ _ _ _ _ ih1 ih2 ih3 ih4 =>
    simp only [Ctx.setLast, Ctx.bump, Ctx.enter, Ctx.leave] at ih1 ih2 ih3 ih4 ⊢
    refine ⟨by omega, ?_, ?_, ?_⟩ <;> simp [ih1, ih2, ih3, ih4]

theorem unary_not_binary {k : NodeKind} {op : Instr} (h : unaryOp k = some op) :
    binaryOp k = none := by
  cases k <;> simp [unaryOp] at h <;> rfl

theorem Lowers.binary_inv {p : NDPtr} {k : NodeKind} {ops : List Instr} {x y : Ctx}
    {c : List Instr} (hk : p.kind? = some k) (hop : binaryOp k = some ops)
    (L : Lowers (.node p) x c y) :
    ∃ cl cr x1 x2, Lowers (.node p.lexpr) x cl x1 ∧ Lowers (.node p.rexpr) x1 cr x2 ∧
      c = cl ++ cr ++ popCode "t1" ++ popCode "t0" ++ ops ++ pushCode "t0" ∧
      y = x2.setLast p := by
  cases L with
  | binary hk' hop' L1 L2 =>
    rw [hk] at hk'
    cases hk'
    rw [hop] at hop'
    cases hop'
    exact ⟨_, _, _, _, L1, L2, rfl, rfl⟩
  | unary hk' hop' L1 =>
    rw [hk] at hk'
    cases hk'
    rw [unary_not_binary hop'] at hop
    cases hop
  | null => simp [NDPtr.kind?] at hk
  | _ =>
    simp only [hk, Option.some.injEq] at *
    subst_vars
    simp [binaryOp] at hop

theorem Lowers.for_inv {p : NDPtr} {x y : Ctx} {c : List Instr} (hk : p.kind? = some ND_FOR)
    (L : Lowers (.node p) x c y) :
    ∃ ci cc ct cn x1 x2 x3 x4, Lowers (.node p.init) x.enter ci x1 ∧
      Lowers (.node p.cond) x1 cc x2 ∧ Lowers (.node p.then_) x2 ct x3 ∧
      Lowers (.node p.inc) x3 cn x4 ∧
      c = ci ++ [.label BEGIN x.label_seq] ++ forTest p.cond cc x.label_seq ++ ct
          ++ [.label CONTINUE x.label_seq] ++ cn
          ++ [.j BEGIN x.label_seq, .label EXIT x.label_seq] ∧
      y = (x.leave x4).setLast p := by
  cases L with
  | for_ _ L1 L2 L3 L4 => exact ⟨_, _, _, _, _, _, _, _, L1, L2, L3, L4, rfl, rfl⟩
  | null => simp [NDPtr.kind?] at hk
  | unary hk' hop' => simp [hk] at hk'; subst hk'; simp [unaryOp] at hop'
  | binary hk' hop' => simp [hk] at hk'; subst hk'; simp [binaryOp] at hop'
  | _ => simp [hk] at *

theorem Lowers.if_inv {p : NDPtr} {x y : Ctx} {c : List Instr} (hk : p.kind? = some ND_IF)
    (L : Lowers (.node p) x c y) :
    ∃ cc ct ce x1 x2 x3, Lowers (.node p.cond) x.bump cc x1 ∧
      Lowers (.node p.then_) x1 ct x2 ∧ Lowers (.node p.els) x2 ce x3 ∧
      (p.els.isNull = true →
        c = cc ++ popCode "t0" ++ [.beqz "t0" EXIT x.label_seq] ++ ct
          ++ [.label EXIT x.label_seq]) ∧
      (p.els.isNull = false →
        c = cc ++ popCode "t0" ++ [.beqz "t0" ELSE x.label_seq] ++ ct
          ++ [.j EXIT x.label_seq, .label ELSE x.label_seq] ++ ce ++ [.label EXIT x.label_seq]) ∧
      y = x3.setLast p := by
  cases L with
  | if_then _ hn L1 L2 =>
    refine ⟨_, _, [], _, _, _, L1, L2, ?_, fun _ => rfl, by simp [hn], rfl⟩
    rw [isNull_iff.mp hn]
    exact .null _
  | if_else _ hn L1 L2 L3 =>
    exact ⟨_, _, _, _, _, _, L1, L2, L3, by simp [hn], fun _ => rfl, rfl⟩
  | null => simp [NDPtr.kind?] at hk
  | unary hk' hop' => simp [hk] at hk'; subst hk'; simp [unaryOp] at hop'
  | binary hk' hop' => simp [hk] at hk'; subst hk'; simp [binaryOp] at hop'
  | _ => simp [hk] at *

theorem Lowers.ternary_inv {p : NDPtr} {x y : Ctx} {c : List Instr}
    (hk : p.kind? = some ND_TERNARY) (L : Lowers (.node p) x c y) :
    ∃ cc ct ce x1 x2 x3, Lowers (.node p.cond) x.bump cc x1 ∧
      Lowers (.node p.then_) x1 ct x2 ∧ Lowers (.node p.els) x2 ce x3 ∧
      c = cc ++ popCode "t0" ++ [.beqz "t0" ELSE x.label_seq] ++ ct
          ++ [.j EXIT x.label_seq, .label ELSE x.label_seq] ++ ce ++ [.label EXIT x.label_seq] ∧
      y = x3.setLast p := by
  cases L with
  | ternary _ L1 L2 L3 => exact ⟨_, _, _, _, _, _, L1, L2, L3, rfl, rfl⟩
  | null => simp [NDPtr.kind?] at hk
  | unary hk' hop' => simp [hk] at hk'; subst hk'; simp [unaryOp] at hop'
  | binary hk' hop' => simp [hk] at hk'; subst hk'; simp [binaryOp] at hop'
  | _ => simp [hk] at *

theorem Lowers.call_inv {p : NDPtr} {x y : Ctx} {c : List Instr} {name : String} {args : NDList}
    (hk : p.kind? = some ND_FUNC_CALL) (hf : p.func_call = .mk name args)
    (L : Lowers (.node p) x c y) :
    ∃ ca x1, Lowers (.args args) x ca x1 ∧
      c = ca ++ [.call name] ++ callCleanup args.length ++ pushCode "a0" ∧
      y = x1.setLast p := by
  cases L with
  | call _ hf' L1 =>
    rw [hf] at hf'
    cases hf'
    exact ⟨_, _, L1, rfl, rfl⟩
  | null => simp [NDPtr.kind?] at hk
  | unary hk' hop' => simp [hk] at hk'; subst hk'; simp [unaryOp] at hop'
  | binary hk' hop' => simp [hk] at hk'; subst hk'; simp [binaryOp] at hop'
  | _ => simp [hk] at *

theorem Lowers.null_inv {x y : Ctx} {c : List Instr} (L : Lowers (.node .null) x c y) :
    c = [] ∧ y = x := by
  cases L with
  | null => exact ⟨rfl, rfl⟩
  | _ => simp_all [NDPtr.kind?]

@[simp] theorem labelDefs_nil : labelDefs [] = [] := rfl
@[simp] theorem labelDefs_append (c d : List Instr) :
    labelDefs (c ++ d) = labelDefs c ++ labelDefs d := by
  simp [labelDefs]
@[simp] theorem labelDefs_cons_label (t : String) (n : Int) (c : List Instr) :
    labelDefs (.label t n :: c) = (t, n) :: labelDefs c := rfl
@[simp] theorem labelDefs_cons_j (t : String) (n : Int) (c : List Instr) :
    labelDefs (.j t n :: c) = labelDefs c := rfl
@[simp] theorem labelDefs_cons_beqz (r t : String) (n : Int) (c : List Instr) :
    labelDefs (.beqz r t n :: c) = labelDefs c := rfl
@[simp] theorem labelDefs_cons_bnez (r t : String) (n : Int) (c : List Instr) :
    labelDefs (.bnez r t n :: c) = labelDefs c := rfl
@[simp] theorem labelDefs_popCode (r : String) : labelDefs (popCode r) = [] := rfl
@[simp] theorem labelDefs_pushCode (r : String) : labelDefs (pushCode r) = [] := rfl
@[simp] theorem labelDefs_cons_j_fn (t m : String) (c : List Instr) :
    labelDefs (.j_fn t m :: c) = labelDefs c := rfl
@[simp] theorem labelDefs_cons_sw_fp (r : String) (n : Int) (c : List Instr) :
    labelDefs (.sw_fp r n :: c) = labelDefs c := rfl
@[simp] theorem labelDefs_cons_lw_fp (r : String) (n : Int) (c : List Instr) :
    labelDefs (.lw_fp r n :: c) = labelDefs c := rfl
@[simp] theorem labelDefs_cons_li (r : String) (n : Int) (c : List Instr) :
    labelDefs (.li r n :: c) = labelDefs c := rfl
@[simp] theorem labelDefs_cons_call (m : String) (c : List Instr) :
    labelDefs (.call m :: c) = labelDefs c := rfl
@[simp] theorem labelDefs_callCleanup (n : Nat) : labelDefs (callCleanup n) = [] := by
  unfold callCleanup
  split <;> rfl
theorem labelDefs_unaryOp {k : NodeKind} {op : Instr} (h : unaryOp k = some op)
    (c : List Instr) : labelDefs (op :: c) = labelDefs c := by
  cases k <;> simp [unaryOp] at h <;> subst h <;> rfl
theorem labelDefs_binaryOp {k : NodeKind} {ops : List Instr} (h : binaryOp k = some ops) :
    labelDefs ops = [] := by
  cases k <;> simp [binaryOp] at h <;> subst h <;> rfl

@[simp] theorem labelRefs_nil : labelRefs [] = [] := rfl
@[simp] theorem labelRefs_append (c d : List Instr) :
    labelRefs (c ++ d) = labelRefs c ++ labelRefs d := by
  simp [labelRefs]
@[simp] theorem labelRefs_cons_label (t : String) (n : Int) (c : List Instr) :
    labelRefs (.label t n :: c) = labelRefs c := rfl
@[simp] theorem labelRefs_cons_j (t : String) (n : Int) (c : List Instr) :
    labelRefs (.j t n :: c) = (t, n) :: labelRefs c := rfl
@[simp] theorem labelRefs_cons_beqz (r t : String) (n : Int) (c : List Instr) :
    labelRefs (.beqz r t n :: c) = (t, n) :: labelRefs c := rfl
@[simp] theorem labelRefs_cons_bnez (r t : String) (n : Int) (c : List Instr) :
    labelRefs (.bnez r t n :: c) = (t, n) :: labelRefs c := rfl
@[simp] theorem labelRefs_popCode (r : String) : labelRefs (popCode r) = [] := rfl
@[simp] theorem labelRefs_pushCode (r : String) : labelRefs (pushCode r) = [] := rfl
@[simp] theorem labelRefs_cons_j_fn (t m : String) (c : List Instr) :
    labelRefs (.j_fn t m :: c) = labelRefs c := rfl
@[simp] theorem labelRefs_cons_sw_fp (r : String) (n : Int) (c : List Instr) :
    labelRefs (.sw_fp r n :: c) = labelRefs c := rfl
@[simp] theorem labelRefs_cons_lw_fp (r : String) (n : Int) (c : List Instr) :
    labelRefs (.lw_fp r n :: c) = labelRefs c := rfl
@[simp] theorem labelRefs_cons_li (r : String) (n : Int) (c : List Instr) :
    labelRefs (.li r n :: c) = labelRefs c := rfl
@[simp] theorem labelRefs_cons_call (m : String) (c : List Instr) :
    labelRefs (.call m :: c) = labelRefs c := rfl
@[simp] theorem labelRefs_callCleanup (n : Nat) : labelRefs (callCleanup n) = [] := by
  unfold callCleanup
  split <;> rfl
theorem labelRefs_unaryOp {k : NodeKind} {op : Instr} (h : unaryOp k = some op)
    (c : List Instr) : labelRefs (op :: c) = labelRefs c := by
  cases k <;> simp [unaryOp] at h <;> subst h <;> rfl
theorem labelRefs_binaryOp {k : NodeKind} {ops : List Instr} (h : binaryOp k = some ops) :
    labelRefs ops = [] := by
  cases k <;> simp [binaryOp] at h <;> subst h <;> rfl

theorem labelDefs_forTest (p : NDPtr) (cc : List Instr) (n : Int) :
    labelDefs (forTest p cc n) = if p.isNull then [] else labelDefs cc := by
  unfold forTest
  split <;> simp

theorem labelRefs_forTest (p : NDPtr) (cc : List Instr) (n : Int) :
    labelRefs (forTest p cc n) = if p.isNull then [] else labelRefs cc ++ [(EXIT, n)] := by
  unfold forTest
  split <;> simp

theorem DefsIn.mono_defs {c : List Instr} {a b a' b' : Int} (h : DefsIn c a b) (ha : a' ≤ a)
    (hb : b ≤ b') : DefsIn c a' b' := by
  intro t n hm
  have := h t n hm
  omega

theorem RefsIn.mono_refs {c : List Instr} {a b a' b' brk cont : Int} (h : RefsIn c a b brk cont)
    (ha : a' ≤ a) (hb : b ≤ b') : RefsIn c a' b' brk cont := by
  intro t n hm
  rcases h t n hm with h1 | h1 | h1
  · left; omega
  · right; left; exact h1
  · right; right; exact h1

/-- Inside a loop of number `s`, the targets `brk` and `cont` are `s`, which is
in the range of the loop. -/
theorem RefsIn.inner {c : List Instr} {a b a' b' s brk cont : Int} (h : RefsIn c a b s s)
    (ha : a' ≤ a) (hb : b ≤ b') (hs : a' ≤ s ∧ s < b') : RefsIn c a' b' brk cont := by
  intro t n hm
  rcases h t n hm with h1 | h1 | h1
  · left; omega
  · left; omega
  · left; omega

theorem DefsIn_of_nil {c : List Instr} (h : labelDefs c = []) (a b : Int) : DefsIn c a b := by
  intro t n hm
  simp [h] at hm

theorem RefsIn_of_nil {c : List Instr} (h : labelRefs c = []) (a b brk cont : Int) :
    RefsIn c a b brk cont := by
  intro t n hm
  simp [h] at hm

theorem DefsIn_append {c d : List Instr} {a b : Int} :
    DefsIn (c ++ d) a b ↔ DefsIn c a b ∧ DefsIn d a b := by
  simp only [DefsIn, labelDefs_append, List.mem_append]
  constructor
  · intro h
    exact ⟨fun t n hm => h t n (Or.inl hm), fun t n hm => h t n (Or.inr hm)⟩
  · rintro ⟨h1, h2⟩ t n (hm | hm)
    · exact h1 t n hm
    · exact h2 t n hm

theorem RefsIn_append {c d : List Instr} {a b brk cont : Int} :
    RefsIn (c ++ d) a b brk cont ↔ RefsIn c a b brk cont ∧ RefsIn d a b brk cont := by
  simp only [RefsIn, labelRefs_append, List.mem_append]
  constructor
  · intro h
    exact ⟨fun t n hm => h t n (Or.inl hm), fun t n hm => h t n (Or.inr hm)⟩
  · rintro ⟨h1, h2⟩ t n (hm | hm)
    · exact h1 t n hm
    · exact h2 t n hm

theorem DefsIn_label {t : String} {n a b : Int} : DefsIn [.label t n] a b ↔ a ≤ n ∧ n < b := by
  simp [DefsIn]

theorem RefsIn_label (t : String) (n a b brk cont : Int) : RefsIn [.label t n] a b brk cont :=
  RefsIn_of_nil (c := [.label t n]) rfl _ _ _ _

theorem DefsIn_j (t : String) (n a b : Int) : DefsIn [.j t n] a b :=
  DefsIn_of_nil (c := [.j t n]) rfl _ _
theorem DefsIn_beqz (r t : String) (n a b : Int) : DefsIn [.beqz r t n] a b :=
  DefsIn_of_nil (c := [.beqz r t n]) rfl _ _
theorem DefsIn_bnez (r t : String) (n a b : Int) : DefsIn [.bnez r t n] a b :=
  DefsIn_of_nil (c := [.bnez r t n]) rfl _ _

theorem RefsIn_j {t : String} {n a b brk cont : Int} (h : a ≤ n ∧ n < b) :
    RefsIn [.j t n] a b brk cont := by
  intro t' n' hm
  simp at hm
  left
  omega

theorem RefsIn_beqz {r t : String} {n a b brk cont : Int} (h : a ≤ n ∧ n < b) :
    RefsIn [.beqz r t n] a b brk cont := by
  intro t' n' hm
  simp at hm
  left
  omega

theorem RefsIn_bnez {r t : String} {n a b brk cont : Int} (h : a ≤ n ∧ n < b) :
    RefsIn [.bnez r t n] a b brk cont := by
  intro t' n' hm
  simp at hm
  left
  omega

theorem DefsIn_cons2 {i j : Instr} {c : List Instr} {a b : Int} :
    DefsIn (i :: j :: c) a b ↔ DefsIn [i] a b ∧ DefsIn (j :: c) a b :=
  DefsIn_append (c := [i]) (d := j :: c)

theorem RefsIn_cons2 {i j : Instr} {c : List Instr} {a b brk cont : Int} :
    RefsIn (i :: j :: c) a b brk cont ↔ RefsIn [i] a b brk cont ∧ RefsIn (j :: c) a b brk cont :=
  RefsIn_append (c := [i]) (d := j :: c)

theorem DefsIn_forTest {p : NDPtr} {cc : List Instr} {n a b : Int} (h : DefsIn cc a b) :
    DefsIn (forTest p cc n) a b := by
  intro t m hm
  rw [labelDefs_forTest] at hm
  split at hm
  · simp at hm
  · exact h t m hm

theorem RefsIn_forTest {p : NDPtr} {cc : List Instr} {n a b brk cont : Int}
    (h : RefsIn cc a b brk cont) (hn : a ≤ n ∧ n < b) :
    RefsIn (forTest p cc n) a b brk cont := by
  intro t m hm
  rw [labelRefs_forTest] at hm
  split at hm
  · simp at hm
  · simp only [List.mem_append, List.mem_singleton, Prod.mk.injEq] at hm
    rcases hm with hm | hm
    · exact h t m hm
    · left; omega

theorem Lowers.labels {item : Item} {x y : Ctx} {c : List Instr} (L : Lowers item x c y) :
    DefsIn c x.label_seq y.label_seq ∧ RefsIn c x.label_seq y.label_seq x.brk_seq x.cont_seq := by
  induction L with
  | null | body_nil | args_nil | decl_none | unused_none | num | var =>
    constructor <;> intro t n hm <;> simp at hm
  | brk | cont =>
    constructor <;> intro t n hm <;> simp at hm
    all_goals simp [hm]
  | ret _ L1 _ ih | decl_init _ _ _ L1 ih | unused_some _ _ L1 ih | block _ L1 ih
  | assign _ _ _ L1 ih | call _ _ L1 ih =>
    have f1 := L1.frame
    simp only [Ctx.setLast] at *
    refine ⟨?_, ?_⟩
    · try simp only [DefsIn_append]
      and_intros
      all_goals first
        | exact ih.1
        | exact DefsIn_of_nil (by simp) _ _
    · try simp only [RefsIn_append]
      and_intros
      all_goals first
        | exact ih.2
        | exact RefsIn_of_nil (by simp) _ _ _ _
  | unary _ hop L1 ih =>
    have f1 := L1.frame
    simp only [Ctx.setLast] at *
    refine ⟨?_, ?_⟩
    · try simp only [DefsIn_append]
      and_intros
      all_goals first
        | exact ih.1
        | exact DefsIn_of_nil (by simp [labelDefs_unaryOp hop]) _ _
    · try simp only [RefsIn_append]
      and_intros
      all_goals first
        | exact ih.2
        | exact RefsIn_of_nil (by simp [labelRefs_unaryOp hop]) _ _ _ _
  | binary _ hop L1 L2 ih1 ih2 =>
    have f1 := L1.frame
    have f2 := L2.frame
    simp only [Ctx.setLast] at *
    refine ⟨?_, ?_⟩
    · try simp only [DefsIn_append]
      and_intros
      all_goals first
        | exact ih1.1.mono_defs (by omega) (by omega)
        | exact ih2.1.mono_defs (by omega) (by omega)
        | exact DefsIn_of_nil (by simp [labelDefs_binaryOp hop]) _ _
    · try simp only [RefsIn_append]
      and_intros
      all_goals first
        | exact ih1.2.mono_refs (by omega) (by omega)
        | exact (f1.2.1 ▸ f1.2.2.1 ▸ ih2.2).mono_refs (by omega) (by omega)
        | exact RefsIn_of_nil (by simp [labelRefs_binaryOp hop]) _ _ _ _
  | body_cons L1 L2 ih1 ih2 | args_cons L1 L2 ih1 ih2 =>
    have f1 := L1.frame
    have f2 := L2.frame
    refine ⟨?_, ?_⟩
    · simp only [DefsIn_append]
      exact ⟨ih1.1.mono_defs (by omega) (by omega), ih2.1.mono_defs (by omega) (by omega)⟩
    · simp only [RefsIn_append]
      exact ⟨ih1.2.mono_refs (by omega) (by omega),
        (f1.2.1 ▸ f1.2.2.1 ▸ ih2.2).mono_refs (by omega) (by omega)⟩
  | if_then _ _ L1 L2 ih1 ih2 | while_ _ L1 L2 ih1 ih2 | dowhile _ L1 L2 ih1 ih2 =>
    have f1 := L1.frame
    have f2 := L2.frame
    simp only [Ctx.bump, Ctx.setLast, Ctx.enter, Ctx.leave] at *
    simp only [f1.2.1, f1.2.2.1] at ih2
    refine ⟨?_, ?_⟩
    · simp only [DefsIn_append, DefsIn_cons2]
      and_intros
      all_goals first
        | exact ih1.1.mono_defs (by omega) (by omega)
        | exact ih2.1.mono_defs (by omega) (by omega)
        | exact DefsIn_label.mpr (by omega)
        | exact DefsIn_of_nil (by simp) _ _
    · simp only [RefsIn_append, RefsIn_cons2]
      and_intros
      all_goals first
        | exact ih1.2.mono_refs (by omega) (by omega)
        | exact ih2.2.mono_refs (by omega) (by omega)
        | exact ih1.2.inner (by omega) (by omega) (by omega)
        | exact ih2.2.inner (by omega) (by omega) (by omega)
        | exact RefsIn_j (by omega)
        | exact RefsIn_beqz (by omega)
        | exact RefsIn_bnez (by omega)
        | exact RefsIn_of_nil (by simp) _ _ _ _
  | if_else _ _ L1 L2 L3 ih1 ih2 ih3 | ternary _ L1 L2 L3 ih1 ih2 ih3 =>
    have f1 := L1.frame
    have f2 := L2.frame
    have f3 := L3.frame
    simp only [Ctx.bump, Ctx.setLast, Ctx.enter, Ctx.leave] at *
    simp only [f1.2.1, f1.2.2.1] at ih2 f2
    simp only [f2.2.1, f2.2.2.1] at ih3
    refine ⟨?_, ?_⟩
    · simp only [DefsIn_append, DefsIn_cons2]
      and_intros
      all_goals first
        | exact ih1.1.mono_defs (by omega) (by omega)
        | exact ih2.1.mono_defs (by omega) (by omega)
        | exact ih3.1.mono_defs (by omega) (by omega)
        | exact DefsIn_label.mpr (by omega)
        | exact DefsIn_of_nil (by simp) _ _
    · simp only [RefsIn_append, RefsIn_cons2]
      and_intros
      all_goals first
        | exact ih1.2.mono_refs (by omega) (by omega)
        | exact ih2.2.mono_refs (by omega) (by omega)
        | exact ih3.2.mono_refs (by omega) (by omega)
        | exact RefsIn_j (by omega)
        | exact RefsIn_beqz (by omega)
        | exact RefsIn_of_nil (by simp) _ _ _ _
  | for_ _ L1 L2 L3 L4 ih1 ih2 ih3 ih4 =>
    have f1 := L1.frame
    have f2 := L2.frame
    have f3 := L3.frame
    have f4 := L4.frame
    simp only [Ctx.bump, Ctx.setLast, Ctx.enter, Ctx.leave] at *
    simp only [f1.2.1, f1.2.2.1] at ih2 f2
    simp only [f2.2.1, f2.2.2.1] at ih3 f3
    simp only [f3.2.1, f3.2.2.1] at ih4
    refine ⟨?_, ?_⟩
    · simp only [DefsIn_append, DefsIn_cons2]
      and_intros
      all_goals first
        | exact ih1.1.mono_defs (by omega) (by omega)
        | exact DefsIn_forTest (ih2.1.mono_defs (by omega) (by omega))
        | exact ih3.1.mono_defs (by omega) (by omega)
        | exact ih4.1.mono_defs (by omega) (by omega)
        | exact DefsIn_label.mpr (by omega)
        | exact DefsIn_of_nil (by simp) _ _
    · simp only [RefsIn_append, RefsIn_cons2]
      and_intros
      all_goals first
        | exact ih1.2.inner (by omega) (by omega) (by omega)
        | exact RefsIn_forTest (ih2.2.inner (by omega) (by omega) (by omega)) (by omega)
        | exact ih3.2.inner (by omega) (by omega) (by omega)
        | exact ih4.2.inner (by omega) (by omega) (by omega)
        | exact RefsIn_j (by omega)
        | exact RefsIn_of_nil (by simp) _ _ _ _

/-! ## C5: the layout of a `for` loop -/

/-- C5.  A `for` node lowered when the next label number is `s` prints, in
this order: the code of `init`, the label `.L.begin.s`, only when a condition
is present the code of the condition, a pop into `t0` and `beqz t0, .L.exit.s`,
then the code of the body, the label `.L.continue.s`, the code of the
increment (nothing when it is absent), `j .L.begin.s` and the label
`.L.exit.s`.  Each part is what `gen` prints for that child with the global
variables left by the part before it. -/
theorem for_layout (p : NDPtr) (x y : Ctx) (c : List Instr) (hk : p.kind? = some ND_FOR)
    (h : lower p x = .ok (c, y)) :
    ∃ ci cc cb cn x1 x2 x3 x4,
      lower p.init x.enter = .ok (ci, x1) ∧ lower p.cond x1 = .ok (cc, x2) ∧
      lower p.then_ x2 = .ok (cb, x3) ∧ lower p.inc x3 = .ok (cn, x4) ∧
      (p.inc.isNull = true → cn = []) ∧
      c = ci ++ [.label BEGIN x.label_seq]
          ++ (if p.cond.isNull then [] else cc ++ popCode "t0" ++ [.beqz "t0" EXIT x.label_seq])
          ++ cb ++ [.label CONTINUE x.label_seq] ++ cn
          ++ [.j BEGIN x.label_seq, .label EXIT x.label_seq] := by
  obtain ⟨ci, cc, ct, cn, x1, x2, x3, x4, L1, L2, L3, L4, hc, _⟩ :=
    (lower_ok_iff.mp h).for_inv hk
  refine ⟨ci, cc, ct, cn, x1, x2, x3, x4, lower_ok_iff.mpr L1, lower_ok_iff.mpr L2,
    lower_ok_iff.mpr L3, lower_ok_iff.mpr L4, ?_, ?_⟩
  · intro hn
    rw [isNull_iff.mp hn] at L4
    exact L4.null_inv.1
  · rw [hc]
    rfl

/-- The code of `for (; 1; 7) continue;` lowered with next label number 5. -/
theorem for_layout_witness :
    ∃ ci cc cb cn x1 x2 x3 x4,
      lower exFor.init exCtx.enter = .ok (ci, x1) ∧ lower exFor.cond x1 = .ok (cc, x2) ∧
      lower exFor.then_ x2 = .ok (cb, x3) ∧ lower exFor.inc x3 = .ok (cn, x4) ∧
      (exFor.inc.isNull = true → cn = []) ∧
      [Instr.label "begin" 5, .li "t0" 1, .addi_sp_neg 4, .sw_sp "t0", .lw_sp "t0", .addi_sp 4,
        .beqz "t0" "exit" 5, .j "continue" 5, .label "continue" 5, .li "t0" 7, .addi_sp_neg 4,
        .sw_sp "t0", .lw_sp "t0", .addi_sp 4, .j "begin" 5, .label "exit" 5]
        = ci ++ [.label BEGIN exCtx.label_seq]
          ++ (if exFor.cond.isNull then []
              else cc ++ popCode "t0" ++ [.beqz "t0" EXIT exCtx.label_seq])
          ++ cb ++ [.label CONTINUE exCtx.label_seq] ++ cn
          ++ [.j BEGIN exCtx.label_seq, .label EXIT exCtx.label_seq] :=
  for_layout exFor exCtx
    { hot_func := none, last_node := exFor, label_seq := 6, brk_seq := 2, cont_seq := 3 } _
    rfl rfl

/-! ## C6: the layout of a binary node -/

/-- C6.  A node of a kind handled by `gen_binary` (`binaryOp` gives its
operator lines; logical AND and OR are among them) prints exactly: the whole
code of the left operand, the whole code of the right operand (lowered with the
global variables the left one left), a pop into `t1`, a pop into `t0`, the
operator lines, and a push of `t0`.  No operator line is a label, a jump, a
branch, a call or a return, so nothing lets execution skip an operand. -/
theorem binary_layout (p : NDPtr) (k : NodeKind) (ops : List Instr) (x y : Ctx)
    (c : List Instr) (hk : p.kind? = some k) (hop : binaryOp k = some ops)
    (h : lower p x = .ok (c, y)) :
    ∃ cl cr x1 x2,
      lower p.lexpr x = .ok (cl, x1) ∧ lower p.rexpr x1 = .ok (cr, x2) ∧
      c = cl ++ cr ++ popCode "t1" ++ popCode "t0" ++ ops ++ pushCode "t0" ∧
      (∀ i ∈ ops, i.isControl = false) ∧
      binaryOp ND_LOGAND
        = some [.rr "snez" "t0" "t0", .rr "snez" "t1" "t1", .rrr "and" "t0" "t0" "t1"] ∧
      binaryOp ND_LOGOR = some [.rrr "or" "t0" "t0" "t1", .rr "snez" "t0" "t0"] := by
  obtain ⟨cl, cr, x1, x2, L1, L2, hc, _⟩ := (lower_ok_iff.mp h).binary_inv hk hop
  refine ⟨cl, cr, x1, x2, lower_ok_iff.mpr L1, lower_ok_iff.mpr L2, hc, ?_, rfl, rfl⟩
  cases k <;> simp [binaryOp] at hop <;> subst hop <;> simp [Instr.isControl]

/-- The code of `f() && g()`: the call of `f`, then the call of `g`, then the
operator. -/
theorem binary_layout_witness :
    ∃ cl cr x1 x2,
      lower exLogAnd.lexpr exCtx = .ok (cl, x1) ∧ lower exLogAnd.rexpr x1 = .ok (cr, x2) ∧
      [Instr.call "f", .addi_sp_neg 4, .sw_sp "a0", .call "g", .addi_sp_neg 4, .sw_sp "a0",
        .lw_sp "t1", .addi_sp 4, .lw_sp "t0", .addi_sp 4, .rr "snez" "t0" "t0",
        .rr "snez" "t1" "t1", .rrr "and" "t0" "t0" "t1", .addi_sp_neg 4, .sw_sp "t0"]
        = cl ++ cr ++ popCode "t1" ++ popCode "t0"
          ++ [.rr "snez" "t0" "t0", .rr "snez" "t1" "t1", .rrr "and" "t0" "t0" "t1"]
          ++ pushCode "t0" ∧
      (∀ i ∈ [Instr.rr "snez" "t0" "t0", .rr "snez" "t1" "t1", .rrr "and" "t0" "t0" "t1"],
        i.isControl = false) ∧
      binaryOp ND_LOGAND
        = some [.rr "snez" "t0" "t0", .rr "snez" "t1" "t1", .rrr "and" "t0" "t0" "t1"] ∧
      binaryOp ND_LOGOR = some [.rrr "or" "t0" "t0" "t1", .rr "snez" "t0" "t0"] :=
  binary_layout exLogAnd ND_LOGAND _ exCtx
    { hot_func := none, last_node := exLogAnd, label_seq := 5, brk_seq := 2, cont_seq := 3 } _
    rfl rfl rfl

/-- C10, as stated, fails: the code of `1 ? 2 : 3` contains the code of the
then-branch (`li t0, 2` and a push) and the code of the else-branch
(`li t0, 3` and a push), not exactly one of them. -/
theorem ternary_one_branch_counterexample : ¬ LowersExactlyOneBranch exTernary exCtx := by
  intro h
  have h1 := h
    [.li "t0" 1, .addi_sp_neg 4, .sw_sp "t0", .lw_sp "t0", .addi_sp 4, .beqz "t0" "else" 5,
      .li "t0" 2, .addi_sp_neg 4, .sw_sp "t0", .j "exit" 5, .label "else" 5,
      .li "t0" 3, .addi_sp_neg 4, .sw_sp "t0", .label "exit" 5]
    { hot_func := none, last_node := exTernary, label_seq := 6, brk_seq := 2, cont_seq := 3 }
    [.li "t0" 1, .addi_sp_neg 4, .sw_sp "t0"]
    [.li "t0" 2, .addi_sp_neg 4, .sw_sp "t0"]
    [.li "t0" 3, .addi_sp_neg 4, .sw_sp "t0"]
    { hot_func := none, last_node := .num 1, label_seq := 6, brk_seq := 2, cont_seq := 3 }
    { hot_func := none, last_node := .num 2, label_seq := 6, brk_seq := 2, cont_seq := 3 }
    { hot_func := none, last_node := .num 3, label_seq := 6, brk_seq := 2, cont_seq := 3 }
    rfl rfl rfl rfl
  revert h1
  decide

/-- C10, amended.  A ternary node lowered when the next label number is `s`
lowers its condition and both of its branches: it prints the code of the
condition, a pop into `t0`, `beqz t0, .L.else.s`, the code of the then-branch,
`j .L.exit.s`, the label `.L.else.s`, the code of the else-branch and the label
`.L.exit.s`.  The code of both branches is in the output; the branch and the
jump let one of them run. -/
theorem ternary_layout (p : NDPtr) (x y : Ctx) (c : List Instr)
    (hk : p.kind? = some ND_TERNARY) (h : lower p x = .ok (c, y)) :
    ∃ cc ct ce x1 x2 x3,
      lower p.cond x.bump = .ok (cc, x1) ∧ lower p.then_ x1 = .ok (ct, x2) ∧
      lower p.els x2 = .ok (ce, x3) ∧
      c = cc ++ popCode "t0" ++ [.beqz "t0" ELSE x.label_seq] ++ ct
          ++ [.j EXIT x.label_seq, .label ELSE x.label_seq] ++ ce
          ++ [.label EXIT x.label_seq] ∧
      ct <:+: c ∧ ce <:+: c := by
  obtain ⟨cc, ct, ce, x1, x2, x3, L1, L2, L3, hc, _⟩ := (lower_ok_iff.mp h).ternary_inv hk
  refine ⟨cc, ct, ce, x1, x2, x3, lower_ok_iff.mpr L1, lower_ok_iff.mpr L2,
    lower_ok_iff.mpr L3, hc, ?_, ?_⟩
  · rw [hc]
    exact ⟨cc ++ popCode "t0" ++ [.beqz "t0" ELSE x.label_seq],
      [.j EXIT x.label_seq, .label ELSE x.label_seq] ++ ce ++ [.label EXIT x.label_seq],
      by simp⟩
  · rw [hc]
    exact ⟨cc ++ popCode "t0" ++ [.beqz "t0" ELSE x.label_seq] ++ ct
      ++ [.j EXIT x.label_seq, .label ELSE x.label_seq], [.label EXIT x.label_seq], by simp⟩

/-- The code of `1 ? 2 : 3` lowered with next label number 5. -/
theorem ternary_layout_witness :
    ∃ cc ct ce x1 x2 x3,
      lower exTernary.cond exCtx.bump = .ok (cc, x1) ∧ lower exTernary.then_ x1 = .ok (ct, x2) ∧
      lower exTernary.els x2 = .ok (ce, x3) ∧
      [Instr.li "t0" 1, .addi_sp_neg 4, .sw_sp "t0", .lw_sp "t0", .addi_sp 4,
        .beqz "t0" "else" 5, .li "t0" 2, .addi_sp_neg 4, .sw_sp "t0", .j "exit" 5,
        .label "else" 5, .li "t0" 3, .addi_sp_neg 4, .sw_sp "t0", .label "exit" 5]
        = cc ++ popCode "t0" ++ [.beqz "t0" ELSE exCtx.label_seq] ++ ct
          ++ [.j EXIT exCtx.label_seq, .label ELSE exCtx.label_seq] ++ ce
          ++ [.label EXIT exCtx.label_seq] ∧
      ct <:+: [Instr.li "t0" 1, .addi_sp_neg 4, .sw_sp "t0", .lw_sp "t0", .addi_sp 4,
        .beqz "t0" "else" 5, .li "t0" 2, .addi_sp_neg 4, .sw_sp "t0", .j "exit" 5,
        .label "else" 5, .li "t0" 3, .addi_sp_neg 4, .sw_sp "t0", .label "exit" 5] ∧
      ce <:+: [Instr.li "t0" 1, .addi_sp_neg 4, .sw_sp "t0", .lw_sp "t0", .addi_sp 4,
        .beqz "t0" "else" 5, .li "t0" 2, .addi_sp_neg 4, .sw_sp "t0", .j "exit" 5,
        .label "else" 5, .li "t0" 3, .addi_sp_neg 4, .sw_sp "t0", .label "exit" 5] :=
  ternary_layout exTernary exCtx
    { hot_func := none, last_node := exTernary, label_seq := 6, brk_seq := 2, cont_seq := 3 } _
    rfl rfl

theorem lowerAll_append {l1 l2 : List NDPtr} {x x1 y : Ctx} {cs1 cs2 : List (List Instr)}
    (h1 : lowerAll l1 x = .ok (cs1, x1)) (h2 : lowerAll l2 x1 = .ok (cs2, y)) :
    lowerAll (l1 ++ l2) x = .ok (cs1 ++ cs2, y) := by
  induction l1 generalizing x cs1 with
  | nil =>
    simp only [lowerAll, Except.ok.injEq, Prod.mk.injEq] at h1
    obtain ⟨rfl, rfl⟩ := h1
    simpa using h2
  | cons p ps ih =>
    simp only [lowerAll, List.cons_append] at h1 ⊢
    split at h1
    · simp at h1
    · rename_i c x' hp
      split at h1
      · simp at h1
      · rename_i cs y' hps
        simp only [Except.ok.injEq, Prod.mk.injEq] at h1
        obtain ⟨rfl, rfl⟩ := h1
        have := ih hps
        simp only [List.append_eq] at this ⊢
        rw [this]
        rfl

theorem lowerAll_length {l : List NDPtr} {x y : Ctx} {cs : List (List Instr)}
    (h : lowerAll l x = .ok (cs, y)) : cs.length = l.length := by
  induction l generalizing x cs with
  | nil =>
    simp only [lowerAll, Except.ok.injEq, Prod.mk.injEq] at h
    simp [← h.1]
  | cons p ps ih =>
    simp only [lowerAll] at h
    split at h
    · simp at h
    · split at h
      · simp at h
      · rename_i cs' y' hps
        simp only [Except.ok.injEq, Prod.mk.injEq] at h
        obtain ⟨rfl, rfl⟩ := h
        simp [ih hps]

theorem Lowers.args_inv : ∀ (l : NDList) {x y : Ctx} {c : List Instr},
    Lowers (.args l) x c y → ∃ cs, lowerAll l.toList.reverse x = .ok (cs, y) ∧ c = cs.flatten
  | .nil, _, _, _, L => by
    cases L
    exact ⟨[], rfl, rfl⟩
  | .cons a rest, _, _, _, L => by
    cases L with
    | args_cons L1 L2 =>
      obtain ⟨cs, h1, rfl⟩ := Lowers.args_inv rest L1
      rename_i x0 y0 x1 c2
      have h2 : lowerAll [a] x1 = .ok ([c2], y0) := by
        simp only [lowerAll, lower_ok_iff.mpr L2]
      exact ⟨cs ++ [c2], by simpa [NDList.toList] using lowerAll_append h1 h2, by simp⟩

theorem toList_ofList (l : List NDPtr) : (NDList.ofList l).toList = l := by
  induction l with
  | nil => rfl
  | cons a t ih => simp [NDList.ofList, NDList.toList, ih]

theorem length_toList : ∀ (l : NDList), l.toList.length = l.length
  | .nil => rfl
  | .cons _ t => by simp [NDList.toList, NDList.length, length_toList t]

/-! ## C7: the layout of a call -/

/-- C7.  A call node with arguments `a_1 .. a_n` prints the code of `a_n`,
then of `a_(n-1)`, down to `a_1` (each lowered with the global variables the
one before left, nothing in between), then `call <name>`, then the single line
`addi sp, sp, 4*n` when `n > 0` and nothing when `n = 0`, then a push of `a0`. -/
theorem call_layout (p : NDPtr) (name : String) (args : NDList) (x y : Ctx) (c : List Instr)
    (hk : p.kind? = some ND_FUNC_CALL) (hf : p.func_call = .mk name args)
    (h : lower p x = .ok (c, y)) :
    ∃ cs x1, lowerAll args.toList.reverse x = .ok (cs, x1) ∧
      cs.length = args.toList.length ∧
      c = cs.flatten ++ [.call name]
          ++ (if args.toList.length > 0 then [.addi_sp (4 * (args.toList.length : Int))] else [])
          ++ pushCode "a0" := by
  obtain ⟨ca, x1, L1, hc, _⟩ := (lower_ok_iff.mp h).call_inv hk hf
  obtain ⟨cs, hcs, rfl⟩ := L1.args_inv
  refine ⟨cs, x1, hcs, ?_, ?_⟩
  · simpa using lowerAll_length hcs
  · rw [hc, length_toList]
    simp only [callCleanup, POINTER_WIDTH]
    congr 2
    by_cases hn : args.length > 0
    · have : (args.length : Int) > 0 := by omega
      simp [hn, this, mul_comm]
    · have : ¬ (args.length : Int) > 0 := by omega
      simp [hn, this]

/-- The code of `h(f(), 4)`: the code of `4`, then the code of `f()`, then the
call and one stack adjustment by 8. -/
theorem call_layout_witness :
    ∃ cs x1, lowerAll [NDPtr.callOf "f" [], NDPtr.num 4].reverse exCtx = .ok (cs, x1) ∧
      cs.length = [NDPtr.callOf "f" [], NDPtr.num 4].length ∧
      [Instr.li "t0" 4, .addi_sp_neg 4, .sw_sp "t0", .call "f", .addi_sp_neg 4, .sw_sp "a0",
        .call "h", .addi_sp 8, .addi_sp_neg 4, .sw_sp "a0"]
        = cs.flatten ++ [.call "h"]
          ++ (if [NDPtr.callOf "f" [], NDPtr.num 4].length > 0
              then [.addi_sp (4 * ([NDPtr.callOf "f" [], NDPtr.num 4].length : Int))] else [])
          ++ pushCode "a0" :=
  call_layout exCall "h" (NDList.ofList [NDPtr.callOf "f" [], NDPtr.num 4]) exCtx
    { hot_func := none, last_node := exCall, label_seq := 5, brk_seq := 2, cont_seq := 3 } _
    rfl rfl rfl

theorem mem_labelDefs {code : List Instr} {t : String} {n : Int} :
    (t, n) ∈ labelDefs code ↔ Instr.label t n ∈ code := by
  simp only [labelDefs, List.mem_filterMap]
  constructor
  · rintro ⟨i, hi, hd⟩
    cases i <;> simp [Instr.defines] at hd
    obtain ⟨rfl, rfl⟩ := hd
    exact hi
  · intro h
    exact ⟨_, h, rfl⟩

theorem getElem?_mid (A B : List Instr) (i : Instr) : (A ++ i :: B)[A.length]? = some i := by
  rw [List.getElem?_append_right (Nat.le_refl _)]
  simp

/-- A label defined neither in `A` nor in `B` is defined in `A ++ label :: B`
at the index `A.length` only. -/
theorem label_at_unique {A B : List Instr} {t : String} {n : Int} {k : Nat}
    (hA : (t, n) ∉ labelDefs A) (hB : (t, n) ∉ labelDefs B)
    (h : (A ++ Instr.label t n :: B)[k]? = some (.label t n)) : k = A.length := by
  rcases Nat.lt_trichotomy k A.length with hk | hk | hk
  · rw [List.getElem?_append_left hk] at h
    exact absurd (mem_labelDefs.mpr (List.getElem?_mem h)) hA
  · exact hk
  · rw [List.getElem?_append_right (by omega)] at h
    obtain ⟨m, hm⟩ : ∃ m, k - A.length = m + 1 := ⟨k - A.length - 1, by omega⟩
    rw [hm, List.getElem?_cons_succ] at h
    exact absurd (mem_labelDefs.mpr (List.getElem?_mem h)) hB

theorem DefsIn.not_mem {code : List Instr} {a b : Int} (h : DefsIn code a b) {t : String}
    {n : Int} (hn : n < a ∨ b ≤ n) : (t, n) ∉ labelDefs code := by
  intro hm
  have := h t n hm
  omega

theorem Step.from_beqz {code : List Instr} {k : Nat} {r t : String} {n d : Int} {q : Nat × Int}
    (hi : code[k]? = some (.beqz r t n)) (h : Step code (k, d) q) :
    q = (k + 1, d) ∨ ∃ k', code[k']? = some (.label t n) ∧ q = (k', d) := by
  cases h with
  | next h1 h2 =>
    rw [hi] at h1
    cases h1
    left
    simp [Instr.effect]
  | jump h1 h2 h3 =>
    rw [hi] at h1
    cases h1
    simp only [Instr.refers, Option.some.injEq, Prod.mk.injEq] at h2
    obtain ⟨rfl, rfl⟩ := h2
    exact Or.inr ⟨_, h3, rfl⟩
  | jump_fn h1 h2 =>
    rw [hi] at h1
    cases h1

theorem Step.from_j {code : List Instr} {k : Nat} {t : String} {n d : Int} {q : Nat × Int}
    (hi : code[k]? = some (.j t n)) (h : Step code (k, d) q) :
    ∃ k', code[k']? = some (.label t n) ∧ q = (k', d) := by
  cases h with
  | next h1 h2 =>
    rw [hi] at h1
    cases h1
    simp [Instr.fallsThrough] at h2
  | jump h1 h2 h3 =>
    rw [hi] at h1
    cases h1
    simp only [Instr.refers, Option.some.injEq, Prod.mk.injEq] at h2
    obtain ⟨rfl, rfl⟩ := h2
    exact ⟨_, h3, rfl⟩
  | jump_fn h1 h2 =>
    rw [hi] at h1
    cases h1

theorem popCode_length (r : String) : (popCode r).length = 2 := rfl

/-! ## C9: the layout of an `if` -/

/-- C9.  An `if` node lowered when the next label number is `s`.  With an else
branch it prints the code of the condition, a pop into `t0`,
`beqz t0, .L.else.s`, the code of the then-branch, `j .L.exit.s`, the label
`.L.else.s`, the code of the else-branch and the label `.L.exit.s`; from the
`beqz` execution goes on either with the next line, the first of the
then-branch (value not zero), or at the label `.L.else.s`, directly before the
else-branch (value zero), and from the `j` after the then-branch it goes to the
last line, the label `.L.exit.s`, past the else-branch.  Without an else branch
it prints the code of the condition, a pop into `t0`, `beqz t0, .L.exit.s`, the
code of the then-branch and the label `.L.exit.s`; no line of it defines or
refers to `.L.else.s`, and from the `beqz` execution goes on with the next
line or at the last line. -/
theorem if_layout (p : NDPtr) (x y : Ctx) (c : List Instr) (hk : p.kind? = some ND_IF)
    (h : lower p x = .ok (c, y)) :
    ∃ cc ct ce x1 x2 x3,
      lower p.cond x.bump = .ok (cc, x1) ∧ lower p.then_ x1 = .ok (ct, x2) ∧
      lower p.els x2 = .ok (ce, x3) ∧
      (p.els.isNull = false →
        c = cc ++ popCode "t0" ++ [.beqz "t0" ELSE x.label_seq] ++ ct
          ++ [.j EXIT x.label_seq, .label ELSE x.label_seq] ++ ce
          ++ [.label EXIT x.label_seq] ∧
        (∀ d q, Step c (cc.length + 2, d) q →
          q = (cc.length + 3, d) ∨ q = (cc.length + ct.length + 4, d)) ∧
        (∀ d q, Step c (cc.length + ct.length + 3, d) q → q = (c.length - 1, d))) ∧
      (p.els.isNull = true →
        c = cc ++ popCode "t0" ++ [.beqz "t0" EXIT x.label_seq] ++ ct
          ++ [.label EXIT x.label_seq] ∧
        (ELSE, x.label_seq) ∉ labelDefs c ∧ (ELSE, x.label_seq) ∉ labelRefs c ∧
        (∀ d q, Step c (cc.length + 2, d) q →
          q = (cc.length + 3, d) ∨ q = (c.length - 1, d))) := by
  obtain ⟨cc, ct, ce, x1, x2, x3, L1, L2, L3, hthen, hels, _⟩ := (lower_ok_iff.mp h).if_inv hk
  have f1 := L1.frame
  have f2 := L2.frame
  have f3 := L3.frame
  have l1 := L1.labels
  have l2 := L2.labels
  have l3 := L3.labels
  simp only [bump_label_seq, bump_brk_seq, bump_cont_seq] at f1 l1
  have hcc : ∀ t, (t, x.label_seq) ∉ labelDefs cc := fun t => l1.1.not_mem (Or.inl (by omega))
  have hct : ∀ t, (t, x.label_seq) ∉ labelDefs ct := fun t => l2.1.not_mem (Or.inl (by omega))
  have hce : ∀ t, (t, x.label_seq) ∉ labelDefs ce := fun t => l3.1.not_mem (Or.inl (by omega))
  have hne : ELSE ≠ EXIT := by decide
  have hnc : ELSE ≠ CONTINUE := by decide
  refine ⟨cc, ct, ce, x1, x2, x3, lower_ok_iff.mpr L1, lower_ok_iff.mpr L2,
    lower_ok_iff.mpr L3, ?_, ?_⟩
  · intro hn
    have hc := hels hn
    refine ⟨hc, ?_, ?_⟩
    · intro d q hs
      have hb : (c)[cc.length + 2]? = some (.beqz "t0" ELSE x.label_seq) := by
        have := getElem?_mid (cc ++ popCode "t0")
          (ct ++ [.j EXIT x.label_seq, .label ELSE x.label_seq] ++ ce
            ++ [.label EXIT x.label_seq]) (.beqz "t0" ELSE x.label_seq)
        rw [hc]
        simpa [popCode_length] using this
      rcases Step.from_beqz hb hs with hq | ⟨k2, hk2, hq⟩
      · left; exact hq
      · right
        have hA : (ELSE, x.label_seq) ∉ labelDefs
            (cc ++ popCode "t0" ++ [.beqz "t0" ELSE x.label_seq] ++ ct
              ++ [.j EXIT x.label_seq]) := by
          simp [hcc, hct]
        have hB : (ELSE, x.label_seq) ∉ labelDefs (ce ++ [.label EXIT x.label_seq]) := by
          simp [hce, hne]
        have hu := label_at_unique (k := k2) hA hB (by rw [hc] at hk2; simpa using hk2)
        rw [hq, hu]
        simp [popCode_length]
        omega
    · intro d q hs
      have hj : (c)[cc.length + ct.length + 3]? = some (.j EXIT x.label_seq) := by
        have := getElem?_mid (cc ++ popCode "t0" ++ [.beqz "t0" ELSE x.label_seq] ++ ct)
          ([Instr.label ELSE x.label_seq] ++ ce ++ [Instr.label EXIT x.label_seq])
          (Instr.j EXIT x.label_seq)
        rw [hc]
        have e : (cc ++ popCode "t0" ++ [Instr.beqz "t0" ELSE x.label_seq] ++ ct).length
            = cc.length + ct.length + 3 := by
          simp [popCode_length]; omega
        rw [e] at this
        simpa using this
      obtain ⟨k2, hk2, hq⟩ := Step.from_j hj hs
      have hA : (EXIT, x.label_seq) ∉ labelDefs
          (cc ++ popCode "t0" ++ [.beqz "t0" ELSE x.label_seq] ++ ct
            ++ [.j EXIT x.label_seq, .label ELSE x.label_seq] ++ ce) := by
        simp [hcc, hct, hce, hne.symm]
      have hu := label_at_unique (k := k2) (B := []) hA (by simp)
        (by rw [hc] at hk2; simpa using hk2)
      rw [hq, hu, hc]
      simp [popCode_length]
      omega
  · intro hn
    have hc := hthen hn
    refine ⟨hc, ?_, ?_, ?_⟩
    · rw [hc]
      simp [hcc, hct, hne]
    · rw [hc]
      simp only [labelRefs_append, labelRefs_popCode, labelRefs_cons_beqz, labelRefs_nil,
        labelRefs_cons_label, List.append_nil, List.mem_append, List.mem_singleton,
        Prod.mk.injEq, not_or]
      refine ⟨⟨?_, by simp [hne]⟩, ?_⟩
      · intro hm
        rcases l1.2 _ _ hm with g | g | g
        · omega
        · exact hne g.1
        · exact hnc g.1
      · intro hm
        rcases l2.2 _ _ hm with g | g | g
        · omega
        · exact hne g.1
        · exact hnc g.1
    · intro d q hs
      have hb : (c)[cc.length + 2]? = some (.beqz "t0" EXIT x.label_seq) := by
        have := getElem?_mid (cc ++ popCode "t0")
          (ct ++ [.label EXIT x.label_seq]) (.beqz "t0" EXIT x.label_seq)
        rw [hc]
        simpa [popCode_length] using this
      rcases Step.from_beqz hb hs with hq | ⟨k2, hk2, hq⟩
      · left; exact hq
      · right
        have hA : (EXIT, x.label_seq) ∉ labelDefs
            (cc ++ popCode "t0" ++ [.beqz "t0" EXIT x.label_seq] ++ ct) := by
          simp [hcc, hct]
        have hu := label_at_unique (k := k2) (B := []) hA (by simp)
          (by rw [hc] at hk2; simpa using hk2)
        rw [hq, hu, hc]
        simp [popCode_length]
        omega

/-- The code of `if (1) 2; else 3;` lowered with next label number 5. -/
theorem if_layout_witness :
    ∃ cc ct ce x1 x2 x3,
      lower exIf.cond exCtx.bump = .ok (cc, x1) ∧ lower exIf.then_ x1 = .ok (ct, x2) ∧
      lower exIf.els x2 = .ok (ce, x3) ∧
      (exIf.els.isNull = false →
        exIfCode = cc ++ popCode "t0" ++ [.beqz "t0" ELSE exCtx.label_seq] ++ ct
          ++ [.j EXIT exCtx.label_seq, .label ELSE exCtx.label_seq] ++ ce
          ++ [.label EXIT exCtx.label_seq] ∧
        (∀ d q, Step exIfCode (cc.length + 2, d) q →
          q = (cc.length + 3, d) ∨ q = (cc.length + ct.length + 4, d)) ∧
        (∀ d q, Step exIfCode (cc.length + ct.length + 3, d) q →
          q = (exIfCode.length - 1, d))) ∧
      (exIf.els.isNull = true →
        exIfCode = cc ++ popCode "t0" ++ [.beqz "t0" EXIT exCtx.label_seq] ++ ct
          ++ [.label EXIT exCtx.label_seq] ∧
        (ELSE, exCtx.label_seq) ∉ labelDefs exIfCode ∧
        (ELSE, exCtx.label_seq) ∉ labelRefs exIfCode ∧
        (∀ d q, Step exIfCode (cc.length + 2, d) q →
          q = (cc.length + 3, d) ∨ q = (exIfCode.length - 1, d))) :=
  if_layout exIf exCtx
    { hot_func := none, last_node := exIf, label_seq := 6, brk_seq := 2, cont_seq := 3 }
    exIfCode rfl rfl

theorem Lowers.last_node {p : NDPtr} {x y : Ctx} {c : List Instr} (L : Lowers (.node p) x c y)
    (hp : p.isNull = false) : y.last_node = p := by
  cases L with
  | null => simp at hp
  | _ => rfl

theorem Lowers.body_last : ∀ (l : NDList) {x y : Ctx} {c : List Instr},
    Lowers (.body l) x c y → (∀ n ∈ l.toList, n.isNull = false) →
    y.last_node = (l.toList.getLast?).getD x.last_node
  | .nil, _, _, _, L, _ => by
    cases L
    rfl
  | .cons a rest, _, _, _, L, h => by
    cases L with
    | body_cons L1 L2 =>
      have ha : a.isNull = false := h a (by simp [NDList.toList])
      have hr : ∀ n ∈ rest.toList, n.isNull = false := fun n hn =>
        h n (by simp [NDList.toList, hn])
      rw [Lowers.body_last rest L2 hr, L1.last_node ha]
      cases hrest : rest.toList with
      | nil => simp [NDList.toList, hrest]
      | cons b t =>
        simp only [NDList.toList, hrest, List.getLast?_cons_cons]
        rw [List.getLast?_eq_getLast _ (List.cons_ne_nil b t)]
        rfl

theorem Lowers.body_inv : ∀ (l : NDList) {x y : Ctx} {c : List Instr},
    Lowers (.body l) x c y → ∃ cs, lowerAll l.toList x = .ok (cs, y) ∧ c = cs.flatten
  | .nil, _, _, _, L => by
    cases L
    exact ⟨[], rfl, rfl⟩
  | .cons a rest, _, _, _, L => by
    cases L with
    | body_cons L1 L2 =>
      obtain ⟨cs, h1, rfl⟩ := Lowers.body_inv rest L2
      rename_i x0 y0 x1 c1
      refine ⟨c1 :: cs, ?_, by simp⟩
      simp only [NDList.toList, lowerAll, lower_ok_iff.mpr L1, h1]

theorem unaryOp_ne_li {k : NodeKind} {op : Instr} (h : unaryOp k = some op) (n : Int) :
    Instr.li "a0" n ≠ op := by
  cases k <;> simp [unaryOp] at h <;> subst h <;> simp

theorem binaryOp_no_li {k : NodeKind} {ops : List Instr} (h : binaryOp k = some ops) (n : Int) :
    Instr.li "a0" n ∉ ops := by
  cases k <;> simp [binaryOp] at h <;> subst h <;> simp

theorem Lowers.no_li_a0 {item : Item} {x y : Ctx} {c : List Instr} (L : Lowers item x c y) :
    ∀ n, Instr.li "a0" n ∉ c := by
  induction L with
  | unary _ hop _ ih =>
    intro n
    simp [popCode, pushCode, ih n, unaryOp_ne_li hop n]
  | binary _ hop _ _ ih1 ih2 =>
    intro n
    simp [popCode, pushCode, ih1 n, ih2 n, binaryOp_no_li hop n]
  | for_ _ _ _ _ _ ih1 ih2 ih3 ih4 =>
    intro n
    simp only [forTest]
    split <;> simp [popCode, pushCode, ih1 n, ih2 n, ih3 n, ih4 n]
  | call _ _ _ ih =>
    intro n
    simp only [callCleanup]
    split <;> simp [popCode, pushCode, ih n]
  | _ => intro n; simp_all [popCode, pushCode]

theorem missingReturn_eq (l : List NDPtr) (x : NDPtr) (hx : x.isNull = true)
    (h : ∀ n ∈ l, n.isNull = false) :
    missingReturn ((l.getLast?).getD x) = lastNotReturn l := by
  unfold lastNotReturn
  cases hl : l.getLast? with
  | none =>
    rw [isNull_iff.mp hx]
    rfl
  | some n =>
    have hn : n.isNull = false := h n (List.mem_of_getLast?_eq_some hl)
    cases n with
    | null => simp at hn
    | mk k => simp [missingReturn, NDPtr.kind?]

/-! ## C8: the default return value of `main` -/

/-- C8.  For a function whose body has no null entry, `gen_text` prints the
prologue, the code of the body statements in order, then `li a0, 0` exactly
when the name begins with `main` and the body is empty or its last top-level
statement is not a return node, then the epilogue, whose first line is the
label `.L.function_exit.<name>`.  The body code itself has no line `li a0, _`,
so a `li a0, 0` directly before the epilogue label is there if and only if the
condition holds; for a name that does not begin with `main` there is none. -/
theorem main_default_return (fn : Function) (s s' : GenState)
    (hb : ∀ n ∈ fn.stmts.body.toList, n.isNull = false)
    (h : gen_fn (some fn) s = .ok s') :
    ∃ cs y, lowerAll fn.stmts.body.toList (s.ctx.startFn fn) = .ok (cs, y) ∧
      s'.out = s.out ++ prologue fn.name fn.stack_size ++ cs.flatten
        ++ (if isMainName fn.name && lastNotReturn fn.stmts.body.toList
            then [.li "a0" 0] else [])
        ++ epilogue fn.name fn.stack_size ∧
      (∀ n, Instr.li "a0" n ∉ cs.flatten) ∧
      (epilogue fn.name fn.stack_size).head? = some (.label_fn FUNC_EXIT fn.name) := by
  simp only [gen_fn, bind_ok_iff, pure_ok_iff] at h
  obtain ⟨s2, h2, rfl⟩ := h
  cases hst : fn.stmts with
  | null => simp [hst] at h2
  | mk k l r c t e i inc body var val fc =>
    simp only [hst] at h2
    obtain ⟨cb, hcb, L⟩ := gen_body_ok_iff.mp h2
    obtain ⟨cs, hcs, rfl⟩ := Lowers.body_inv body L
    have hb' : ∀ n ∈ body.toList, n.isNull = false := by
      simpa [hst] using hb
    have hlast := Lowers.body_last body L hb'
    have hm : missingReturn s2.last_node = lastNotReturn body.toList := by
      have := missingReturn_eq body.toList .null rfl hb'
      rw [← this, ← ctx_last_node, hlast]
      rfl
    refine ⟨cs, s2.ctx, ?_, ?_, L.no_li_a0, rfl⟩
    · simpa [NDPtr.body] using hcs
    · simp only [mk_body, hm]
      split <;> simp [hcb]

/-- The code of `int main() { 7; }`: the body does not end in a return, and
`li a0, 0` stands directly before the epilogue label. -/
theorem main_default_return_witness :
    ∃ cs y, lowerAll exMainNoRet.stmts.body.toList (GenState.initial.ctx.startFn exMainNoRet)
        = .ok (cs, y) ∧
      exMainOut = GenState.initial.out ++ prologue exMainNoRet.name exMainNoRet.stack_size
        ++ cs.flatten
        ++ (if isMainName exMainNoRet.name && lastNotReturn exMainNoRet.stmts.body.toList
            then [.li "a0" 0] else [])
        ++ epilogue exMainNoRet.name exMainNoRet.stack_size ∧
      (∀ n, Instr.li "a0" n ∉ cs.flatten) ∧
      (epilogue exMainNoRet.name exMainNoRet.stack_size).head?
        = some (.label_fn FUNC_EXIT exMainNoRet.name) :=
  main_default_return exMainNoRet GenState.initial
    { hot_func := some exMainNoRet, last_node := .exprStmt (.num 7), label_seq := 0,
      brk_seq := 0, cont_seq := 0, out := exMainOut }
    (by
      intro n hn
      simp only [exMainNoRet, NDPtr.body, NDList.toList, List.mem_singleton] at hn
      subst hn
      rfl)
    rfl

theorem constructs_eta {p : NDPtr} {k : NodeKind} (hk : p.kind? = some k) :
    p.constructs = (NDPtr.mk k p.lexpr p.rexpr p.cond p.then_ p.els p.init p.inc p.body p.var
      p.val p.func_call).constructs := by
  rw [← node_eta hk]

theorem null_constructs : NDPtr.null.constructs = 0 := by
  simp [NDPtr.constructs]

theorem Lowers.count {item : Item} {x y : Ctx} {c : List Instr} (L : Lowers item x c y) :
    y.label_seq = x.label_seq + item.constructs := by
  induction L with
  | null | body_nil | args_nil => simp [Item.constructs, NDPtr.constructs, NDList.constructs]
  | ret hk _ _ ih | unused_some hk _ _ ih | block hk _ ih | assign hk _ _ _ ih =>
    simp only [Item.constructs, Ctx.setLast] at ih ⊢
    rw [constructs_eta hk]
    simp only [NDPtr.constructs]
    exact ih
  | decl_none hk hv hn =>
    simp only [Item.constructs, Ctx.setLast]
    rw [constructs_eta hk, hv]
    simp only [NDPtr.constructs]
    simp [isNull_iff.mp hn, null_constructs]
  | decl_init hk hv _ _ ih =>
    simp only [Item.constructs, Ctx.setLast] at ih ⊢
    rw [constructs_eta hk, hv]
    simp only [NDPtr.constructs]
    exact ih
  | unused_none hk hn =>
    simp only [Item.constructs, Ctx.setLast]
    rw [constructs_eta hk]
    simp only [NDPtr.constructs]
    simp [isNull_iff.mp hn, null_constructs]
  | brk hk | cont hk | num hk | var hk =>
    simp only [Item.constructs, Ctx.setLast]
    rw [constructs_eta hk]
    simp only [NDPtr.constructs]
    simp
  | if_then hk hn _ _ ih1 ih2 =>
    simp only [Item.constructs, Ctx.setLast, Ctx.bump] at ih1 ih2 ⊢
    rw [constructs_eta hk]
    simp only [NDPtr.constructs]
    simp only [isNull_iff.mp hn, null_constructs]
    push_cast
    omega
  | if_else hk _ _ _ _ ih1 ih2 ih3 | ternary hk _ _ _ ih1 ih2 ih3 =>
    simp only [Item.constructs, Ctx.setLast, Ctx.bump] at ih1 ih2 ih3 ⊢
    rw [constructs_eta hk]
    simp only [NDPtr.constructs]
    push_cast
    omega
  | for_ hk _ _ _ _ ih1 ih2 ih3 ih4 =>
    simp only [Item.constructs, Ctx.setLast, Ctx.enter, Ctx.leave] at ih1 ih2 ih3 ih4 ⊢
    rw [constructs_eta hk]
    simp only [NDPtr.constructs]
    push_cast
    omega
  | while_ hk _ _ ih1 ih2 | dowhile hk _ _ ih1 ih2 =>
    simp only [Item.constructs, Ctx.setLast, Ctx.enter, Ctx.leave] at ih1 ih2 ⊢
    rw [constructs_eta hk]
    simp only [NDPtr.constructs]
    push_cast
    omega
  | unary hk hop L1 ih =>
    rename_i p k x x1 c op
    simp only [Item.constructs, Ctx.setLast] at ih ⊢
    rw [constructs_eta hk]
    cases k <;> simp [unaryOp] at hop <;> simp only [NDPtr.constructs] <;> exact ih
  | call hk hf _ ih =>
    simp only [Item.constructs, Ctx.setLast] at ih ⊢
    rw [constructs_eta hk, hf]
    simp only [NDPtr.constructs]
    exact ih
  | binary hk hop L1 L2 ih1 ih2 =>
    rename_i p k x x1 x2 cl cr ops
    simp only [Item.constructs, Ctx.setLast] at ih1 ih2 ⊢
    rw [constructs_eta hk]
    cases k <;> simp [binaryOp] at hop <;> simp only [NDPtr.constructs] <;> push_cast <;> omega
  | body_cons _ _ ih1 ih2 | args_cons _ _ ih1 ih2 =>
    simp only [Item.constructs, NDList.constructs] at ih1 ih2 ⊢
    push_cast
    omega
theorem DefsIn.disjoint {c1 c2 : List Instr} {a b a' b' : Int} (r1 : DefsIn c1 a b)
    (r2 : DefsIn c2 a' b') (h : b ≤ a' ∨ b' ≤ a) :
    (labelDefs c1).Disjoint (labelDefs c2) := by
  rintro ⟨t, n⟩ h1 h2
  have := r1 t n h1
  have := r2 t n h2
  omega

theorem labelDefs_forTest_nodup {p : NDPtr} {cc : List Instr} {n : Int}
    (h : (labelDefs cc).Nodup) : (labelDefs (forTest p cc n)).Nodup := by
  rw [labelDefs_forTest]
  split
  · simp
  · exact h

theorem Lowers.nodup {item : Item} {x y : Ctx} {c : List Instr} (L : Lowers item x c y) :
    (labelDefs c).Nodup := by
  induction L with
  | null | body_nil | args_nil | decl_none | unused_none | brk | cont | num | var => simp
  | ret _ _ _ ih | decl_init _ _ _ _ ih | unused_some _ _ _ ih | block _ _ ih
  | assign _ _ _ _ ih | call _ _ _ ih =>
    simpa using ih
  | unary _ hop _ ih => simpa [labelDefs_unaryOp hop] using ih
  | binary _ hop L1 L2 ih1 ih2 =>
    have f1 := L1.frame
    have f2 := L2.frame
    simp only [labelDefs_append, labelDefs_popCode, labelDefs_pushCode, labelDefs_binaryOp hop,
      List.append_nil, List.nodup_append]
    exact ⟨ih1, ih2, L1.labels.1.disjoint L2.labels.1 (by omega)⟩
  | body_cons L1 L2 ih1 ih2 | args_cons L1 L2 ih1 ih2 =>
    have f1 := L1.frame
    have f2 := L2.frame
    simp only [labelDefs_append, List.nodup_append]
    exact ⟨ih1, ih2, L1.labels.1.disjoint L2.labels.1 (by omega)⟩
  | if_then _ _ L1 L2 ih1 ih2 | while_ _ L1 L2 ih1 ih2 | dowhile _ L1 L2 ih1 ih2 =>
    have f1 := L1.frame
    have f2 := L2.frame
    have l1 := L1.labels.1
    have l2 := L2.labels.1
    simp only [Ctx.bump, Ctx.enter] at f1 l1
    simp [List.nodup_append, List.nodup_cons, ih1, ih2]
    and_intros
    all_goals first
      | exact l1.not_mem (by omega)
      | exact l2.not_mem (by omega)
      | exact l1.disjoint l2 (by omega)
      | exact l2.disjoint l1 (by omega)
      | decide
  | if_else _ _ L1 L2 L3 ih1 ih2 ih3 | ternary _ L1 L2 L3 ih1 ih2 ih3 =>
    have f1 := L1.frame
    have f2 := L2.frame
    have f3 := L3.frame
    have l1 := L1.labels.1
    have l2 := L2.labels.1
    have l3 := L3.labels.1
    simp only [Ctx.bump, Ctx.enter] at f1 l1
    simp [List.nodup_append, List.nodup_cons, ih1, ih2, ih3]
    and_intros
    all_goals first
      | exact l1.not_mem (by omega)
      | exact l2.not_mem (by omega)
      | exact l3.not_mem (by omega)
      | exact l1.disjoint l2 (by omega)
      | exact l1.disjoint l3 (by omega)
      | exact l2.disjoint l3 (by omega)
      | decide
  | for_ _ L1 L2 L3 L4 ih1 ih2 ih3 ih4 =>
    rename_i p x0 x1 x2 x3 x4 ci cc ct cn _
    have f1 := L1.frame
    have f2 := L2.frame
    have f3 := L3.frame
    have f4 := L4.frame
    have l1 := L1.labels.1
    have l2 := DefsIn_forTest (p := p.cond) (n := x0.label_seq) L2.labels.1
    have l3 := L3.labels.1
    have l4 := L4.labels.1
    simp only [Ctx.bump, Ctx.enter] at f1 l1
    simp [List.nodup_append, List.nodup_cons, ih1, labelDefs_forTest_nodup ih2, ih3, ih4]
    and_intros
    all_goals first
      | exact l1.not_mem (by omega)
      | exact l2.not_mem (by omega)
      | exact l3.not_mem (by omega)
      | exact l4.not_mem (by omega)
      | exact l1.disjoint l2 (by omega)
      | exact l1.disjoint l3 (by omega)
      | exact l1.disjoint l4 (by omega)
      | exact l2.disjoint l3 (by omega)
      | exact l2.disjoint l4 (by omega)
      | exact l3.disjoint l4 (by omega)
      | decide
theorem Covers.split {c : List Instr} {a m b : Int} (h1 : Covers c a m) (h2 : Covers c m b) :
    Covers c a b := by
  intro n ha hb
  rcases Int.lt_or_le n m with h | h
  · exact h1 n ha h
  · exact h2 n h hb

theorem Covers.of_sub {c d : List Instr} {a b : Int} (h : Covers c a b)
    (hs : ∀ z, z ∈ labelDefs c → z ∈ labelDefs d) : Covers d a b := by
  intro n ha hb
  obtain ⟨t, ht⟩ := h n ha hb
  exact ⟨t, hs _ ht⟩

theorem Covers.single {c : List Instr} {t : String} {n : Int} (h : (t, n) ∈ labelDefs c) :
    Covers c n (n + 1) := by
  intro m ha hb
  have : m = n := by omega
  subst this
  exact ⟨t, h⟩

theorem Covers.empty (c : List Instr) {a b : Int} (h : b ≤ a) : Covers c a b := by
  intro n ha hb
  omega

theorem Lowers.covers {item : Item} {x y : Ctx} {c : List Instr} (L : Lowers item x c y) :
    Covers c x.label_seq y.label_seq := by
  induction L with
  | null | body_nil | args_nil | decl_none | unused_none | brk | cont | num | var =>
    exact Covers.empty _ (by simp [Ctx.setLast])
  | ret _ _ _ ih | decl_init _ _ _ _ ih | unused_some _ _ _ ih | block _ _ ih
  | assign _ _ _ _ ih | call _ _ _ ih | unary _ _ _ ih =>
    exact ih.of_sub (by intro z hz; simp [hz])
  | binary _ _ _ _ ih1 ih2 | body_cons _ _ ih1 ih2 | args_cons _ _ ih1 ih2 =>
    exact (ih1.of_sub (by intro z hz; simp [hz])).split (ih2.of_sub (by intro z hz; simp [hz]))
  | if_then _ _ _ _ ih1 ih2 =>
    exact (Covers.single (t := EXIT) (by simp)).split
      ((ih1.of_sub (by intro z hz; simp [hz])).split (ih2.of_sub (by intro z hz; simp [hz])))
  | while_ _ _ _ ih1 ih2 | dowhile _ _ _ ih1 ih2 =>
    exact (Covers.single (t := CONTINUE) (by simp)).split
      ((ih1.of_sub (by intro z hz; simp [hz])).split (ih2.of_sub (by intro z hz; simp [hz])))
  | if_else _ _ _ _ _ ih1 ih2 ih3 | ternary _ _ _ _ ih1 ih2 ih3 =>
    exact (Covers.single (t := EXIT) (by simp)).split
      ((ih1.of_sub (by intro z hz; simp [hz])).split
        ((ih2.of_sub (by intro z hz; simp [hz])).split (ih3.of_sub (by intro z hz; simp [hz]))))
  | for_ _ _ L2 _ _ ih1 ih2 ih3 ih4 =>
    rename_i p x0 x1 x2 x3 x4 ci cc ct cn _ _ _ _
    have h2 : Covers (forTest p.cond cc x0.label_seq) x1.label_seq x2.label_seq := by
      by_cases hc : p.cond.isNull = true
      · rw [isNull_iff.mp hc] at L2
        rw [L2.null_inv.2]
        exact Covers.empty _ (le_refl _)
      · exact ih2.of_sub (by intro z hz; simp [labelDefs_forTest, hc, hz])
    exact (Covers.single (t := EXIT) (by simp)).split
      ((ih1.of_sub (by intro z hz; simp [hz])).split
        ((h2.of_sub (by intro z hz; simp [hz])).split
          ((ih3.of_sub (by intro z hz; simp [hz])).split
            (ih4.of_sub (by intro z hz; simp [hz])))))

theorem labelDefs_prologue (name : String) (n : Int) : labelDefs (prologue name n) = [] := rfl
theorem labelDefs_epilogue (name : String) (n : Int) : labelDefs (epilogue name n) = [] := rfl

theorem LabelsFresh.of_lowers {i : Item} {x y : Ctx} {c : List Instr}
    (L : Lowers i x c y) {s s' : GenState} {d : List Instr}
    (hs : s.label_seq = x.label_seq) (hs' : s'.label_seq = y.label_seq)
    (ho : s'.out = s.out ++ d) (hd : labelDefs d = labelDefs c) :
    LabelsFresh s s' d i.constructs := by
  refine ⟨ho, hd ▸ L.nodup, ?_, ?_⟩
  · intro n
    rw [hd, hs, hs']
    constructor
    · rintro ⟨t, ht⟩
      exact L.labels.1 t n ht
    · rintro ⟨h1, h2⟩
      exact L.covers n h1 h2
  · rw [hs, hs']
    exact L.count

theorem LabelsFresh.trans {s m s' : GenState} {c d : List Instr} {j k : Nat}
    (h1 : LabelsFresh s m c j) (h2 : LabelsFresh m s' d k) :
    LabelsFresh s s' (c ++ d) (j + k) := by
  obtain ⟨o1, n1, r1, k1⟩ := h1
  obtain ⟨o2, n2, r2, k2⟩ := h2
  refine ⟨by rw [o2, o1, List.append_assoc], ?_, ?_, by rw [k2, k1]; push_cast; omega⟩
  · rw [labelDefs_append, List.nodup_append]
    refine ⟨n1, n2, ?_⟩
    rintro ⟨t, n⟩ ha hb
    have := (r1 n).mp ⟨t, ha⟩
    have := (r2 n).mp ⟨t, hb⟩
    omega
  · intro n
    rw [labelDefs_append]
    simp only [List.mem_append]
    constructor
    · rintro ⟨t, ht | ht⟩
      · have := (r1 n).mp ⟨t, ht⟩
        omega
      · have := (r2 n).mp ⟨t, ht⟩
        omega
    · rintro ⟨ha, hb⟩
      rcases Int.lt_or_le n m.label_seq with h | h
      · obtain ⟨t, ht⟩ := (r1 n).mpr ⟨ha, h⟩
        exact ⟨t, Or.inl ht⟩
      · obtain ⟨t, ht⟩ := (r2 n).mpr ⟨h, hb⟩
        exact ⟨t, Or.inr ht⟩

theorem gen_fn_fresh {fn : Function} {s s' : GenState} (h : gen_fn (some fn) s = .ok s') :
    ∃ c, LabelsFresh s s' c fn.stmts.body.constructs := by
  simp only [gen_fn, bind_ok_iff, pure_ok_iff] at h
  obtain ⟨s2, h2, rfl⟩ := h
  cases hst : fn.stmts with
  | null => simp [hst] at h2
  | mk k l r c t e i inc body var val fc =>
    simp only [hst] at h2
    obtain ⟨cb, hcb, L⟩ := gen_body_ok_iff.mp h2
    simp only [mk_body]
    by_cases hm : (isMainName fn.name && missingReturn s2.last_node) = true
    · simp only [hm, if_true]
      refine ⟨prologue fn.name fn.stack_size ++ cb ++ [.li "a0" 0]
        ++ epilogue fn.name fn.stack_size, ?_⟩
      exact LabelsFresh.of_lowers (i := .body body) L rfl rfl (by simp [hcb])
        (by simp [labelDefs_prologue, labelDefs_epilogue])
    · simp only [hm, if_false]
      refine ⟨prologue fn.name fn.stack_size ++ cb ++ epilogue fn.name fn.stack_size, ?_⟩
      exact LabelsFresh.of_lowers (i := .body body) L rfl rfl (by simp [hcb])
        (by simp [labelDefs_prologue, labelDefs_epilogue])

theorem gen_fns_fresh : ∀ (funcs : List FNPtr) {s s' : GenState},
    gen_fns funcs s = .ok s' → ∃ c, LabelsFresh s s' c (constructsOf funcs)
  | [], s, s', h => by
    simp only [gen_fns, Except.ok.injEq] at h
    subst h
    exact ⟨[], by simp, by simp, by simp, by simp [constructsOf]⟩
  | none :: rest, s, s', h => by
    simp [gen_fns, gen_fn, bind, Except.bind] at h
  | some fn :: rest, s, s', h => by
    simp only [gen_fns, bind_ok_iff] at h
    obtain ⟨m, h1, h2⟩ := h
    obtain ⟨c1, f1⟩ := gen_fn_fresh h1
    obtain ⟨c2, f2⟩ := gen_fns_fresh rest h2
    exact ⟨c1 ++ c2, f1.trans f2⟩

theorem gen_fns_append : ∀ (fs1 fs2 : List FNPtr) (s : GenState),
    gen_fns (fs1 ++ fs2) s = gen_fns fs1 s >>= gen_fns fs2
  | [], fs2, s => by simp [gen_fns, bind, Except.bind]
  | f :: rest, fs2, s => by
    simp only [List.cons_append, gen_fns]
    cases gen_fn f s with
    | error e => simp [bind, Except.bind]
    | ok m => simpa [bind, Except.bind] using gen_fns_append rest fs2 m

theorem constructsOf_append : ∀ (fs1 fs2 : List FNPtr),
    constructsOf (fs1 ++ fs2) = constructsOf fs1 + constructsOf fs2
  | [], fs2 => by simp [constructsOf]
  | none :: rest, fs2 => by simp [constructsOf, constructsOf_append rest fs2]
  | some fn :: rest, fs2 => by
    simp [constructsOf, constructsOf_append rest fs2]
    omega

/-! ## C3: label numbers are never reused -/

/-- C3.  Let `gen_text` lower a program, split anywhere into the functions
`fs1` lowered first and the functions `fs2` lowered after them (both may hold
the same body).  In each part and in the whole output no label definition
`.L.<type>.<n>:` occurs twice; the numbers of the labels defined are exactly
the values that `label_seq` ran through, from its value at the start up to its
value at the end, and `label_seq` advanced by exactly the number of
`if`/`for`/`while`/`do`-`while`/ternary constructs lowered, so every construct
took a number of its own; `label_seq` is not reset between functions, and every
label number of the later functions is larger than every label number of the
earlier ones. -/
theorem label_numbers_unique (fs1 fs2 : List FNPtr) (s s' : GenState)
    (h : gen_text (fs1 ++ fs2) s = .ok s') :
    ∃ m c1 c2, gen_text fs1 s = .ok m ∧ gen_fns fs2 m = .ok s' ∧
      LabelsFresh s m c1 (constructsOf fs1) ∧ LabelsFresh m s' c2 (constructsOf fs2) ∧
      LabelsFresh s s' (c1 ++ c2) (constructsOf (fs1 ++ fs2)) ∧
      (∀ t1 n1 t2 n2, (t1, n1) ∈ labelDefs c1 → (t2, n2) ∈ labelDefs c2 → n1 < n2) := by
  unfold gen_text at h ⊢
  rw [gen_fns_append, bind_ok_iff] at h
  obtain ⟨m, h1, h2⟩ := h
  obtain ⟨c1, f1⟩ := gen_fns_fresh fs1 h1
  obtain ⟨c2, f2⟩ := gen_fns_fresh fs2 h2
  have f1' : LabelsFresh s m ([.text_section] ++ c1) (constructsOf fs1) := by
    obtain ⟨o1, n1, r1, k1⟩ := f1
    exact ⟨by simpa using o1, by simpa [labelDefs, Instr.defines] using n1,
      by simpa [labelDefs, Instr.defines] using r1, by simpa using k1⟩
  refine ⟨m, [.text_section] ++ c1, c2, h1, h2, f1', f2, ?_, ?_⟩
  · rw [constructsOf_append]
    exact f1'.trans f2
  · intro t1 n1 t2 n2 hm1 hm2
    have := (f1'.2.2.1 n1).mp ⟨t1, hm1⟩
    have := (f2.2.2.1 n2).mp ⟨t2, hm2⟩
    omega

/-- The same body lowered as the two functions `f` and `g`: the first takes
the label number 0, the second the label number 1. -/
theorem label_numbers_unique_witness :
    ∃ m c1 c2, gen_text [some (exFnIf "f")] GenState.initial = .ok m ∧
      gen_fns [some (exFnIf "g")] m = .ok exTwoFnsState ∧
      LabelsFresh GenState.initial m c1 (constructsOf [some (exFnIf "f")]) ∧
      LabelsFresh m exTwoFnsState c2 (constructsOf [some (exFnIf "g")]) ∧
      LabelsFresh GenState.initial exTwoFnsState (c1 ++ c2)
        (constructsOf ([some (exFnIf "f")] ++ [some (exFnIf "g")])) ∧
      (∀ t1 n1 t2 n2, (t1, n1) ∈ labelDefs c1 → (t2, n2) ∈ labelDefs c2 → n1 < n2) :=
  label_numbers_unique [some (exFnIf "f")] [some (exFnIf "g")] GenState.initial exTwoFnsState
    rfl

theorem lower_frame {p : NDPtr} {x y : Ctx} {c : List Instr} (h : lower p x = .ok (c, y)) :
    x.label_seq ≤ y.label_seq ∧ y.brk_seq = x.brk_seq ∧ y.cont_seq = x.cont_seq ∧
      y.hot_func = x.hot_func :=
  (lower_ok_iff.mp h).frame

theorem lowerAll_frame {l : List NDPtr} {x y : Ctx} {cs : List (List Instr)}
    (h : lowerAll l x = .ok (cs, y)) :
    x.label_seq ≤ y.label_seq ∧ y.brk_seq = x.brk_seq ∧ y.cont_seq = x.cont_seq ∧
      y.hot_func = x.hot_func := by
  induction l generalizing x cs with
  | nil =>
    simp only [lowerAll, Except.ok.injEq, Prod.mk.injEq] at h
    simp [← h.2]
  | cons p ps ih =>
    simp only [lowerAll] at h
    split at h
    · simp at h
    · rename_i c1 x1 hp
      split at h
      · simp at h
      · rename_i cs2 y2 hps
        simp only [Except.ok.injEq, Prod.mk.injEq] at h
        obtain ⟨_, rfl⟩ := h
        have f1 := lower_frame hp
        have f2 := ih hps
        refine ⟨by omega, ?_, ?_, ?_⟩
        · rw [f2.2.1, f1.2.1]
        · rw [f2.2.2.1, f1.2.2.1]
        · rw [f2.2.2.2, f1.2.2.2]

/-- The break and continue targets with which a child is lowered: the number
of the parent when the parent is a loop, the targets of the parent
otherwise. -/
theorem Child.child_targets {p q : NDPtr} {x z : Ctx} (h : Child p x q z) :
    (p.isLoop = true → z.brk_seq = x.label_seq ∧ z.cont_seq = x.label_seq) ∧
    (p.isLoop = false → z.brk_seq = x.brk_seq ∧ z.cont_seq = x.cont_seq) := by
  cases h with
  | ret hk | unused hk | decl hk | if_cond hk | ternary_cond hk | assign hk =>
    simp [NDPtr.isLoop, hk, Ctx.bump]
  | unary hk hop =>
    rename_i k op
    cases k <;> simp [unaryOp] at hop <;> simp [NDPtr.isLoop, hk]
  | bin_left hk hn =>
    rename_i k
    cases k <;> simp [caseKinds] at hn <;> simp [NDPtr.isLoop, hk]
  | bin_right hk hn h1 =>
    rename_i k cl
    have f1 := lower_frame h1
    cases k <;> simp [caseKinds] at hn <;> simp [NDPtr.isLoop, hk, f1]
  | if_then hk h1 | ternary_then hk h1 =>
    have f1 := lower_frame h1
    simp only [bump_brk_seq, bump_cont_seq] at f1
    simp [NDPtr.isLoop, hk, f1]
  | if_els hk _ h1 h2 | ternary_els hk h1 h2 =>
    have f1 := lower_frame h1
    have f2 := lower_frame h2
    simp only [bump_brk_seq, bump_cont_seq] at f1
    simp [NDPtr.isLoop, hk, f1, f2]
  | block hk _ h1 | arg hk _ _ h1 =>
    have f1 := lowerAll_frame h1
    simp [NDPtr.isLoop, hk, f1]
  | for_init hk | while_cond hk | dowhile_then hk =>
    simp [NDPtr.isLoop, hk, Ctx.enter]
  | for_cond hk _ h1 | while_then hk h1 | dowhile_cond hk h1 =>
    have f1 := lower_frame h1
    simp only [Ctx.enter] at f1
    simp [NDPtr.isLoop, hk, f1]
  | for_then hk h1 h2 =>
    have f1 := lower_frame h1
    have f2 := lower_frame h2
    simp only [Ctx.enter] at f1
    simp [NDPtr.isLoop, hk, f1, f2]
  | for_inc hk _ h1 h2 h3 =>
    have f1 := lower_frame h1
    have f2 := lower_frame h2
    have f3 := lower_frame h3
    simp only [Ctx.enter] at f1
    simp [NDPtr.isLoop, hk, f1, f2, f3]

/-- Everywhere inside a loop and outside its deeper loops the break and
continue targets are the number of the loop. -/
theorem Within.loop_targets {p q : NDPtr} {x z : Ctx} (hl : p.isLoop = true) (h : Within p x q z) :
    z.brk_seq = x.label_seq ∧ z.cont_seq = x.label_seq := by
  induction h with
  | child hc => exact hc.child_targets.1 hl
  | deeper _ hq hc ih =>
    have := hc.child_targets.2 hq
    rw [this.1, this.2]
    exact ih

theorem Lowers.while_inv {p : NDPtr} {x y : Ctx} {c : List Instr}
    (hk : p.kind? = some ND_WHILEDO) (L : Lowers (.node p) x c y) :
    ∃ cc ct x1 x2, Lowers (.node p.cond) x.enter cc x1 ∧ Lowers (.node p.then_) x1 ct x2 ∧
      c = [.label CONTINUE x.label_seq] ++ cc ++ popCode "t0" ++ [.beqz "t0" EXIT x.label_seq]
          ++ ct ++ [.j CONTINUE x.label_seq, .label EXIT x.label_seq] ∧
      y = (x.leave x2).setLast p := by
  cases L with
  | while_ _ L1 L2 => exact ⟨_, _, _, _, L1, L2, rfl, rfl⟩
  | null => simp [NDPtr.kind?] at hk
  | unary hk' hop' => simp [hk] at hk'; subst hk'; simp [unaryOp] at hop'
  | binary hk' hop' => simp [hk] at hk'; subst hk'; simp [binaryOp] at hop'
  | _ => simp [hk] at *

theorem Lowers.dowhile_inv {p : NDPtr} {x y : Ctx} {c : List Instr}
    (hk : p.kind? = some ND_DOWHILE) (L : Lowers (.node p) x c y) :
    ∃ ct cc x1 x2, Lowers (.node p.then_) x.enter ct x1 ∧ Lowers (.node p.cond) x1 cc x2 ∧
      c = [.label CONTINUE x.label_seq] ++ ct ++ cc ++ popCode "t0"
          ++ [.bnez "t0" CONTINUE x.label_seq] ∧
      y = (x.leave x2).setLast p := by
  cases L with
  | dowhile _ L1 L2 => exact ⟨_, _, _, _, L1, L2, rfl, rfl⟩
  | null => simp [NDPtr.kind?] at hk
  | unary hk' hop' => simp [hk] at hk'; subst hk'; simp [unaryOp] at hop'
  | binary hk' hop' => simp [hk] at hk'; subst hk'; simp [binaryOp] at hop'
  | _ => simp [hk] at *

theorem loop_defines_continue {p : NDPtr} {x y : Ctx} {c : List Instr} (hl : p.isLoop = true)
    (h : lower p x = .ok (c, y)) : Instr.label CONTINUE x.label_seq ∈ c := by
  have L := lower_ok_iff.mp h
  simp only [NDPtr.isLoop, decide_eq_true_eq] at hl
  rcases hl with hk | hk | hk
  · obtain ⟨ci, cc, ct, cn, x1, x2, x3, x4, _, _, _, _, rfl, _⟩ := L.for_inv hk
    simp
  · obtain ⟨cc, ct, x1, x2, _, _, rfl, _⟩ := L.while_inv hk
    simp
  · obtain ⟨ct, cc, x1, x2, _, _, rfl, _⟩ := L.dowhile_inv hk
    simp

theorem Typed_append {D : DepthMap} {c1 c2 : List Instr} {a b : Option Int} :
    Typed D (c1 ++ c2) a b ↔ ∃ m, Typed D c1 a m ∧ Typed D c2 m b := by
  induction c1 generalizing a with
  | nil => simp [Typed]
  | cons i rest ih =>
    rw [List.cons_append]
    simp only [Typed]
    rw [ih]
    constructor
    · rintro ⟨h1, m, h2, h3⟩
      exact ⟨m, ⟨h1, h2⟩, h3⟩
    · rintro ⟨m, ⟨h1, h2⟩, h3⟩
      exact ⟨h1, m, h2, h3⟩

theorem split_at {code : List Instr} {k : Nat} {i : Instr} (h : code[k]? = some i) :
    ∃ c1 c2, code = c1 ++ i :: c2 ∧ c1.length = k := by
  obtain ⟨hk, hi⟩ := List.getElem?_eq_some.mp h
  refine ⟨code.take k, code.drop (k + 1), ?_, ?_⟩
  · rw [← hi]
    exact (List.take_append_drop k code).symm.trans (by rw [List.drop_eq_getElem_cons hk])
  · simp [List.length_take]
    omega

theorem append_inj_length {c1 c2 d1 d2 : List Instr} (h : c1 ++ c2 = d1 ++ d2)
    (hl : c1.length = d1.length) : c1 = d1 ∧ c2 = d2 :=
  List.append_inj h hl

theorem AtLine.step {D : DepthMap} {code : List Instr} {d0 : Int} {b : Option Int}
    {q q' : Nat × Int} (hf : ∀ t m, Instr.label_fn t m ∉ code) (h : AtLine D code d0 b q)
    (hs : Step code q q') : AtLine D code d0 b q' := by
  obtain ⟨c1, c2, a, hc, hl, h1, h2, ha⟩ := h
  cases hs with
  | next hi hft =>
    rename_i pc d i
    obtain ⟨e1, e2, he, hel⟩ := split_at hi
    have := append_inj_length (hc.symm.trans he) (by simpa using hl.trans hel.symm)
    obtain ⟨rfl, rfl⟩ := this
    simp only [Typed] at h2
    refine ⟨c1 ++ [i], e2, linePost D i a, by simp [he], by simp [hel], ?_, h2.2, Or.inl ?_⟩
    · exact Typed_append.mpr ⟨a, h1, by simp [Typed, h2.1]⟩
    · rcases ha with ha | ⟨t, n, r, hr, hd⟩
      · subst ha
        cases i <;> simp [Instr.fallsThrough] at hft <;>
          simp [linePost, Instr.effect, lineOk, Fits] at h2 ⊢
        exact h2.1.symm
      · simp only [List.cons.injEq] at hr
        obtain ⟨rfl, rfl⟩ := hr
        simp [linePost, Instr.effect, hd]
  | jump hi hr ht =>
    rename_i pc pc' d i t n
    obtain ⟨e1, e2, he, hel⟩ := split_at hi
    have := append_inj_length (hc.symm.trans he) (by simpa using hl.trans hel.symm)
    obtain ⟨rfl, rfl⟩ := this
    have hd : D t n = d := by
      rcases ha with ha | ⟨t', n', r, hr', _⟩
      · subst ha
        simp only [Typed] at h2
        have h3 := h2.1
        cases i <;> simp [Instr.refers] at hr <;> obtain ⟨rfl, rfl⟩ := hr <;>
          simp [lineOk, Fits] at h3 <;> exact h3.symm
      · simp only [List.cons.injEq] at hr'
        rw [hr'.1] at hr
        simp [Instr.refers] at hr
    obtain ⟨g1, g2, hg, hgl⟩ := split_at ht
    have hall : Typed D code (some d0) b := by
      rw [he]
      exact Typed_append.mpr ⟨a, h1, h2⟩
    rw [hg] at hall
    obtain ⟨m, hm1, hm2⟩ := Typed_append.mp hall
    exact ⟨g1, .label t n :: g2, m, hg, hgl, hm1, hm2, Or.inr ⟨t, n, g2, rfl, hd⟩⟩
  | jump_fn hi ht =>
    exact absurd (List.getElem?_mem ht) (hf _ _)

theorem Typed.sound {D : DepthMap} {code : List Instr} {d0 : Int} {b : Option Int}
    (hf : ∀ t m, Instr.label_fn t m ∉ code) (h : Typed D code (some d0) b) {q : Nat × Int}
    (hp : Path code (0, d0) q) : AtLine D code d0 b q := by
  induction hp with
  | refl => exact ⟨[], code, some d0, rfl, rfl, rfl, h, Or.inl rfl⟩
  | tail _ hs ih => exact ih.step hf hs

/-- When the check passes from depth `d0` to a depth that fits `d1`, every
execution path from the first line to the end of the code changes the depth
from `d0` to `d1`. -/
theorem Typed.at_end {D : DepthMap} {code : List Instr} {d0 d1 d : Int} {b : Option Int}
    (hf : ∀ t m, Instr.label_fn t m ∉ code) (h : Typed D code (some d0) b) (hb : Fits b d1)
    (hp : Path code (0, d0) (code.length, d)) : d = d1 := by
  obtain ⟨c1, c2, a, hc, hl, h1, h2, ha⟩ := h.sound hf hp
  have h0 : c2 = [] := by
    have := congrArg List.length hc
    simp only [List.length_append] at this
    simp only at hl
    exact List.eq_nil_of_length_eq_zero (by omega)
  subst h0
  simp only [Typed] at h2
  rcases ha with ha | ⟨t, n, r, hr, _⟩
  · rw [ha] at h2
    rcases hb with hb | hb
    · rw [hb] at h2; cases h2
    · rw [hb] at h2; cases h2; rfl
  · cases hr

theorem lineOk_congr {D D' : DepthMap} {i : Instr} {a : Option Int}
    (h : ∀ t n, i.defines = some (t, n) ∨ i.refers = some (t, n) → D t n = D' t n) :
    lineOk D i a ↔ lineOk D' i a := by
  cases i <;> simp only [lineOk]
  all_goals rw [h _ _ (by simp [Instr.defines, Instr.refers])]

theorem linePost_congr {D D' : DepthMap} {i : Instr} {a : Option Int}
    (h : ∀ t n, i.defines = some (t, n) ∨ i.refers = some (t, n) → D t n = D' t n) :
    linePost D i a = linePost D' i a := by
  cases i <;> simp only [linePost]
  rw [h _ _ (by simp [Instr.defines, Instr.refers])]

theorem Typed_congr {D D' : DepthMap} {c : List Instr} {a b : Option Int}
    (h : ∀ t n, (t, n) ∈ labelDefs c ∨ (t, n) ∈ labelRefs c → D t n = D' t n) :
    Typed D c a b ↔ Typed D' c a b := by
  induction c generalizing a with
  | nil => simp [Typed]
  | cons i rest ih =>
    have hi : ∀ t n, i.defines = some (t, n) ∨ i.refers = some (t, n) → D t n = D' t n := by
      intro t n hm
      apply h
      rcases hm with hm | hm
      · left; simp [labelDefs, List.filterMap_cons, hm]
      · right; simp [labelRefs, List.filterMap_cons, hm]
    have hr : ∀ t n, (t, n) ∈ labelDefs rest ∨ (t, n) ∈ labelRefs rest → D t n = D' t n := by
      intro t n hm
      apply h
      rcases hm with hm | hm
      · left
        have : labelDefs (i :: rest) = labelDefs [i] ++ labelDefs rest :=
          labelDefs_append [i] rest
        rw [this]
        exact List.mem_append_right _ hm
      · right
        have : labelRefs (i :: rest) = labelRefs [i] ++ labelRefs rest :=
          labelRefs_append [i] rest
        rw [this]
        exact List.mem_append_right _ hm
    simp only [Typed]
    rw [lineOk_congr hi, linePost_congr hi, ih hr]

theorem Ty.ty_congr {D D' : DepthMap} {c : List Instr} {d e : Int} (h : Ty D c d e)
    (hc : ∀ t n, (t, n) ∈ labelDefs c ∨ (t, n) ∈ labelRefs c → D t n = D' t n) :
    Ty D' c d e := by
  intro a ha
  obtain ⟨b, hb, ht⟩ := h a ha
  exact ⟨b, hb, (Typed_congr hc).mp ht⟩

theorem Ty.ty_append {D : DepthMap} {c1 c2 : List Instr} {d e f : Int} (h1 : Ty D c1 d e)
    (h2 : Ty D c2 e f) : Ty D (c1 ++ c2) d f := by
  intro a ha
  obtain ⟨m, hm, t1⟩ := h1 a ha
  obtain ⟨b, hb, t2⟩ := h2 m hm
  exact ⟨b, hb, Typed_append.mpr ⟨m, t1, t2⟩⟩

theorem Below_append {c1 c2 : List Instr} {b : Int} :
    Below (c1 ++ c2) b ↔ Below c1 b ∧ Below c2 b := by
  simp only [Below, labelDefs_append, labelRefs_append, List.mem_append]
  constructor
  · intro h
    exact ⟨fun t n hm => h t n (by tauto), fun t n hm => h t n (by tauto)⟩
  · rintro ⟨h1, h2⟩ t n hm
    rcases hm with (hm | hm) | (hm | hm)
    · exact h1 t n (Or.inl hm)
    · exact h2 t n (Or.inl hm)
    · exact h1 t n (Or.inr hm)
    · exact h2 t n (Or.inr hm)

theorem Below.below_mono {c : List Instr} {b b' : Int} (h : Below c b) (hb : b ≤ b') :
    Below c b' := by
  intro t n hm
  rcases h t n hm with h | h
  · exact Or.inl h
  · exact Or.inr (by omega)

theorem Judg.judg_seq {pins : Pins} {v : Int} {c1 c2 : List Instr} {a m b d e f : Int}
    (hp : PinsBelow pins a) (h1 : Judg pins v c1 a m d e) (h2 : Judg pins v c2 m b e f) :
    Judg pins v (c1 ++ c2) a b d f := by
  obtain ⟨ha, hb1, t1⟩ := h1
  obtain ⟨hb, hb2, t2⟩ := h2
  refine ⟨by omega, Below_append.mpr ⟨hb1.below_mono hb, hb2⟩, ?_⟩
  intro D0 hs hv
  obtain ⟨D1, g1, v1, y1⟩ := t1 D0 hs hv
  have hs1 : Sat D1 pins := by
    intro t n k hm
    rw [g1 t n (Or.inl (hp t n k hm))]
    exact hs t n k hm
  obtain ⟨D2, g2, v2, y2⟩ := t2 D1 hs1 v1
  refine ⟨D2, ?_, v2, ?_⟩
  · intro t n hn
    rw [g2 t n (by omega), g1 t n (by omega)]
  · refine Ty.ty_append (y1.ty_congr ?_) y2
    intro t n hm
    rcases hb1 t n hm with h | h
    · subst h
      rw [v1, v2]
    · exact (g2 t n (Or.inl h)).symm

theorem Judg.judg_nil (pins : Pins) (v m d : Int) : Judg pins v [] m m d d := by
  refine ⟨le_refl _, by intro t n hm; simp at hm, ?_⟩
  intro D0 _ hv
  exact ⟨D0, fun _ _ _ => rfl, hv, fun a ha => ⟨a, ha, rfl⟩⟩

theorem Judg.judg_plain (pins : Pins) {i : Instr} (hi : i.isPlain = true) (v m d : Int) :
    Judg pins v [i] m m d (d + i.effect) := by
  refine ⟨le_refl _, ?_, ?_⟩
  · intro t n hm
    cases i <;> simp [Instr.isPlain] at hi <;>
      simp [labelDefs, labelRefs, Instr.defines, Instr.refers] at hm
  · intro D0 _ hv
    refine ⟨D0, fun _ _ _ => rfl, hv, ?_⟩
    intro a ha
    refine ⟨a.map (fun d => d + i.effect), ?_, ?_⟩
    · rcases ha with rfl | rfl <;> simp [Fits]
    · cases i <;> simp [Instr.isPlain] at hi <;> simp [Typed, lineOk, linePost]

theorem Judg.judg_label {pins : Pins} {t : String} {v s m d : Int} (hm : (t, s, d) ∈ pins)
    (hs : s < m) : Judg pins v [.label t s] m m d d := by
  refine ⟨le_refl _, ?_, ?_⟩
  · intro t' n h
    simp at h
    omega
  · intro D0 hsat hv
    refine ⟨D0, fun _ _ _ => rfl, hv, ?_⟩
    intro a ha
    refine ⟨some d, Or.inr rfl, ?_⟩
    simp [Typed, lineOk, linePost, hsat t s d hm, ha]

theorem Judg.judg_jmp {pins : Pins} {t : String} {v s m d : Int} (e : Int)
    (hm : (t, s, d) ∈ pins) (hs : s < m) : Judg pins v [.j t s] m m d e := by
  refine ⟨le_refl _, ?_, ?_⟩
  · intro t' n h
    simp at h
    omega
  · intro D0 hsat hv
    refine ⟨D0, fun _ _ _ => rfl, hv, ?_⟩
    intro a ha
    refine ⟨none, Or.inl rfl, ?_⟩
    simp [Typed, lineOk, linePost, hsat t s d hm, ha]

theorem Judg.judg_beqz {pins : Pins} {r t : String} {v s m d : Int} (hm : (t, s, d) ∈ pins)
    (hs : s < m) : Judg pins v [.beqz r t s] m m d d := by
  refine ⟨le_refl _, ?_, ?_⟩
  · intro t' n h
    simp at h
    omega
  · intro D0 hsat hv
    refine ⟨D0, fun _ _ _ => rfl, hv, ?_⟩
    intro a ha
    refine ⟨a, ha, ?_⟩
    simp [Typed, lineOk, linePost, hsat t s d hm, ha, Instr.effect]

/-- A continue label: its depth is the depth `v` of all continue labels. -/
theorem Judg.judg_label_cont (pins : Pins) (v s m : Int) :
    Judg pins v [.label CONTINUE s] m m v v := by
  refine ⟨le_refl _, ?_, ?_⟩
  · intro t' n h
    simp at h
    exact Or.inl h.1
  · intro D0 _ hv
    refine ⟨D0, fun _ _ _ => rfl, hv, ?_⟩
    intro a ha
    refine ⟨some v, Or.inr rfl, ?_⟩
    simp [Typed, lineOk, linePost, hv s, ha]

theorem Judg.judg_jmp_cont (pins : Pins) (v s m e : Int) :
    Judg pins v [.j CONTINUE s] m m v e := by
  refine ⟨le_refl _, ?_, ?_⟩
  · intro t' n h
    simp at h
    exact Or.inl h.1
  · intro D0 _ hv
    refine ⟨D0, fun _ _ _ => rfl, hv, ?_⟩
    intro a ha
    refine ⟨none, Or.inl rfl, ?_⟩
    simp [Typed, lineOk, linePost, hv s, ha]

theorem Judg.judg_bnez_cont (pins : Pins) (r : String) (v s m : Int) :
    Judg pins v [.bnez r CONTINUE s] m m v v := by
  refine ⟨le_refl _, ?_, ?_⟩
  · intro t' n h
    simp at h
    exact Or.inl h.1
  · intro D0 _ hv
    refine ⟨D0, fun _ _ _ => rfl, hv, ?_⟩
    intro a ha
    refine ⟨a, ha, ?_⟩
    simp [Typed, lineOk, linePost, hv s, ha, Instr.effect]

theorem Judg.judg_j_fn (pins : Pins) (t name : String) (v m d e : Int) :
    Judg pins v [.j_fn t name] m m d e := by
  refine ⟨le_refl _, ?_, ?_⟩
  · intro t' n h
    simp at h
  · intro D0 _ hv
    refine ⟨D0, fun _ _ _ => rfl, hv, ?_⟩
    intro a _
    exact ⟨none, Or.inl rfl, by simp [Typed, lineOk, linePost]⟩

theorem Judg.judg_cons {pins : Pins} {i j : Instr} {r : List Instr} {v m b d e f : Int}
    (hp : PinsBelow pins m) (h1 : Judg pins v [i] m m d e) (h2 : Judg pins v (j :: r) m b e f) :
    Judg pins v (i :: j :: r) m b d f :=
  show Judg pins v ([i] ++ j :: r) m b d f from Judg.judg_seq hp h1 h2

theorem Judg.judg_plains (pins : Pins) {c : List Instr} (hc : ∀ i ∈ c, i.isPlain = true)
    (v m d : Int) : Judg pins v c m m d (d + (c.map Instr.effect).sum) := by
  induction c generalizing d with
  | nil => simpa using Judg.judg_nil pins v m d
  | cons i r ih =>
    have h1 := Judg.judg_plain pins (hc i (by simp)) v m d
    have h2 := ih (fun j hj => hc j (by simp [hj])) (d + i.effect)
    obtain ⟨_, b1, t1⟩ := h1
    obtain ⟨_, b2, t2⟩ := h2
    refine ⟨le_refl _, ?_, ?_⟩
    · have := Below_append.mpr ⟨b1, b2⟩
      simpa using this
    · intro D0 hs hv
      obtain ⟨D1, g1, _, y1⟩ := t1 D0 hs hv
      obtain ⟨D2, g2, _, y2⟩ := t2 D0 hs hv
      refine ⟨D0, fun _ _ _ => rfl, hv, ?_⟩
      have e1 : D1 = D0 := by
        funext t n
        exact g1 t n (by omega)
      have e2 : D2 = D0 := by
        funext t n
        exact g2 t n (by omega)
      subst e1
      subst e2
      have := Ty.ty_append y1 y2
      simpa [add_assoc] using this

theorem Judg.judg_cleanup_lines (pins : Pins) (n : Nat) (v m d : Int) :
    Judg pins v (callCleanup n) m m d (d - n) := by
  have := Judg.judg_plains pins (c := callCleanup n)
    (by intro i hi; unfold Minidecaf.callCleanup at hi; split at hi <;> simp at hi; subst hi; rfl)
    v m d
  have e : ((callCleanup n).map Instr.effect).sum = -(n : Int) := by
    unfold Minidecaf.callCleanup
    split
    · simp [Instr.effect, POINTER_WIDTH]
    · rename_i h
      simp at h
      simp [h]
  rw [e] at this
  simpa [sub_eq_add_neg] using this

theorem Judg.judg_cast {pins : Pins} {c c' : List Instr} {v a b d e e' : Int}
    (h : Judg pins v c a b d e) (hc : c = c') (he : e = e') : Judg pins v c' a b d e' := by
  subst hc; subst he; exact h

/-- Own labels of number `s`, none of them a continue label: a judgment that
pins them to the depths `f` gives a judgment on the range that starts at
`s`. -/
theorem Judg.judg_pin {pins : Pins} {c : List Instr} {v s b d e : Int} (f : String → Int)
    (own : List String) (ho : CONTINUE ∉ own)
    (h : Judg (own.map (fun t => (t, s, f t)) ++ pins) v c (s + 1) b d e)
    (hp : PinsBelow pins s) : Judg pins v c s b d e := by
  obtain ⟨h1, h2, h3⟩ := h
  refine ⟨by omega, h2, ?_⟩
  intro D0 hsat hv
  let D1 : DepthMap := fun t n => if n = s ∧ t ∈ own then f t else D0 t n
  have hs1 : Sat D1 (own.map (fun t => (t, s, f t)) ++ pins) := by
    intro t n k hm
    rcases List.mem_append.mp hm with hm | hm
    · obtain ⟨t', ht', he⟩ := List.mem_map.mp hm
      simp only [Prod.mk.injEq] at he
      obtain ⟨rfl, rfl, rfl⟩ := he
      simp [D1, ht']
    · have := hp t n k hm
      have hn : n ≠ s := by omega
      simp [D1, hn]
      exact hsat t n k hm
  have hv1 : ∀ n, D1 CONTINUE n = v := by
    intro n
    simp [D1, ho, hv n]
  obtain ⟨D, g, hvD, y⟩ := h3 D1 hs1 hv1
  refine ⟨D, ?_, hvD, y⟩
  intro t n hn
  rw [g t n (by omega)]
  have hn : n ≠ s := by omega
  simp [D1, hn]

theorem PinsBelow.below_le {pins : Pins} {a b : Int} (h : PinsBelow pins a) (hab : a ≤ b) :
    PinsBelow pins b :=
  fun t n k hm => lt_of_lt_of_le (h t n k hm) hab

theorem PinsBelow.own {pins : Pins} {s : Int} (f : String → Int) (own : List String)
    (h : PinsBelow pins s) : PinsBelow (own.map (fun t => (t, s, f t)) ++ pins) (s + 1) := by
  intro t n k hm
  rcases List.mem_append.mp hm with hm | hm
  · obtain ⟨t', _, he⟩ := List.mem_map.mp hm
    simp only [Prod.mk.injEq] at he
    omega
  · have := h t n k hm
    omega

theorem Judg.judg_tail {pins : Pins} {c : List Instr} {v a b d e : Int} (f : Int)
    (h : Judg pins v c a b d e) (hp : PinsBelow pins a) (t : List Instr)
    (ht : ∀ i ∈ t, i.isPlain = true) (hf : e + (t.map Instr.effect).sum = f) :
    Judg pins v (c ++ t) a b d f := by
  subst hf
  exact Judg.judg_seq hp h (Judg.judg_plains pins ht v b e)

theorem isExpr_eq {p : NDPtr} {k : NodeKind} (h : p.kind? = some k) :
    p.isExpr = (NDPtr.mk k p.lexpr p.rexpr p.cond p.then_ p.els p.init p.inc p.body p.var p.val
      p.func_call).isExpr := by
  cases p with
  | null => simp [NDPtr.kind?] at h
  | mk => simp [NDPtr.kind?] at h; subst h; rfl

theorem isStmt_eq {p : NDPtr} {k : NodeKind} (h : p.kind? = some k) :
    p.isStmt = (NDPtr.mk k p.lexpr p.rexpr p.cond p.then_ p.els p.init p.inc p.body p.var p.val
      p.func_call).isStmt := by
  cases p with
  | null => simp [NDPtr.kind?] at h
  | mk => simp [NDPtr.kind?] at h; subst h; rfl

theorem freeBreak_eq {p : NDPtr} {k : NodeKind} (h : p.kind? = some k) :
    p.freeBreak = (NDPtr.mk k p.lexpr p.rexpr p.cond p.then_ p.els p.init p.inc p.body p.var
      p.val p.func_call).freeBreak := by
  cases p with
  | null => simp [NDPtr.kind?] at h
  | mk => simp [NDPtr.kind?] at h; subst h; rfl

theorem isExpr_call {p : NDPtr} {name : String} {args : NDList}
    (hk : p.kind? = some ND_FUNC_CALL) (hfc : p.func_call = .mk name args) :
    p.isExpr = args.allExpr := by
  cases p with
  | null => simp [NDPtr.kind?] at hk
  | mk k l r c t e i inc body var val fc =>
    simp only [NDPtr.kind?, Option.some.injEq] at hk
    simp only [NDPtr.func_call] at hfc
    subst hk
    subst hfc
    simp [NDPtr.isExpr]

theorem unaryOp_plain {k : NodeKind} {op : Instr} (h : unaryOp k = some op) :
    op.isPlain = true ∧ op.effect = 0 := by
  cases k <;> simp [unaryOp] at h <;> subst h <;> exact ⟨rfl, rfl⟩

theorem binaryOp_plain {k : NodeKind} {ops : List Instr} (h : binaryOp k = some ops) :
    (∀ i ∈ ops, i.isPlain = true) ∧ (ops.map Instr.effect).sum = 0 := by
  cases k <;> simp [binaryOp] at h <;> subst h <;> simp [Instr.isPlain, Instr.effect]

theorem unaryOp_not_stmt {p : NDPtr} {k : NodeKind} {op : Instr} (hk : p.kind? = some k)
    (h : unaryOp k = some op) : p.isStmt = false ∧ p.isExpr = p.lexpr.isExpr := by
  rw [isStmt_eq hk, isExpr_eq hk]
  cases k <;> simp [unaryOp] at h <;> simp [NDPtr.isStmt, NDPtr.isExpr]

theorem binaryOp_not_stmt {p : NDPtr} {k : NodeKind} {ops : List Instr}
    (hk : p.kind? = some k) (h : binaryOp k = some ops) :
    p.isStmt = false ∧ p.isExpr = (p.lexpr.isExpr && p.rexpr.isExpr) := by
  rw [isStmt_eq hk, isExpr_eq hk]
  cases k <;> simp [binaryOp] at h <;> simp [NDPtr.isStmt, NDPtr.isExpr]

theorem stmt_or_null {q : NDPtr} {x y : Ctx} {c : List Instr} (L : Lowers (.node q) x c y)
    (ih : DepthOk (.node q) x c y) (h : (q.isNull || q.isStmt) = true) :
    StmtOk q.freeBreak x c y := by
  cases hq : q.isNull with
  | true =>
    rw [isNull_iff] at hq
    subst hq
    obtain ⟨rfl, rfl⟩ := L.null_inv
    intro pins d _ _
    exact Judg.judg_nil pins d _ d
  | false =>
    simp only [hq, Bool.false_or] at h
    exact ih.2 h

theorem Lowers.depthOk {i : Item} {x y : Ctx} {c : List Instr} (L : Lowers i x c y) :
    DepthOk i x c y := by
  induction L with
  | null x => simp [DepthOk, NDPtr.isExpr, NDPtr.isStmt]
  | @ret p x x1 c f hk L1 hf ih =>
    refine ⟨fun he => ?_, fun hs pins d hp _ => ?_⟩
    · rw [isExpr_eq hk] at he; simp [NDPtr.isExpr] at he
    · rw [isStmt_eq hk] at hs; simp only [NDPtr.isStmt] at hs
      have j1 := ih.1 hs pins d d hp
      have j2 := j1.judg_tail d hp (popCode "a0") (by simp [popCode, Instr.isPlain])
        (by simp [popCode, Instr.effect, POINTER_WIDTH])
      exact Judg.judg_seq hp j2 (Judg.judg_j_fn pins _ _ _ _ _ d)
  | @decl_none p x a o vinit hk hv hn =>
    refine ⟨fun he => ?_, fun hs pins d hp _ => ?_⟩
    · rw [isExpr_eq hk] at he; simp [NDPtr.isExpr] at he
    · exact Judg.judg_nil pins d _ d
  | @decl_init p x x1 c a o vinit hk hv hn L1 ih =>
    refine ⟨fun he => ?_, fun hs pins d hp _ => ?_⟩
    · rw [isExpr_eq hk] at he; simp [NDPtr.isExpr] at he
    · rw [isStmt_eq hk] at hs; simp only [NDPtr.isStmt, hv, hn, Bool.false_or] at hs
      have j1 := ih.1 hs pins d d hp
      have j2 := j1.judg_tail d hp (popCode "t0") (by simp [popCode, Instr.isPlain])
        (by simp [popCode, Instr.effect, POINTER_WIDTH])
      exact j2.judg_tail d hp [_] (by simp [Instr.isPlain]) (by simp [Instr.effect])
  | @unused_none p x hk hn =>
    refine ⟨fun he => ?_, fun hs pins d hp _ => ?_⟩
    · rw [isExpr_eq hk] at he; simp [NDPtr.isExpr] at he
    · exact Judg.judg_nil pins d _ d
  | @unused_some p x x1 c hk hn L1 ih =>
    refine ⟨fun he => ?_, fun hs pins d hp _ => ?_⟩
    · rw [isExpr_eq hk] at he; simp [NDPtr.isExpr] at he
    · rw [isStmt_eq hk] at hs; simp only [NDPtr.isStmt, hn, Bool.false_or] at hs
      have j1 := ih.1 hs pins d d hp
      exact j1.judg_tail d hp (popCode "t0") (by simp [popCode, Instr.isPlain])
        (by simp [popCode, Instr.effect, POINTER_WIDTH])
  | @if_then p x x1 x2 cc ct hk hn L1 L2 ih1 ih2 =>
    have f1 := L1.frame
    have f2 := L2.frame
    simp only [Ctx.bump] at f1
    refine ⟨fun he => ?_, fun hs pins d hp hb => ?_⟩
    · rw [isExpr_eq hk] at he; simp [NDPtr.isExpr] at he
    · rw [isStmt_eq hk] at hs; simp only [NDPtr.isStmt, Bool.and_eq_true] at hs
      rw [freeBreak_eq hk] at hb
      simp only [NDPtr.freeBreak, Bool.or_eq_true] at hb
      obtain ⟨⟨hs1, hs2⟩, hs3⟩ := hs
      apply Judg.judg_pin (fun _ => d) [EXIT] (by decide) _ hp
      have hp1 := hp.own (fun _ => d) [EXIT]
      have m1 : (EXIT, x.label_seq, d) ∈ ([EXIT].map (fun t => (t, x.label_seq, d)) ++ pins) := by
        simp
      have j1 := ih1.1 hs1 _ d d hp1
      have j2 := j1.judg_tail d hp1 (popCode "t0") (by simp [popCode, Instr.isPlain])
        (by simp [popCode, Instr.effect, POINTER_WIDTH])
      have j3 := Judg.judg_seq hp1 j2 (Judg.judg_beqz (r := "t0") m1 (by omega))
      have j4 := stmt_or_null L2 ih2 hs2 _ d (hp1.below_le f1.1)
        (fun h => List.mem_append_right _ (by rw [f1.2.1]; exact hb (Or.inl h)))
      have j5 := Judg.judg_seq hp1 j3 j4
      exact Judg.judg_seq hp1 j5 (Judg.judg_label m1 (by omega))
  | @if_else p x x1 x2 x3 cc ct ce hk hn L1 L2 L3 ih1 ih2 ih3 =>
    have f1 := L1.frame
    have f2 := L2.frame
    have f3 := L3.frame
    simp only [Ctx.bump] at f1
    refine ⟨fun he => ?_, fun hs pins d hp hb => ?_⟩
    · rw [isExpr_eq hk] at he; simp [NDPtr.isExpr] at he
    · rw [isStmt_eq hk] at hs; simp only [NDPtr.isStmt, Bool.and_eq_true] at hs
      rw [freeBreak_eq hk] at hb
      simp only [NDPtr.freeBreak, Bool.or_eq_true] at hb
      obtain ⟨⟨hs1, hs2⟩, hs3⟩ := hs
      apply Judg.judg_pin (fun _ => d) [ELSE, EXIT] (by decide) _ hp
      have hp1 := hp.own (fun _ => d) [ELSE, EXIT]
      have m1 : (EXIT, x.label_seq, d) ∈
          ([ELSE, EXIT].map (fun t => (t, x.label_seq, d)) ++ pins) := by simp
      have m2 : (ELSE, x.label_seq, d) ∈
          ([ELSE, EXIT].map (fun t => (t, x.label_seq, d)) ++ pins) := by simp
      have j1 := ih1.1 hs1 _ d d hp1
      have j2 := j1.judg_tail d hp1 (popCode "t0") (by simp [popCode, Instr.isPlain])
        (by simp [popCode, Instr.effect, POINTER_WIDTH])
      have j3 := Judg.judg_seq hp1 j2 (Judg.judg_beqz (r := "t0") m2 (by omega))
      have j4 := stmt_or_null L2 ih2 hs2 _ d (hp1.below_le f1.1)
        (fun h => List.mem_append_right _ (by rw [f1.2.1]; exact hb (Or.inl h)))
      have j5 := Judg.judg_seq hp1 j3 j4
      have j6 := Judg.judg_seq hp1 j5
        (Judg.judg_cons (hp1.below_le (by omega)) (Judg.judg_jmp d m1 (by omega))
          (Judg.judg_label m2 (by omega)))
      have j7 := stmt_or_null L3 ih3 hs3 _ d (hp1.below_le (by omega))
        (fun h => List.mem_append_right _ (by rw [f2.2.1, f1.2.1]; exact hb (Or.inr h)))
      have j8 := Judg.judg_seq hp1 j6 j7
      exact Judg.judg_seq hp1 j8 (Judg.judg_label m1 (by omega))
  | @block p x x1 c hk L1 ih =>
    refine ⟨fun he => ?_, fun hs pins d hp hb => ?_⟩
    · rw [isExpr_eq hk] at he; simp [NDPtr.isExpr] at he
    · rw [isStmt_eq hk] at hs; simp only [NDPtr.isStmt] at hs
      rw [freeBreak_eq hk] at hb
      simp only [NDPtr.freeBreak] at hb
      exact ih hs pins d hp hb
  | @for_ p x x1 x2 x3 x4 ci cc ct cn hk L1 L2 L3 L4 ih1 ih2 ih3 ih4 =>
    have f1 := L1.frame
    have f2 := L2.frame
    have f3 := L3.frame
    have f4 := L4.frame
    simp only [Ctx.enter] at f1
    refine ⟨fun he => ?_, fun hs pins d hp _ => ?_⟩
    · rw [isExpr_eq hk] at he; simp [NDPtr.isExpr] at he
    · rw [isStmt_eq hk] at hs; simp only [NDPtr.isStmt, Bool.and_eq_true] at hs
      obtain ⟨⟨⟨hs1, hs2⟩, hs3⟩, hs4⟩ := hs
      apply Judg.judg_pin (fun _ => d) [BEGIN, EXIT] (by decide) _ hp
      have hp1 := hp.own (fun _ => d) [BEGIN, EXIT]
      have mB : (BEGIN, x.label_seq, d) ∈
          ([BEGIN, EXIT].map (fun t => (t, x.label_seq, d)) ++ pins) := by simp
      have mE : (EXIT, x.label_seq, d) ∈
          ([BEGIN, EXIT].map (fun t => (t, x.label_seq, d)) ++ pins) := by simp
      have j1 := stmt_or_null L1 ih1 hs1 _ d hp1 (fun _ => mE)
      have j2 := Judg.judg_seq hp1 j1 (Judg.judg_label mB (by omega))
      have jt : Judg ([BEGIN, EXIT].map (fun t => (t, x.label_seq, d)) ++ pins) d
          (forTest p.cond cc x.label_seq) x1.label_seq x2.label_seq d d := by
        unfold forTest
        cases hq : p.cond.isNull with
        | true =>
          have hq2 := isNull_iff.mp hq
          rw [hq2] at L2
          obtain ⟨rfl, rfl⟩ := L2.null_inv
          exact Judg.judg_nil _ _ _ d
        | false =>
          simp only [hq, Bool.false_or] at hs2
          have k1 := ih2.1 hs2 _ d d (hp1.below_le f1.1)
          have k2 := k1.judg_tail d (hp1.below_le f1.1) (popCode "t0")
            (by simp [popCode, Instr.isPlain]) (by simp [popCode, Instr.effect, POINTER_WIDTH])
          simpa using Judg.judg_seq (hp1.below_le f1.1) k2
            (Judg.judg_beqz (r := "t0") mE (by omega))
      have j3 := Judg.judg_seq hp1 j2 jt
      have j4 := stmt_or_null L3 ih3 hs3 _ d (hp1.below_le (by omega))
        (fun _ => by rw [f2.2.1, f1.2.1]; exact mE)
      have j5 := Judg.judg_seq hp1 j3 j4
      have j6 := Judg.judg_seq hp1 j5 (Judg.judg_label_cont _ d x.label_seq _)
      have j7 := stmt_or_null L4 ih4 hs4 _ d (hp1.below_le (by omega))
        (fun _ => by rw [f3.2.1, f2.2.1, f1.2.1]; exact mE)
      have j8 := Judg.judg_seq hp1 j6 j7
      exact Judg.judg_seq hp1 j8
        (Judg.judg_cons (hp1.below_le (by omega)) (Judg.judg_jmp d mB (by omega))
          (Judg.judg_label mE (by omega)))
  | @while_ p x x1 x2 cc ct hk L1 L2 ih1 ih2 =>
    have f1 := L1.frame
    have f2 := L2.frame
    simp only [Ctx.enter] at f1
    refine ⟨fun he => ?_, fun hs pins d hp _ => ?_⟩
    · rw [isExpr_eq hk] at he; simp [NDPtr.isExpr] at he
    · rw [isStmt_eq hk] at hs; simp only [NDPtr.isStmt, Bool.and_eq_true] at hs
      obtain ⟨hs1, hs2⟩ := hs
      apply Judg.judg_pin (fun _ => d) [EXIT] (by decide) _ hp
      have hp1 := hp.own (fun _ => d) [EXIT]
      have mE : (EXIT, x.label_seq, d) ∈
          ([EXIT].map (fun t => (t, x.label_seq, d)) ++ pins) := by simp
      have j1 := Judg.judg_seq hp1 (Judg.judg_label_cont _ d x.label_seq (x.label_seq + 1))
        (ih1.1 hs1 _ d d hp1)
      have j2 := j1.judg_tail d hp1 (popCode "t0") (by simp [popCode, Instr.isPlain])
        (by simp [popCode, Instr.effect, POINTER_WIDTH])
      have j3 := Judg.judg_seq hp1 j2 (Judg.judg_beqz (r := "t0") mE (by omega))
      have j4 := stmt_or_null L2 ih2 hs2 _ d (hp1.below_le f1.1)
        (fun _ => by rw [f1.2.1]; exact mE)
      have j5 := Judg.judg_seq hp1 j3 j4
      exact Judg.judg_seq hp1 j5
        (Judg.judg_cons (hp1.below_le (by omega)) (Judg.judg_jmp_cont _ d x.label_seq _ d)
          (Judg.judg_label mE (by omega)))
  | @dowhile p x x1 x2 cc ct hk L1 L2 ih1 ih2 =>
    have f1 := L1.frame
    have f2 := L2.frame
    simp only [Ctx.enter] at f1
    refine ⟨fun he => ?_, fun hs pins d hp _ => ?_⟩
    · rw [isExpr_eq hk] at he; simp [NDPtr.isExpr] at he
    · rw [isStmt_eq hk] at hs; simp only [NDPtr.isStmt, Bool.and_eq_true] at hs
      obtain ⟨hs1, hs2⟩ := hs
      apply Judg.judg_pin (fun _ => d) [EXIT] (by decide) _ hp
      have hp1 := hp.own (fun _ => d) [EXIT]
      have mE : (EXIT, x.label_seq, d) ∈
          ([EXIT].map (fun t => (t, x.label_seq, d)) ++ pins) := by simp
      have j1 := Judg.judg_seq hp1 (Judg.judg_label_cont _ d x.label_seq (x.label_seq + 1))
        (stmt_or_null L1 ih1 hs2 _ d hp1 (fun _ => mE))
      have j2 := Judg.judg_seq hp1 j1 (ih2.1 hs1 _ d d (hp1.below_le f1.1))
      have j3 := j2.judg_tail d hp1 (popCode "t0") (by simp [popCode, Instr.isPlain])
        (by simp [popCode, Instr.effect, POINTER_WIDTH])
      exact Judg.judg_seq hp1 j3 (Judg.judg_bnez_cont _ "t0" d x.label_seq _)
  | @brk p x hk =>
    refine ⟨fun he => ?_, fun hs pins d hp hb => ?_⟩
    · rw [isExpr_eq hk] at he; simp [NDPtr.isExpr] at he
    · rw [freeBreak_eq hk] at hb
      exact Judg.judg_jmp d (hb (by simp [NDPtr.freeBreak]))
        (hp _ _ _ (hb (by simp [NDPtr.freeBreak])))
  | @cont p x hk =>
    refine ⟨fun he => ?_, fun hs pins d hp _ => ?_⟩
    · rw [isExpr_eq hk] at he; simp [NDPtr.isExpr] at he
    · exact Judg.judg_jmp_cont pins d _ _ d
  | @num p x hk =>
    refine ⟨fun _ pins v d hp => ?_, fun hs => ?_⟩
    · have j0 := Judg.judg_plain pins (i := .li "t0" p.val) rfl v x.label_seq d
      exact j0.judg_tail (d + 1) hp (pushCode "t0") (by simp [pushCode, Instr.isPlain])
        (by simp [pushCode, Instr.effect, POINTER_WIDTH])
    · rw [isStmt_eq hk] at hs; simp [NDPtr.isStmt] at hs
  | @unary p k x x1 c op hk hop L1 ih =>
    obtain ⟨n1, n2⟩ := unaryOp_not_stmt hk hop
    obtain ⟨o1, o2⟩ := unaryOp_plain hop
    refine ⟨fun he pins v d hp => ?_, fun hs => ?_⟩
    · rw [n2] at he
      have j1 := ih.1 he pins v d hp
      have j2 := j1.judg_tail d hp (popCode "t0") (by simp [popCode, Instr.isPlain])
        (by simp [popCode, Instr.effect, POINTER_WIDTH])
      have j3 := j2.judg_tail d hp [op] (by simp [o1]) (by simp [o2])
      exact j3.judg_tail (d + 1) hp (pushCode "t0") (by simp [pushCode, Instr.isPlain])
        (by simp [pushCode, Instr.effect, POINTER_WIDTH])
    · rw [n1] at hs; simp at hs
  | @var p x a o vinit hk hv =>
    refine ⟨fun _ pins v d hp => ?_, fun hs => ?_⟩
    · have j0 := Judg.judg_plain pins
        (i := .lw_fp "t0" (varDisp a o)) rfl v x.label_seq d
      exact j0.judg_tail (d + 1) hp (pushCode "t0") (by simp [pushCode, Instr.isPlain])
        (by simp [pushCode, Instr.effect, POINTER_WIDTH])
    · rw [isStmt_eq hk] at hs; simp [NDPtr.isStmt] at hs
  | @assign p x x1 c a o vinit hk hl hv L1 ih =>
    refine ⟨fun he pins v d hp => ?_, fun hs => ?_⟩
    · rw [isExpr_eq hk] at he
      simp only [NDPtr.isExpr, Bool.and_eq_true] at he
      have j1 := ih.1 he.2 pins v d hp
      have j2 := j1.judg_tail d hp (popCode "t0") (by simp [popCode, Instr.isPlain])
        (by simp [popCode, Instr.effect, POINTER_WIDTH])
      have j3 := j2.judg_tail d hp
        [.sw_fp "t0" (varDisp a o)]
        (by simp [Instr.isPlain]) (by simp [Instr.effect])
      exact j3.judg_tail (d + 1) hp (pushCode "t0") (by simp [pushCode, Instr.isPlain])
        (by simp [pushCode, Instr.effect, POINTER_WIDTH])
    · rw [isStmt_eq hk] at hs; simp [NDPtr.isStmt] at hs
  | @ternary p x x1 x2 x3 cc ct ce hk L1 L2 L3 ih1 ih2 ih3 =>
    have f1 := L1.frame
    have f2 := L2.frame
    have f3 := L3.frame
    simp only [Ctx.bump] at f1
    refine ⟨fun he pins v d hp => ?_, fun hs => ?_⟩
    · rw [isExpr_eq hk] at he
      simp only [NDPtr.isExpr, Bool.and_eq_true] at he
      obtain ⟨⟨he1, he2⟩, he3⟩ := he
      apply Judg.judg_pin (fun t => if t = EXIT then d + 1 else d) [ELSE, EXIT] (by decide) _ hp
      have hp1 := hp.own (fun t => if t = EXIT then d + 1 else d) [ELSE, EXIT]
      have m1 : (EXIT, x.label_seq, d + 1) ∈
          ([ELSE, EXIT].map (fun t => (t, x.label_seq, if t = EXIT then d + 1 else d)) ++ pins) := by
        simp
      have m2 : (ELSE, x.label_seq, d) ∈
          ([ELSE, EXIT].map (fun t => (t, x.label_seq, if t = EXIT then d + 1 else d)) ++ pins) := by
        simp [ELSE, EXIT]
      have j1 := ih1.1 he1 _ v d hp1
      have j2 := j1.judg_tail d hp1 (popCode "t0") (by simp [popCode, Instr.isPlain])
        (by simp [popCode, Instr.effect, POINTER_WIDTH])
      have j3 := Judg.judg_seq hp1 j2 (Judg.judg_beqz (r := "t0") m2 (by omega))
      have j4 := ih2.1 he2 _ v d (hp1.below_le f1.1)
      have j5 := Judg.judg_seq hp1 j3 j4
      have j6 := Judg.judg_seq hp1 j5
        (Judg.judg_cons (hp1.below_le (by omega)) (Judg.judg_jmp d m1 (by omega))
          (Judg.judg_label m2 (by omega)))
      have j7 := ih3.1 he3 _ v d (hp1.below_le (by omega))
      have j8 := Judg.judg_seq hp1 j6 j7
      exact Judg.judg_seq hp1 j8 (Judg.judg_label m1 (by omega))
    · rw [isStmt_eq hk] at hs; simp [NDPtr.isStmt] at hs
  | @call p x x1 c name args hk hfc L1 ih =>
    refine ⟨fun he pins v d hp => ?_, fun hs => ?_⟩
    · rw [isExpr_call hk hfc] at he
      have j1 := ih he pins v d hp
      have j2 := j1.judg_tail (d + args.length) hp [.call name] (by simp [Instr.isPlain])
        (by simp [Instr.effect])
      have j3 := Judg.judg_seq hp j2 (Judg.judg_cleanup_lines pins args.length _ _ _)
      exact j3.judg_tail (d + 1) hp (pushCode "a0") (by simp [pushCode, Instr.isPlain])
        (by simp [pushCode, Instr.effect, POINTER_WIDTH])
    · rw [isStmt_eq hk] at hs; simp [NDPtr.isStmt] at hs
  | @binary p k x x1 x2 cl cr ops hk hop L1 L2 ih1 ih2 =>
    have f1 := L1.frame
    obtain ⟨n1, n2⟩ := binaryOp_not_stmt hk hop
    obtain ⟨o1, o2⟩ := binaryOp_plain hop
    refine ⟨fun he pins v d hp => ?_, fun hs => ?_⟩
    · rw [n2] at he
      simp only [Bool.and_eq_true] at he
      have j1 := ih1.1 he.1 pins v d hp
      have j2 := Judg.judg_seq hp j1 (ih2.1 he.2 pins v (d + 1) (hp.below_le f1.1))
      have j3 := j2.judg_tail (d + 1) hp (popCode "t1") (by simp [popCode, Instr.isPlain])
        (by simp [popCode, Instr.effect, POINTER_WIDTH])
      have j4 := j3.judg_tail d hp (popCode "t0") (by simp [popCode, Instr.isPlain])
        (by simp [popCode, Instr.effect, POINTER_WIDTH])
      have j5 := j4.judg_tail d hp ops o1 (by simp [o2])
      exact j5.judg_tail (d + 1) hp (pushCode "t0") (by simp [pushCode, Instr.isPlain])
        (by simp [pushCode, Instr.effect, POINTER_WIDTH])
    · rw [n1] at hs; simp at hs
  | body_nil x =>
    intro _ pins d _ _
    exact Judg.judg_nil pins d _ d
  | @body_cons n rest x x1 x2 c1 c2 L1 L2 ih1 ih2 =>
    have f1 := L1.frame
    intro hs pins d hp hb
    simp only [NDList.allStmt, Bool.and_eq_true] at hs
    simp only [NDList.anyFreeBreak, Bool.or_eq_true] at hb
    have j1 := stmt_or_null L1 ih1 hs.1 pins d hp (fun h => hb (Or.inl h))
    have j2 := ih2 hs.2 pins d (hp.below_le f1.1)
      (fun h => by rw [f1.2.1]; exact hb (Or.inr h))
    exact Judg.judg_seq hp j1 j2
  | args_nil x =>
    intro _ pins v d _
    simpa [NDList.length] using Judg.judg_nil pins v x.label_seq d
  | @args_cons a rest x x1 x2 c1 c2 L1 L2 ih1 ih2 =>
    have f1 := L1.frame
    intro he pins v d hp
    simp only [NDList.allExpr, Bool.and_eq_true] at he
    have j1 := ih1 he.2 pins v d hp
    have j2 := ih2.1 he.1 pins v (d + rest.length) (hp.below_le f1.1)
    exact (Judg.judg_seq hp j1 j2).judg_cast rfl (by simp [NDList.length]; omega)

theorem unaryOp_no_label_fn {k : NodeKind} {op : Instr} (h : unaryOp k = some op) (t m : String) :
    op ≠ .label_fn t m := by
  cases k <;> simp [unaryOp] at h <;> subst h <;> simp

theorem binaryOp_no_label_fn {k : NodeKind} {ops : List Instr} (h : binaryOp k = some ops)
    (t m : String) : Instr.label_fn t m ∉ ops := by
  cases k <;> simp [binaryOp] at h <;> subst h <;> simp

theorem Lowers.no_label_fn {i : Item} {x y : Ctx} {c : List Instr} (L : Lowers i x c y) :
    ∀ t m, Instr.label_fn t m ∉ c := by
  induction L with
  | unary _ hop _ ih =>
    intro t m
    simp [popCode, pushCode, ih t m, (unaryOp_no_label_fn hop t m).symm]
  | binary _ hop _ _ ih1 ih2 =>
    intro t m
    simp [popCode, pushCode, ih1 t m, ih2 t m, binaryOp_no_label_fn hop t m]
  | for_ _ _ _ _ _ ih1 ih2 ih3 ih4 =>
    intro t m
    simp only [forTest]
    split <;> simp [popCode, pushCode, ih1 t m, ih2 t m, ih3 t m, ih4 t m]
  | call _ _ _ ih =>
    intro t m
    simp only [callCleanup]
    split <;> simp [popCode, pushCode, ih t m]
  | _ => intro t m; simp_all [popCode, pushCode]

theorem Judg.judg_at_end {pins : Pins} {c : List Instr} {v a b d e z : Int}
    (h : Judg pins v c a b d e) (D0 : DepthMap) (hs : Sat D0 pins)
    (hv : ∀ n, D0 CONTINUE n = v) (hf : ∀ t m, Instr.label_fn t m ∉ c)
    (hp : Path c (0, d) (c.length, z)) : z = e := by
  obtain ⟨D, _, _, ty⟩ := h.2.2 D0 hs hv
  obtain ⟨r, hr, ht⟩ := ty (some d) (Or.inr rfl)
  exact Typed.at_end hf ht hr hp
theorem Child.label_le {p q : NDPtr} {x z : Ctx} (h : Child p x q z) :
    x.label_seq ≤ z.label_seq ∧ (p.isLoop = true → x.label_seq < z.label_seq) := by
  cases h with
  | ret hk | unused hk | decl hk | assign hk =>
    simp [NDPtr.isLoop, hk]
  | if_cond hk | ternary_cond hk =>
    simp [NDPtr.isLoop, hk, Ctx.bump]
  | unary hk hop =>
    rename_i k op
    cases k <;> simp [unaryOp] at hop <;> simp [NDPtr.isLoop, hk]
  | bin_left hk hn =>
    rename_i k
    cases k <;> simp [caseKinds] at hn <;> simp [NDPtr.isLoop, hk]
  | bin_right hk hn h1 =>
    rename_i k cl
    have f1 := (lower_frame h1).1
    cases k <;> simp [caseKinds] at hn <;> simp [NDPtr.isLoop, hk, f1]
  | if_then hk h1 | ternary_then hk h1 =>
    have f1 := (lower_frame h1).1
    simp only [Ctx.bump] at f1
    simp only [NDPtr.isLoop, hk]
    refine ⟨by omega, by simp⟩
  | if_els hk _ h1 h2 | ternary_els hk h1 h2 =>
    have f1 := (lower_frame h1).1
    have f2 := (lower_frame h2).1
    simp only [Ctx.bump] at f1
    simp only [NDPtr.isLoop, hk]
    refine ⟨by omega, by simp⟩
  | block hk _ h1 | arg hk _ _ h1 =>
    have f1 := (lowerAll_frame h1).1
    simp [NDPtr.isLoop, hk, f1]
  | for_init hk | while_cond hk | dowhile_then hk =>
    simp [NDPtr.isLoop, hk, Ctx.enter]
  | for_cond hk _ h1 | while_then hk h1 | dowhile_cond hk h1 =>
    have f1 := (lower_frame h1).1
    simp only [Ctx.enter] at f1
    refine ⟨by omega, fun _ => by omega⟩
  | for_then hk h1 h2 =>
    have f1 := (lower_frame h1).1
    have f2 := (lower_frame h2).1
    simp only [Ctx.enter] at f1
    refine ⟨by omega, fun _ => by omega⟩
  | for_inc hk _ h1 h2 h3 =>
    have f1 := (lower_frame h1).1
    have f2 := (lower_frame h2).1
    have f3 := (lower_frame h3).1
    simp only [Ctx.enter] at f1
    refine ⟨by omega, fun _ => by omega⟩

/-- Inside a loop the active break and continue targets are the number of the
loop, which was allocated before anything inside the loop was lowered. -/
theorem Within.targets_below {p q : NDPtr} {x z : Ctx} (hl : p.isLoop = true)
    (h : Within p x q z) : z.brk_seq < z.label_seq ∧ z.cont_seq < z.label_seq := by
  have ht := h.loop_targets hl
  have hlt : x.label_seq < z.label_seq := by
    clear ht
    induction h with
    | child hc => exact hc.label_le.2 hl
    | deeper _ _ hc ih =>
      have := hc.label_le.1
      have := ih
      omega
  rw [ht.1, ht.2]
  exact ⟨hlt, hlt⟩
/-! ## C1: an expression nets one push -/

/-- An execution of `exTernaryCode` through the then-branch: it ends one level
above the start. -/
theorem exTernaryCode_path : Path exTernaryCode (0, 0) (15, 1) :=
  .head (Step.next rfl rfl) <| .head (Step.next rfl rfl) <| .head (Step.next rfl rfl) <|
  .head (Step.next rfl rfl) <| .head (Step.next rfl rfl) <| .head (Step.next rfl rfl) <|
  .head (Step.next rfl rfl) <| .head (Step.next rfl rfl) <| .head (Step.next rfl rfl) <|
  .head (b := (14, 1)) (Step.jump rfl rfl rfl) <| .head (Step.next rfl rfl) <| .refl

/-- C1.  For a well-formed expression node (`isExpr`: an integer literal, a
variable reference, a unary not/bitnot/neg, an assignment to a variable
reference, a ternary, a call or a binary node of a handled kind, all operands
and arguments present and well-formed), along every execution path from the
first line of the code that `gen` prints to the end of that code the depth of
the operand stack rises by exactly 1, from any depth `d0` at the start.  The
depth counts a push as +1, a pop as -1, the adjustment after a call with `n`
arguments as `-n` and the call as 0. -/
theorem expr_depth_plus_one (p : NDPtr) (x y : Ctx) (c : List Instr)
    (he : p.isExpr = true) (h : lower p x = .ok (c, y)) :
    (∀ d0 d, Path c (0, d0) (c.length, d) → d = d0 + 1) ∧
    (∀ r, ((pushCode r).map Instr.effect).sum = 1) ∧
    (∀ r, ((popCode r).map Instr.effect).sum = -1) ∧
    (∀ n : Nat, ((callCleanup n).map Instr.effect).sum = -(n : Int)) ∧
    (∀ name, (Instr.call name).effect = 0) := by
  have L := lower_ok_iff.mp h
  refine ⟨fun d0 d hp => ?_, ?_, ?_, ?_, ?_⟩
  · have j := L.depthOk.1 he [] d0 d0 (fun _ _ _ hm => by simp at hm)
    exact j.judg_at_end (fun _ _ => d0) (fun _ _ _ hm => by simp at hm) (fun _ => rfl)
      L.no_label_fn hp
  · intro r; simp [pushCode, Instr.effect, POINTER_WIDTH]
  · intro r; simp [popCode, Instr.effect, POINTER_WIDTH]
  · intro n
    unfold callCleanup
    split
    · simp [Instr.effect, POINTER_WIDTH]
    · rename_i hn
      simp at hn
      simp [hn]
  · intro name; rfl

/-- The code of `1 ? 2 : 3` has an execution to its end, and every execution
to its end that starts at depth 0 ends at depth 1. -/
theorem expr_depth_plus_one_witness :
    Path exTernaryCode (0, 0) (exTernaryCode.length, 1) ∧
    ∀ d, Path exTernaryCode (0, 0) (exTernaryCode.length, d) → d = 0 + 1 :=
  ⟨exTernaryCode_path, fun d hp =>
    (expr_depth_plus_one exTernary exCtx
      { hot_func := none, last_node := exTernary, label_seq := 6, brk_seq := 2, cont_seq := 3 }
      exTernaryCode (by decide) rfl).1 0 d hp⟩

/-! ## C2: a statement keeps the depth -/

/-- An execution of `exBreakTernaryCode`: the `break` jumps to the exit label
of the ternary and the pop of the expression statement takes the depth below
the start. -/
theorem exBreakTernaryCode_path : Path exBreakTernaryCode (0, 0) (18, -1) :=
  .head (b := (15, 0)) (Step.jump rfl rfl rfl) <| .head (Step.next rfl rfl) <|
  .head (Step.next rfl rfl) <| .head (Step.next rfl rfl) <| .refl

/-- An execution of `exBreakInLoopCode` that does not take the `break`. -/
theorem exBreakInLoopCode_path : Path exBreakInLoopCode (0, 0) (25, 0) :=
  .head (Step.next rfl rfl) <| .head (Step.next rfl rfl) <| .head (Step.next rfl rfl) <|
  .head (Step.next rfl rfl) <| .head (Step.next rfl rfl) <|
  .head (b := (7, 0)) (Step.jump rfl rfl rfl) <| .head (Step.next rfl rfl) <|
  .head (Step.next rfl rfl) <| .head (Step.next rfl rfl) <| .head (Step.next rfl rfl) <|
  .head (Step.next rfl rfl) <| .head (Step.next rfl rfl) <| .head (Step.next rfl rfl) <|
  .head (Step.next rfl rfl) <| .head (Step.next rfl rfl) <| .head (Step.next rfl rfl) <|
  .head (b := (22, 1)) (Step.jump rfl rfl rfl) <| .head (Step.next rfl rfl) <|
  .head (Step.next rfl rfl) <| .head (Step.next rfl rfl) <| .refl

/-- C2, as stated, fails.  The block `{ break; 1 ? 2 : 3; }` is a well-formed
statement node; lowered at program start (`label_seq = brk_seq = 0`) its
`break` is `j .L.exit.0`, and `.L.exit.0` is the exit label of the ternary,
which gets the number 0.  The execution that takes this jump reaches the end
of the code one level below the start. -/
theorem stmt_depth_zero_counterexample :
    exBreakTernary.isStmt = true ∧ ¬ StmtDepthZero exBreakTernary GenState.initial.ctx := by
  refine ⟨by decide, fun h => ?_⟩
  have := h exBreakTernaryCode
    { hot_func := none, last_node := exBreakTernary, label_seq := 1, brk_seq := 0,
      cont_seq := 0 } rfl 0 (-1) exBreakTernaryCode_path
  simp at this

/-- C2, amended.  For a well-formed statement node (`isStmt`: a return with an
expression, a declaration, an expression statement, an `if`, a block, a `for`
whose init and increment are absent or statements, a `while`, a `do`-`while`,
a `break` or a `continue`) such that, when it has a `break` outside all of its
own loops, the active break target was allocated before the statement is
lowered (`brk_seq < label_seq`, as it is inside every loop:
`Within.targets_below`), along every execution path from the first line of
the code that `gen` prints to the end of that code the depth of the operand
stack at the end is the depth at the start. -/
theorem stmt_depth_zero (p : NDPtr) (x : Ctx) (hs : p.isStmt = true)
    (hb : p.freeBreak = true → x.brk_seq < x.label_seq) : StmtDepthZero p x := by
  intro c y h d0 d hp
  have L := lower_ok_iff.mp h
  cases hf : p.freeBreak with
  | false =>
    have j := L.depthOk.2 hs [] d0 (fun _ _ _ hm => by simp at hm) (by simp [hf])
    exact j.judg_at_end (fun _ _ => d0) (fun _ _ _ hm => by simp at hm) (fun _ => rfl)
      L.no_label_fn hp
  | true =>
    have j := L.depthOk.2 hs [(EXIT, x.brk_seq, d0)] d0
      (fun t n k hm => by
        simp only [List.mem_singleton, Prod.mk.injEq] at hm
        rw [hm.2.1]
        exact hb hf)
      (fun _ => by simp)
    exact j.judg_at_end (fun _ _ => d0)
      (fun t n k hm => by
        simp only [List.mem_singleton, Prod.mk.injEq] at hm
        exact hm.2.2.symm)
      (fun _ => rfl) L.no_label_fn hp

/-- The block `{ if (2) break; 1 ? 2 : 3; }` in the body of the loop number 5
has a free `break`; its code has an execution to its end, and every execution
to its end keeps the depth. -/
theorem stmt_depth_zero_witness :
    exBreakInLoop.freeBreak = true ∧
    lower exBreakInLoop exCtxBody = .ok (exBreakInLoopCode,
      { hot_func := none, last_node := exBreakInLoop, label_seq := 8, brk_seq := 5,
        cont_seq := 5 }) ∧
    Path exBreakInLoopCode (0, 0) (exBreakInLoopCode.length, 0) ∧
    StmtDepthZero exBreakInLoop exCtxBody :=
  ⟨by decide, rfl, exBreakInLoopCode_path,
    stmt_depth_zero exBreakInLoop exCtxBody (by decide) (fun _ => by decide)⟩

@[simp] theorem store_sp (m : Machine) (a v : Int) : (m.store a v).sp = m.sp := rfl
@[simp] theorem store_fp (m : Machine) (a v : Int) : (m.store a v).fp = m.fp := rfl
@[simp] theorem store_ra (m : Machine) (a v : Int) : (m.store a v).ra = m.ra := rfl
@[simp] theorem store_reg (m : Machine) (a v : Int) : (m.store a v).reg = m.reg := rfl
@[simp] theorem store_mem (m : Machine) (a v x : Int) :
    (m.store a v).mem x = if x = a then v else m.mem x := rfl
@[simp] theorem setReg_sp (m : Machine) (r : String) (v : Int) : (m.setReg r v).sp = m.sp := rfl
@[simp] theorem setReg_fp (m : Machine) (r : String) (v : Int) : (m.setReg r v).fp = m.fp := rfl
@[simp] theorem setReg_ra (m : Machine) (r : String) (v : Int) : (m.setReg r v).ra = m.ra := rfl
@[simp] theorem setReg_mem (m : Machine) (r : String) (v : Int) :
    (m.setReg r v).mem = m.mem := rfl
@[simp] theorem setReg_reg (m : Machine) (r : String) (v : Int) (x : String) :
    (m.setReg r v).reg x = if x = r then v else m.reg x := rfl

/-- In `exWhile`, lowered with label number 5, the `break` is reached through
the body block and the `if`, after the inner `for` loop. -/
theorem exWhile_within_break : Within exWhile exCtx (.leaf ND_BREAK) exCtxBreak :=
  Within.deeper
    (Within.deeper
      (Within.child
        (Child.while_then (p := exWhile) (x := exCtx) rfl
          (rfl : lower exWhile.cond exCtx.enter
            = .ok ([.li "t0" 1, .addi_sp_neg 4, .sw_sp "t0"], exCtxBody))))
      rfl
      (Child.block (p := exLoopBody) (x := exCtxBody) (u := [exForEmpty]) (v := [])
        (q := exIfBreak) rfl rfl
        (rfl : lowerAll [exForEmpty] exCtxBody
          = .ok ([[.label "begin" 6, .label "continue" 6, .j "begin" 6, .label "exit" 6]],
              exCtxAfterFor))))
    rfl
    (Child.if_then (p := exIfBreak) (x := exCtxAfterFor) rfl
      (rfl : lower exIfBreak.cond exCtxAfterFor.bump
        = .ok ([.li "t0" 2, .addi_sp_neg 4, .sw_sp "t0"], exCtxBreak)))

/-! ## The prologue on the machine -/

/-- The prologue writes the two words directly under the new frame pointer,
`ra` at `fp - 4` and the old `fp` at `fp - 8`, no other word, and sets the
frame pointer to the stack pointer at entry. -/
theorem prologue_exec (name : String) (S : Int) (m : Machine) :
    ∃ m1, execAll (prologue name S) m = some m1 ∧ m1.fp = m.sp ∧ m1.sp = m.sp - S ∧
      m1.ra = m.ra ∧ m1.reg = m.reg ∧
      m1.mem (m1.fp - 4) = m.ra ∧ m1.mem (m1.fp - 8) = m.fp ∧
      ∀ a, a ≠ m1.fp - 4 → a ≠ m1.fp - 8 → m1.mem a = m.mem a := by
  refine ⟨_, rfl, ?_, rfl, rfl, rfl, ?_, ?_, ?_⟩
  · simp
  · simp
  · simp
  · intro a h4 h8
    simp only [store_sp, store_mem, sub_add_cancel] at h4 h8 ⊢
    rw [if_neg h8, if_neg h4]

/-! ## C15: the comparison and logical operators on words -/

theorem lor_eq_zero {a b : Nat} : a ||| b = 0 ↔ a = 0 ∧ b = 0 := by
  constructor
  · intro h
    have ht : ∀ i, (a ||| b).testBit i = false := by
      intro i; rw [h]; exact Nat.zero_testBit i
    simp only [Nat.testBit_or, Bool.or_eq_false_iff] at ht
    exact ⟨Nat.eq_of_testBit_eq (fun i => by rw [(ht i).1, Nat.zero_testBit]),
      Nat.eq_of_testBit_eq (fun i => by rw [(ht i).2, Nat.zero_testBit])⟩
  · rintro ⟨rfl, rfl⟩
    rfl

theorem toSigned_inj {a b : Nat} (ha : a < 2 ^ 32) (hb : b < 2 ^ 32) :
    toSigned a = toSigned b ↔ a = b := by
  unfold toSigned
  split <;> split <;> omega

theorem sub_wrap_eq_zero {a b : Nat} (ha : a < 2 ^ 32) (hb : b < 2 ^ 32) :
    (a + (4294967296 - b % 4294967296)) % 4294967296 = 0 ↔ a = b := by
  omega

/-- C15.  With words `a` in `t0` (the left operand) and `b` in `t1` (the right
operand), the lines that `gen_binary` prints for an operator leave in `t0` the
word 1 when the C relation holds and the word 0 otherwise: `a <= b` on the
signed values for `ND_LTE`, `a == b` for `ND_EQ`, `a != b` for `ND_NEQ`,
`a != 0 && b != 0` for `ND_LOGAND` and `a != 0 || b != 0` for `ND_LOGOR`.  The
lines run under the RV32 semantics of `sgt`, `sub` (wrapping modulo `2 ^ 32`),
`seqz`, `snez`, `and`, `or`. -/
theorem comparison_ops_correct (r : Regs) (ha : r "t0" < 2 ^ 32) (hb : r "t1" < 2 ^ 32) :
    (∃ ops r', binaryOp ND_LTE = some ops ∧ runAlu ops r = some r' ∧
      r' "t0" = boolWord (decide (toSigned (r "t0") ≤ toSigned (r "t1")))) ∧
    (∃ ops r', binaryOp ND_EQ = some ops ∧ runAlu ops r = some r' ∧
      r' "t0" = boolWord (decide (r "t0" = r "t1"))) ∧
    (∃ ops r', binaryOp ND_NEQ = some ops ∧ runAlu ops r = some r' ∧
      r' "t0" = boolWord (decide (r "t0" ≠ r "t1"))) ∧
    (∃ ops r', binaryOp ND_LOGAND = some ops ∧ runAlu ops r = some r' ∧
      r' "t0" = boolWord (decide (r "t0" ≠ 0 ∧ r "t1" ≠ 0))) ∧
    (∃ ops r', binaryOp ND_LOGOR = some ops ∧ runAlu ops r = some r' ∧
      r' "t0" = boolWord (decide (r "t0" ≠ 0 ∨ r "t1" ≠ 0))) := by
  refine ⟨⟨_, _, rfl, rfl, ?_⟩, ⟨_, _, rfl, rfl, ?_⟩, ⟨_, _, rfl, rfl, ?_⟩,
    ⟨_, _, rfl, rfl, ?_⟩, ⟨_, _, rfl, rfl, ?_⟩⟩
  · simp only [Regs.write, boolWord]
    simp
  · simp only [Regs.write, boolWord]
    simp
    have h := sub_wrap_eq_zero ha hb
    by_cases e : r "t0" = r "t1"
    · rw [if_pos (h.mpr e), if_pos e]
    · rw [if_neg (fun k => e (h.mp k)), if_neg e]
  · simp only [Regs.write, boolWord]
    simp
    have h := sub_wrap_eq_zero ha hb
    by_cases e : r "t0" = r "t1"
    · rw [if_pos (h.mpr e), if_pos e]
    · rw [if_neg (fun k => e (h.mp k)), if_neg e]
  · simp only [Regs.write, boolWord]
    by_cases h0 : r "t0" = 0 <;> by_cases h1 : r "t1" = 0 <;> simp [h0, h1]
  · simp only [Regs.write, boolWord]
    by_cases h0 : r "t0" = 0 <;> by_cases h1 : r "t1" = 0 <;> simp [h0, h1, lor_eq_zero]

/-- The five operators on `a = 5` and `b = 2 ^ 32 - 1`, the word of -1. -/
theorem comparison_ops_correct_witness :
    (∃ ops r', binaryOp ND_LTE = some ops ∧ runAlu ops exRegs = some r' ∧
      r' "t0" = boolWord (decide (toSigned (exRegs "t0") ≤ toSigned (exRegs "t1")))) ∧
    (∃ ops r', binaryOp ND_EQ = some ops ∧ runAlu ops exRegs = some r' ∧
      r' "t0" = boolWord (decide (exRegs "t0" = exRegs "t1"))) ∧
    (∃ ops r', binaryOp ND_NEQ = some ops ∧ runAlu ops exRegs = some r' ∧
      r' "t0" = boolWord (decide (exRegs "t0" ≠ exRegs "t1"))) ∧
    (∃ ops r', binaryOp ND_LOGAND = some ops ∧ runAlu ops exRegs = some r' ∧
      r' "t0" = boolWord (decide (exRegs "t0" ≠ 0 ∧ exRegs "t1" ≠ 0))) ∧
    (∃ ops r', binaryOp ND_LOGOR = some ops ∧ runAlu ops exRegs = some r' ∧
      r' "t0" = boolWord (decide (exRegs "t0" ≠ 0 ∨ exRegs "t1" ≠ 0))) :=
  comparison_ops_correct exRegs (by decide) (by decide)

/-! ## C17: the epilogue undoes the prologue -/

/-- C17.  For a function with frame size `S`, from any machine state `m` the
prologue that `gen_text` prints (`sp -= S`; `ra` to `sp + S - 4`; `fp` to
`sp + S - 8`; `fp = sp + S`) leaves a state `m1` in which `fp` is the stack
pointer at entry.  From any later state `m2` in which `sp` has its value of
`m1` and the two save words are those of `m1`, the epilogue (`fp` from
`sp + S - 8`; `ra` from `sp + S - 4`; `sp += S`; then `ret`) restores `sp`,
`fp` and `ra` to their values in `m`. -/
theorem epilogue_undoes_prologue (name : String) (S : Int) (m m2 : Machine) :
    ∃ m1, execAll (prologue name S) m = some m1 ∧
      m1.sp = m.sp - S ∧ m1.mem (m1.sp + S - 4) = m.ra ∧ m1.mem (m1.sp + S - 8) = m.fp ∧
      m1.fp = m1.sp + S ∧ m1.fp = m.sp ∧
      epilogue name S = epilogueMoves name S ++ [.ret] ∧
      (m2.sp = m1.sp → m2.mem (m1.sp + S - 4) = m1.mem (m1.sp + S - 4) →
        m2.mem (m1.sp + S - 8) = m1.mem (m1.sp + S - 8) →
        ∃ m3, execAll (epilogueMoves name S) m2 = some m3 ∧
          m3.sp = m.sp ∧ m3.fp = m.fp ∧ m3.ra = m.ra) := by
  refine ⟨_, rfl, rfl, ?_, ?_, ?_, ?_, rfl, ?_⟩
  · simp
  · simp
  · simp
  · simp
  · intro h1 h2 h3
    refine ⟨_, rfl, ?_, ?_, ?_⟩
    · simp only [h1]; simp
    · show m2.mem (m2.sp + S - 8) = m.fp
      rw [h1, h3]; simp
    · show m2.mem (m2.sp + S - 4) = m.ra
      rw [h1, h2]; simp

/-- The function with frame size 16 entered with `sp = 1000`, `fp = 2000`,
`ra = 77`: from the later state `exMachineLater` the epilogue restores the
three registers. -/
theorem epilogue_undoes_prologue_witness :
    ∃ m3, execAll (epilogueMoves "f" 16) exMachineLater = some m3 ∧
      m3.sp = 1000 ∧ m3.fp = 2000 ∧ m3.ra = 77 := by
  obtain ⟨m1, _, hsp, h4, h8, _, _, _, hk⟩ :=
    epilogue_undoes_prologue "f" 16 exMachine exMachineLater
  exact hk (by rw [hsp]; rfl) (by rw [h4, hsp]; rfl) (by rw [h8, hsp]; rfl)

/-! ## Pushes on the machine -/

/-- The lines of `push(reg)` net one push of the value of the register. -/
theorem pushCode_exec (r : String) (m : Machine) :
    execAll (pushCode r) m = some (m.pushed (m.reg r)) := rfl

theorem netsPush_pushed (v : Int) (m : Machine) : NetsPush v m (m.pushed v) := by
  refine ⟨rfl, ?_, fun a ha => ?_⟩
  · simp [Machine.pushed]
  · have : a ≠ m.sp - POINTER_WIDTH := by
      simp only [POINTER_WIDTH]; omega
    simp [Machine.pushed, this]

theorem ArgsPushed.layout {vs : List Int} {m0 m : Machine} (h : ArgsPushed vs m0 m) :
    m.sp = m0.sp - 4 * vs.length ∧ (∀ a, m0.sp ≤ a → m.mem a = m0.mem a) ∧
      ∀ (i : Nat) v, vs[i]? = some v → m.mem (m.sp + 4 * i) = v := by
  induction h with
  | nil m => simp
  | @cons v vs m m1 m2 _ hp ih =>
    obtain ⟨h1, h2, h3⟩ := ih
    obtain ⟨p1, p2, p3⟩ := hp
    simp only [POINTER_WIDTH] at p1
    refine ⟨?_, fun a ha => ?_, fun i w hi => ?_⟩
    · simp only [List.length_cons, Nat.cast_add, Nat.cast_one]; omega
    · rw [p3 a (by omega), h2 a ha]
    · cases i with
      | zero =>
        simp only [List.getElem?_cons_zero, Option.some.injEq] at hi
        simpa [← hi] using p2
      | succ j =>
        simp only [List.getElem?_cons_succ] at hi
        have e : m2.sp + 4 * ((j + 1 : Nat) : Int) = m1.sp + 4 * (j : Int) := by
          push_cast; omega
        rw [e, p3 _ (by omega)]
        exact h3 j w hi

/-! ## C13: when `gen` aborts -/

theorem faulty_eq {p : NDPtr} {k : NodeKind} (h : p.kind? = some k) :
    p.faulty = (NDPtr.mk k p.lexpr p.rexpr p.cond p.then_ p.els p.init p.inc p.body p.var p.val
      p.func_call).faulty := by
  cases p with
  | null => simp [NDPtr.kind?] at h
  | mk => simp [NDPtr.kind?] at h; subst h; rfl

theorem faulty_unary {p : NDPtr} {k : NodeKind} {op : Instr} (hk : p.kind? = some k)
    (h : unaryOp k = some op) : p.faulty = p.lexpr.faulty := by
  rw [faulty_eq hk]
  cases k <;> simp [unaryOp] at h <;> simp [NDPtr.faulty]

theorem faulty_binary {p : NDPtr} {k : NodeKind} {ops : List Instr} (hk : p.kind? = some k)
    (h : binaryOp k = some ops) : p.faulty = (p.lexpr.faulty || p.rexpr.faulty) := by
  rw [faulty_eq hk]
  cases k <;> simp [binaryOp] at h <;> simp [NDPtr.faulty]

theorem faulty_decl {p : NDPtr} {a : Bool} {o : Int} {vinit : NDPtr}
    (hk : p.kind? = some ND_DECL) (hv : p.var = .mk a o vinit) : p.faulty = vinit.faulty := by
  cases p with
  | null => simp [NDPtr.kind?] at hk
  | mk k l r c t e i inc body var val fc =>
    simp only [NDPtr.kind?, Option.some.injEq] at hk
    simp only [NDPtr.var] at hv
    subst hk
    subst hv
    simp [NDPtr.faulty]

theorem faulty_call {p : NDPtr} {name : String} {args : NDList}
    (hk : p.kind? = some ND_FUNC_CALL) (hfc : p.func_call = .mk name args) :
    p.faulty = args.anyFaulty := by
  cases p with
  | null => simp [NDPtr.kind?] at hk
  | mk k l r c t e i inc body var val fc =>
    simp only [NDPtr.kind?, Option.some.injEq] at hk
    simp only [NDPtr.func_call] at hfc
    subst hk
    subst hfc
    simp [NDPtr.faulty]

/-- A call that completes reached no node at which `gen` aborts. -/
theorem Lowers.not_faulty {i : Item} {x y : Ctx} {c : List Instr} (L : Lowers i x c y) :
    i.faulty = false := by
  induction L with
  | null x => rfl
  | ret hk _ _ ih | unused_some hk _ _ ih =>
    simp only [Item.faulty] at ih ⊢
    rw [faulty_eq hk]; simpa [NDPtr.faulty] using ih
  | decl_none hk hv hn =>
    simp only [Item.faulty]
    rw [faulty_decl hk hv, isNull_iff.mp hn]; rfl
  | decl_init hk hv _ _ ih =>
    simp only [Item.faulty] at ih ⊢
    rw [faulty_decl hk hv]; exact ih
  | unused_none hk hn =>
    simp only [Item.faulty]
    rw [faulty_eq hk]
    simp only [NDPtr.faulty]
    rw [isNull_iff.mp hn]; rfl
  | if_then hk hn _ _ ih1 ih2 =>
    simp only [Item.faulty] at ih1 ih2 ⊢
    rw [faulty_eq hk]
    simp only [NDPtr.faulty, ih1, ih2, isNull_iff.mp hn]; rfl
  | if_else hk _ _ _ _ ih1 ih2 ih3 | ternary hk _ _ _ ih1 ih2 ih3 =>
    simp only [Item.faulty] at ih1 ih2 ih3 ⊢
    rw [faulty_eq hk]
    simp [NDPtr.faulty, ih1, ih2, ih3]
  | block hk _ ih =>
    simp only [Item.faulty] at ih ⊢
    rw [faulty_eq hk]; simpa [NDPtr.faulty] using ih
  | for_ hk _ _ _ _ ih1 ih2 ih3 ih4 =>
    simp only [Item.faulty] at ih1 ih2 ih3 ih4 ⊢
    rw [faulty_eq hk]
    simp [NDPtr.faulty, ih1, ih2, ih3, ih4]
  | while_ hk _ _ ih1 ih2 =>
    simp only [Item.faulty] at ih1 ih2 ⊢
    rw [faulty_eq hk]
    simp [NDPtr.faulty, ih1, ih2]
  | dowhile hk _ _ ih1 ih2 =>
    simp only [Item.faulty] at ih1 ih2 ⊢
    rw [faulty_eq hk]
    simp [NDPtr.faulty, ih1, ih2]
  | brk hk | cont hk | num hk =>
    simp only [Item.faulty]
    rw [faulty_eq hk]; rfl
  | unary hk hop _ ih =>
    simp only [Item.faulty] at ih ⊢
    rw [faulty_unary hk hop]; exact ih
  | var hk hv =>
    simp only [Item.faulty]
    rw [faulty_eq hk]
    simp [NDPtr.faulty, hv, VarPtr.isNull]
  | assign hk hl hv _ ih =>
    simp only [Item.faulty] at ih ⊢
    rw [faulty_eq hk]
    simp [NDPtr.faulty, hl, hv, VarPtr.isNull, ih]
  | call hk hfc _ ih =>
    simp only [Item.faulty] at ih ⊢
    rw [faulty_call hk hfc]; exact ih
  | binary hk hop _ _ ih1 ih2 =>
    simp only [Item.faulty] at ih1 ih2 ⊢
    rw [faulty_binary hk hop]; simp [ih1, ih2]
  | body_nil | args_nil => rfl
  | body_cons _ _ ih1 ih2 =>
    simp only [Item.faulty] at ih1 ih2 ⊢
    simp [NDList.anyFaulty, ih1, ih2]
  | args_cons _ _ ih1 ih2 =>
    simp only [Item.faulty] at ih1 ih2 ⊢
    simp [NDList.anyFaulty, ih1, ih2]
mutual
/-- Without a node at which `gen` aborts, and with the current function set,
the call completes. -/
theorem lowers_of_not_faulty : ∀ (p : NDPtr) (x : Ctx), x.hot_func ≠ none → p.faulty = false →
    ∃ c y, Lowers (.node p) x c y ∧ y.hot_func ≠ none
  | .null, x, hf, _ => ⟨[], x, .null x, hf⟩
  | .mk kind l r c t e i inc body var val fc, x, hf, h => by
    have ihl := lowers_of_not_faulty l
    have ihr := lowers_of_not_faulty r
    have ihc := lowers_of_not_faulty c
    have iht := lowers_of_not_faulty t
    have ihe := lowers_of_not_faulty e
    have ihi := lowers_of_not_faulty i
    have ihn := lowers_of_not_faulty inc
    have ihb := body_of_not_faulty body
    cases kind
    case ND_RETURN =>
      simp only [NDPtr.faulty] at h
      obtain ⟨c1, y1, L1, h1⟩ := ihl x hf h
      obtain ⟨f, hf1⟩ := Option.ne_none_iff_exists'.mp h1
      exact ⟨_, _, Lowers.ret (p := .mk ND_RETURN l r c t e i inc body var val fc) rfl L1 hf1, h1⟩
    case ND_DECL =>
      cases var with
      | null => simp [NDPtr.faulty] at h
      | mk a o vinit =>
        have ihv := lowers_of_not_faulty vinit
        simp only [NDPtr.faulty] at h
        by_cases hv : vinit.isNull = true
        · exact ⟨_, _, Lowers.decl_none (x := x)
            (p := .mk ND_DECL l r c t e i inc body (.mk a o vinit) val fc) rfl rfl hv, hf⟩
        · obtain ⟨c1, y1, L1, h1⟩ := ihv x hf h
          exact ⟨_, _, Lowers.decl_init
            (p := .mk ND_DECL l r c t e i inc body (.mk a o vinit) val fc) rfl rfl
            (by simpa using hv) L1, h1⟩
    case ND_UNUSED_EXPR =>
      simp only [NDPtr.faulty] at h
      by_cases hv : l.isNull = true
      · exact ⟨_, _, Lowers.unused_none (x := x)
          (p := .mk ND_UNUSED_EXPR l r c t e i inc body var val fc) rfl hv, hf⟩
      · obtain ⟨c1, y1, L1, h1⟩ := ihl x hf h
        exact ⟨_, _, Lowers.unused_some
          (p := .mk ND_UNUSED_EXPR l r c t e i inc body var val fc) rfl (by simpa using hv) L1, h1⟩
    case ND_IF =>
      simp only [NDPtr.faulty, Bool.or_eq_false_iff] at h
      obtain ⟨⟨hc, ht⟩, he⟩ := h
      obtain ⟨c1, y1, L1, h1⟩ := ihc x.bump hf hc
      obtain ⟨c2, y2, L2, h2⟩ := iht y1 h1 ht
      by_cases hv : e.isNull = true
      · exact ⟨_, _, Lowers.if_then (p := .mk ND_IF l r c t e i inc body var val fc) rfl hv L1 L2,
          h2⟩
      · obtain ⟨c3, y3, L3, h3⟩ := ihe y2 h2 he
        exact ⟨_, _, Lowers.if_else (p := .mk ND_IF l r c t e i inc body var val fc) rfl
          (by simpa using hv) L1 L2 L3, h3⟩
    case ND_BLOCK =>
      simp only [NDPtr.faulty] at h
      obtain ⟨c1, y1, L1, h1⟩ := ihb x hf h
      exact ⟨_, _, Lowers.block (p := .mk ND_BLOCK l r c t e i inc body var val fc) rfl L1, h1⟩
    case ND_FOR =>
      simp only [NDPtr.faulty, Bool.or_eq_false_iff] at h
      obtain ⟨⟨⟨hi, hc⟩, ht⟩, hn⟩ := h
      obtain ⟨c1, y1, L1, h1⟩ := ihi x.enter hf hi
      obtain ⟨c2, y2, L2, h2⟩ := ihc y1 h1 hc
      obtain ⟨c3, y3, L3, h3⟩ := iht y2 h2 ht
      obtain ⟨c4, y4, L4, h4⟩ := ihn y3 h3 hn
      exact ⟨_, _, Lowers.for_ (p := .mk ND_FOR l r c t e i inc body var val fc) rfl L1 L2 L3 L4,
        h4⟩
    case ND_WHILEDO =>
      simp only [NDPtr.faulty, Bool.or_eq_false_iff] at h
      obtain ⟨c1, y1, L1, h1⟩ := ihc x.enter hf h.1
      obtain ⟨c2, y2, L2, h2⟩ := iht y1 h1 h.2
      exact ⟨_, _, Lowers.while_ (p := .mk ND_WHILEDO l r c t e i inc body var val fc) rfl L1 L2,
        h2⟩
    case ND_DOWHILE =>
      simp only [NDPtr.faulty, Bool.or_eq_false_iff] at h
      obtain ⟨c1, y1, L1, h1⟩ := iht x.enter hf h.2
      obtain ⟨c2, y2, L2, h2⟩ := ihc y1 h1 h.1
      exact ⟨_, _, Lowers.dowhile (p := .mk ND_DOWHILE l r c t e i inc body var val fc) rfl L1 L2,
        h2⟩
    case ND_BREAK =>
      exact ⟨_, _, Lowers.brk (x := x) (p := .mk ND_BREAK l r c t e i inc body var val fc) rfl, hf⟩
    case ND_CONTINUE =>
      exact ⟨_, _, Lowers.cont (x := x) (p := .mk ND_CONTINUE l r c t e i inc body var val fc) rfl,
        hf⟩
    case ND_NUM =>
      exact ⟨_, _, Lowers.num (x := x) (p := .mk ND_NUM l r c t e i inc body var val fc) rfl, hf⟩
    case ND_NOT =>
      simp only [NDPtr.faulty] at h
      obtain ⟨c1, y1, L1, h1⟩ := ihl x hf h
      exact ⟨_, _, Lowers.unary (p := .mk ND_NOT l r c t e i inc body var val fc) rfl rfl L1, h1⟩
    case ND_BITNOT =>
      simp only [NDPtr.faulty] at h
      obtain ⟨c1, y1, L1, h1⟩ := ihl x hf h
      exact ⟨_, _, Lowers.unary (p := .mk ND_BITNOT l r c t e i inc body var val fc) rfl rfl L1, h1⟩
    case ND_NEG =>
      simp only [NDPtr.faulty] at h
      obtain ⟨c1, y1, L1, h1⟩ := ihl x hf h
      exact ⟨_, _, Lowers.unary (p := .mk ND_NEG l r c t e i inc body var val fc) rfl rfl L1, h1⟩
    case ND_VAR =>
      cases var with
      | null => simp [NDPtr.faulty, VarPtr.isNull] at h
      | mk a o vinit =>
        exact ⟨_, _, Lowers.var (x := x)
          (p := .mk ND_VAR l r c t e i inc body (.mk a o vinit) val fc) rfl rfl, hf⟩
    case ND_ASSIGN =>
      simp only [NDPtr.faulty, Bool.or_eq_false_iff, decide_eq_false_iff_not, not_not] at h
      obtain ⟨⟨hk, hv⟩, hr⟩ := h
      obtain ⟨c1, y1, L1, h1⟩ := ihr x hf hr
      cases hlv : l.var with
      | null => simp [hlv, VarPtr.isNull] at hv
      | mk a o vinit =>
        exact ⟨_, _, Lowers.assign (p := .mk ND_ASSIGN l r c t e i inc body var val fc) rfl hk hlv
          L1, h1⟩
    case ND_TERNARY =>
      simp only [NDPtr.faulty, Bool.or_eq_false_iff] at h
      obtain ⟨⟨hc, ht⟩, he⟩ := h
      obtain ⟨c1, y1, L1, h1⟩ := ihc x.bump hf hc
      obtain ⟨c2, y2, L2, h2⟩ := iht y1 h1 ht
      obtain ⟨c3, y3, L3, h3⟩ := ihe y2 h2 he
      exact ⟨_, _, Lowers.ternary (p := .mk ND_TERNARY l r c t e i inc body var val fc) rfl
        L1 L2 L3, h3⟩
    case ND_FUNC_CALL =>
      cases fc with
      | null => simp [NDPtr.faulty] at h
      | mk name args =>
        simp only [NDPtr.faulty] at h
        obtain ⟨c1, y1, L1, h1⟩ := args_of_not_faulty args x hf h
        exact ⟨_, _, Lowers.call
          (p := .mk ND_FUNC_CALL l r c t e i inc body var val (.mk name args)) rfl rfl L1, h1⟩
    case ND_OTHER tag => simp [NDPtr.faulty] at h
    all_goals
      simp only [NDPtr.faulty, Bool.or_eq_false_iff] at h
      obtain ⟨c1, y1, L1, h1⟩ := ihl x hf h.1
      obtain ⟨c2, y2, L2, h2⟩ := ihr y1 h1 h.2
      exact ⟨_, _, Lowers.binary (p := .mk _ l r c t e i inc body var val fc) rfl rfl L1 L2, h2⟩
theorem body_of_not_faulty : ∀ (l : NDList) (x : Ctx), x.hot_func ≠ none →
    l.anyFaulty = false → ∃ c y, Lowers (.body l) x c y ∧ y.hot_func ≠ none
  | .nil, x, hf, _ => ⟨[], x, .body_nil x, hf⟩
  | .cons n rest, x, hf, h => by
    simp only [NDList.anyFaulty, Bool.or_eq_false_iff] at h
    obtain ⟨c1, y1, L1, h1⟩ := lowers_of_not_faulty n x hf h.1
    obtain ⟨c2, y2, L2, h2⟩ := body_of_not_faulty rest y1 h1 h.2
    exact ⟨_, _, Lowers.body_cons L1 L2, h2⟩
theorem args_of_not_faulty : ∀ (l : NDList) (x : Ctx), x.hot_func ≠ none →
    l.anyFaulty = false → ∃ c y, Lowers (.args l) x c y ∧ y.hot_func ≠ none
  | .nil, x, hf, _ => ⟨[], x, .args_nil x, hf⟩
  | .cons a rest, x, hf, h => by
    simp only [NDList.anyFaulty, Bool.or_eq_false_iff] at h
    obtain ⟨c1, y1, L1, h1⟩ := args_of_not_faulty rest x hf h.2
    obtain ⟨c2, y2, L2, h2⟩ := lowers_of_not_faulty a y1 h1 h.1
    exact ⟨_, _, Lowers.args_cons L1 L2, h2⟩
end

theorem gen_ok_iff_not_faulty (p : NDPtr) (s : GenState) (hf : s.hot_func ≠ none) :
    (∃ s', gen p s = .ok s') ↔ p.faulty = false := by
  constructor
  · rintro ⟨s', h⟩
    obtain ⟨c, _, L⟩ := gen_ok_iff.mp h
    exact L.not_faulty
  · intro h
    obtain ⟨c, y, L, _⟩ := lowers_of_not_faulty p s.ctx hf h
    have hr := lowers_run L s.out
    rw [withOut_eta] at hr
    exact ⟨_, hr⟩

/-- C13.  A failed assert and a read through a null pointer are error results
of `gen`.  With the current function set, as `gen_text` sets it before it
calls `gen`, the call of `gen` on a node aborts if and only if its traversal
reaches a node of the kinds listed at `NDPtr.faulty`: an assignment whose left
operand is not a variable reference, a node of a kind that no lowering rule
handles, or a declaration, variable reference or call without its descriptor.
On a tree without such a node `gen` completes. -/
theorem gen_aborts_iff (p : NDPtr) (s : GenState) (hf : s.hot_func ≠ none) :
    ((∃ e, gen p s = .error e) ↔ p.faulty = true) ∧
    (p.faulty = false → ∃ s', gen p s = .ok s') := by
  have key := gen_ok_iff_not_faulty p s hf
  refine ⟨?_, key.mpr⟩
  · constructor
    · rintro ⟨e, he⟩
      cases hp : p.faulty with
      | true => rfl
      | false =>
        obtain ⟨s', hs⟩ := key.mpr hp
        rw [hs] at he
        cases he
    · intro hp
      cases hg : gen p s with
      | error e => exact ⟨e, rfl⟩
      | ok s' =>
        have := key.mp ⟨s', hg⟩
        rw [hp] at this
        cases this

/-- The statement `if (1) { 7 = 1; }`, lowered in a function, aborts: its
traversal reaches the assignment to a literal; the statement `if (1) 2; else
3;` has no such node and `gen` completes on it. -/
theorem gen_aborts_iff_witness :
    (∃ e, gen exIfBadAssign (GenState.initial.ctx.startFn exMainNoRet |>.withOut []) = .error e) ∧
    (∃ s', gen exIf (GenState.initial.ctx.startFn exMainNoRet |>.withOut []) = .ok s') :=
  ⟨(gen_aborts_iff exIfBadAssign _ (by simp [Ctx.startFn, Ctx.withOut])).1.mpr (by decide),
    (gen_aborts_iff exIf _ (by simp [Ctx.startFn, Ctx.withOut])).2 (by decide)⟩

/-! ## Code of a nested call inside the code of the outer call -/

theorem OutOf_of_nil {c : List Instr} (h : labelDefs c = []) (a b : Int) : OutOf c a b := by
  intro t n hm
  simp [h] at hm

theorem OutOf_append {c d : List Instr} {a b : Int} :
    OutOf (c ++ d) a b ↔ OutOf c a b ∧ OutOf d a b := by
  simp only [OutOf, labelDefs_append, List.mem_append]
  constructor
  · intro h
    exact ⟨fun t n hm => h t n (Or.inl hm), fun t n hm => h t n (Or.inr hm)⟩
  · rintro ⟨h1, h2⟩ t n (hm | hm)
    · exact h1 t n hm
    · exact h2 t n hm

theorem OutOf_label {t : String} {n a b : Int} (h : n < a ∨ b ≤ n) : OutOf [.label t n] a b := by
  intro t' n' hm
  simp at hm
  omega

theorem OutOf_cons2 {i j : Instr} {c : List Instr} {a b : Int} :
    OutOf (i :: j :: c) a b ↔ OutOf [i] a b ∧ OutOf (j :: c) a b :=
  OutOf_append (c := [i]) (d := j :: c)

theorem DefsIn.outOf_below {c : List Instr} {a b lo hi : Int} (h : DefsIn c a b) (hb : b ≤ lo) :
    OutOf c lo hi := by
  intro t n hm
  have := h t n hm
  omega

theorem DefsIn.outOf_above {c : List Instr} {a b lo hi : Int} (h : DefsIn c a b) (ha : hi ≤ a) :
    OutOf c lo hi := by
  intro t n hm
  have := h t n hm
  omega

theorem OutOf.wider {c : List Instr} {a b a' b' : Int} (h : OutOf c a b) (ha : a ≤ a')
    (hb : b' ≤ b) : OutOf c a' b' := by
  intro t n hm
  have := h t n hm
  omega

theorem OutOf.label_not_mem {c : List Instr} {a b : Int} (h : OutOf c a b) {t : String} {n : Int}
    (ha : a ≤ n) (hb : n < b) : Instr.label t n ∉ c := by
  intro hm
  have := h t n (mem_labelDefs.mpr hm)
  omega

theorem OutOf_forTest {p : NDPtr} {cc : List Instr} {n a b : Int} (h : OutOf cc a b) :
    OutOf (forTest p cc n) a b := by
  intro t m hm
  rw [labelDefs_forTest] at hm
  split at hm
  · simp at hm
  · exact h t m hm

theorem lower_det {p : NDPtr} {x y y' : Ctx} {c c' : List Instr} (h : lower p x = .ok (c, y))
    (L : Lowers (.node p) x c' y') : c' = c ∧ y' = y := by
  have := lower_ok_iff.mpr L
  rw [h] at this
  simp only [Except.ok.injEq, Prod.mk.injEq] at this
  exact ⟨this.1.symm, this.2.symm⟩

theorem Lowers.ret_inv {p : NDPtr} {x y : Ctx} {c : List Instr} (hk : p.kind? = some ND_RETURN)
    (L : Lowers (.node p) x c y) :
    ∃ ce x1 f, Lowers (.node p.lexpr) x ce x1 ∧ x1.hot_func = some f ∧
      c = ce ++ popCode "a0" ++ [.j_fn FUNC_EXIT f.name] ∧ y = x1.setLast p := by
  cases L with
  | ret _ L1 hf => exact ⟨_, _, _, L1, hf, rfl, rfl⟩
  | null => simp [NDPtr.kind?] at hk
  | unary hk' hop' => simp [hk] at hk'; subst hk'; simp [unaryOp] at hop'
  | binary hk' hop' => simp [hk] at hk'; subst hk'; simp [binaryOp] at hop'
  | _ => simp [hk] at *

theorem Lowers.decl_inv {p : NDPtr} {x y : Ctx} {c : List Instr} {a : Bool} {o : Int}
    {vinit : NDPtr} (hk : p.kind? = some ND_DECL) (hv : p.var = .mk a o vinit)
    (hn : vinit.isNull = false) (L : Lowers (.node p) x c y) :
    ∃ ce x1, Lowers (.node vinit) x ce x1 ∧
      c = ce ++ popCode "t0" ++ [.sw_fp "t0" (varDisp a o)] ∧
      y = x1.setLast p := by
  cases L with
  | decl_init _ hv' _ L1 =>
    rw [hv] at hv'
    cases hv'
    exact ⟨_, _, L1, rfl, rfl⟩
  | decl_none _ hv' hn' =>
    rw [hv] at hv'
    cases hv'
    rw [hn] at hn'
    cases hn'
  | null => simp [NDPtr.kind?] at hk
  | unary hk' hop' => simp [hk] at hk'; subst hk'; simp [unaryOp] at hop'
  | binary hk' hop' => simp [hk] at hk'; subst hk'; simp [binaryOp] at hop'
  | _ => simp [hk] at *

theorem Lowers.unused_inv {p : NDPtr} {x y : Ctx} {c : List Instr}
    (hk : p.kind? = some ND_UNUSED_EXPR) (hn : p.lexpr.isNull = false)
    (L : Lowers (.node p) x c y) :
    ∃ ce x1, Lowers (.node p.lexpr) x ce x1 ∧ c = ce ++ popCode "t0" ∧ y = x1.setLast p := by
  cases L with
  | unused_some _ _ L1 => exact ⟨_, _, L1, rfl, rfl⟩
  | unused_none _ hn' =>
    rw [hn] at hn'
    cases hn'
  | null => simp [NDPtr.kind?] at hk
  | unary hk' hop' => simp [hk] at hk'; subst hk'; simp [unaryOp] at hop'
  | binary hk' hop' => simp [hk] at hk'; subst hk'; simp [binaryOp] at hop'
  | _ => simp [hk] at *

theorem Lowers.block_inv {p : NDPtr} {x y : Ctx} {c : List Instr} (hk : p.kind? = some ND_BLOCK)
    (L : Lowers (.node p) x c y) :
    ∃ x1, Lowers (.body p.body) x c x1 ∧ y = x1.setLast p := by
  cases L with
  | block _ L1 => exact ⟨_, L1, rfl⟩
  | null => simp [NDPtr.kind?] at hk
  | unary hk' hop' => simp [hk] at hk'; subst hk'; simp [unaryOp] at hop'
  | binary hk' hop' => simp [hk] at hk'; subst hk'; simp [binaryOp] at hop'
  | _ => simp [hk] at *

theorem Lowers.unary_inv {p : NDPtr} {k : NodeKind} {op : Instr} {x y : Ctx} {c : List Instr}
    (hk : p.kind? = some k) (hop : unaryOp k = some op) (L : Lowers (.node p) x c y) :
    ∃ ce x1, Lowers (.node p.lexpr) x ce x1 ∧
      c = ce ++ popCode "t0" ++ [op] ++ pushCode "t0" ∧ y = x1.setLast p := by
  cases L with
  | unary hk' hop' L1 =>
    rw [hk] at hk'
    cases hk'
    rw [hop] at hop'
    cases hop'
    exact ⟨_, _, L1, rfl, rfl⟩
  | binary hk' hop' =>
    rw [hk] at hk'
    cases hk'
    rw [unary_not_binary hop] at hop'
    cases hop'
  | null => simp [NDPtr.kind?] at hk
  | _ =>
    simp only [hk, Option.some.injEq] at *
    subst_vars
    simp [unaryOp] at hop

theorem Lowers.assign_inv {p : NDPtr} {x y : Ctx} {c : List Instr}
    (hk : p.kind? = some ND_ASSIGN) (L : Lowers (.node p) x c y) :
    ∃ ce x1 a o vinit, Lowers (.node p.rexpr) x ce x1 ∧ p.lexpr.var = .mk a o vinit ∧
      c = ce ++ popCode "t0" ++ [.sw_fp "t0" (varDisp a o)]
        ++ pushCode "t0" ∧ y = x1.setLast p := by
  cases L with
  | assign _ _ hv L1 => exact ⟨_, _, _, _, _, L1, hv, rfl, rfl⟩
  | null => simp [NDPtr.kind?] at hk
  | unary hk' hop' => simp [hk] at hk'; subst hk'; simp [unaryOp] at hop'
  | binary hk' hop' => simp [hk] at hk'; subst hk'; simp [binaryOp] at hop'
  | _ => simp [hk] at *

theorem Lowers.default_inv {p : NDPtr} {k : NodeKind} {x y : Ctx} {c : List Instr}
    (hk : p.kind? = some k) (hn : k ∉ caseKinds) (L : Lowers (.node p) x c y) :
    ∃ ops cl cr x1 x2, binaryOp k = some ops ∧ Lowers (.node p.lexpr) x cl x1 ∧
      Lowers (.node p.rexpr) x1 cr x2 ∧
      c = cl ++ cr ++ popCode "t1" ++ popCode "t0" ++ ops ++ pushCode "t0" ∧
      y = x2.setLast p := by
  cases L with
  | binary hk' hop' L1 L2 =>
    rw [hk] at hk'
    cases hk'
    exact ⟨_, _, _, _, _, hop', L1, L2, rfl, rfl⟩
  | unary hk' hop' =>
    rw [hk] at hk'
    cases hk'
    cases k <;> simp [unaryOp] at hop' <;> simp [caseKinds] at hn
  | null => simp [NDPtr.kind?] at hk
  | _ =>
    simp only [hk, Option.some.injEq] at *
    subst_vars
    simp [caseKinds] at hn

theorem lowerAll_split : ∀ (u v : List NDPtr) {x y : Ctx} {cs : List (List Instr)},
    lowerAll (u ++ v) x = .ok (cs, y) →
    ∃ cs1 x1 cs2, lowerAll u x = .ok (cs1, x1) ∧ lowerAll v x1 = .ok (cs2, y) ∧ cs = cs1 ++ cs2
  | [], v, x, y, cs, h => ⟨[], x, cs, rfl, by simpa using h, rfl⟩
  | p :: u, v, x, y, cs, h => by
    simp only [List.cons_append, lowerAll, List.append_eq] at h
    cases hp : lower p x with
    | error e => simp [hp] at h
    | ok r =>
      obtain ⟨c, x1⟩ := r
      simp only [hp] at h
      cases hr : lowerAll (u ++ v) x1 with
      | error e => simp [hr] at h
      | ok r2 =>
        obtain ⟨cs', y'⟩ := r2
        simp only [hr, Except.ok.injEq, Prod.mk.injEq] at h
        obtain ⟨rfl, rfl⟩ := h
        obtain ⟨cs1, x2, cs2, h1, h2, rfl⟩ := lowerAll_split u v hr
        exact ⟨c :: cs1, x2, cs2, by simp [lowerAll, hp, h1], h2, rfl⟩

theorem lowerAll_cons {p : NDPtr} {v : List NDPtr} {x y : Ctx} {cs : List (List Instr)}
    (h : lowerAll (p :: v) x = .ok (cs, y)) :
    ∃ c x1 cs2, lower p x = .ok (c, x1) ∧ lowerAll v x1 = .ok (cs2, y) ∧ cs = c :: cs2 := by
  simp only [lowerAll] at h
  cases hp : lower p x with
  | error e => simp [hp] at h
  | ok r =>
    obtain ⟨c, x1⟩ := r
    simp only [hp] at h
    cases hr : lowerAll v x1 with
    | error e => simp [hr] at h
    | ok r2 =>
      obtain ⟨cs', y'⟩ := r2
      simp only [hr, Except.ok.injEq, Prod.mk.injEq] at h
      obtain ⟨rfl, rfl⟩ := h
      exact ⟨c, x1, cs', rfl, hr, rfl⟩

theorem lowerAll_labels : ∀ (l : List NDPtr) {x y : Ctx} {cs : List (List Instr)},
    lowerAll l x = .ok (cs, y) → DefsIn cs.flatten x.label_seq y.label_seq
  | [], x, y, cs, h => by
    simp only [lowerAll, Except.ok.injEq, Prod.mk.injEq] at h
    obtain ⟨rfl, rfl⟩ := h
    exact DefsIn_of_nil (c := []) rfl _ _
  | p :: l, x, y, cs, h => by
    obtain ⟨c, x1, cs2, h1, h2, rfl⟩ := lowerAll_cons h
    have d1 := (lower_ok_iff.mp h1).labels.1
    have d2 := lowerAll_labels l h2
    have f1 := (lower_frame h1).1
    have f2 := (lowerAll_frame h2).1
    simp only [List.flatten_cons, DefsIn_append]
    exact ⟨d1.mono_defs (le_refl _) f2, d2.mono_defs f1 (le_refl _)⟩

@[simp] theorem bump_hot_func (x : Ctx) : x.bump.hot_func = x.hot_func := rfl
@[simp] theorem enter_label_seq (x : Ctx) : x.enter.label_seq = x.label_seq + 1 := rfl
@[simp] theorem enter_hot_func (x : Ctx) : x.enter.hot_func = x.hot_func := rfl
@[simp] theorem enter_brk_seq (x : Ctx) : x.enter.brk_seq = x.label_seq := rfl
@[simp] theorem enter_cont_seq (x : Ctx) : x.enter.cont_seq = x.label_seq := rfl
@[simp] theorem setLast_label_seq (p : NDPtr) (x : Ctx) :
    (x.setLast p).label_seq = x.label_seq := rfl
@[simp] theorem setLast_hot_func (p : NDPtr) (x : Ctx) :
    (x.setLast p).hot_func = x.hot_func := rfl
@[simp] theorem setLast_brk_seq (p : NDPtr) (x : Ctx) : (x.setLast p).brk_seq = x.brk_seq := rfl
@[simp] theorem setLast_cont_seq (p : NDPtr) (x : Ctx) :
    (x.setLast p).cont_seq = x.cont_seq := rfl
@[simp] theorem leave_label_seq (x y : Ctx) : (x.leave y).label_seq = y.label_seq := rfl
@[simp] theorem leave_hot_func (x y : Ctx) : (x.leave y).hot_func = y.hot_func := rfl
@[simp] theorem leave_brk_seq (x y : Ctx) : (x.leave y).brk_seq = x.brk_seq := rfl
@[simp] theorem leave_cont_seq (x y : Ctx) : (x.leave y).cont_seq = x.cont_seq := rfl
@[simp] theorem startFn_label_seq (fn : Function) (x : Ctx) :
    (x.startFn fn).label_seq = x.label_seq := rfl
@[simp] theorem startFn_hot_func (fn : Function) (x : Ctx) :
    (x.startFn fn).hot_func = some fn := rfl

theorem lowerAll_det {l : List NDPtr} {x y y' : Ctx} {cs cs' : List (List Instr)}
    (h : lowerAll l x = .ok (cs, y)) (h' : lowerAll l x = .ok (cs', y')) : cs' = cs ∧ y' = y := by
  rw [h] at h'
  simp only [Except.ok.injEq, Prod.mk.injEq] at h'
  exact ⟨h'.1.symm, h'.2.symm⟩

/-- The entry `q` of a list that is lowered in order: its call completes, and
its code stands between the codes of the entries before and after it. -/
theorem lowerAll_mid {u v : List NDPtr} {q : NDPtr} {x x1 y : Ctx} {cs csu : List (List Instr)}
    (h : lowerAll (u ++ q :: v) x = .ok (cs, y)) (hu : lowerAll u x = .ok (csu, x1)) :
    ∃ cq xq csv, lower q x1 = .ok (cq, xq) ∧ lowerAll v xq = .ok (csv, y) ∧
      cs.flatten = csu.flatten ++ cq ++ csv.flatten ∧
      DefsIn csu.flatten x.label_seq x1.label_seq ∧ DefsIn csv.flatten xq.label_seq y.label_seq ∧
      x.label_seq ≤ x1.label_seq ∧ xq.label_seq ≤ y.label_seq ∧ x1.hot_func = x.hot_func := by
  obtain ⟨cs1, xa, cs2, h1, h2, rfl⟩ := lowerAll_split u (q :: v) h
  obtain ⟨rfl, rfl⟩ := lowerAll_det hu h1
  obtain ⟨cq, xq, csv, h3, h4, rfl⟩ := lowerAll_cons h2
  refine ⟨cq, xq, csv, h3, h4, by simp, lowerAll_labels u hu, lowerAll_labels v h4,
    (lowerAll_frame hu).1, (lowerAll_frame h4).1, (lowerAll_frame hu).2.2.2⟩

theorem OutOf_nil (a b : Int) : OutOf [] a b := OutOf_of_nil (c := []) rfl a b

set_option linter.unusedTactic false in
set_option linter.unreachableTactic false in
theorem Child.sub_of {p q : NDPtr} {x z : Ctx} (hc : Child p x q z) {c : List Instr} {y : Ctx}
    (L : Lowers (.node p) x c y) : SubOf x c y q z := by
  cases hc with
  | ret hk =>
    obtain ⟨ce, x1, f, L1, hf, rfl, rfl⟩ := L.ret_inv hk
    exact ⟨[], ce, popCode "a0" ++ [.j_fn FUNC_EXIT f.name], x1, by simp, L1, rfl, le_refl _,
      le_refl _, OutOf_nil _ _, OutOf_of_nil (by simp) _ _⟩
  | decl hk hv hn =>
    rename_i a o
    obtain ⟨ce, x1, L1, rfl, rfl⟩ := L.decl_inv hk hv hn
    exact ⟨[], ce,
      popCode "t0" ++ [.sw_fp "t0" (varDisp a o)], x1,
      by simp, L1, rfl, le_refl _, le_refl _, OutOf_nil _ _, OutOf_of_nil (by simp) _ _⟩
  | unused hk hn =>
    obtain ⟨ce, x1, L1, rfl, rfl⟩ := L.unused_inv hk hn
    exact ⟨[], ce, popCode "t0", x1, by simp, L1, rfl, le_refl _, le_refl _,
      OutOf_nil _ _, OutOf_of_nil (by simp) _ _⟩
  | unary hk hop =>
    rename_i k op
    obtain ⟨ce, x1, L1, rfl, rfl⟩ := L.unary_inv hk hop
    exact ⟨[], ce, popCode "t0" ++ [op] ++ pushCode "t0", x1, by simp, L1, rfl, le_refl _,
      le_refl _, OutOf_nil _ _, OutOf_of_nil (by simp [labelDefs_unaryOp hop]) _ _⟩
  | assign hk hl =>
    obtain ⟨ce, x1, a, o, vinit, L1, hv, rfl, rfl⟩ := L.assign_inv hk
    exact ⟨[], ce,
      popCode "t0" ++ [.sw_fp "t0" (varDisp a o)]
        ++ pushCode "t0", x1, by simp, L1, rfl, le_refl _, le_refl _, OutOf_nil _ _,
      OutOf_of_nil (by simp) _ _⟩
  | bin_left hk hn =>
    obtain ⟨ops, cl, cr, x1, x2, hop, L1, L2, rfl, rfl⟩ := L.default_inv hk hn
    have f2 := L2.frame
    have d2 := L2.labels.1
    refine ⟨[], cl, cr ++ popCode "t1" ++ popCode "t0" ++ ops ++ pushCode "t0", x1, by simp, L1,
      rfl, le_refl _, f2.1, OutOf_nil _ _, ?_⟩
    simp only [OutOf_append]
    and_intros
    all_goals first
      | exact DefsIn.outOf_above (by assumption) (by omega)
      | exact OutOf_of_nil (by simp [labelDefs_binaryOp hop]) _ _
  | bin_right hk hn h1 =>
    obtain ⟨ops, cl, cr, x1, x2, hop, L1, L2, rfl, rfl⟩ := L.default_inv hk hn
    obtain ⟨rfl, rfl⟩ := lower_det h1 L1
    have f1 := L1.frame
    have d1 := L1.labels.1
    refine ⟨cl, cr, popCode "t1" ++ popCode "t0" ++ ops ++ pushCode "t0", x2,
      by simp, L2, f1.2.2.2, f1.1, le_refl _, ?_, ?_⟩
    · exact DefsIn.outOf_below d1 (le_refl _)
    · exact OutOf_of_nil (by simp [labelDefs_binaryOp hop]) _ _
  | if_cond hk =>
    obtain ⟨cc, ct, ce, x1, x2, x3, L1, L2, L3, hnull, hsome, rfl⟩ := L.if_inv hk
    have f1 := L1.frame
    have f2 := L2.frame
    have f3 := L3.frame
    have d2 := L2.labels.1
    have d3 := L3.labels.1
    simp only [bump_label_seq, bump_hot_func, setLast_label_seq, setLast_hot_func] at *
    cases he : p.els.isNull with
    | true =>
      rw [hnull he]
      refine ⟨[], cc, popCode "t0" ++ [.beqz "t0" EXIT x.label_seq] ++ ct
        ++ [.label EXIT x.label_seq], x1, by simp, L1, rfl, ?_, ?_, ?_, ?_⟩
      all_goals
        try simp only [bump_label_seq, enter_label_seq, setLast_label_seq, leave_label_seq,
          OutOf_append, OutOf_cons2]
        and_intros
        all_goals first
          | omega
          | exact OutOf_nil _ _
          | exact DefsIn.outOf_below (by assumption) (by omega)
          | exact DefsIn.outOf_above (by assumption) (by omega)
          | exact OutOf_forTest (DefsIn.outOf_below (by assumption) (by omega))
          | exact OutOf_forTest (DefsIn.outOf_above (by assumption) (by omega))
          | exact OutOf_label (by omega)
          | exact OutOf_of_nil (by simp) _ _
    | false =>
      rw [hsome he]
      refine ⟨[], cc, popCode "t0" ++ [.beqz "t0" ELSE x.label_seq] ++ ct
        ++ [.j EXIT x.label_seq, .label ELSE x.label_seq] ++ ce ++ [.label EXIT x.label_seq],
        x1, by simp, L1, rfl, ?_, ?_, ?_, ?_⟩
      all_goals
        try simp only [bump_label_seq, enter_label_seq, setLast_label_seq, leave_label_seq,
          OutOf_append, OutOf_cons2]
        and_intros
        all_goals first
          | omega
          | exact OutOf_nil _ _
          | exact DefsIn.outOf_below (by assumption) (by omega)
          | exact DefsIn.outOf_above (by assumption) (by omega)
          | exact OutOf_forTest (DefsIn.outOf_below (by assumption) (by omega))
          | exact OutOf_forTest (DefsIn.outOf_above (by assumption) (by omega))
          | exact OutOf_label (by omega)
          | exact OutOf_of_nil (by simp) _ _
  | if_then hk h1 =>
    obtain ⟨cc, ct, ce, x1, x2, x3, L1, L2, L3, hnull, hsome, rfl⟩ := L.if_inv hk
    obtain ⟨rfl, rfl⟩ := lower_det h1 L1
    have f1 := L1.frame
    have f2 := L2.frame
    have f3 := L3.frame
    have d1 := L1.labels.1
    have d3 := L3.labels.1
    simp only [bump_label_seq, bump_hot_func, setLast_label_seq, setLast_hot_func] at *
    cases he : p.els.isNull with
    | true =>
      rw [hnull he]
      refine ⟨cc ++ popCode "t0" ++ [.beqz "t0" EXIT x.label_seq], ct,
        [.label EXIT x.label_seq], x2, by simp, L2, f1.2.2.2, ?_, ?_, ?_, ?_⟩
      all_goals
        try simp only [bump_label_seq, enter_label_seq, setLast_label_seq, leave_label_seq,
          OutOf_append, OutOf_cons2]
        and_intros
        all_goals first
          | omega
          | exact OutOf_nil _ _
          | exact DefsIn.outOf_below (by assumption) (by omega)
          | exact DefsIn.outOf_above (by assumption) (by omega)
          | exact OutOf_forTest (DefsIn.outOf_below (by assumption) (by omega))
          | exact OutOf_forTest (DefsIn.outOf_above (by assumption) (by omega))
          | exact OutOf_label (by omega)
          | exact OutOf_of_nil (by simp) _ _
    | false =>
      rw [hsome he]
      refine ⟨cc ++ popCode "t0" ++ [.beqz "t0" ELSE x.label_seq], ct,
        [.j EXIT x.label_seq, .label ELSE x.label_seq] ++ ce ++ [.label EXIT x.label_seq],
        x2, by simp, L2, f1.2.2.2, ?_, ?_, ?_, ?_⟩
      all_goals
        try simp only [bump_label_seq, enter_label_seq, setLast_label_seq, leave_label_seq,
          OutOf_append, OutOf_cons2]
        and_intros
        all_goals first
          | omega
          | exact OutOf_nil _ _
          | exact DefsIn.outOf_below (by assumption) (by omega)
          | exact DefsIn.outOf_above (by assumption) (by omega)
          | exact OutOf_forTest (DefsIn.outOf_below (by assumption) (by omega))
          | exact OutOf_forTest (DefsIn.outOf_above (by assumption) (by omega))
          | exact OutOf_label (by omega)
          | exact OutOf_of_nil (by simp) _ _
  | if_els hk hn h1 h2 =>
    obtain ⟨cc, ct, ce, x1, x2, x3, L1, L2, L3, hnull, hsome, rfl⟩ := L.if_inv hk
    obtain ⟨rfl, rfl⟩ := lower_det h1 L1
    obtain ⟨rfl, rfl⟩ := lower_det h2 L2
    have f1 := L1.frame
    have f2 := L2.frame
    have f3 := L3.frame
    have d1 := L1.labels.1
    have d2 := L2.labels.1
    simp only [bump_label_seq, bump_hot_func, setLast_label_seq, setLast_hot_func] at *
    rw [hsome hn]
    refine ⟨cc ++ popCode "t0" ++ [.beqz "t0" ELSE x.label_seq] ++ ct
        ++ [.j EXIT x.label_seq, .label ELSE x.label_seq], ce, [.label EXIT x.label_seq],
      x3, by simp, L3, by rw [f2.2.2.2, f1.2.2.2], ?_, ?_, ?_, ?_⟩
    all_goals
      try simp only [bump_label_seq, enter_label_seq, setLast_label_seq, leave_label_seq,
        OutOf_append, OutOf_cons2]
      and_intros
      all_goals first
        | omega
        | exact OutOf_nil _ _
        | exact DefsIn.outOf_below (by assumption) (by omega)
        | exact DefsIn.outOf_above (by assumption) (by omega)
        | exact OutOf_forTest (DefsIn.outOf_below (by assumption) (by omega))
        | exact OutOf_forTest (DefsIn.outOf_above (by assumption) (by omega))
        | exact OutOf_label (by omega)
        | exact OutOf_of_nil (by simp) _ _
  | ternary_cond hk =>
    obtain ⟨cc, ct, ce, x1, x2, x3, L1, L2, L3, rfl, rfl⟩ := L.ternary_inv hk
    have f1 := L1.frame
    have f2 := L2.frame
    have f3 := L3.frame
    have d2 := L2.labels.1
    have d3 := L3.labels.1
    simp only [bump_label_seq, bump_hot_func, setLast_label_seq, setLast_hot_func] at *
    refine ⟨[], cc, popCode "t0" ++ [.beqz "t0" ELSE x.label_seq] ++ ct
      ++ [.j EXIT x.label_seq, .label ELSE x.label_seq] ++ ce ++ [.label EXIT x.label_seq],
      x1, by simp, L1, rfl, ?_, ?_, ?_, ?_⟩
    all_goals
      try simp only [bump_label_seq, enter_label_seq, setLast_label_seq, leave_label_seq,
        OutOf_append, OutOf_cons2]
      and_intros
      all_goals first
        | omega
        | exact OutOf_nil _ _
        | exact DefsIn.outOf_below (by assumption) (by omega)
        | exact DefsIn.outOf_above (by assumption) (by omega)
        | exact OutOf_forTest (DefsIn.outOf_below (by assumption) (by omega))
        | exact OutOf_forTest (DefsIn.outOf_above (by assumption) (by omega))
        | exact OutOf_label (by omega)
        | exact OutOf_of_nil (by simp) _ _
  | ternary_then hk h1 =>
    obtain ⟨cc, ct, ce, x1, x2, x3, L1, L2, L3, rfl, rfl⟩ := L.ternary_inv hk
    obtain ⟨rfl, rfl⟩ := lower_det h1 L1
    have f1 := L1.frame
    have f2 := L2.frame
    have f3 := L3.frame
    have d1 := L1.labels.1
    have d3 := L3.labels.1
    simp only [bump_label_seq, bump_hot_func, setLast_label_seq, setLast_hot_func] at *
    refine ⟨cc ++ popCode "t0" ++ [.beqz "t0" ELSE x.label_seq], ct,
      [.j EXIT x.label_seq, .label ELSE x.label_seq] ++ ce ++ [.label EXIT x.label_seq],
      x2, by simp, L2, f1.2.2.2, ?_, ?_, ?_, ?_⟩
    all_goals
      try simp only [bump_label_seq, enter_label_seq, setLast_label_seq, leave_label_seq,
        OutOf_append, OutOf_cons2]
      and_intros
      all_goals first
        | omega
        | exact OutOf_nil _ _
        | exact DefsIn.outOf_below (by assumption) (by omega)
        | exact DefsIn.outOf_above (by assumption) (by omega)
        | exact OutOf_forTest (DefsIn.outOf_below (by assumption) (by omega))
        | exact OutOf_forTest (DefsIn.outOf_above (by assumption) (by omega))
        | exact OutOf_label (by omega)
        | exact OutOf_of_nil (by simp) _ _
  | ternary_els hk h1 h2 =>
    obtain ⟨cc, ct, ce, x1, x2, x3, L1, L2, L3, rfl, rfl⟩ := L.ternary_inv hk
    obtain ⟨rfl, rfl⟩ := lower_det h1 L1
    obtain ⟨rfl, rfl⟩ := lower_det h2 L2
    have f1 := L1.frame
    have f2 := L2.frame
    have f3 := L3.frame
    have d1 := L1.labels.1
    have d2 := L2.labels.1
    simp only [bump_label_seq, bump_hot_func, setLast_label_seq, setLast_hot_func] at *
    refine ⟨cc ++ popCode "t0" ++ [.beqz "t0" ELSE x.label_seq] ++ ct
        ++ [.j EXIT x.label_seq, .label ELSE x.label_seq], ce, [.label EXIT x.label_seq],
      x3, by simp, L3, by rw [f2.2.2.2, f1.2.2.2], ?_, ?_, ?_, ?_⟩
    all_goals
      try simp only [bump_label_seq, enter_label_seq, setLast_label_seq, leave_label_seq,
        OutOf_append, OutOf_cons2]
      and_intros
      all_goals first
        | omega
        | exact OutOf_nil _ _
        | exact DefsIn.outOf_below (by assumption) (by omega)
        | exact DefsIn.outOf_above (by assumption) (by omega)
        | exact OutOf_forTest (DefsIn.outOf_below (by assumption) (by omega))
        | exact OutOf_forTest (DefsIn.outOf_above (by assumption) (by omega))
        | exact OutOf_label (by omega)
        | exact OutOf_of_nil (by simp) _ _
  | for_init hk =>
    obtain ⟨ci, cc, ct, cn, x1, x2, x3, x4, L1, L2, L3, L4, rfl, rfl⟩ := L.for_inv hk
    have f1 := L1.frame
    have f2 := L2.frame
    have f3 := L3.frame
    have f4 := L4.frame
    have d1 := L1.labels.1
    have d2 := L2.labels.1
    have d3 := L3.labels.1
    have d4 := L4.labels.1
    simp only [enter_label_seq, enter_hot_func] at f1 d1
    refine ⟨[], ci, [.label BEGIN x.label_seq] ++ forTest p.cond cc x.label_seq ++ ct
        ++ [.label CONTINUE x.label_seq] ++ cn
        ++ [.j BEGIN x.label_seq, .label EXIT x.label_seq],
      x1, by simp, L1, rfl, ?_, ?_, ?_, ?_⟩
    all_goals
      try simp only [bump_label_seq, enter_label_seq, setLast_label_seq, leave_label_seq,
        OutOf_append, OutOf_cons2]
      and_intros
      all_goals first
        | omega
        | exact OutOf_nil _ _
        | exact DefsIn.outOf_below (by assumption) (by omega)
        | exact DefsIn.outOf_above (by assumption) (by omega)
        | exact OutOf_forTest (DefsIn.outOf_below (by assumption) (by omega))
        | exact OutOf_forTest (DefsIn.outOf_above (by assumption) (by omega))
        | exact OutOf_label (by omega)
        | exact OutOf_of_nil (by simp) _ _
  | for_cond hk hn h1 =>
    obtain ⟨ci, cc, ct, cn, x1, x2, x3, x4, L1, L2, L3, L4, rfl, rfl⟩ := L.for_inv hk
    obtain ⟨rfl, rfl⟩ := lower_det h1 L1
    have f1 := L1.frame
    have f2 := L2.frame
    have f3 := L3.frame
    have f4 := L4.frame
    have d1 := L1.labels.1
    have d2 := L2.labels.1
    have d3 := L3.labels.1
    have d4 := L4.labels.1
    simp only [enter_label_seq, enter_hot_func] at f1 d1
    have ht : forTest p.cond cc x.label_seq = cc ++ popCode "t0" ++ [.beqz "t0" EXIT x.label_seq] := by
      simp [forTest, hn]
    rw [ht]
    refine ⟨ci ++ [.label BEGIN x.label_seq], cc,
      popCode "t0" ++ [.beqz "t0" EXIT x.label_seq] ++ ct
        ++ [.label CONTINUE x.label_seq] ++ cn
        ++ [.j BEGIN x.label_seq, .label EXIT x.label_seq],
      x2, by simp, L2, f1.2.2.2, ?_, ?_, ?_, ?_⟩
    all_goals
      try simp only [bump_label_seq, enter_label_seq, setLast_label_seq, leave_label_seq,
        OutOf_append, OutOf_cons2]
      and_intros
      all_goals first
        | omega
        | exact OutOf_nil _ _
        | exact DefsIn.outOf_below (by assumption) (by omega)
        | exact DefsIn.outOf_above (by assumption) (by omega)
        | exact OutOf_forTest (DefsIn.outOf_below (by assumption) (by omega))
        | exact OutOf_forTest (DefsIn.outOf_above (by assumption) (by omega))
        | exact OutOf_label (by omega)
        | exact OutOf_of_nil (by simp) _ _
  | for_then hk h1 h2 =>
    obtain ⟨ci, cc, ct, cn, x1, x2, x3, x4, L1, L2, L3, L4, rfl, rfl⟩ := L.for_inv hk
    obtain ⟨rfl, rfl⟩ := lower_det h1 L1
    obtain ⟨rfl, rfl⟩ := lower_det h2 L2
    have f1 := L1.frame
    have f2 := L2.frame
    have f3 := L3.frame
    have f4 := L4.frame
    have d1 := L1.labels.1
    have d2 := L2.labels.1
    have d3 := L3.labels.1
    have d4 := L4.labels.1
    simp only [enter_label_seq, enter_hot_func] at f1 d1
    refine ⟨ci ++ [.label BEGIN x.label_seq] ++ forTest p.cond cc x.label_seq, ct,
      [.label CONTINUE x.label_seq] ++ cn ++ [.j BEGIN x.label_seq, .label EXIT x.label_seq],
      x3, by simp, L3, by rw [f2.2.2.2, f1.2.2.2], ?_, ?_, ?_, ?_⟩
    all_goals
      try simp only [bump_label_seq, enter_label_seq, setLast_label_seq, leave_label_seq,
        OutOf_append, OutOf_cons2]
      and_intros
      all_goals first
        | omega
        | exact OutOf_nil _ _
        | exact DefsIn.outOf_below (by assumption) (by omega)
        | exact DefsIn.outOf_above (by assumption) (by omega)
        | exact OutOf_forTest (DefsIn.outOf_below (by assumption) (by omega))
        | exact OutOf_forTest (DefsIn.outOf_above (by assumption) (by omega))
        | exact OutOf_label (by omega)
        | exact OutOf_of_nil (by simp) _ _
  | for_inc hk hn h1 h2 h3 =>
    obtain ⟨ci, cc, ct, cn, x1, x2, x3, x4, L1, L2, L3, L4, rfl, rfl⟩ := L.for_inv hk
    obtain ⟨rfl, rfl⟩ := lower_det h1 L1
    obtain ⟨rfl, rfl⟩ := lower_det h2 L2
    obtain ⟨rfl, rfl⟩ := lower_det h3 L3
    have f1 := L1.frame
    have f2 := L2.frame
    have f3 := L3.frame
    have f4 := L4.frame
    have d1 := L1.labels.1
    have d2 := L2.labels.1
    have d3 := L3.labels.1
    have d4 := L4.labels.1
    simp only [enter_label_seq, enter_hot_func] at f1 d1
    refine ⟨ci ++ [.label BEGIN x.label_seq] ++ forTest p.cond cc x.label_seq ++ ct
        ++ [.label CONTINUE x.label_seq], cn,
      [.j BEGIN x.label_seq, .label EXIT x.label_seq],
      x4, by simp, L4, by rw [f3.2.2.2, f2.2.2.2, f1.2.2.2], ?_, ?_, ?_, ?_⟩
    all_goals
      try simp only [bump_label_seq, enter_label_seq, setLast_label_seq, leave_label_seq,
        OutOf_append, OutOf_cons2]
      and_intros
      all_goals first
        | omega
        | exact OutOf_nil _ _
        | exact DefsIn.outOf_below (by assumption) (by omega)
        | exact DefsIn.outOf_above (by assumption) (by omega)
        | exact OutOf_forTest (DefsIn.outOf_below (by assumption) (by omega))
        | exact OutOf_forTest (DefsIn.outOf_above (by assumption) (by omega))
        | exact OutOf_label (by omega)
        | exact OutOf_of_nil (by simp) _ _
  | while_cond hk =>
    obtain ⟨cc, ct, x1, x2, L1, L2, rfl, rfl⟩ := L.while_inv hk
    have f1 := L1.frame
    have f2 := L2.frame
    have d1 := L1.labels.1
    have d2 := L2.labels.1
    simp only [enter_label_seq, enter_hot_func] at f1 d1
    refine ⟨[.label CONTINUE x.label_seq], cc,
      popCode "t0" ++ [.beqz "t0" EXIT x.label_seq] ++ ct
        ++ [.j CONTINUE x.label_seq, .label EXIT x.label_seq],
      x1, by simp, L1, rfl, ?_, ?_, ?_, ?_⟩
    all_goals
      try simp only [bump_label_seq, enter_label_seq, setLast_label_seq, leave_label_seq,
        OutOf_append, OutOf_cons2]
      and_intros
      all_goals first
        | omega
        | exact OutOf_nil _ _
        | exact DefsIn.outOf_below (by assumption) (by omega)
        | exact DefsIn.outOf_above (by assumption) (by omega)
        | exact OutOf_forTest (DefsIn.outOf_below (by assumption) (by omega))
        | exact OutOf_forTest (DefsIn.outOf_above (by assumption) (by omega))
        | exact OutOf_label (by omega)
        | exact OutOf_of_nil (by simp) _ _
  | while_then hk h1 =>
    obtain ⟨cc, ct, x1, x2, L1, L2, rfl, rfl⟩ := L.while_inv hk
    obtain ⟨rfl, rfl⟩ := lower_det h1 L1
    have f1 := L1.frame
    have f2 := L2.frame
    have d1 := L1.labels.1
    have d2 := L2.labels.1
    simp only [enter_label_seq, enter_hot_func] at f1 d1
    refine ⟨[.label CONTINUE x.label_seq] ++ cc ++ popCode "t0"
        ++ [.beqz "t0" EXIT x.label_seq], ct,
      [.j CONTINUE x.label_seq, .label EXIT x.label_seq],
      x2, by simp, L2, f1.2.2.2, ?_, ?_, ?_, ?_⟩
    all_goals
      try simp only [bump_label_seq, enter_label_seq, setLast_label_seq, leave_label_seq,
        OutOf_append, OutOf_cons2]
      and_intros
      all_goals first
        | omega
        | exact OutOf_nil _ _
        | exact DefsIn.outOf_below (by assumption) (by omega)
        | exact DefsIn.outOf_above (by assumption) (by omega)
        | exact OutOf_forTest (DefsIn.outOf_below (by assumption) (by omega))
        | exact OutOf_forTest (DefsIn.outOf_above (by assumption) (by omega))
        | exact OutOf_label (by omega)
        | exact OutOf_of_nil (by simp) _ _
  | dowhile_then hk =>
    obtain ⟨ct, cc, x1, x2, L1, L2, rfl, rfl⟩ := L.dowhile_inv hk
    have f1 := L1.frame
    have f2 := L2.frame
    have d1 := L1.labels.1
    have d2 := L2.labels.1
    simp only [enter_label_seq, enter_hot_func] at f1 d1
    refine ⟨[.label CONTINUE x.label_seq], ct,
      cc ++ popCode "t0" ++ [.bnez "t0" CONTINUE x.label_seq],
      x1, by simp, L1, rfl, ?_, ?_, ?_, ?_⟩
    all_goals
      try simp only [bump_label_seq, enter_label_seq, setLast_label_seq, leave_label_seq,
        OutOf_append, OutOf_cons2]
      and_intros
      all_goals first
        | omega
        | exact OutOf_nil _ _
        | exact DefsIn.outOf_below (by assumption) (by omega)
        | exact DefsIn.outOf_above (by assumption) (by omega)
        | exact OutOf_forTest (DefsIn.outOf_below (by assumption) (by omega))
        | exact OutOf_forTest (DefsIn.outOf_above (by assumption) (by omega))
        | exact OutOf_label (by omega)
        | exact OutOf_of_nil (by simp) _ _
  | dowhile_cond hk h1 =>
    obtain ⟨ct, cc, x1, x2, L1, L2, rfl, rfl⟩ := L.dowhile_inv hk
    obtain ⟨rfl, rfl⟩ := lower_det h1 L1
    have f1 := L1.frame
    have f2 := L2.frame
    have d1 := L1.labels.1
    have d2 := L2.labels.1
    simp only [enter_label_seq, enter_hot_func] at f1 d1
    refine ⟨[.label CONTINUE x.label_seq] ++ ct, cc,
      popCode "t0" ++ [.bnez "t0" CONTINUE x.label_seq],
      x2, by simp, L2, f1.2.2.2, ?_, ?_, ?_, ?_⟩
    all_goals
      try simp only [bump_label_seq, enter_label_seq, setLast_label_seq, leave_label_seq,
        OutOf_append, OutOf_cons2]
      and_intros
      all_goals first
        | omega
        | exact OutOf_nil _ _
        | exact DefsIn.outOf_below (by assumption) (by omega)
        | exact DefsIn.outOf_above (by assumption) (by omega)
        | exact OutOf_forTest (DefsIn.outOf_below (by assumption) (by omega))
        | exact OutOf_forTest (DefsIn.outOf_above (by assumption) (by omega))
        | exact OutOf_label (by omega)
        | exact OutOf_of_nil (by simp) _ _
  | block hk hb hu =>
    rename_i u v cs
    obtain ⟨xb, Lb, rfl⟩ := L.block_inv hk
    obtain ⟨cs', hall, rfl⟩ := Lowers.body_inv p.body Lb
    rw [hb] at hall
    obtain ⟨cq, xq, csv, hq, hv, hflat, du, dv, l1, l2, hh⟩ := lowerAll_mid hall hu
    rw [hflat]
    exact ⟨cs.flatten, cq, csv.flatten, xq, rfl, lower_ok_iff.mp hq, hh, l1, l2,
      du.outOf_below (le_refl _), dv.outOf_above (le_refl _)⟩
  | arg hk hfc ha hu =>
    rename_i name args u v cs
    obtain ⟨ca, xa, La, rfl, rfl⟩ := L.call_inv hk hfc
    obtain ⟨cs', hall, rfl⟩ := Lowers.args_inv args La
    have hr : args.toList.reverse = v.reverse ++ q :: u.reverse := by
      rw [ha]; simp
    rw [hr] at hall
    obtain ⟨cq, xq, csv, hq, hv, hflat, du, dv, l1, l2, hh⟩ := lowerAll_mid hall hu
    rw [hflat]
    refine ⟨cs.flatten, cq, csv.flatten ++ [.call name] ++ callCleanup args.length
      ++ pushCode "a0", xq, by simp, lower_ok_iff.mp hq, hh, l1, l2,
      du.outOf_below (le_refl _), ?_⟩
    simp only [OutOf_append]
    exact ⟨⟨⟨dv.outOf_above (le_refl _), OutOf_of_nil (by simp) _ _⟩,
      OutOf_of_nil (by simp) _ _⟩, OutOf_of_nil (by simp) _ _⟩

theorem SubOf.sub_trans {x y z1 y1 z : Ctx} {c c1 : List Instr} {r : NDPtr}
    (h1 : ∃ pre post, c = pre ++ c1 ++ post ∧ z1.hot_func = x.hot_func ∧
      x.label_seq ≤ z1.label_seq ∧ y1.label_seq ≤ y.label_seq ∧
      OutOf pre z1.label_seq y1.label_seq ∧ OutOf post z1.label_seq y1.label_seq)
    (h2 : SubOf z1 c1 y1 r z) : SubOf x c y r z := by
  obtain ⟨pre, post, rfl, hh, l1, l2, o1, o2⟩ := h1
  obtain ⟨pre2, cq, post2, yq, rfl, Lq, hh2, m1, m2, p1, p2⟩ := h2
  refine ⟨pre ++ pre2, cq, post2 ++ post, yq, by simp, Lq, by rw [hh2, hh], by omega, by omega,
    ?_, ?_⟩
  · exact OutOf_append.mpr ⟨o1.wider m1 m2, p1⟩
  · exact OutOf_append.mpr ⟨p2, o2.wider m1 m2⟩

theorem SubOf.sub_refl {p : NDPtr} {x y : Ctx} {c : List Instr} (L : Lowers (.node p) x c y) :
    SubOf x c y p x :=
  ⟨[], c, [], y, by simp, L, rfl, le_refl _, le_refl _, OutOf_nil _ _, OutOf_nil _ _⟩

/-- Every call that the call on `p` reaches completes when the call on `p`
does, and its code is a piece of the code of `p`. -/
theorem Reach.sub_call {p q : NDPtr} {x z : Ctx} (hr : Reach p x q z) {c : List Instr} {y : Ctx}
    (L : Lowers (.node p) x c y) : SubOf x c y q z := by
  induction hr with
  | here => exact SubOf.sub_refl L
  | deeper _ hc ih =>
    obtain ⟨pre, cq, post, yq, rfl, Lq, hh, l1, l2, o1, o2⟩ := ih L
    exact SubOf.sub_trans ⟨pre, post, rfl, hh, l1, l2, o1, o2⟩ (hc.sub_of Lq)

theorem Within.reach {p q : NDPtr} {x z : Ctx} (h : Within p x q z) : Reach p x q z := by
  induction h with
  | child hc => exact .deeper (.here _ _) hc
  | deeper _ _ hc ih => exact .deeper ih hc

theorem Reach.reach_trans {p q r : NDPtr} {x z w : Ctx} (h1 : Reach p x q z) (h2 : Reach q z r w) :
    Reach p x r w := by
  induction h2 with
  | here => exact h1
  | deeper _ hc ih => exact .deeper (ih h1) hc

/-! ## The block of a function in the output of `gen_text` -/

theorem LabelsFresh.defsIn {s s' : GenState} {c : List Instr} {k : Nat}
    (h : LabelsFresh s s' c k) : DefsIn c s.label_seq s'.label_seq := by
  intro t n hm
  exact (h.2.2.1 n).mp ⟨t, hm⟩

theorem gen_fn_block {fn : Function} {s s' : GenState} (h : gen_fn (some fn) s = .ok s') :
    ∃ cs y blk, lowerAll fn.stmts.body.toList (s.ctx.startFn fn) = .ok (cs, y) ∧
      FnBlock fn cs.flatten blk ∧ s'.out = s.out ++ blk ∧ s'.label_seq = y.label_seq ∧
      Lowers (.body fn.stmts.body) (s.ctx.startFn fn) cs.flatten y := by
  simp only [gen_fn, bind_ok_iff, pure_ok_iff] at h
  obtain ⟨s2, h2, rfl⟩ := h
  cases hst : fn.stmts with
  | null => simp [hst] at h2
  | mk k l r c t e i inc body var val fc =>
    simp only [hst] at h2
    obtain ⟨cb, hcb, L⟩ := gen_body_ok_iff.mp h2
    obtain ⟨cs, hcs, rfl⟩ := Lowers.body_inv body L
    simp only [mk_body]
    by_cases hm : (isMainName fn.name && missingReturn s2.last_node) = true
    · simp only [hm, if_true]
      exact ⟨cs, s2.ctx, _, hcs, ⟨[.li "a0" 0], Or.inr rfl, rfl⟩, by simp [hcb], rfl, L⟩
    · simp only [hm, if_false]
      exact ⟨cs, s2.ctx, _, hcs, ⟨[], Or.inl rfl, rfl⟩, by simp [hcb], rfl, L⟩

theorem gen_text_split {fs1 fs2 : List FNPtr} {fn : Function} {s0 s1 s' : GenState}
    (h : gen_text (fs1 ++ some fn :: fs2) s0 = .ok s') (h1 : gen_text fs1 s0 = .ok s1) :
    ∃ s2 A B, gen_fn (some fn) s1 = .ok s2 ∧ gen_fns fs2 s2 = .ok s' ∧
      s1.out = s0.out ++ A ∧ s'.out = s2.out ++ B ∧
      DefsIn A s0.label_seq s1.label_seq ∧ DefsIn B s2.label_seq s'.label_seq ∧
      s0.label_seq ≤ s1.label_seq ∧ s2.label_seq ≤ s'.label_seq := by
  unfold gen_text at h h1
  rw [gen_fns_append, bind_ok_iff] at h
  obtain ⟨m, hm, h2⟩ := h
  rw [h1] at hm
  cases hm
  simp only [gen_fns, bind_ok_iff] at h2
  obtain ⟨s2, hf, hr⟩ := h2
  obtain ⟨c1, f1⟩ := gen_fns_fresh fs1 h1
  obtain ⟨c2, f2⟩ := gen_fns_fresh fs2 hr
  have d1 := f1.defsIn
  have d2 := f2.defsIn
  refine ⟨s2, [.text_section] ++ c1, c2, hf, hr, ?_, f2.1, ?_, d2, ?_, ?_⟩
  · simpa using f1.1
  · simp only [DefsIn_append]
    exact ⟨DefsIn_of_nil (c := [.text_section]) rfl _ _, by simpa using d1⟩
  · have := f1.2.2.2
    simp only [emit] at this
    omega
  · have := f2.2.2.2
    omega

/-- A call of `gen` during the run of `gen_text` completes when the run does.
Its code lies in the body code of the block of its function, the current
function is that function, and no other line of the output defines a label
with one of its numbers. -/
theorem CalledOn.in_block {fs : List FNPtr} {s0 s' : GenState} {fn : Function} {q : NDPtr}
    {z : Ctx} (h : gen_text fs s0 = .ok s') (hc : CalledOn fs s0 fn q z) :
    ∃ A blk B body pre cq post yq, s'.out = s0.out ++ A ++ blk ++ B ∧ FnBlock fn body blk ∧
      body = pre ++ cq ++ post ∧ Lowers (.node q) z cq yq ∧ z.hot_func = some fn ∧
      OutOf A z.label_seq yq.label_seq ∧ OutOf B z.label_seq yq.label_seq ∧
      OutOf pre z.label_seq yq.label_seq ∧ OutOf post z.label_seq yq.label_seq ∧
      (∀ t m, Instr.label_fn t m ∉ body) := by
  obtain ⟨fs1, fs2, s1, u, n, v, csu, xn, rfl, h1, hb, hu, hr⟩ := hc
  obtain ⟨s2, A, B, hf, _, ho1, ho2, dA, dB, _, _⟩ := gen_text_split h h1
  obtain ⟨cs, y, blk, hall, hblk, hout, hls, Lb⟩ := gen_fn_block hf
  rw [hb] at hall
  obtain ⟨cn, xq, csv, hn, _, hflat, du, dv, l1, l2, hh⟩ := lowerAll_mid hall hu
  obtain ⟨pre, cq, post, yq, rfl, Lq, hhot, m1, m2, o1, o2⟩ :=
    hr.sub_call (lower_ok_iff.mp hn)
  simp only [startFn_label_seq, startFn_hot_func, ctx_label_seq] at du l1 hh
  refine ⟨A, blk, B, cs.flatten, csu.flatten ++ pre, cq, post ++ csv.flatten, yq, ?_, hblk,
    by rw [hflat]; simp, Lq, by rw [hhot, hh], dA.outOf_below (by omega),
    dB.outOf_above (by omega), ?_, ?_, Lb.no_label_fn⟩
  · rw [ho2, hout, ho1]
  · exact OutOf_append.mpr ⟨du.outOf_below (by omega), o1⟩
  · exact OutOf_append.mpr ⟨o2, dv.outOf_above (by omega)⟩

theorem Lowers.brk_inv {p : NDPtr} {x y : Ctx} {c : List Instr} (hk : p.kind? = some ND_BREAK)
    (L : Lowers (.node p) x c y) : c = [.j EXIT x.brk_seq] ∧ y = x.setLast p := by
  cases L with
  | brk => exact ⟨rfl, rfl⟩
  | null => simp [NDPtr.kind?] at hk
  | unary hk' hop' => simp [hk] at hk'; subst hk'; simp [unaryOp] at hop'
  | binary hk' hop' => simp [hk] at hk'; subst hk'; simp [binaryOp] at hop'
  | _ => simp [hk] at *

theorem epilogue_label_once (name : String) (S : Int) :
    (epilogue name S).count (.label_fn FUNC_EXIT name) = 1 := by
  simp [epilogue, List.count_cons]

/-! ## C14: every return jumps to the epilogue label of its function -/

/-- C14.  Let `gen_text` complete on a program, and let `gen` be called on a
return node `q` while the function `fn` is lowered, at any nesting depth in a
statement of `fn` and after any functions and statements lowered before.
Then the code of `q` is the code of its expression, a pop into `a0` and
`j .L.function_exit.<name of fn>`, and it lies in the body code of the block
of `fn`.  That block is the prologue, the body code, `li a0, 0` or nothing,
and the epilogue; the label `.L.function_exit.<name of fn>` is the first line
of the epilogue, it stands after all the body code, and the block has exactly
one such line. -/
theorem return_jumps_to_epilogue (fs : List FNPtr) (s0 s' : GenState) (fn : Function)
    (q : NDPtr) (z : Ctx) (h : gen_text fs s0 = .ok s') (hc : CalledOn fs s0 fn q z)
    (hk : q.kind? = some ND_RETURN) :
    ∃ A blk B body tail pre post ce x1,
      s'.out = s0.out ++ A ++ blk ++ B ∧
      blk = prologue fn.name fn.stack_size ++ body ++ tail ++ epilogue fn.name fn.stack_size ∧
      (tail = [] ∨ tail = [.li "a0" 0]) ∧
      lower q.lexpr z = .ok (ce, x1) ∧
      lower q z = .ok (ce ++ popCode "a0" ++ [.j_fn FUNC_EXIT fn.name], x1.setLast q) ∧
      body = pre ++ (ce ++ popCode "a0" ++ [.j_fn FUNC_EXIT fn.name]) ++ post ∧
      (epilogue fn.name fn.stack_size).head? = some (.label_fn FUNC_EXIT fn.name) ∧
      Instr.label_fn FUNC_EXIT fn.name ∉ prologue fn.name fn.stack_size ++ body ++ tail ∧
      blk.count (.label_fn FUNC_EXIT fn.name) = 1 := by
  obtain ⟨A, blk, B, body, pre, cq, post, yq, hout, ⟨tail, htail, hblk⟩, hbody, Lq, hhot, _, _, _, _,
    hnf⟩ := hc.in_block h
  obtain ⟨ce, x1, f, L1, hf, rfl, rfl⟩ := Lq.ret_inv hk
  have hf' : f = fn := by
    have := L1.frame.2.2.2
    rw [hf, hhot] at this
    exact (Option.some.inj this)
  subst hf'
  have hno : Instr.label_fn FUNC_EXIT f.name ∉ prologue f.name f.stack_size ++ body ++ tail := by
    simp only [List.mem_append, not_or]
    refine ⟨⟨by simp [prologue], hnf _ _⟩, ?_⟩
    rcases htail with rfl | rfl <;> simp
  refine ⟨A, blk, B, body, tail, pre, post, ce, x1, hout, hblk, htail, lower_ok_iff.mpr L1,
    lower_ok_iff.mpr Lq, hbody, rfl, hno, ?_⟩
  rw [hblk, List.count_append, epilogue_label_once, List.count_eq_zero_of_not_mem hno]

/-! ## C11: a `break` in a `do`-`while` jumps to a label that is not defined -/

/-- C11.  Let `gen_text` complete on a program in which `gen` is called on a
`do`-`while` node `p` when `label_seq` is `s`, and let a `break` be nested in
`p` and in no deeper loop.  Then the output has the line `j .L.exit.s`, the
code of the `break`, and no line `.L.exit.s:` at all.  The code of `p` is the
label `.L.continue.s`, the code of its body, the code of its condition, a pop
into `t0` and `bnez t0, .L.continue.s`. -/
theorem dowhile_break_undefined (fs : List FNPtr) (s0 s' : GenState) (fn : Function)
    (p q : NDPtr) (x z : Ctx) (h : gen_text fs s0 = .ok s') (hc : CalledOn fs s0 fn p x)
    (hk : p.kind? = some ND_DOWHILE) (hw : Within p x q z) (hq : q.kind? = some ND_BREAK) :
    ∃ out ct cc x1 x2, s'.out = s0.out ++ out ∧
      Instr.j EXIT x.label_seq ∈ out ∧ Instr.label EXIT x.label_seq ∉ out ∧
      lower q z = .ok ([.j EXIT x.label_seq], z.setLast q) ∧
      lower p.then_ x.enter = .ok (ct, x1) ∧ lower p.cond x1 = .ok (cc, x2) ∧
      lower p x = .ok ([.label CONTINUE x.label_seq] ++ ct ++ cc ++ popCode "t0"
        ++ [.bnez "t0" CONTINUE x.label_seq], (x.leave x2).setLast p) := by
  obtain ⟨A, blk, B, body, pre, cp, post, yp, hout, ⟨tail, htail, hblk⟩, hbody, Lp, _, oA, oB,
    opre, opost, _⟩ := hc.in_block h
  obtain ⟨pre2, cq, post2, yq, rfl, Lq, _, _, _, _, _⟩ := hw.reach.sub_call Lp
  obtain ⟨rfl, rfl⟩ := Lq.brk_inv hq
  have hl : p.isLoop = true := by simp [NDPtr.isLoop, hk]
  have ht := (hw.loop_targets hl).1
  rw [ht] at Lp Lq hbody
  obtain ⟨ct, cc, x1, x2, L1, L2, hcp, rfl⟩ := Lp.dowhile_inv hk
  have f1 := L1.frame
  have f2 := L2.frame
  have d1 := L1.labels.1
  have d2 := L2.labels.1
  simp only [enter_label_seq, setLast_label_seq, leave_label_seq] at *
  have hrange : x.label_seq < x2.label_seq := by omega
  refine ⟨A ++ blk ++ B, ct, cc, x1, x2, by rw [hout]; simp, ?_, ?_, ?_,
    lower_ok_iff.mpr L1, lower_ok_iff.mpr L2, ?_⟩
  · rw [hblk, hbody]
    simp
  · have hin : Instr.label EXIT x.label_seq ∉ pre2 ++ [Instr.j EXIT x.label_seq] ++ post2 := by
      rw [hcp]
      simp only [List.mem_append, not_or]
      refine ⟨⟨⟨⟨by simp [EXIT, CONTINUE], ?_⟩, ?_⟩, by simp [popCode]⟩, by simp⟩
      · exact fun hm => by have := d1 _ _ (mem_labelDefs.mpr hm); omega
      · exact fun hm => by have := d2 _ _ (mem_labelDefs.mpr hm); omega
    rw [hblk, hbody]
    simp only [List.mem_append, not_or]
    refine ⟨⟨oA.label_not_mem (le_refl _) hrange, ⟨⟨⟨by simp [prologue],
      ⟨⟨opre.label_not_mem (le_refl _) hrange, ?_⟩, opost.label_not_mem (le_refl _) hrange⟩⟩, ?_⟩,
      by simp [epilogue]⟩⟩, oB.label_not_mem (le_refl _) hrange⟩
    · simpa [List.mem_append, not_or] using hin
    · rcases htail with rfl | rfl <;> simp
  · exact lower_ok_iff.mpr Lq
  · rw [← hcp]
    exact lower_ok_iff.mpr Lp
theorem exProg_run : gen_text [some exFnDo, some exFnRet] GenState.initial = .ok exProgState :=
  rfl

theorem exProg_calledOn_do :
    CalledOn [some exFnDo, some exFnRet] GenState.initial exFnDo exDoBreak exCtxDo :=
  ⟨[], [some exFnRet], emit .text_section GenState.initial, [.exprStmt exTernary], exDoBreak, [],
    _, exCtxDo, rfl, rfl, rfl, rfl, .here _ _⟩

theorem exProg_calledOn_ret :
    CalledOn [some exFnDo, some exFnRet] GenState.initial exFnRet exRet exCtxRet :=
  ⟨[some exFnDo], [], exProgMid, [.exprStmt (.num 7)], exIfRet, [],
    [[.li "t0" 7, .addi_sp_neg 4, .sw_sp "t0", .lw_sp "t0", .addi_sp 4]], exCtxIfRet, rfl, rfl,
    rfl, rfl,
    .deeper (.here _ _)
      (Child.if_then (p := exIfRet) (x := exCtxIfRet) rfl
        (rfl : lower exIfRet.cond exCtxIfRet.bump
          = .ok ([.li "t0" 1, .addi_sp_neg 4, .sw_sp "t0"], exCtxRet)))⟩
/-- The `return 2;` in `int g() { 7; if (1) return 2; }`, the second function
of the program: its code ends in `j .L.function_exit.g`. -/
theorem return_jumps_to_epilogue_witness :
    ∃ A blk B body tail pre post ce x1,
      exProgState.out = GenState.initial.out ++ A ++ blk ++ B ∧
      blk = prologue exFnRet.name exFnRet.stack_size ++ body ++ tail
        ++ epilogue exFnRet.name exFnRet.stack_size ∧
      (tail = [] ∨ tail = [.li "a0" 0]) ∧
      lower exRet.lexpr exCtxRet = .ok (ce, x1) ∧
      lower exRet exCtxRet
        = .ok (ce ++ popCode "a0" ++ [.j_fn FUNC_EXIT exFnRet.name], x1.setLast exRet) ∧
      body = pre ++ (ce ++ popCode "a0" ++ [.j_fn FUNC_EXIT exFnRet.name]) ++ post ∧
      (epilogue exFnRet.name exFnRet.stack_size).head?
        = some (.label_fn FUNC_EXIT exFnRet.name) ∧
      Instr.label_fn FUNC_EXIT exFnRet.name
        ∉ prologue exFnRet.name exFnRet.stack_size ++ body ++ tail ∧
      blk.count (.label_fn FUNC_EXIT exFnRet.name) = 1 :=
  return_jumps_to_epilogue [some exFnDo, some exFnRet] GenState.initial exProgState exFnRet exRet
    exCtxRet exProg_run exProg_calledOn_ret rfl

/-- The loop `do break; while (1);` of `int f() { 1 ? 2 : 3; do break; while
(1); }` has the number 1: the output has `j .L.exit.1` and no line
`.L.exit.1:`. -/
theorem dowhile_break_undefined_witness :
    ∃ out ct cc x1 x2, exProgState.out = GenState.initial.out ++ out ∧
      Instr.j EXIT exCtxDo.label_seq ∈ out ∧ Instr.label EXIT exCtxDo.label_seq ∉ out ∧
      lower (.leaf ND_BREAK) exCtxDo.enter
        = .ok ([.j EXIT exCtxDo.label_seq], exCtxDo.enter.setLast (.leaf ND_BREAK)) ∧
      lower exDoBreak.then_ exCtxDo.enter = .ok (ct, x1) ∧
      lower exDoBreak.cond x1 = .ok (cc, x2) ∧
      lower exDoBreak exCtxDo = .ok ([.label CONTINUE exCtxDo.label_seq] ++ ct ++ cc
        ++ popCode "t0" ++ [.bnez "t0" CONTINUE exCtxDo.label_seq],
        (exCtxDo.leave x2).setLast exDoBreak) :=
  dowhile_break_undefined [some exFnDo, some exFnRet] GenState.initial exProgState exFnDo
    exDoBreak (.leaf ND_BREAK) exCtxDo exCtxDo.enter exProg_run exProg_calledOn_do rfl
    (Within.child (Child.dowhile_then (p := exDoBreak) (x := exCtxDo) rfl)) rfl

theorem jumpsOk_eq {p : NDPtr} {k : NodeKind} (h : p.kind? = some k) (b c : Bool) :
    p.jumpsOk b c = (NDPtr.mk k p.lexpr p.rexpr p.cond p.then_ p.els p.init p.inc p.body p.var
      p.val p.func_call).jumpsOk b c := by
  cases p with
  | null => simp [NDPtr.kind?] at h
  | mk => simp [NDPtr.kind?] at h; subst h; rfl

theorem jumpsOk_unary {p : NDPtr} {k : NodeKind} {op : Instr} (hk : p.kind? = some k)
    (h : unaryOp k = some op) (b c : Bool) : p.jumpsOk b c = p.lexpr.jumpsOk b c := by
  rw [jumpsOk_eq hk]
  cases k <;> simp [unaryOp] at h <;> simp [NDPtr.jumpsOk]

theorem jumpsOk_binary {p : NDPtr} {k : NodeKind} {ops : List Instr} (hk : p.kind? = some k)
    (h : binaryOp k = some ops) (b c : Bool) :
    p.jumpsOk b c = (p.lexpr.jumpsOk b c && p.rexpr.jumpsOk b c) := by
  rw [jumpsOk_eq hk]
  cases k <;> simp [binaryOp] at h <;> simp [NDPtr.jumpsOk]

theorem jumpsOk_decl {p : NDPtr} {a : Bool} {o : Int} {vinit : NDPtr}
    (hk : p.kind? = some ND_DECL) (hv : p.var = .mk a o vinit) (b c : Bool) :
    p.jumpsOk b c = vinit.jumpsOk b c := by
  cases p with
  | null => simp [NDPtr.kind?] at hk
  | mk k l r c t e i inc body var val fc =>
    simp only [NDPtr.kind?, Option.some.injEq] at hk
    simp only [NDPtr.var] at hv
    subst hk
    subst hv
    simp [NDPtr.jumpsOk]

theorem jumpsOk_call {p : NDPtr} {name : String} {args : NDList}
    (hk : p.kind? = some ND_FUNC_CALL) (hfc : p.func_call = .mk name args) (b c : Bool) :
    p.jumpsOk b c = args.allJumpsOk b c := by
  cases p with
  | null => simp [NDPtr.kind?] at hk
  | mk k l r c t e i inc body var val fc =>
    simp only [NDPtr.kind?, Option.some.injEq] at hk
    simp only [NDPtr.func_call] at hfc
    subst hk
    subst hfc
    simp [NDPtr.jumpsOk]

/-- The labels that a completed call refers to are defined in its own code,
up to the targets of the loop around it. -/
theorem Lowers.refsMet {i : Item} {x y : Ctx} {c : List Instr} (L : Lowers i x c y) :
    ∀ b k, i.jumpsOk b k = true → RefsMet c b k x.brk_seq x.cont_seq := by
  induction L with
  | null | body_nil | args_nil | decl_none | unused_none | num | var =>
    intro b k _ t n hm
    simp at hm
  | brk hk =>
    intro b k hj t n hm
    simp only [Item.jumpsOk] at hj
    rw [jumpsOk_eq hk] at hj
    simp only [NDPtr.jumpsOk] at hj
    simp at hm
    exact Or.inr (Or.inl ⟨hj, hm.1, hm.2⟩)
  | cont hk =>
    intro b k hj t n hm
    simp only [Item.jumpsOk] at hj
    rw [jumpsOk_eq hk] at hj
    simp only [NDPtr.jumpsOk] at hj
    simp at hm
    exact Or.inr (Or.inr ⟨hj, hm.1, hm.2⟩)
  | ret hk _ _ ih | unused_some hk _ _ ih | assign hk _ _ _ ih =>
    intro b k hj t n hm
    simp only [Item.jumpsOk] at hj ih
    rw [jumpsOk_eq hk] at hj
    simp only [NDPtr.jumpsOk] at hj
    have h1 := ih b k hj t n
    simp at hm ⊢
    exact h1 hm
  | block hk _ ih =>
    intro b k hj t n hm
    simp only [Item.jumpsOk] at hj ih
    rw [jumpsOk_eq hk] at hj
    simp only [NDPtr.jumpsOk] at hj
    exact ih b k hj t n hm
  | decl_init hk hv _ _ ih =>
    intro b k hj t n hm
    simp only [Item.jumpsOk] at hj ih
    rw [jumpsOk_decl hk hv] at hj
    have h1 := ih b k hj t n
    simp at hm ⊢
    exact h1 hm
  | call hk hfc _ ih =>
    intro b k hj t n hm
    simp only [Item.jumpsOk] at hj ih
    rw [jumpsOk_call hk hfc] at hj
    have h1 := ih b k hj t n
    simp at hm ⊢
    exact h1 hm
  | unary hk hop _ ih =>
    intro b k hj t n hm
    simp only [Item.jumpsOk] at hj ih
    rw [jumpsOk_unary hk hop] at hj
    have h1 := ih b k hj t n
    simp [labelRefs_unaryOp hop, labelDefs_unaryOp hop] at hm ⊢
    exact h1 hm
  | binary hk hop L1 _ ih1 ih2 =>
    intro b k hj t n hm
    have f1 := L1.frame
    simp only [Item.jumpsOk] at hj ih1 ih2
    rw [jumpsOk_binary hk hop, Bool.and_eq_true] at hj
    have h1 := ih1 b k hj.1 t n
    have h2 := ih2 b k hj.2 t n
    rw [f1.2.1, f1.2.2.1] at h2
    simp [labelRefs_binaryOp hop, labelDefs_binaryOp hop] at hm ⊢
    clear ih1 ih2 hj f1
    rcases hm with hm | hm
    · rcases h1 hm with h | h | h <;> simp [h]
    · rcases h2 hm with h | h | h <;> simp [h]
  | body_cons L1 _ ih1 ih2 =>
    intro b k hj t n hm
    have f1 := L1.frame
    simp only [Item.jumpsOk, NDList.allJumpsOk, Bool.and_eq_true] at hj ih1 ih2
    have h1 := ih1 b k hj.1 t n
    have h2 := ih2 b k hj.2 t n
    rw [f1.2.1, f1.2.2.1] at h2
    simp at hm ⊢
    clear ih1 ih2 hj f1
    rcases hm with hm | hm
    · rcases h1 hm with h | h | h <;> simp [h]
    · rcases h2 hm with h | h | h <;> simp [h]
  | args_cons L1 _ ih1 ih2 =>
    intro b k hj t n hm
    have f1 := L1.frame
    simp only [Item.jumpsOk, NDList.allJumpsOk, Bool.and_eq_true] at hj ih1 ih2
    have h1 := ih1 b k hj.2 t n
    have h2 := ih2 b k hj.1 t n
    rw [f1.2.1, f1.2.2.1] at h2
    simp at hm ⊢
    clear ih1 ih2 hj f1
    rcases hm with hm | hm
    · rcases h1 hm with h | h | h <;> simp [h]
    · rcases h2 hm with h | h | h <;> simp [h]
  | if_then hk hn L1 _ ih1 ih2 =>
    intro b k hj t n hm
    have f1 := L1.frame
    simp only [Item.jumpsOk] at hj ih1 ih2
    rw [jumpsOk_eq hk] at hj
    simp only [NDPtr.jumpsOk, Bool.and_eq_true] at hj
    have h1 := ih1 b k hj.1.1 t n
    have h2 := ih2 b k hj.1.2 t n
    rw [f1.2.1, f1.2.2.1] at h2
    simp [Ctx.bump] at hm h1 h2 ⊢
    clear ih1 ih2 hj f1
    rcases hm with hm | hm | hm
    · rcases h1 hm with h | h | h <;> simp [h]
    · simp [hm]
    · rcases h2 hm with h | h | h <;> simp [h]
  | if_else hk _ L1 L2 _ ih1 ih2 ih3 | ternary hk L1 L2 _ ih1 ih2 ih3 =>
    intro b k hj t n hm
    have f1 := L1.frame
    have f2 := L2.frame
    simp only [Item.jumpsOk] at hj ih1 ih2 ih3
    rw [jumpsOk_eq hk] at hj
    simp only [NDPtr.jumpsOk, Bool.and_eq_true] at hj
    have h1 := ih1 b k hj.1.1 t n
    have h2 := ih2 b k hj.1.2 t n
    have h3 := ih3 b k hj.2 t n
    rw [f2.2.1, f2.2.2.1, f1.2.1, f1.2.2.1] at h3
    rw [f1.2.1, f1.2.2.1] at h2
    simp [Ctx.bump] at hm h1 h2 h3 ⊢
    clear ih1 ih2 ih3 hj f1 f2
    rcases hm with hm | hm | hm | hm | hm
    · rcases h1 hm with h | h | h <;> simp [h]
    · simp [hm]
    · rcases h2 hm with h | h | h <;> simp [h]
    · simp [hm]
    · rcases h3 hm with h | h | h <;> simp [h]
  | for_ hk L1 L2 L3 _ ih1 ih2 ih3 ih4 =>
    intro b k hj t n hm
    have f1 := L1.frame
    have f2 := L2.frame
    have f3 := L3.frame
    simp only [Item.jumpsOk] at hj ih1 ih2 ih3 ih4
    rw [jumpsOk_eq hk] at hj
    simp only [NDPtr.jumpsOk, Bool.and_eq_true] at hj
    have h1 := ih1 true true hj.1.1.1 t n
    have h2 := ih2 true true hj.1.1.2 t n
    have h3 := ih3 true true hj.1.2 t n
    have h4 := ih4 true true hj.2 t n
    rw [f3.2.1, f3.2.2.1, f2.2.1, f2.2.2.1, f1.2.1, f1.2.2.1] at h4
    rw [f2.2.1, f2.2.2.1, f1.2.1, f1.2.2.1] at h3
    rw [f1.2.1, f1.2.2.1] at h2
    simp [Ctx.enter, labelRefs_forTest, labelDefs_forTest] at hm h1 h2 h3 h4 ⊢
    clear ih1 ih2 ih3 ih4 hj f1 f2 f3
    rcases hm with hm | ⟨hc, hm | hm⟩ | hm | hm | hm
    · rcases h1 hm with h | h | h <;> simp [h]
    · rcases h2 hm with h | h | h <;> simp [h, hc]
    · simp [hm]
    · rcases h3 hm with h | h | h <;> simp [h]
    · rcases h4 hm with h | h | h <;> simp [h]
    · simp [hm]
  | while_ hk L1 _ ih1 ih2 =>
    intro b k hj t n hm
    have f1 := L1.frame
    simp only [Item.jumpsOk] at hj ih1 ih2
    rw [jumpsOk_eq hk] at hj
    simp only [NDPtr.jumpsOk, Bool.and_eq_true] at hj
    have h1 := ih1 true true hj.1 t n
    have h2 := ih2 true true hj.2 t n
    rw [f1.2.1, f1.2.2.1] at h2
    simp [Ctx.enter] at hm h1 h2 ⊢
    clear ih1 ih2 hj f1
    rcases hm with hm | hm | hm | hm
    · rcases h1 hm with h | h | h <;> simp [h]
    · simp [hm]
    · rcases h2 hm with h | h | h <;> simp [h]
    · simp [hm]
  | dowhile hk L1 _ ih1 ih2 =>
    intro b k hj t n hm
    have f1 := L1.frame
    simp only [Item.jumpsOk] at hj ih1 ih2
    rw [jumpsOk_eq hk] at hj
    simp only [NDPtr.jumpsOk, Bool.and_eq_true] at hj
    have h1 := ih1 false true hj.1 t n
    have h2 := ih2 false true hj.2 t n
    rw [f1.2.1, f1.2.2.1] at h2
    simp [Ctx.enter] at hm h1 h2 ⊢
    clear ih1 ih2 hj f1
    rcases hm with hm | hm | hm
    · rcases h1 hm with h | h <;> simp [h]
    · rcases h2 hm with h | h <;> simp [h]
    · simp [hm]
theorem unaryOp_no_j_fn {k : NodeKind} {op : Instr} (h : unaryOp k = some op) (t m : String) :
    op ≠ .j_fn t m := by
  cases k <;> simp [unaryOp] at h <;> subst h <;> simp

theorem binaryOp_no_j_fn {k : NodeKind} {ops : List Instr} (h : binaryOp k = some ops)
    (t m : String) : Instr.j_fn t m ∉ ops := by
  cases k <;> simp [binaryOp] at h <;> subst h <;> simp

/-- Every jump to a function label in the code of a completed call is the
jump of a return to the exit label of the current function. -/
theorem Lowers.j_fn_own {i : Item} {x y : Ctx} {c : List Instr} (L : Lowers i x c y) :
    ∀ t m, Instr.j_fn t m ∈ c → ∃ f, x.hot_func = some f ∧ t = FUNC_EXIT ∧ m = f.name := by
  induction L with
  | null | body_nil | args_nil | decl_none | unused_none | num | var | brk | cont =>
    intro t m hm
    simp [popCode, pushCode] at hm
  | ret hk L1 hf ih =>
    intro t m hm
    have f1 := L1.frame
    simp [popCode] at hm
    rcases hm with hm | ⟨rfl, rfl⟩
    · exact ih t m hm
    · exact ⟨_, f1.2.2.2 ▸ hf, rfl, rfl⟩
  | decl_init _ _ _ _ ih | unused_some _ _ _ ih | assign _ _ _ _ ih =>
    intro t m hm
    simp [popCode, pushCode] at hm
    exact ih t m hm
  | block _ _ ih =>
    intro t m hm
    exact ih t m hm
  | call _ _ _ ih =>
    intro t m hm
    simp only [callCleanup] at hm
    split at hm <;> simp [popCode, pushCode] at hm <;> exact ih t m hm
  | unary _ hop _ ih =>
    intro t m hm
    simp [popCode, pushCode, (unaryOp_no_j_fn hop t m).symm] at hm
    exact ih t m hm
  | binary _ hop L1 _ ih1 ih2 =>
    intro t m hm
    have f1 := L1.frame
    rw [f1.2.2.2] at ih2
    simp [popCode, pushCode, binaryOp_no_j_fn hop t m] at hm
    rcases hm with hm | hm
    · exact ih1 t m hm
    · exact ih2 t m hm
  | body_cons L1 _ ih1 ih2 | args_cons L1 _ ih1 ih2 =>
    intro t m hm
    have f1 := L1.frame
    rw [f1.2.2.2] at ih2
    simp at hm
    rcases hm with hm | hm
    · exact ih1 t m hm
    · exact ih2 t m hm
  | if_then _ _ L1 _ ih1 ih2 | while_ _ L1 _ ih1 ih2 | dowhile _ L1 _ ih1 ih2 =>
    intro t m hm
    have f1 := L1.frame
    rw [f1.2.2.2] at ih2
    simp only [bump_hot_func, enter_hot_func] at ih1 ih2
    simp [popCode] at hm
    rcases hm with hm | hm
    · exact ih1 t m hm
    · exact ih2 t m hm
  | if_else _ _ L1 L2 _ ih1 ih2 ih3 | ternary _ L1 L2 _ ih1 ih2 ih3 =>
    intro t m hm
    have f1 := L1.frame
    have f2 := L2.frame
    rw [f2.2.2.2, f1.2.2.2] at ih3
    rw [f1.2.2.2] at ih2
    simp only [bump_hot_func] at ih1 ih2 ih3
    simp [popCode] at hm
    rcases hm with hm | hm | hm
    · exact ih1 t m hm
    · exact ih2 t m hm
    · exact ih3 t m hm
  | for_ _ L1 L2 L3 _ ih1 ih2 ih3 ih4 =>
    intro t m hm
    have f1 := L1.frame
    have f2 := L2.frame
    have f3 := L3.frame
    rw [f3.2.2.2, f2.2.2.2, f1.2.2.2] at ih4
    rw [f2.2.2.2, f1.2.2.2] at ih3
    rw [f1.2.2.2] at ih2
    simp only [enter_hot_func] at ih1 ih2 ih3 ih4
    simp only [forTest] at hm
    split at hm <;> simp [popCode] at hm
    · rcases hm with hm | hm | hm
      · exact ih1 t m hm
      · exact ih3 t m hm
      · exact ih4 t m hm
    · rcases hm with hm | hm | hm | hm
      · exact ih1 t m hm
      · exact ih2 t m hm
      · exact ih3 t m hm
      · exact ih4 t m hm
theorem gen_fn_blockOk {fn : Function} {s s' : GenState} (h : gen_fn (some fn) s = .ok s')
    (hj : fn.stmts.body.allJumpsOk false false = true) :
    ∃ body blk, s'.out = s.out ++ blk ∧ FnBlock fn body blk ∧ BlockOk fn blk := by
  obtain ⟨cs, y, blk, _, hb, ho, _, L⟩ := gen_fn_block h
  refine ⟨cs.flatten, blk, ho, hb, ?_⟩
  have hr := L.refsMet false false hj
  have hjf := L.j_fn_own
  have hl := L.no_label_fn
  obtain ⟨tail, ht, rfl⟩ := hb
  have e1 : labelRefs tail = [] := by rcases ht with rfl | rfl <;> rfl
  have e2 : labelDefs tail = [] := by rcases ht with rfl | rfl <;> rfl
  have e3 : ∀ t m, Instr.j_fn t m ∉ tail := by rcases ht with rfl | rfl <;> simp
  have e4 : ∀ t m, Instr.label_fn t m ∉ tail := by rcases ht with rfl | rfl <;> simp
  refine ⟨?_, ?_, ?_, ?_⟩
  · intro t n hm
    have p1 : labelRefs (prologue fn.name fn.stack_size) = [] := rfl
    have p2 : labelRefs (epilogue fn.name fn.stack_size) = [] := rfl
    simp only [labelRefs_append, labelDefs_append, labelDefs_prologue, labelDefs_epilogue, e1, e2,
      p1, p2, List.append_nil, List.nil_append] at hm ⊢
    rcases hr t n hm with h | h | h
    · exact h
    · simp at h
    · simp at h
  · intro t m hm
    have hm2 : Instr.j_fn t m ∈ cs.flatten := by
      simpa [prologue, epilogue, e3] using hm
    obtain ⟨f, hf, rfl, rfl⟩ := hjf t m hm2
    simp only [startFn_hot_func, Option.some.injEq] at hf
    subst hf
    exact ⟨rfl, rfl⟩
  · intro t m hm
    simpa [prologue, epilogue, e4, hl, eq_comm] using hm
  · have c1 : (cs.flatten).count (.label_fn FUNC_EXIT fn.name) = 0 :=
      List.count_eq_zero_of_not_mem (hl _ _)
    have c2 : tail.count (.label_fn FUNC_EXIT fn.name) = 0 :=
      List.count_eq_zero_of_not_mem (e4 _ _)
    have c3 : (prologue fn.name fn.stack_size).count (.label_fn FUNC_EXIT fn.name) = 0 :=
      List.count_eq_zero_of_not_mem (by simp [prologue])
    simp only [List.count_append, c1, c2, c3, epilogue_label_once]

theorem gen_fns_blocks : ∀ (fs : List FNPtr) {s s' : GenState}, gen_fns fs s = .ok s' →
    (∀ fn, some fn ∈ fs → fn.stmts.body.allJumpsOk false false = true) →
    ∃ blks : List (List Instr), s'.out = s.out ++ blks.flatten ∧
      List.Forall₂ (fun f blk => ∃ fn body, f = some fn ∧ FnBlock fn body blk ∧ BlockOk fn blk)
        fs blks
  | [], s, s', h, _ => by
    simp only [gen_fns, Except.ok.injEq] at h
    subst h
    exact ⟨[], by simp, List.Forall₂.nil⟩
  | none :: rest, s, s', h, _ => by
    simp [gen_fns, gen_fn, bind, Except.bind] at h
  | some fn :: rest, s, s', h, hj => by
    simp only [gen_fns, bind_ok_iff] at h
    obtain ⟨m, h1, h2⟩ := h
    obtain ⟨body, blk, ho, hb, hok⟩ := gen_fn_blockOk h1 (hj fn (by simp))
    obtain ⟨blks, ho2, hall⟩ := gen_fns_blocks rest h2 (fun g hg => hj g (by simp [hg]))
    exact ⟨blk :: blks, by simp [ho2, ho], List.Forall₂.cons ⟨fn, body, rfl, hb, hok⟩ hall⟩

theorem forall₂_imp_mem {α β : Type} {R S : α → β → Prop} {l1 : List α} {l2 : List β}
    (h : List.Forall₂ R l1 l2) :
    (∀ a b, a ∈ l1 → b ∈ l2 → R a b → S a b) → List.Forall₂ S l1 l2 := by
  induction h with
  | nil => intro _; exact List.Forall₂.nil
  | cons hab _ ih =>
    intro H
    exact List.Forall₂.cons (H _ _ (by simp) (by simp) hab)
      (ih (fun a b ha hb => H a b (by simp [ha]) (by simp [hb])))

theorem blocks_no_exit_label {fs : List FNPtr} {blks : List (List Instr)}
    (h : List.Forall₂ (fun f blk => ∃ fn body, f = some fn ∧ FnBlock fn body blk ∧ BlockOk fn blk)
      fs blks) (m : String) :
    (∀ g, some g ∈ fs → g.name ≠ m) → ∀ t, Instr.label_fn t m ∉ blks.flatten := by
  induction h with
  | nil => intro _ t; simp
  | cons hab _ ih =>
    intro H t hm
    obtain ⟨fn, body, rfl, _, hok⟩ := hab
    simp only [List.flatten_cons, List.mem_append] at hm
    rcases hm with hm | hm
    · exact H fn (by simp) (hok.2.2.1 t m hm).2.symm
    · exact ih (fun g hg => H g (by simp [hg])) t hm

theorem blocks_exit_label_once {fs : List FNPtr} {blks : List (List Instr)}
    (h : List.Forall₂ (fun f blk => ∃ fn body, f = some fn ∧ FnBlock fn body blk ∧ BlockOk fn blk)
      fs blks) :
    fs.Pairwise (fun f g => ∀ a b, f = some a → g = some b → a.name ≠ b.name) →
    ∀ fn, some fn ∈ fs → blks.flatten.count (.label_fn FUNC_EXIT fn.name) = 1 := by
  induction h with
  | nil => intro _ fn hm; simp at hm
  | cons hab hrest ih =>
    intro hp fn hm
    obtain ⟨a, body, rfl, _, hok⟩ := hab
    rw [List.pairwise_cons] at hp
    simp only [List.flatten_cons, List.count_append]
    simp only [List.mem_cons, Option.some.injEq] at hm
    rcases hm with rfl | hm
    · have := blocks_no_exit_label hrest fn.name
        (fun g hg => (hp.1 (some g) hg fn g rfl rfl).symm) FUNC_EXIT
      rw [hok.2.2.2, List.count_eq_zero_of_not_mem this]
    · have hne : a.name ≠ fn.name := hp.1 (some fn) hm a fn rfl rfl
      have : Instr.label_fn FUNC_EXIT fn.name ∉ _ := fun hin => hne (hok.2.2.1 _ _ hin).2.symm
      rw [List.count_eq_zero_of_not_mem this, ih hp.2 fn hm]
theorem label_count_le_one : ∀ (c : List Instr), (labelDefs c).Nodup →
    ∀ t n, c.count (.label t n) ≤ 1
  | [], _, t, n => by simp
  | i :: c, hnd, t, n => by
    have hnd2 : (labelDefs c).Nodup :=
      hnd.sublist ((List.sublist_cons_self i c).filterMap _)
    by_cases hi : i = .label t n
    · subst hi
      rw [labelDefs_cons_label, List.nodup_cons] at hnd
      have : Instr.label t n ∉ c := fun hm => hnd.1 (mem_labelDefs.mpr hm)
      simp [List.count_cons, List.count_eq_zero_of_not_mem this]
    · have := label_count_le_one c hnd2 t n
      rw [List.count_cons_of_ne (Ne.symm hi)]
      exact this

/-! ## C20: every label referred to is defined once, in the same block -/

/-- C20.  Let `gen_text` complete on a program whose functions have pairwise
distinct names and in which, along the traversal of `gen`, every `break` has a
`for` or `while` loop as its innermost enclosing loop and every `continue`
lies in some loop (`allJumpsOk false false` on every function body).  Then
what `gen_text` printed is the line `.text` and one block per function, in
order, each block the prologue, the body code, `li a0, 0` or nothing, and the
epilogue of its function; and for every block: every label `.L.<type>.<n>`
that a `j`, `beqz` or `bnez` of the block refers to is defined by a line of
that block and by exactly one line of the whole output, and every label
`.L.<type>.<name>` that a `j` of the block refers to (always
`.L.function_exit.<name of the function>`) is defined by a line of that block
and by exactly one line of the whole output.  Lines are compared as lines of
their kind: a definition `.L.<type>.<n>:` with a number, a definition
`.L.<type>.<name>:` with a name, which never coincide with one another. -/
theorem refs_defined_once (fs : List FNPtr) (s0 s' : GenState)
    (h : gen_text fs s0 = .ok s')
    (hn : fs.Pairwise (fun f g => ∀ a b, f = some a → g = some b → a.name ≠ b.name))
    (hj : ∀ fn, some fn ∈ fs → fn.stmts.body.allJumpsOk false false = true) :
    ∃ blks : List (List Instr), s'.out = s0.out ++ .text_section :: blks.flatten ∧
      List.Forall₂ (fun f blk => ∃ fn body, f = some fn ∧ FnBlock fn body blk ∧
        (∀ t n, (t, n) ∈ labelRefs blk → (t, n) ∈ labelDefs blk ∧
          (Instr.text_section :: blks.flatten).count (.label t n) = 1) ∧
        (∀ t m, Instr.j_fn t m ∈ blk → Instr.label_fn t m ∈ blk ∧
          (Instr.text_section :: blks.flatten).count (.label_fn t m) = 1)) fs blks := by
  unfold gen_text at h
  obtain ⟨blks, ho, hall⟩ := gen_fns_blocks fs h hj
  obtain ⟨c, hc, hnd, _, _⟩ := gen_fns_fresh fs h
  have hcb : c = blks.flatten := List.append_cancel_left (hc.symm.trans ho)
  subst hcb
  refine ⟨blks, by simpa [emit] using ho, forall₂_imp_mem hall ?_⟩
  rintro f blk hf hblk ⟨fn, body, rfl, hb, hok⟩
  refine ⟨fn, body, rfl, hb, ?_, ?_⟩
  · intro t n hm
    have hd := hok.1 t n hm
    refine ⟨hd, ?_⟩
    have hmem : Instr.label t n ∈ blks.flatten :=
      List.mem_flatten.mpr ⟨blk, hblk, mem_labelDefs.mp hd⟩
    have h1 := label_count_le_one _ hnd t n
    have h2 := List.count_pos_iff.mpr hmem
    rw [List.count_cons]
    simp
    omega
  · intro t m hm
    obtain ⟨rfl, rfl⟩ := hok.2.1 t m hm
    refine ⟨?_, ?_⟩
    · exact List.count_pos_iff.mp (by rw [hok.2.2.2]; exact Nat.one_pos)
    · rw [List.count_cons, blocks_exit_label_once hall hn fn hf]
      simp
/-- The program of `int f() { while (1) { for (;;) ; if (2) break; } do
continue; while (1); }` and `int g() { 7; if (1) return 2; }`: the `break`
stands in the `while` loop, the `continue` in the `do`-`while` loop, the names
differ. -/
theorem refs_defined_once_witness :
    ∃ blks : List (List Instr),
      exLoopsState.out = GenState.initial.out ++ .text_section :: blks.flatten ∧
      List.Forall₂ (fun f blk => ∃ fn body, f = some fn ∧ FnBlock fn body blk ∧
        (∀ t n, (t, n) ∈ labelRefs blk → (t, n) ∈ labelDefs blk ∧
          (Instr.text_section :: blks.flatten).count (.label t n) = 1) ∧
        (∀ t m, Instr.j_fn t m ∈ blk → Instr.label_fn t m ∈ blk ∧
          (Instr.text_section :: blks.flatten).count (.label_fn t m) = 1))
        [some exFnLoops, some exFnRet] blks :=
  refs_defined_once [some exFnLoops, some exFnRet] GenState.initial exLoopsState rfl
    (by simp [exFnLoops, exFnRet])
    (by
      intro fn hm
      simp only [List.mem_cons, Option.some.injEq, List.mem_singleton, List.not_mem_nil,
        or_false] at hm
      rcases hm with rfl | rfl <;> rfl)

/-! ## C12: variable offsets and the moves to and from the frame -/

theorem wrapInt_of_range {n : Int} (h1 : -2 ^ 31 ≤ n) (h2 : n < 2 ^ 31) : wrapInt n = n := by
  simp only [wrapInt]
  norm_num at h1 h2 ⊢
  omega

/-- The value of `wrapInt` differs from its argument by a multiple of
`2 ^ 32`. -/
theorem wrapInt_mod (n : Int) : (wrapInt n - n) % 2 ^ 32 = 0 := by
  simp only [wrapInt]
  norm_num
  omega

theorem var_offset_local {offset : Int} (vinit : NDPtr) (hlo : -2 ^ 31 ≤ offset)
    (hhi : offset + 3 < 2 ^ 31) :
    var_offset (.mk false offset vinit) = .ok (-(offset + 3)) := by
  norm_num at hlo hhi
  simp only [var_offset, Bool.false_eq_true, if_false]
  rw [wrapInt_of_range (n := offset + 3) (by norm_num; omega) (by norm_num; omega),
    wrapInt_of_range (n := -(offset + 3)) (by norm_num; omega) (by norm_num; omega)]

theorem moves_of_range (is_arg : Bool) (offset k : Int) (vinit : NDPtr) (reg : String)
    (s : GenState) (hv : var_offset (.mk is_arg offset vinit) = .ok k)
    (hlo : -2 ^ 31 ≤ k * 4) (hhi : k * 4 < 2 ^ 31) :
    load_var reg (.mk is_arg offset vinit) s = .ok (emit (.lw_fp reg (k * 4)) s) ∧
    store_var reg (.mk is_arg offset vinit) s = .ok (emit (.sw_fp reg (k * 4)) s) := by
  simp only [load_var, store_var, hv, load, store, POINTER_WIDTH]
  rw [wrapInt_of_range hlo hhi]
  exact ⟨rfl, rfl⟩

/-- C12, as stated, fails at the ends of the `int` range.  For the local with
stored offset 2147483647 the sum `offset + 3` leaves the range and
`var_offset` returns `2147483646`.  For the local with stored offset
536870910 the word offset is `-536870913`, and four times that is
`-2147483652`, below the least `int`: `load_var` and `store_var` print the
displacement `2147483644`. -/
theorem var_offset_counterexample :
    var_offset (.mk false 2147483647 .null) = .ok 2147483646 ∧
    (2147483646 : Int) ≠ -(2147483647 + 3) ∧
    var_offset (.mk false 536870910 .null) = .ok (-(536870910 + 3)) ∧
    load_var "t0" (.mk false 536870910 .null) GenState.initial
      = .ok (emit (.lw_fp "t0" 2147483644) GenState.initial) ∧
    store_var "t0" (.mk false 536870910 .null) GenState.initial
      = .ok (emit (.sw_fp "t0" 2147483644) GenState.initial) ∧
    (2147483644 : Int) ≠ -(536870910 + 3) * 4 := by
  refine ⟨rfl, by decide, rfl, rfl, rfl, by decide⟩

/-- C12, amended.  For a local variable let the stored offset be at least the
least `int` and let `offset + 3` be at most the greatest `int`; an argument
needs no condition.  Then `var_offset` returns the stored offset when the
variable is an argument and `-(offset + 3)` when it is a local; and when
four times that word offset `k` is an `int`, `load_var` and `store_var` print
`lw <reg>, <4*k>(fp)` and `sw <reg>, <4*k>(fp)`; the word width is 4. -/
theorem var_offset_and_moves (is_arg : Bool) (offset : Int) (vinit : NDPtr) (reg : String)
    (s : GenState) (hloc : is_arg = false → -2 ^ 31 ≤ offset ∧ offset + 3 < 2 ^ 31) :
    var_offset (.mk is_arg offset vinit) = .ok (if is_arg then offset else -(offset + 3)) ∧
    POINTER_WIDTH = 4 ∧
    (-2 ^ 31 ≤ (if is_arg then offset else -(offset + 3)) * 4 →
      (if is_arg then offset else -(offset + 3)) * 4 < 2 ^ 31 →
      load_var reg (.mk is_arg offset vinit) s
        = .ok (emit (.lw_fp reg ((if is_arg then offset else -(offset + 3)) * 4)) s) ∧
      store_var reg (.mk is_arg offset vinit) s
        = .ok (emit (.sw_fp reg ((if is_arg then offset else -(offset + 3)) * 4)) s) ∧
      (Instr.lw_fp reg ((if is_arg then offset else -(offset + 3)) * 4)).text
        = "  lw " ++ reg ++ ", " ++ toString ((if is_arg then offset else -(offset + 3)) * 4)
          ++ "(fp)" ∧
      (Instr.sw_fp reg ((if is_arg then offset else -(offset + 3)) * 4)).text
        = "  sw " ++ reg ++ ", " ++ toString ((if is_arg then offset else -(offset + 3)) * 4)
          ++ "(fp)") := by
  have hv : var_offset (.mk is_arg offset vinit)
      = .ok (if is_arg then offset else -(offset + 3)) := by
    cases is_arg with
    | false => exact var_offset_local vinit (hloc rfl).1 (hloc rfl).2
    | true => simp [var_offset]
  refine ⟨hv, rfl, fun h1 h2 => ?_⟩
  have h := moves_of_range is_arg offset _ vinit reg s hv h1 h2
  exact ⟨h.1, h.2, rfl, rfl⟩

/-- The local with stored offset 1 has the word offset `-4` and is moved with
the displacement `-16`. -/
theorem var_offset_and_moves_witness :
    var_offset (.mk false 1 .null) = .ok (-4) ∧
    POINTER_WIDTH = 4 ∧
    load_var "t0" (.mk false 1 .null) GenState.initial
      = .ok (emit (.lw_fp "t0" (-16)) GenState.initial) ∧
    store_var "t0" (.mk false 1 .null) GenState.initial
      = .ok (emit (.sw_fp "t0" (-16)) GenState.initial) ∧
    (Instr.lw_fp "t0" (-16)).text = "  lw t0, -16(fp)" ∧
    (Instr.sw_fp "t0" (-16)).text = "  sw t0, -16(fp)" :=
  have h := var_offset_and_moves false 1 .null "t0" GenState.initial
    (fun _ => ⟨by decide, by decide⟩)
  ⟨h.1, h.2.1, h.2.2 (by decide) (by decide)⟩
/-! ## C19: the slots of the locals and the saved words -/

theorem slotAddr_of_range {fp k : Int} (h1 : -2 ^ 29 ≤ k) (h2 : k < 2 ^ 29) :
    slotAddr fp k = fp + 4 * k := by
  norm_num at h1 h2
  simp only [slotAddr, POINTER_WIDTH]
  rw [wrapInt_of_range (by norm_num; omega) (by norm_num; omega)]
  ring

/-- C19, as stated, fails.  The local with stored offset 0 has the word
offset `-3`, so its slot is the word at `fp - 12`: the third word under the
frame pointer is the first local, not a reserved word.  At the end of the
`int` range the sum `offset + 3` wraps: the local with stored offset
2147483647 has the word offset 2147483646, four times that is `-8` as an
`int`, and its slot is the word at `fp - 8`, the saved frame pointer.  The
least stored offset at which the displacement leaves the `int` range is
536870910, `2 ^ 29 - 2`: there the slot is the word at `fp + 2147483644`,
above the frame pointer. -/
theorem local_slot_counterexample :
    ((0 : Int) ≤ 0 ∧ ¬ LocalBelowThreeWords 0) ∧
    ((0 : Int) ≤ 2147483647 ∧ var_offset (.mk false 2147483647 .null) = .ok 2147483646 ∧
      (∀ fp, slotAddr fp 2147483646 = fp - 8) ∧ ¬ LocalBelowThreeWords 2147483647) ∧
    ((0 : Int) ≤ 536870910 ∧ var_offset (.mk false 536870910 .null) = .ok (-536870913) ∧
      (∀ fp, slotAddr fp (-536870913) = fp + 2147483644) ∧
      ¬ LocalBelowThreeWords 536870910) := by
  have e : ∀ fp, slotAddr fp 2147483646 = fp - 8 := by
    intro fp
    have : wrapInt (2147483646 * POINTER_WIDTH) = -8 := rfl
    simp only [slotAddr, this]
    ring
  have e2 : ∀ fp, slotAddr fp (-536870913) = fp + 2147483644 := by
    intro fp
    have : wrapInt (-536870913 * POINTER_WIDTH) = 2147483644 := rfl
    simp only [slotAddr, this]
  refine ⟨⟨le_refl _, fun h => ?_⟩, ⟨by decide, rfl, e, fun h => ?_⟩,
    ⟨by decide, rfl, e2, fun h => ?_⟩⟩
  · have := h .null (-3) 0 (by norm_num [var_offset, wrapInt])
    rw [slotAddr_of_range (by norm_num) (by norm_num)] at this
    simp [POINTER_WIDTH] at this
  · have := h .null 2147483646 0 rfl
    rw [e] at this
    simp [POINTER_WIDTH] at this
  · have := h .null (-536870913) 0 (by norm_num [var_offset, wrapInt])
    rw [e2] at this
    simp [POINTER_WIDTH] at this

/-- C19, amended.  For a local variable with stored offset `offset` from 0 to
`2 ^ 29 - 3`, so that the displacement `-4 * (offset + 3)` fits an `int`, the
slot that `var_offset` addresses is the word at `fp - 12 - 4 * offset`: it
ends at or below `fp - 8`, so it lies below the two words directly under the
frame pointer that the prologue writes (the saved return address at `fp - 4`
and the saved frame pointer at `fp - 8`) and overlaps neither of them.  The
slot of the local with stored offset 0 is the word at `fp - 12`. -/
theorem local_slot_below_saved (offset : Int) (vinit : NDPtr) (name : String) (S : Int)
    (m : Machine) (h : 0 ≤ offset) (hb : offset ≤ 2 ^ 29 - 3) :
    ∃ k m1, var_offset (.mk false offset vinit) = .ok k ∧
      execAll (prologue name S) m = some m1 ∧
      slotAddr m1.fp k = m1.fp - 12 - 4 * offset ∧
      slotAddr m1.fp k + POINTER_WIDTH ≤ m1.fp - 8 ∧
      m1.mem (m1.fp - 4) = m.ra ∧ m1.mem (m1.fp - 8) = m.fp ∧
      (∀ a, a ≠ m1.fp - 4 → a ≠ m1.fp - 8 → m1.mem a = m.mem a) ∧
      (offset = 0 → slotAddr m1.fp k = m1.fp - 12) := by
  obtain ⟨m1, h1, _, _, _, _, h4, h8, ho⟩ := prologue_exec name S m
  norm_num at hb
  have hs : slotAddr m1.fp (-(offset + 3)) = m1.fp - 12 - 4 * offset := by
    rw [slotAddr_of_range (by norm_num; omega) (by norm_num; omega)]; ring
  refine ⟨-(offset + 3), m1, var_offset_local vinit (by norm_num; omega) (by norm_num; omega),
    h1, hs, ?_, h4, h8, ho, ?_⟩
  · rw [hs]; simp only [POINTER_WIDTH]; omega
  · intro h0
    rw [hs, h0]; ring

/-- The local with stored offset 1 in a function with frame size 16, entered
with `sp = 1000`: the frame pointer is 1000, the slot is the word at 984 and
ends at 988, below the saved words at 992 and 996. -/
theorem local_slot_below_saved_witness :
    ∃ k m1, var_offset (.mk false 1 .null) = .ok k ∧
      execAll (prologue "f" 16) exMachine = some m1 ∧
      slotAddr m1.fp k = m1.fp - 12 - 4 * 1 ∧
      slotAddr m1.fp k + POINTER_WIDTH ≤ m1.fp - 8 ∧
      m1.mem (m1.fp - 4) = exMachine.ra ∧ m1.mem (m1.fp - 8) = exMachine.fp ∧
      (∀ a, a ≠ m1.fp - 4 → a ≠ m1.fp - 8 → m1.mem a = exMachine.mem a) ∧
      ((1 : Int) = 0 → slotAddr m1.fp k = m1.fp - 12) :=
  local_slot_below_saved 1 .null "f" 16 exMachine (by decide) (by decide)
/-! ## C4: `break` and `continue` jump to the innermost enclosing loop -/

theorem Lowers.cont_inv {p : NDPtr} {x y : Ctx} {c : List Instr}
    (hk : p.kind? = some ND_CONTINUE) (L : Lowers (.node p) x c y) :
    c = [.j CONTINUE x.cont_seq] ∧ y = x.setLast p := by
  cases L with
  | cont => exact ⟨rfl, rfl⟩
  | null => simp [NDPtr.kind?] at hk
  | unary hk' hop' => simp [hk] at hk'; subst hk'; simp [unaryOp] at hop'
  | binary hk' hop' => simp [hk] at hk'; subst hk'; simp [binaryOp] at hop'
  | _ => simp [hk] at *

/-- The call of `gen` on a node in a loop and in no deeper loop is a piece of
the call on the loop, runs with the number of the loop as both targets, and
prints the jump to the labels of the loop when the node is a `break` or a
`continue`. -/
theorem Within.in_loop_code {p q : NDPtr} {x y z : Ctx} {c : List Instr} (hl : p.isLoop = true)
    (hg : lower p x = .ok (c, y)) (hw : Within p x q z) :
    (z.brk_seq = x.label_seq ∧ z.cont_seq = x.label_seq) ∧
    ∃ pre cq post yq, c = pre ++ cq ++ post ∧ lower q z = .ok (cq, yq) ∧
      yq.brk_seq = x.label_seq ∧ yq.cont_seq = x.label_seq ∧
      (q.kind? = some ND_BREAK → cq = [.j EXIT x.label_seq]) ∧
      (q.kind? = some ND_CONTINUE → cq = [.j CONTINUE x.label_seq]) := by
  have ht := hw.loop_targets hl
  obtain ⟨pre, cq, post, yq, hc, Lq, _⟩ := hw.reach.sub_call (lower_ok_iff.mp hg)
  have f := Lq.frame
  refine ⟨ht, pre, cq, post, yq, hc, lower_ok_iff.mpr Lq, by rw [f.2.1, ht.1],
    by rw [f.2.2.1, ht.2], fun hk => ?_, fun hk => ?_⟩
  · rw [(Lq.brk_inv hk).1, ht.1]
  · rw [(Lq.cont_inv hk).1, ht.2]

/-- C4.  Let `gen` lower a `for`, `while` or `do`-`while` node `p` when the
next label number is `s`, so that `s` is the number `p` takes, and let it
print the lines `c` (which define `.L.continue.s`).  Let `q` be a node nested
in `p` through any chain of children none of which is a loop (`if`, block,
ternary and so on; the loops lowered before `q` inside `p` are completed
siblings on that chain).  Then the lines that the call of `gen` on `q` prints
are a piece `cq` of `c`, and when `q` is a `break` that piece is the one line
`j .L.exit.s`, when `q` is a `continue` the one line `j .L.continue.s`. -/
theorem break_jumps_to_innermost_loop (p q : NDPtr) (x y z : Ctx) (c : List Instr)
    (hl : p.isLoop = true) (hg : lower p x = .ok (c, y)) (hw : Within p x q z) :
    Instr.label CONTINUE x.label_seq ∈ c ∧
    ∃ pre cq post yq, c = pre ++ cq ++ post ∧ lower q z = .ok (cq, yq) ∧
      (q.kind? = some ND_BREAK → cq = [.j EXIT x.label_seq]) ∧
      (q.kind? = some ND_CONTINUE → cq = [.j CONTINUE x.label_seq]) := by
  obtain ⟨_, pre, cq, post, yq, hc, hq, _, _, hb, hn⟩ := hw.in_loop_code hl hg
  exact ⟨loop_defines_continue hl hg, pre, cq, post, yq, hc, hq, hb, hn⟩

/-- The loop `while (1) { for (;;) ; if (2) break; }` lowered by `gen` with
next label number 5 and the stale targets 2 and 3: the `break` comes after the
completed `for` loop (number 6) and inside the `if` (number 7); the code of
the loop has its line `j .L.exit.5`. -/
theorem break_jumps_to_innermost_loop_witness :
    Instr.label CONTINUE exCtx.label_seq ∈ exWhileCode ∧
    ∃ pre cq post yq, exWhileCode = pre ++ cq ++ post ∧
      lower (.leaf ND_BREAK) exCtxBreak = .ok (cq, yq) ∧
      ((NDPtr.leaf ND_BREAK).kind? = some ND_BREAK → cq = [.j EXIT exCtx.label_seq]) ∧
      ((NDPtr.leaf ND_BREAK).kind? = some ND_CONTINUE → cq = [.j CONTINUE exCtx.label_seq]) :=
  break_jumps_to_innermost_loop exWhile (.leaf ND_BREAK) exCtx exCtxAfterWhile exCtxBreak
    exWhileCode rfl rfl exWhile_within_break

/-! ## C16: the break and continue targets are saved and restored -/

/-- C16.  A call of `gen` that completes leaves `brk_seq` and `cont_seq` as it
found them, for every node.  While `gen` lowers a `for`, `while` or
`do`-`while` loop with sequence number `s` (the value of `label_seq` when the
loop starts) and prints the lines `c`, every call of `gen` on a node nested in
the loop and in no deeper loop is a part of that run: its lines `cq` are a
piece of `c`, both targets are `s` when it starts and `s` again when it
returns, and they are what a `break` or a `continue` at that place jumps to
(`j .L.exit.s`, `j .L.continue.s`). -/
theorem targets_saved_and_restored :
    (∀ p s s', gen p s = .ok s' → s'.brk_seq = s.brk_seq ∧ s'.cont_seq = s.cont_seq) ∧
    (∀ p q x y z c, p.isLoop = true → lower p x = .ok (c, y) → Within p x q z →
      (y.brk_seq = x.brk_seq ∧ y.cont_seq = x.cont_seq) ∧
      (z.brk_seq = x.label_seq ∧ z.cont_seq = x.label_seq) ∧
      ∃ pre cq post yq, c = pre ++ cq ++ post ∧ lower q z = .ok (cq, yq) ∧
        yq.brk_seq = x.label_seq ∧ yq.cont_seq = x.label_seq ∧
        (q.kind? = some ND_BREAK → cq = [.j EXIT x.label_seq]) ∧
        (q.kind? = some ND_CONTINUE → cq = [.j CONTINUE x.label_seq])) := by
  refine ⟨fun p s s' h => ?_, fun p q x y z c hl hg hw => ?_⟩
  · obtain ⟨c, hc, _⟩ := gen_ok_iff_lower.mp h
    have f := lower_frame hc
    exact ⟨f.2.1, f.2.2.1⟩
  · have f := lower_frame hg
    exact ⟨⟨f.2.1, f.2.2.1⟩, hw.in_loop_code hl hg⟩

/-- The loop `while (1) { for (;;) ; if (2) break; }` started by `gen` with
the targets 2 and 3 and the next label number 5: the targets are 2 and 3
again after the loop, they are 5 at the `break` in its body, after the
completed inner `for` loop, and the line of that `break` in the code of the
loop is `j .L.exit.5`. -/
theorem targets_saved_and_restored_witness :
    ((exCtxAfterWhile.withOut exWhileCode).brk_seq = (exCtx.withOut []).brk_seq ∧
      (exCtxAfterWhile.withOut exWhileCode).cont_seq = (exCtx.withOut []).cont_seq) ∧
    (exCtxAfterWhile.brk_seq = exCtx.brk_seq ∧ exCtxAfterWhile.cont_seq = exCtx.cont_seq) ∧
    (exCtxBreak.brk_seq = 5 ∧ exCtxBreak.cont_seq = 5) ∧
    ∃ pre cq post yq, exWhileCode = pre ++ cq ++ post ∧
      lower (.leaf ND_BREAK) exCtxBreak = .ok (cq, yq) ∧
      yq.brk_seq = 5 ∧ yq.cont_seq = 5 ∧
      ((NDPtr.leaf ND_BREAK).kind? = some ND_BREAK → cq = [.j EXIT 5]) ∧
      ((NDPtr.leaf ND_BREAK).kind? = some ND_CONTINUE → cq = [.j CONTINUE 5]) :=
  ⟨targets_saved_and_restored.1 exWhile (exCtx.withOut []) (exCtxAfterWhile.withOut exWhileCode)
      rfl,
    targets_saved_and_restored.2 exWhile (.leaf ND_BREAK) exCtx exCtxAfterWhile exCtxBreak
      exWhileCode rfl rfl exWhile_within_break⟩
/-! ## C18: the argument layout of caller and callee -/

theorem execAll_append (a b : List Instr) (m : Machine) :
    execAll (a ++ b) m = (execAll a m).bind (execAll b) := by
  induction a generalizing m with
  | nil => rfl
  | cons i a ih =>
    simp only [List.cons_append, execAll]
    cases i.exec m with
    | none => rfl
    | some m1 => exact ih m1

theorem ArgsPushed.pushed_append {us ws : List Int} {m0 m1 m2 : Machine}
    (h2 : ArgsPushed us m1 m2) (h1 : ArgsPushed ws m0 m1) : ArgsPushed (us ++ ws) m0 m2 := by
  induction h2 with
  | nil m => exact h1
  | cons _ hp ih => exact ArgsPushed.cons (ih h1) hp

/-- Pieces of code that each net one push, run in list order: the values lie
on the stack as `ArgsPushed` describes them for the reversed list, and when
the pieces run as `execAll` describes, so does the whole code. -/
theorem RunsPush.run {run : List Instr → Machine → Machine → Prop} {cs : List (List Instr)}
    {vs : List Int} {m0 m : Machine} (h : RunsPush run cs vs m0 m) :
    ArgsPushed vs.reverse m0 m ∧ vs.length = cs.length ∧
      ((∀ c a b, run c a b → execAll c a = some b) → execAll cs.flatten m0 = some m) := by
  induction h with
  | nil m => exact ⟨ArgsPushed.nil m, rfl, fun _ => rfl⟩
  | cons he hp _ ih =>
    obtain ⟨e2, e3, e1⟩ := ih
    refine ⟨?_, by simp [e3], fun H => ?_⟩
    · rw [List.reverse_cons]
      exact e2.pushed_append (ArgsPushed.cons (ArgsPushed.nil _) hp)
    · rw [List.flatten_cons, execAll_append, H _ _ _ he]
      exact e1 H

/-- The piece number `j` of the code of a list of nodes is the code of the
node number `j`. -/
theorem lowerAll_getElem : ∀ (l : List NDPtr) {x y : Ctx} {cs : List (List Instr)},
    lowerAll l x = .ok (cs, y) → ∀ (j : Nat) a, l[j]? = some a →
      ∃ ca za zb, cs[j]? = some ca ∧ lower a za = .ok (ca, zb)
  | [], _, _, _, _, j, a, hj => by simp at hj
  | p :: l, x, y, cs, h, j, a, hj => by
    obtain ⟨c, x1, cs2, h1, h2, rfl⟩ := lowerAll_cons h
    cases j with
    | zero =>
      simp only [List.getElem?_cons_zero, Option.some.injEq] at hj
      subst hj
      exact ⟨c, x, x1, by simp, h1⟩
    | succ j =>
      simp only [List.getElem?_cons_succ] at hj ⊢
      exact lowerAll_getElem l h2 j a hj

/-- The code of a literal nets one push of its value. -/
theorem numCode_exec (v : Int) (m : Machine) :
    execAll ([.li "t0" v] ++ pushCode "t0") m = some ((m.setReg "t0" v).pushed v) ∧
    NetsPush v m ((m.setReg "t0" v).pushed v) :=
  ⟨by simp [execAll, Instr.exec, pushCode, Machine.pushed, Machine.setReg, Machine.store,
      POINTER_WIDTH],
    netsPush_pushed v (m.setReg "t0" v)⟩

/-- C18.  Let `gen` lower a call node `p` with the arguments `args` and print
the lines `c`, and let `cs` be the codes of the arguments in the order in
which `gen` lowers them, from the last argument to the first.  Then `c` starts
with the lines of `cs` followed by `call <name>`.  Let these pieces run one
after the other from the machine `m0` (`run` tells how a piece runs), each
argument code netting exactly one push, the pushed values being `vs` in the
order of `cs`; the argument number `i` (0-based, left to right) is the entry
`i` of `args`, its code the entry `i` of `cs` reversed, its value `v` the
entry `i` of `vs` reversed.  Then the run reaches the `call` line in a machine
`m` whose stack pointer has gone down by one word per argument, and `v` is the
word at `sp + 4 * i`; when the pieces run as `execAll` describes, `m` is the
machine that `execAll` gives for the lines before the `call`.  In the callee
`load_var` on an argument variable with stored offset `i` prints
`lw <reg>, <d>(fp)` with `d` equal to `4 * i` modulo `2 ^ 32`.  When `4 * i`
is an `int`, so that `d` is `4 * i` (the addresses of the machine do not
wrap): in the callee, entered with this stack pointer and memory, the prologue
sets `fp` to the stack pointer at entry and leaves the argument words alone,
and the line `lw <reg>, 4*i(fp)` reads the word at `fp + 4 * i`, the value of
the argument number `i`, in the state after the prologue and in every later
state with the same frame pointer in which that word is unchanged. -/
theorem args_layout_agrees (run : List Instr → Machine → Machine → Prop) (p : NDPtr)
    (name : String) (args : NDList) (x y x1 : Ctx)
    (c : List Instr) (cs : List (List Instr)) (vs : List Int) (m0 m me : Machine)
    (callee reg : String) (S : Int) (i : Nat) (v : Int) (vinit : NDPtr) (s : GenState)
    (hk : p.kind? = some ND_FUNC_CALL) (hf : p.func_call = .mk name args)
    (hg : lower p x = .ok (c, y)) (hcs : lowerAll args.toList.reverse x = .ok (cs, x1))
    (hr : RunsPush run cs vs m0 m) (hi : vs.reverse[i]? = some v)
    (hsp : me.sp = m.sp) (hmem : me.mem = m.mem) :
    (∃ rest, c = cs.flatten ++ .call name :: rest) ∧
    (∃ a ca za zb, args.toList[i]? = some a ∧ cs.reverse[i]? = some ca ∧
      lower a za = .ok (ca, zb)) ∧
    ((∀ c a b, run c a b → execAll c a = some b) → execAll cs.flatten m0 = some m) ∧
    m.sp = m0.sp - 4 * args.toList.length ∧ m.mem (m.sp + 4 * i) = v ∧
    (∃ d, load_var reg (.mk true i vinit) s = .ok (emit (.lw_fp reg d) s) ∧
      (d - 4 * i) % 2 ^ 32 = 0) ∧
    (4 * (i : Int) < 2 ^ 31 →
      ∃ m1 k, execAll (prologue callee S) me = some m1 ∧ m1.fp = m.sp ∧
        var_offset (.mk true i vinit) = .ok k ∧ slotAddr m1.fp k = m.sp + 4 * i ∧
        load_var reg (.mk true i vinit) s = .ok (emit (.lw_fp reg (4 * i)) s) ∧
        m1.mem (slotAddr m1.fp k) = v ∧
        ∀ mb, mb.fp = m1.fp → mb.mem (slotAddr m1.fp k) = m1.mem (slotAddr m1.fp k) →
          ∃ mc, (Instr.lw_fp reg (4 * i)).exec mb = some mc ∧ mc.reg reg = v) := by
  obtain ⟨ca, x1', L1, hc, _⟩ := (lower_ok_iff.mp hg).call_inv hk hf
  obtain ⟨cs', hcs', rfl⟩ := L1.args_inv
  rw [hcs] at hcs'
  simp only [Except.ok.injEq, Prod.mk.injEq] at hcs'
  obtain ⟨rfl, rfl⟩ := hcs'
  have hlen : cs.length = args.toList.length := by simpa using lowerAll_length hcs
  obtain ⟨hpush, hvl, hrun⟩ := hr.run
  obtain ⟨l1, _, l3⟩ := hpush.layout
  have hv := l3 i v hi
  have hilt : i < cs.length := by
    have := (List.getElem?_eq_some_iff.mp hi).1
    simpa [hvl] using this
  refine ⟨⟨callCleanup args.length ++ pushCode "a0", by rw [hc]; simp⟩, ?_, hrun, ?_, hv, ?_, ?_⟩
  · have hia : i < args.toList.length := by omega
    have hj : args.toList.reverse[cs.length - 1 - i]? = some args.toList[i] := by
      rw [List.getElem?_reverse (by omega)]
      have : args.toList.length - 1 - (cs.length - 1 - i) = i := by omega
      simp [this, hia]
    obtain ⟨ca, za, zb, h1, h2⟩ := lowerAll_getElem _ hcs _ _ hj
    refine ⟨args.toList[i], ca, za, zb, by simp [hia], ?_, h2⟩
    rw [List.getElem?_reverse hilt]
    exact h1
  · rw [l1, List.length_reverse, hvl, hlen]
  · refine ⟨wrapInt ((i : Int) * POINTER_WIDTH), rfl, ?_⟩
    have := wrapInt_mod ((i : Int) * POINTER_WIDTH)
    simpa [POINTER_WIDTH, mul_comm] using this
  · intro hb
    obtain ⟨m1, e1, e2, _, _, _, _, _, e8⟩ := prologue_exec callee S me
    have hslot : slotAddr m1.fp (i : Int) = m.sp + 4 * i := by
      rw [slotAddr_of_range (by norm_num; omega) (by norm_num at hb ⊢; omega), e2, hsp]
    have hm1 : m1.mem (slotAddr m1.fp (i : Int)) = v := by
      rw [hslot, e8 _ (by rw [e2, hsp]; omega) (by rw [e2, hsp]; omega), hmem]
      exact hv
    have hld := (moves_of_range true (i : Int) (i : Int) vinit reg s rfl
      (by norm_num; omega) (by norm_num at hb ⊢; omega)).1
    rw [mul_comm] at hld
    refine ⟨m1, (i : Int), e1, by rw [e2, hsp], rfl, hslot, hld, hm1, ?_⟩
    intro mb hfp hw
    refine ⟨_, rfl, ?_⟩
    simp only [setReg_reg, if_true]
    rw [← hm1, ← hw, ← hfp]
    rw [slotAddr_of_range (by norm_num; omega) (by norm_num at hb ⊢; omega)]

/-- The call `f(10, 20)` lowered by `gen` and run from `sp = 1000`: the code of
the second argument pushes 20, then the code of the first pushes 10; at the
call `sp = 992`, the word at 992 is 10 and the word at 996 is 20, and in the
callee the argument variable with stored offset 1 is loaded from
`fp + 4 = 996`. -/
theorem args_layout_agrees_witness :
    (∃ rest, exCallTwoCode
      = [[Instr.li "t0" 20, .addi_sp_neg 4, .sw_sp "t0"],
          [.li "t0" 10, .addi_sp_neg 4, .sw_sp "t0"]].flatten ++ .call "f" :: rest) ∧
    (∃ a ca za zb, (NDList.ofList [NDPtr.num 10, NDPtr.num 20]).toList[1]? = some a ∧
      [[Instr.li "t0" 20, .addi_sp_neg 4, .sw_sp "t0"],
        [.li "t0" 10, .addi_sp_neg 4, .sw_sp "t0"]].reverse[1]? = some ca ∧
      lower a za = .ok (ca, zb)) ∧
    execAll [[Instr.li "t0" 20, .addi_sp_neg 4, .sw_sp "t0"],
      [.li "t0" 10, .addi_sp_neg 4, .sw_sp "t0"]].flatten exMachine = some exMachineArgs ∧
    exMachineArgs.sp
      = exMachine.sp - 4 * (NDList.ofList [NDPtr.num 10, NDPtr.num 20]).toList.length ∧
    exMachineArgs.mem (exMachineArgs.sp + 4 * (1 : Nat)) = 20 ∧
    ∃ m1 k, execAll (prologue "f" 16) exMachineArgs = some m1 ∧ m1.fp = exMachineArgs.sp ∧
      var_offset (.mk true (1 : Nat) .null) = .ok k ∧
      slotAddr m1.fp k = exMachineArgs.sp + 4 * (1 : Nat) ∧
      load_var "t0" (.mk true (1 : Nat) .null) GenState.initial
        = .ok (emit (.lw_fp "t0" (4 * (1 : Nat))) GenState.initial) ∧
      m1.mem (slotAddr m1.fp k) = 20 ∧
      ∀ mb, mb.fp = m1.fp → mb.mem (slotAddr m1.fp k) = m1.mem (slotAddr m1.fp k) →
        ∃ mc, (Instr.lw_fp "t0" (4 * (1 : Nat))).exec mb = some mc ∧ mc.reg "t0" = 20 :=
  have h := args_layout_agrees (fun c a b => execAll c a = some b) exCallTwo "f" (NDList.ofList [.num 10, .num 20]) exCtx
    { hot_func := none, last_node := exCallTwo, label_seq := 5, brk_seq := 2, cont_seq := 3 }
    { hot_func := none, last_node := .num 10, label_seq := 5, brk_seq := 2, cont_seq := 3 }
    exCallTwoCode
    [[.li "t0" 20, .addi_sp_neg 4, .sw_sp "t0"], [.li "t0" 10, .addi_sp_neg 4, .sw_sp "t0"]]
    [20, 10] exMachine exMachineArgs exMachineArgs "f" "t0" 16 1 20 .null GenState.initial
    rfl rfl rfl rfl
    (RunsPush.cons (numCode_exec 20 exMachine).1 (numCode_exec 20 exMachine).2
      (RunsPush.cons (numCode_exec 10 exMachineArg1).1 (numCode_exec 10 exMachineArg1).2
        (RunsPush.nil _)))
    rfl rfl rfl
  ⟨h.1, h.2.1, h.2.2.1 (fun _ _ _ e => e), h.2.2.2.1, h.2.2.2.2.1,
    h.2.2.2.2.2.2 (by decide)⟩

end Minidecaf
